import Mathlib

/-!
# Package `b` (cznic/b): a B+tree, embedded in Lean

The Go source `btree.go` is translated function by function.

* Go `int`/`int64` values are `Int` (counts stay far below 2^63, so no wrap is modelled).
* A Go array `[n]T` is a `List T` of length `n`; every index and slice expression is
  bounds-checked and a failed check is a run-time panic (`Res.panic`).
* `*d` and `*x` pointers are `Option Nat` (`none` is `nil`): addresses into the two page
  stores `ds` and `xs` that the model keeps next to the fields of `Tree`. `&d{}` and `&x{}`
  append a zero page to the store.
* `interface{}` holding a page is `Ref`.
* Keys and values are any types with a zero value (`default`), the comparator is the field
  `cmp` of the tree.
* A `for` loop that descends the tree runs on fuel; running out of fuel is `Res.hang`
  (the Go loop would not have returned within that many iterations).
-/

set_option linter.all false
set_option linter.dupNamespace false
set_option linter.unusedSectionVars false

namespace b

/-- Outcome of running Go code: a normal return, a run-time panic, or a loop that did not
finish within its fuel. -/
inductive Res (α : Type) where
  | ok (a : α)
  | panic
  | hang
deriving Repr, DecidableEq

namespace Res

/-- Sequencing of Go statements: a panic or a hang ends the run. -/
def bind {α β : Type} (r : Res α) (f : α → Res β) : Res β :=
  match r with
  | ok a => f a
  | panic => panic
  | hang => hang

instance : Monad Res where
  pure := Res.ok
  bind := Res.bind

end Res

/-- Constant `kx` of btree.go. -/
def kx : Int := 128

/-- Constant `kd` of btree.go. -/
def kd : Int := 64

/-! ## Go arrays and slices -/

/-- The index expression `a[i]`. -/
def idx {α : Type} (a : List α) (i : Int) : Res α :=
  if 0 ≤ i then
    match a.get? i.toNat with
    | some v => Res.ok v
    | none => Res.panic
  else Res.panic

/-- The assignment `a[i] = v`. -/
def upd {α : Type} (a : List α) (i : Int) (v : α) : Res (List α) :=
  if 0 ≤ i ∧ i.toNat < a.length then Res.ok (a.set i.toNat v) else Res.panic

/-- The slice expression `a[lo:hi]`, as the list of its elements. -/
def slice {α : Type} (a : List α) (lo hi : Int) : Res (List α) :=
  if 0 ≤ lo ∧ lo ≤ hi ∧ hi.toNat ≤ a.length then
    Res.ok ((a.drop lo.toNat).take (hi.toNat - lo.toNat))
  else Res.panic

/-- The statement `copy(dst[lo:hi], src)`: as many elements as fit are copied. -/
def copy {α : Type} (dst : List α) (lo hi : Int) (src : List α) : Res (List α) :=
  if 0 ≤ lo ∧ lo ≤ hi ∧ hi.toNat ≤ dst.length then
    Res.ok (dst.take lo.toNat ++ src.take (hi.toNat - lo.toNat)
      ++ dst.drop (lo.toNat + min src.length (hi.toNat - lo.toNat)))
  else Res.panic

/-! ## Types -/

/-- Go type `de`: d element. -/
structure de (K V : Type) where
  k : K
  v : V
deriving Repr, DecidableEq

/-- A Go `interface{}` that holds a page: `nil`, a `*d` or a `*x`. -/
inductive Ref where
  | nil
  | ofD (a : Nat)
  | ofX (a : Nat)
deriving Repr, DecidableEq

/-- Go type `xe`: x element. -/
structure xe (K : Type) where
  ch : Ref
  k : K
deriving Repr, DecidableEq

/-- Go type `d`: data page. -/
structure d (K V : Type) where
  c : Int
  d : List (de K V)
  n : Option Nat
  p : Option Nat
deriving Repr, DecidableEq

/-- Go type `x`: index page. -/
structure x (K : Type) where
  c : Int
  x : List (xe K)
deriving Repr, DecidableEq

/-- The error values of the package: only `io.EOF` occurs. -/
inductive Err where
  | EOF
deriving Repr, DecidableEq

/-- Go type `Tree`, together with the pages allocated so far (`ds`, `xs`). -/
structure Tree (K V : Type) where
  c : Int
  cmp : K → K → Int
  first : Option Nat
  last : Option Nat
  r : Ref
  ver : Int
  ds : List (d K V)
  xs : List (x K)

/-- Go type `Enumerator`; its field `t` is the tree passed to `Next` and `Prev`. -/
structure Enumerator (K : Type) where
  err : Option Err
  hit : Bool
  i : Int
  k : K
  q : Option Nat
  ver : Int
deriving Repr, DecidableEq

section Code

variable {K V : Type} [Inhabited K] [Inhabited V]

/-- Zero value `zde`. -/
def zde : de K V := ⟨default, default⟩

/-- Zero value `zxe`. -/
def zxe : xe K := ⟨Ref.nil, default⟩

/-- Zero value `zk`. -/
def zk : K := default

/-- Zero value `zd`. -/
def zd : d K V := ⟨0, List.replicate (2 * kd + 1).toNat zde, none, none⟩

/-- Zero value `zx`. -/
def zx : x K := ⟨0, List.replicate (2 * kx + 2).toNat zxe⟩

/-! ## Page store -/

/-- Dereference of a `*d` (nil or an address outside the store panics). -/
def Tree.getD (t : Tree K V) (a : Option Nat) : Res (d K V) :=
  match a with
  | some a =>
    match t.ds.get? a with
    | some q => Res.ok q
    | none => Res.panic
  | none => Res.panic

/-- Dereference of a `*x`. -/
def Tree.getX (t : Tree K V) (a : Option Nat) : Res (x K) :=
  match a with
  | some a =>
    match t.xs.get? a with
    | some q => Res.ok q
    | none => Res.panic
  | none => Res.panic

/-- Store of a whole page through a `*d`. -/
def Tree.setD (t : Tree K V) (a : Option Nat) (q : d K V) : Res (Tree K V) :=
  match a with
  | some a => if a < t.ds.length then Res.ok { t with ds := t.ds.set a q } else Res.panic
  | none => Res.panic

/-- Store of a whole page through a `*x`. -/
def Tree.setX (t : Tree K V) (a : Option Nat) (q : x K) : Res (Tree K V) :=
  match a with
  | some a => if a < t.xs.length then Res.ok { t with xs := t.xs.set a q } else Res.panic
  | none => Res.panic

/-- The expression `&d{}`. -/
def Tree.newD (t : Tree K V) : Tree K V × Option Nat :=
  ({ t with ds := t.ds ++ [zd] }, some t.ds.length)

/-- The expression `&x{}`. -/
def Tree.newXpage (t : Tree K V) : Tree K V × Option Nat :=
  ({ t with xs := t.xs ++ [zx] }, some t.xs.length)

/-- The expression `q.c` for `q *d`. -/
def Tree.dC (t : Tree K V) (q : Option Nat) : Res Int := do
  let n ← t.getD q
  pure n.c

/-- The expression `q.d[i]`. -/
def Tree.dAt (t : Tree K V) (q : Option Nat) (i : Int) : Res (de K V) := do
  let n ← t.getD q
  idx n.d i

/-- The statement `q.c = c` for `q *d`. -/
def Tree.dSetC (t : Tree K V) (q : Option Nat) (c : Int) : Res (Tree K V) := do
  let n ← t.getD q
  t.setD q { n with c := c }

/-- The statement `q.d[i] = e`. -/
def Tree.dSetAt (t : Tree K V) (q : Option Nat) (i : Int) (e : de K V) : Res (Tree K V) := do
  let n ← t.getD q
  let a ← upd n.d i e
  t.setD q { n with d := a }

/-- The statement `q.n = a`. -/
def Tree.dSetN (t : Tree K V) (q : Option Nat) (a : Option Nat) : Res (Tree K V) := do
  let n ← t.getD q
  t.setD q { n with n := a }

/-- The statement `q.p = a`. -/
def Tree.dSetP (t : Tree K V) (q : Option Nat) (a : Option Nat) : Res (Tree K V) := do
  let n ← t.getD q
  t.setD q { n with p := a }

/-- The statement `copy(dst.d[lo:hi], src.d[a:b])`. -/
def Tree.dCopy (t : Tree K V) (dst : Option Nat) (lo hi : Int) (src : Option Nat) (a b : Int) :
    Res (Tree K V) := do
  let dn ← t.getD dst
  let sn ← t.getD src
  let s ← slice sn.d a b
  let r ← copy dn.d lo hi s
  t.setD dst { dn with d := r }

/-- The expression `q.c` for `q *x`. -/
def Tree.xC (t : Tree K V) (q : Option Nat) : Res Int := do
  let n ← t.getX q
  pure n.c

/-- The expression `q.x[i]`. -/
def Tree.xAt (t : Tree K V) (q : Option Nat) (i : Int) : Res (xe K) := do
  let n ← t.getX q
  idx n.x i

/-- The statement `q.c = c` for `q *x`. -/
def Tree.xSetC (t : Tree K V) (q : Option Nat) (c : Int) : Res (Tree K V) := do
  let n ← t.getX q
  t.setX q { n with c := c }

/-- The statement `q.x[i] = e`. -/
def Tree.xSetAt (t : Tree K V) (q : Option Nat) (i : Int) (e : xe K) : Res (Tree K V) := do
  let n ← t.getX q
  let a ← upd n.x i e
  t.setX q { n with x := a }

/-- The statement `q.x[i].ch = ch`. -/
def Tree.xSetCh (t : Tree K V) (q : Option Nat) (i : Int) (ch : Ref) : Res (Tree K V) := do
  let e ← t.xAt q i
  t.xSetAt q i { e with ch := ch }

/-- The statement `q.x[i].k = k`. -/
def Tree.xSetK (t : Tree K V) (q : Option Nat) (i : Int) (k : K) : Res (Tree K V) := do
  let e ← t.xAt q i
  t.xSetAt q i { e with k := k }

/-- The statement `copy(dst.x[lo:hi], src.x[a:b])`. -/
def Tree.xCopy (t : Tree K V) (dst : Option Nat) (lo hi : Int) (src : Option Nat) (a b : Int) :
    Res (Tree K V) := do
  let dn ← t.getX dst
  let sn ← t.getX src
  let s ← slice sn.x a b
  let r ← copy dn.x lo hi s
  t.setX dst { dn with x := r }

/-- Length of the array `d.d`. -/
def dLen : Int := 2 * kd + 1

/-- Length of the array `x.x`. -/
def xLen : Int := 2 * kx + 2

/-- The type assertion `ch.(*d)`. -/
def Ref.asD (r : Ref) : Res (Option Nat) :=
  match r with
  | Ref.ofD a => Res.ok (some a)
  | _ => Res.panic

/-- The type assertion `ch.(*x)`. -/
def Ref.asX (r : Ref) : Res (Option Nat) :=
  match r with
  | Ref.ofX a => Res.ok (some a)
  | _ => Res.panic

/-- Conversion of a non-nil `*d` to `interface{}`. -/
def refD (a : Option Nat) : Ref :=
  match a with
  | some a => Ref.ofD a
  | none => Ref.nil

/-- Conversion of a non-nil `*x` to `interface{}`. -/
def refX (a : Option Nat) : Ref :=
  match a with
  | some a => Ref.ofX a
  | none => Ref.nil

/-! ## x -/

/-- Go `newX`. -/
def newX (t : Tree K V) (ch0 : Ref) : Res (Tree K V × Option Nat) := do
  let (t, r) := t.newXpage
  let t ← t.xSetCh r 0 ch0
  pure (t, r)

/-- Go `(q *x) extract(i)`. -/
def x.extract (t : Tree K V) (q : Option Nat) (i : Int) : Res (Tree K V) := do
  let c ← t.xC q
  let t ← t.xSetC q (c - 1)
  let c ← t.xC q
  if i < c then
    let t ← t.xCopy q i xLen q (i + 1) (c + 1)
    let e ← t.xAt q (c + 1)
    let t ← t.xSetCh q c e.ch
    let t ← t.xSetK q c zk
    t.xSetAt q (c + 1) zxe
  else
    pure t

/-- Go `(q *x) insert(i, k, ch)`. -/
def x.insert (t : Tree K V) (q : Option Nat) (i : Int) (k : K) (ch : Ref) : Res (Tree K V) := do
  let c ← t.xC q
  let t ← (if i < c then do
      let e ← t.xAt q c
      let t ← t.xSetCh q (c + 1) e.ch
      let t ← t.xCopy q (i + 2) xLen q (i + 1) c
      let e ← t.xAt q i
      t.xSetK q (i + 1) e.k
    else pure t)
  let c := c + 1
  let t ← t.xSetC q c
  let t ← t.xSetK q i k
  t.xSetCh q (i + 1) ch

/-- Go `(q *x) siblings(i)`. -/
def x.siblings (t : Tree K V) (q : Option Nat) (i : Int) : Res (Option Nat × Option Nat) := do
  if 0 ≤ i then
    let l ← (if 0 < i then do
        let e ← t.xAt q (i - 1)
        e.ch.asD
      else pure none)
    let c ← t.xC q
    let r ← (if i < c then do
        let e ← t.xAt q (i + 1)
        e.ch.asD
      else pure none)
    pure (l, r)
  else pure (none, none)

/-! ## d -/

/-- Go `(l *d) mvL(r, c)`. -/
def d.mvL (t : Tree K V) (l r : Option Nat) (c : Int) : Res (Tree K V) := do
  let lc ← t.dC l
  let t ← t.dCopy l lc dLen r 0 c
  let rc ← t.dC r
  let t ← t.dCopy r 0 dLen r c rc
  let lc ← t.dC l
  let t ← t.dSetC l (lc + c)
  let rc ← t.dC r
  t.dSetC r (rc - c)

/-- Go `(l *d) mvR(r, c)`. -/
def d.mvR (t : Tree K V) (l r : Option Nat) (c : Int) : Res (Tree K V) := do
  let rc ← t.dC r
  let t ← t.dCopy r c dLen r 0 rc
  let lc ← t.dC l
  let t ← t.dCopy r 0 c l (lc - c) dLen
  let rc ← t.dC r
  let t ← t.dSetC r (rc + c)
  let lc ← t.dC l
  t.dSetC l (lc - c)

/-! ## Tree -/

/-- Go `TreeNew`. -/
def TreeNew (cmp : K → K → Int) : Tree K V :=
  { c := 0, cmp := cmp, first := none, last := none, r := Ref.nil, ver := 0, ds := [], xs := [] }

/-- The loop `for i := 0; i <= x.c; i++` of `clr`, from index `i`, with `n` iterations of
fuel; `rec` is `clr` on a child. -/
def clrLoop (rec : Tree K V → Ref → Res (Tree K V)) (q : Option Nat) :
    Nat → Tree K V → Int → Res (Tree K V)
  | 0, _, _ => Res.hang
  | n + 1, t, i => do
    let c ← t.xC q
    if i ≤ c then
      let e ← t.xAt q i
      let t ← rec t e.ch
      clrLoop rec q n t (i + 1)
    else pure t

/-- Go `clr`, with fuel for the depth of the recursion. -/
def clr : Nat → Tree K V → Ref → Res (Tree K V)
  | 0, _, _ => Res.hang
  | fuel + 1, t, q =>
    match q with
    | Ref.ofX a => do
      let t ← clrLoop (clr fuel) (some a) (xLen.toNat + 1) t 0
      t.setX (some a) zx
    | Ref.ofD a => t.setD (some a) zd
    | Ref.nil => pure t

/-- Go `(t *Tree) Clear()`. -/
def Tree.Clear (t : Tree K V) : Res (Tree K V) := do
  if t.r = Ref.nil then
    pure t
  else
    let t ← clr (t.xs.length + 2) t t.r
    let t := { t with c := 0, first := none, last := none, r := Ref.nil }
    pure { t with ver := t.ver + 1 }

/-- Go `(t *Tree) cat(p, q, r, pi)`. -/
def Tree.cat (t : Tree K V) (p : Option Nat) (q r : Option Nat) (pi : Int) : Res (Tree K V) := do
  let t := { t with ver := t.ver + 1 }
  let rc ← t.dC r
  let t ← d.mvL t q r rc
  let rn ← t.getD r
  let t ← (if rn.n ≠ none then t.dSetP rn.n q else pure { t with last := q })
  let rn ← t.getD r
  let t ← t.dSetN q rn.n
  let pc ← t.xC p
  if 1 < pc then
    let t ← x.extract t p pi
    t.xSetCh p pi (refD q)
  else
    pure { t with r := refD q }

/-- Go `(t *Tree) catX(p, q, r, pi)`. -/
def Tree.catX (t : Tree K V) (p q r : Option Nat) (pi : Int) : Res (Tree K V) := do
  let t := { t with ver := t.ver + 1 }
  let qc ← t.xC q
  let e ← t.xAt p pi
  let t ← t.xSetK q qc e.k
  let qc ← t.xC q
  let rc ← t.xC r
  let t ← t.xCopy q (qc + 1) xLen r 0 rc
  let qc ← t.xC q
  let rc ← t.xC r
  let t ← t.xSetC q (qc + (rc + 1))
  let qc ← t.xC q
  let rc ← t.xC r
  let e ← t.xAt r rc
  let t ← t.xSetCh q qc e.ch
  let pc ← t.xC p
  if 1 < pc then
    let t ← t.xSetC p (pc - 1)
    let pc ← t.xC p
    if pi < pc then
      let e ← t.xAt p (pi + 1)
      let t ← t.xSetK p pi e.k
      let t ← t.xCopy p (pi + 1) xLen p (pi + 2) (pc + 1)
      let e ← t.xAt p (pc + 1)
      let t ← t.xSetCh p pc e.ch
      let t ← t.xSetK p pc zk
      t.xSetCh p (pc + 1) Ref.nil
    else pure t
  else
    pure { t with r := refX q }

/-- Go `(t *Tree) extract(q, i)`. -/
def Tree.extract (t : Tree K V) (q : Option Nat) (i : Int) : Res (Tree K V) := do
  let t := { t with ver := t.ver + 1 }
  let c ← t.dC q
  let t ← t.dSetC q (c - 1)
  let c ← t.dC q
  let t ← (if i < c then t.dCopy q i dLen q (i + 1) (c + 1) else pure t)
  let c ← t.dC q
  let t ← t.dSetAt q c zde
  pure { t with c := t.c - 1 }

/-- The binary-search loop of `find` over the keys `key 0 .. `, with `n` iterations of fuel. -/
def findLoop (cmp : K → K → Int) (key : Int → Res K) (k : K) :
    Nat → Int → Int → Res (Int × Bool)
  | 0, _, _ => Res.hang
  | n + 1, l, h =>
    if l ≤ h then do
      let m := (l + h) / 2
      let mk ← key m
      let c := cmp k mk
      if 0 < c then findLoop cmp key k n (m + 1) h
      else if c = 0 then pure (m, true)
      else findLoop cmp key k n l (m - 1)
    else pure (l, false)

/-- Go `(t *Tree) find(q, k)`. -/
def Tree.find (t : Tree K V) (q : Ref) (k : K) : Res (Int × Bool) :=
  match q with
  | Ref.ofX a => do
    let c ← t.xC (some a)
    findLoop t.cmp (fun m => do let e ← t.xAt (some a) m; pure e.k) k (c.toNat + 1) 0 (c - 1)
  | Ref.ofD a => do
    let c ← t.dC (some a)
    findLoop t.cmp (fun m => do let e ← t.dAt (some a) m; pure e.k) k (c.toNat + 1) 0 (c - 1)
  | Ref.nil => pure (0, false)

/-- The `for` loop of `Get`. -/
def GetLoop (t : Tree K V) (k : K) : Nat → Ref → Res (V × Bool)
  | 0, _ => Res.hang
  | fuel + 1, q => do
    let (i, ok) ← t.find q k
    match q with
    | Ref.ofX a =>
      if ok then do
        let e ← t.xAt (some a) (i + 1)
        GetLoop t k fuel e.ch
      else do
        let e ← t.xAt (some a) i
        GetLoop t k fuel e.ch
    | Ref.ofD a =>
      if ok then do
        let e ← t.dAt (some a) i
        pure (e.v, true)
      else pure (default, false)
    | Ref.nil => pure (default, false)

/-- Go `(t *Tree) Get(k)`. -/
def Tree.Get (t : Tree K V) (k : K) : Res (V × Bool) :=
  if t.r = Ref.nil then pure (default, false)
  else GetLoop t k (t.xs.length + 1) t.r

/-- Go `(t *Tree) insert(q, i, k, v)`. -/
def Tree.insert (t : Tree K V) (q : Option Nat) (i : Int) (k : K) (v : V) : Res (Tree K V) := do
  let t := { t with ver := t.ver + 1 }
  let c ← t.dC q
  let t ← (if i < c then t.dCopy q (i + 1) dLen q i c else pure t)
  let c := c + 1
  let t ← t.dSetC q c
  let e ← t.dAt q i
  let t ← t.dSetAt q i { e with k := k }
  let e ← t.dAt q i
  let t ← t.dSetAt q i { e with v := v }
  pure { t with c := t.c + 1 }

/-- Go `(t *Tree) Len()`. -/
def Tree.Len (t : Tree K V) : Int := t.c

/-- Go `(t *Tree) split(p, q, pi, i, k, v)`. -/
def Tree.split (t : Tree K V) (p q : Option Nat) (pi i : Int) (k : K) (v : V) :
    Res (Tree K V) := do
  let t := { t with ver := t.ver + 1 }
  let (t, r) := t.newD
  let qn ← t.getD q
  let t ← (if qn.n ≠ none then do
      let t ← t.dSetN r qn.n
      let rn ← t.getD r
      t.dSetP rn.n r
    else pure { t with last := r })
  let t ← t.dSetN q r
  let t ← t.dSetP r q
  let t ← t.dCopy r 0 dLen q kd (2 * kd)
  let qn ← t.getD q
  let t ← t.setD q { qn with d := qn.d.take kd.toNat ++ (qn.d.drop kd.toNat).map (fun _ => zde) }
  let t ← t.dSetC q kd
  let t ← t.dSetC r kd
  let done := decide (kd < i)
  let t ← (if kd < i then t.insert r (i - kd) k v else pure t)
  let e ← t.dAt r 0
  let t ← (if 0 ≤ pi then x.insert t p pi e.k (refD r)
    else do
      let (t, z) ← newX t (refD q)
      let t ← x.insert t z 0 e.k (refD r)
      pure { t with r := refX z })
  if done then pure t
  else t.insert q i k v

/-- Go `(t *Tree) overflow(p, q, pi, i, k, v)`. -/
def Tree.overflow (t : Tree K V) (p q : Option Nat) (pi i : Int) (k : K) (v : V) :
    Res (Tree K V) := do
  let t := { t with ver := t.ver + 1 }
  let (l, r) ← x.siblings t p pi
  let lok ← (if l ≠ none then do let lc ← t.dC l; pure (decide (lc < 2 * kd)) else pure false)
  if lok then
    let t ← d.mvL t l q 1
    let t ← t.insert q (i - 1) k v
    let e ← t.dAt q 0
    t.xSetK p (pi - 1) e.k
  else
    let rok ← (if r ≠ none then do let rc ← t.dC r; pure (decide (rc < 2 * kd)) else pure false)
    if rok then
      if i < 2 * kd then
        let t ← d.mvR t q r 1
        let t ← t.insert q i k v
        let e ← t.dAt r 0
        t.xSetK p pi e.k
      else
        let t ← t.insert r 0 k v
        t.xSetK p pi k
    else
      t.split p q pi i k v

/-- Go `(t *Tree) splitX(p, pp, pi, i)`; returns the tree with the new `*pp` and `*i`. -/
def Tree.splitX (t : Tree K V) (p pp : Option Nat) (pi i : Int) :
    Res (Tree K V × Option Nat × Int) := do
  let t := { t with ver := t.ver + 1 }
  let q := pp
  let (t, r) := t.newXpage
  let t ← t.xCopy r 0 xLen q (kx + 1) xLen
  let t ← t.xSetC q kx
  let t ← t.xSetC r kx
  let t ← (if 0 ≤ pi then do
      let e ← t.xAt q kx
      x.insert t p pi e.k (refX r)
    else do
      let (t, z) ← newX t (refX q)
      let e ← t.xAt q kx
      let t ← x.insert t z 0 e.k (refX r)
      pure { t with r := refX z })
  let t ← t.xSetK q kx zk
  let qn ← t.getX q
  let t ← t.setX q
    { qn with x := qn.x.take (kx + 1).toNat ++ (qn.x.drop (kx + 1).toNat).map (fun _ => zxe) }
  if kx < i then pure (t, r, i - (kx + 1))
  else pure (t, q, i)

/-- The `for` loop of `Set`, with the loop variables `p`, `pi` and `q`. -/
def SetLoop (k : K) (v : V) : Nat → Tree K V → Option Nat → Int → Ref → Res (Tree K V)
  | 0, _, _, _, _ => Res.hang
  | fuel + 1, t, p, pi, q => do
    let (i, ok) ← t.find q k
    match q with
    | Ref.ofX a =>
      if ok then do
        let e ← t.xAt (some a) (i + 1)
        SetLoop k v fuel t p pi e.ch
      else do
        let c ← t.xC (some a)
        let (t, xa, i) ← (if 2 * kx < c then t.splitX p (some a) pi i
          else pure (t, some a, i))
        let e ← t.xAt xa i
        SetLoop k v fuel t xa i e.ch
    | Ref.ofD a =>
      if ok then do
        let e ← t.dAt (some a) i
        t.dSetAt (some a) i { e with v := v }
      else do
        let c ← t.dC (some a)
        if c < 2 * kd then t.insert (some a) i k v
        else t.overflow p (some a) pi i k v
    | Ref.nil => Res.hang

/-- Go `(t *Tree) Set(k, v)`. -/
def Tree.Set (t : Tree K V) (k : K) (v : V) : Res (Tree K V) := do
  if t.r = Ref.nil then
    let (t, z) := t.newD
    let t ← t.insert z 0 k v
    pure { t with r := refD z, first := z, last := z }
  else
    SetLoop k v (t.xs.length + 1) t none (-1) t.r

/-- The `for` loop of `Put`; returns the tree with `oldV` and `written`. -/
def PutLoop (k : K) (upd : V → Bool → V × Bool) :
    Nat → Tree K V → Option Nat → Int → Ref → Res (Tree K V × V × Bool)
  | 0, _, _, _, _ => Res.hang
  | fuel + 1, t, p, pi, q => do
    let (i, ok) ← t.find q k
    match q with
    | Ref.ofX a =>
      if ok then do
        let e ← t.xAt (some a) (i + 1)
        PutLoop k upd fuel t p pi e.ch
      else do
        let c ← t.xC (some a)
        let (t, xa, i) ← (if 2 * kx < c then t.splitX p (some a) pi i
          else pure (t, some a, i))
        let e ← t.xAt xa i
        PutLoop k upd fuel t xa i e.ch
    | Ref.ofD a =>
      if ok then do
        let e ← t.dAt (some a) i
        let oldV := e.v
        let (newV, written) := upd oldV true
        if written then do
          let e ← t.dAt (some a) i
          let t ← t.dSetAt (some a) i { e with v := newV }
          pure (t, oldV, written)
        else pure (t, oldV, written)
      else do
        let (newV, written) := upd default false
        if written then do
          let c ← t.dC (some a)
          let t ← (if c < 2 * kd then t.insert (some a) i k newV
            else t.overflow p (some a) pi i k newV)
          pure (t, default, written)
        else pure (t, default, written)
    | Ref.nil => Res.hang

/-- Go `(t *Tree) Put(k, upd)`. -/
def Tree.Put (t : Tree K V) (k : K) (upd : V → Bool → V × Bool) :
    Res (Tree K V × V × Bool) := do
  if t.r ≠ Ref.nil then
    PutLoop k upd (t.xs.length + 1) t none (-1) t.r
  else
    let (newV, written) := upd default false
    if written then
      let (t, z) := t.newD
      let t ← t.insert z 0 k newV
      pure ({ t with r := refD z, first := z, last := z }, default, written)
    else pure (t, default, written)

/-- Go `(t *Tree) underflow(p, q, pi)`. -/
def Tree.underflow (t : Tree K V) (p q : Option Nat) (pi : Int) : Res (Tree K V) := do
  let t := { t with ver := t.ver + 1 }
  let (l, r) ← x.siblings t p pi
  let c1 ← (if l ≠ none then do
      let lc ← t.dC l
      let qc ← t.dC q
      pure (decide (2 * kd ≤ lc + qc))
    else pure false)
  if c1 then
    let t ← d.mvR t l q 1
    let e ← t.dAt q 0
    t.xSetK p (pi - 1) e.k
  else
    let c2 ← (if r ≠ none then do
        let qc ← t.dC q
        let rc ← t.dC r
        pure (decide (2 * kd ≤ qc + rc))
      else pure false)
    if c2 then
      let t ← d.mvL t q r 1
      let e ← t.dAt r 0
      let t ← t.xSetK p pi e.k
      let rc ← t.dC r
      t.dSetAt r rc zde
    else if l ≠ none then
      t.cat p l q (pi - 1)
    else
      t.cat p q r pi

/-- Go `(t *Tree) underflowX(p, pp, pi, i)`; returns the tree with the new `*pp` and `*i`. -/
def Tree.underflowX (t : Tree K V) (p pp : Option Nat) (pi i : Int) :
    Res (Tree K V × Option Nat × Int) := do
  let t := { t with ver := t.ver + 1 }
  let q := pp
  let (l, r) ← (if 0 ≤ pi then do
      let l ← (if 0 < pi then do
          let e ← t.xAt p (pi - 1)
          e.ch.asX
        else pure none)
      let pc ← t.xC p
      let r ← (if pi < pc then do
          let e ← t.xAt p (pi + 1)
          e.ch.asX
        else pure none)
      pure (l, r)
    else pure (none, none))
  let c1 ← (if l ≠ none then do let lc ← t.xC l; pure (decide (kx < lc)) else pure false)
  if c1 then
    let qc ← t.xC q
    let e ← t.xAt q qc
    let t ← t.xSetCh q (qc + 1) e.ch
    let qc ← t.xC q
    let t ← t.xCopy q 1 xLen q 0 qc
    let lc ← t.xC l
    let e ← t.xAt l lc
    let t ← t.xSetCh q 0 e.ch
    let e ← t.xAt p (pi - 1)
    let t ← t.xSetK q 0 e.k
    let qc ← t.xC q
    let t ← t.xSetC q (qc + 1)
    let i := i + 1
    let lc ← t.xC l
    let t ← t.xSetC l (lc - 1)
    let lc ← t.xC l
    let e ← t.xAt l lc
    let t ← t.xSetK p (pi - 1) e.k
    pure (t, q, i)
  else
    let c2 ← (if r ≠ none then do let rc ← t.xC r; pure (decide (kx < rc)) else pure false)
    if c2 then
      let qc ← t.xC q
      let e ← t.xAt p pi
      let t ← t.xSetK q qc e.k
      let qc ← t.xC q
      let t ← t.xSetC q (qc + 1)
      let qc ← t.xC q
      let e ← t.xAt r 0
      let t ← t.xSetCh q qc e.ch
      let e ← t.xAt r 0
      let t ← t.xSetK p pi e.k
      let rc ← t.xC r
      let t ← t.xCopy r 0 xLen r 1 rc
      let rc ← t.xC r
      let t ← t.xSetC r (rc - 1)
      let rc ← t.xC r
      let e ← t.xAt r (rc + 1)
      let t ← t.xSetCh r rc e.ch
      let t ← t.xSetK r rc zk
      let t ← t.xSetCh r (rc + 1) Ref.nil
      pure (t, q, i)
    else if l ≠ none then
      let lc ← t.xC l
      let i := i + (lc + 1)
      let t ← t.catX p l q (pi - 1)
      pure (t, l, i)
    else
      let t ← t.catX p q r pi
      pure (t, q, i)

/-- The `for` loop of `Delete`, with the loop variables `p`, `pi` and `q`. -/
def DeleteLoop (k : K) : Nat → Tree K V → Option Nat → Int → Ref → Res (Tree K V × Bool)
  | 0, _, _, _, _ => Res.hang
  | fuel + 1, t, p, pi, q => do
    let (i, ok) ← t.find q k
    match q with
    | Ref.ofX a => do
      let c ← t.xC (some a)
      let (t, xa, i) ← (if c < kx ∧ q ≠ t.r then t.underflowX p (some a) pi i
        else pure (t, some a, i))
      if ok then
        let pi := i + 1
        let e ← t.xAt xa pi
        DeleteLoop k fuel t xa pi e.ch
      else
        let e ← t.xAt xa i
        DeleteLoop k fuel t xa i e.ch
    | Ref.ofD a =>
      if ok then do
        let t ← t.extract (some a) i
        let c ← t.dC (some a)
        if kd ≤ c then pure (t, true)
        else if q ≠ t.r then do
          let t ← t.underflow p (some a) pi
          pure (t, true)
        else if t.c = 0 then do
          let t ← t.Clear
          pure (t, true)
        else pure (t, true)
      else pure (t, false)
    | Ref.nil => Res.hang

/-- Go `(t *Tree) Delete(k)`. -/
def Tree.Delete (t : Tree K V) (k : K) : Res (Tree K V × Bool) :=
  if t.r = Ref.nil then pure (t, false)
  else DeleteLoop k (t.xs.length + 1) t none (-1) t.r

/-- The `for` loop of `Seek`. -/
def SeekLoop (t : Tree K V) (k : K) : Nat → Ref → Res (Enumerator K × Bool)
  | 0, _ => Res.hang
  | fuel + 1, q => do
    let (i, ok) ← t.find q k
    match q with
    | Ref.ofX a =>
      if ok then do
        let e ← t.xAt (some a) (i + 1)
        SeekLoop t k fuel e.ch
      else do
        let e ← t.xAt (some a) i
        SeekLoop t k fuel e.ch
    | Ref.ofD a => pure (⟨none, ok, i, k, some a, t.ver⟩, ok)
    | Ref.nil => Res.hang

/-- Go `(t *Tree) Seek(k)`. -/
def Tree.Seek (t : Tree K V) (k : K) : Res (Enumerator K × Bool) :=
  if t.r = Ref.nil then pure (⟨none, false, 0, k, none, t.ver⟩, false)
  else SeekLoop t k (t.xs.length + 1) t.r

/-- Go `(t *Tree) SeekFirst()`; `none` stands for the nil enumerator returned with `io.EOF`. -/
def Tree.SeekFirst (t : Tree K V) : Res (Option (Enumerator K) × Option Err) := do
  let q := t.first
  if q = none then pure (none, some Err.EOF)
  else
    let e ← t.dAt q 0
    pure (some ⟨none, true, 0, e.k, q, t.ver⟩, none)

/-- Go `(t *Tree) SeekLast()`. -/
def Tree.SeekLast (t : Tree K V) : Res (Option (Enumerator K) × Option Err) := do
  let q := t.last
  if q = none then pure (none, some Err.EOF)
  else
    let c ← t.dC q
    let e ← t.dAt q (c - 1)
    pure (some ⟨none, true, c - 1, e.k, q, t.ver⟩, none)

/-! ## Enumerator -/

/-- Go `(e *Enumerator) next()`; returns the enumerator and the error. -/
def Enumerator.next (t : Tree K V) (e : Enumerator K) : Res (Enumerator K × Option Err) := do
  if e.q = none then
    pure ({ e with err := some Err.EOF }, some Err.EOF)
  else
    let c ← t.dC e.q
    if e.i < c - 1 then
      let e := { e with i := e.i + 1 }
      pure (e, e.err)
    else
      let qn ← t.getD e.q
      let e := { e with q := qn.n, i := 0 }
      let e := (if e.q = none then { e with err := some Err.EOF } else e)
      pure (e, e.err)

/-- Go `(e *Enumerator) prev()`. -/
def Enumerator.prev (t : Tree K V) (e : Enumerator K) : Res (Enumerator K × Option Err) := do
  if e.q = none then
    pure ({ e with err := some Err.EOF }, some Err.EOF)
  else if 0 < e.i then
    let e := { e with i := e.i - 1 }
    pure (e, e.err)
  else
    let qn ← t.getD e.q
    let e := { e with q := qn.p }
    if e.q = none then
      let e := { e with err := some Err.EOF }
      pure (e, e.err)
    else
      let c ← t.dC e.q
      let e := { e with i := c - 1 }
      pure (e, e.err)

/-- Go `(e *Enumerator) Next()` on tree `t` (the field `e.t`); returns the enumerator and
`(k, v, err)`. -/
def Enumerator.Next (t : Tree K V) (e : Enumerator K) :
    Res (Enumerator K × K × V × Option Err) := do
  match e.err with
  | some err => pure (e, default, default, some err)
  | none =>
    let r ← (if e.ver ≠ t.ver then do
        let (f, hit) ← t.Seek e.k
        if !e.hit && hit then
          let (f, err) ← Enumerator.next t f
          match err with
          | some err => pure (e, some err)
          | none => pure (f, none)
        else pure (f, none)
      else pure (e, none))
    match r with
    | (e, some err) => pure (e, default, default, some err)
    | (e, none) =>
      if e.q = none then
        pure ({ e with err := some Err.EOF }, default, default, some Err.EOF)
      else
        let c ← t.dC e.q
        let r ← (if c ≤ e.i then Enumerator.next t e else pure (e, none))
        match r with
        | (e, some err) => pure (e, default, default, some err)
        | (e, none) =>
          let i ← t.dAt e.q e.i
          let e := { e with k := i.k, hit := false }
          let (e, _) ← Enumerator.next t e
          pure (e, i.k, i.v, none)

/-- Go `(e *Enumerator) Prev()` on tree `t` (the field `e.t`); returns the enumerator and
`(k, v, err)`. -/
def Enumerator.Prev (t : Tree K V) (e : Enumerator K) :
    Res (Enumerator K × K × V × Option Err) := do
  match e.err with
  | some err => pure (e, default, default, some err)
  | none =>
    let r ← (if e.ver ≠ t.ver then do
        let (f, hit) ← t.Seek e.k
        if !e.hit && hit then
          let (f, err) ← Enumerator.prev t f
          match err with
          | some err => pure (e, some err)
          | none => pure (f, none)
        else pure (f, none)
      else pure (e, none))
    match r with
    | (e, some err) => pure (e, default, default, some err)
    | (e, none) =>
      if e.q = none then
        pure ({ e with err := some Err.EOF }, default, default, some Err.EOF)
      else
        let c ← t.dC e.q
        let r ← (if c ≤ e.i then Enumerator.next t e else pure (e, none))
        match r with
        | (e, some err) => pure (e, default, default, some err)
        | (e, none) =>
          let i ← t.dAt e.q e.i
          let e := { e with k := i.k, hit := false }
          let (e, _) ← Enumerator.prev t e
          pure (e, i.k, i.v, none)

/-! ## Reachable trees and runs of calls -/

/-- The trees obtained from `TreeNew cmp` by calls of `Set`, `Put`, `Delete` and `Clear`
that return. -/
inductive Reachable (cmp : K → K → Int) : Tree K V → Prop where
  | new : Reachable cmp (TreeNew cmp)
  | set {t t' : Tree K V} (k : K) (v : V) :
      Reachable cmp t → t.Set k v = Res.ok t' → Reachable cmp t'
  | put {t t' : Tree K V} (k : K) (upd : V → Bool → V × Bool) (o : V) (w : Bool) :
      Reachable cmp t → t.Put k upd = Res.ok (t', o, w) → Reachable cmp t'
  | delete {t t' : Tree K V} (k : K) (ok : Bool) :
      Reachable cmp t → t.Delete k = Res.ok (t', ok) → Reachable cmp t'
  | clear {t t' : Tree K V} :
      Reachable cmp t → t.Clear = Res.ok t' → Reachable cmp t'

/-- A mutating call. -/
inductive Op (K V : Type) where
  | set (k : K) (v : V)
  | delete (k : K)
  | clear

/-- Runs one call. -/
def Op.run (t : Tree K V) : Op K V → Res (Tree K V)
  | Op.set k v => t.Set k v
  | Op.delete k => do
    let (t, _) ← t.Delete k
    pure t
  | Op.clear => t.Clear

/-- Runs a sequence of calls. -/
def exec (t : Tree K V) : List (Op K V) → Res (Tree K V)
  | [] => pure t
  | o :: os => do
    let t ← o.run t
    exec t os

/-- Calls `Next` until it returns an error (at most `n` calls); the entries returned. -/
def nextAll (t : Tree K V) : Nat → Enumerator K → Res (List (K × V))
  | 0, _ => Res.hang
  | n + 1, e => do
    let (e, k, v, err) ← e.Next t
    match err with
    | some _ => pure []
    | none => do
      let r ← nextAll t n e
      pure ((k, v) :: r)

/-- Calls `Prev` until it returns an error (at most `n` calls); the entries returned. -/
def prevAll (t : Tree K V) : Nat → Enumerator K → Res (List (K × V))
  | 0, _ => Res.hang
  | n + 1, e => do
    let (e, k, v, err) ← e.Prev t
    match err with
    | some _ => pure []
    | none => do
      let r ← prevAll t n e
      pure ((k, v) :: r)

/-- The full forward traversal: `SeekFirst`, then `Next` until `io.EOF`. -/
def forward (t : Tree K V) (fuel : Nat) : Res (List (K × V)) := do
  let (e, _) ← t.SeekFirst
  match e with
  | none => pure []
  | some e => nextAll t fuel e

/-- The full backward traversal: `SeekLast`, then `Prev` until `io.EOF`. -/
def backward (t : Tree K V) (fuel : Nat) : Res (List (K × V)) := do
  let (e, _) ← t.SeekLast
  match e with
  | none => pure []
  | some e => prevAll t fuel e

/-- Strictly ascending under `cmp`, checked on neighbours. -/
def ascending (cmp : K → K → Int) : List K → Bool
  | a :: b :: l => decide (cmp a b < 0) && ascending cmp (b :: l)
  | _ => true

/-- Addresses of the data pages below `q`, from left to right (`fuel` bounds the depth). -/
def leaves (t : Tree K V) : Nat → Ref → List Nat
  | 0, _ => []
  | _ + 1, Ref.nil => []
  | _ + 1, Ref.ofD a => [a]
  | fuel + 1, Ref.ofX a =>
    match t.xs.get? a with
    | some n => ((n.x.take (n.c.toNat + 1)).map (fun e => leaves t fuel e.ch)).flatten
    | none => []

/-- Addresses of the data pages met by following `n` from `q` (at most `fuel` pages). -/
def chainFrom (t : Tree K V) : Nat → Option Nat → List Nat
  | 0, _ => []
  | _ + 1, none => []
  | fuel + 1, some a =>
    match t.ds.get? a with
    | some n => a :: chainFrom t fuel n.n
    | none => [a]

/-! ## Views of a page and ordering -/

/-- A comparator that is a strict total order on the keys. -/
structure StrictTotal (cmp : K → K → Int) : Prop where
  eq_iff : ∀ a b, cmp a b = 0 ↔ a = b
  lt_gt : ∀ a b, cmp a b < 0 ↔ 0 < cmp b a
  trans : ∀ a b c, cmp a b < 0 → cmp b c < 0 → cmp a c < 0

/-- Strictly ascending under `cmp`. -/
def Asc (cmp : K → K → Int) (ks : List K) : Prop := ks.Pairwise (fun a b => cmp a b < 0)

/-- The entries of a data page: the first `c` elements of its array. -/
def d.ents (n : b.d K V) : List (de K V) := n.d.take n.c.toNat

/-- The keys of a data page. -/
def d.keys (n : b.d K V) : List K := (n.d.take n.c.toNat).map (fun e => e.k)

/-- The separators of an index page: the keys of the first `c` elements of its array. -/
def x.seps (n : b.x K) : List K := (n.x.take n.c.toNat).map (fun e => e.k)

/-- The children of an index page: the `ch` of the first `c+1` elements of its array. -/
def x.kids (n : b.x K) : List Ref := (n.x.take (n.c.toNat + 1)).map (fun e => e.ch)

/-- The first `c` keys of the page `q`, when `q` is a page of the store whose count `c` is
within its array. -/
def Tree.keysOf (t : Tree K V) (q : Ref) : Option (List K) :=
  match q with
  | Ref.ofD a =>
    match t.ds.get? a with
    | some n => if 0 ≤ n.c ∧ n.c.toNat ≤ n.d.length then some (d.keys n) else none
    | none => none
  | Ref.ofX a =>
    match t.xs.get? a with
    | some n => if 0 ≤ n.c ∧ n.c.toNat ≤ n.x.length then some (x.seps n) else none
    | none => none
  | Ref.nil => none

/-! ## Well-formed trees -/

/-- The key `k` is not below any of the lower bounds `los`. -/
def geLo (cmp : K → K → Int) (los : List K) (k : K) : Prop := ∀ l ∈ los, cmp l k ≤ 0

/-- The key `k` is below all the upper bounds `his`. -/
def ltHi (cmp : K → K → Int) (his : List K) (k : K) : Prop := ∀ u ∈ his, cmp k u < 0

/-- The lower bounds of child `i` of the index page `n`: separator `i-1` is added. -/
def x.los (n : b.x K) (i : Nat) (los : List K) : List K :=
  if i = 0 then los else
    match n.x.get? (i - 1) with
    | some e => e.k :: los
    | none => los

/-- The upper bounds of child `i` (element `e`) of the index page `n`: separator `i` is
added, except for the last child. -/
def x.his (n : b.x K) (i : Nat) (e : xe K) (his : List K) : List K :=
  if i = n.c.toNat then his else e.k :: his

/-- The subtree at `q` is well formed, with at most `h` levels of index pages above its data
pages: every page is in the store with its count within its array, the keys of a data page
and the separators of an index page are strictly ascending, a data page holds at least `m`
entries, and every key is not below the separators `los` and below the separators `his`
collected on the way down: each separator is greater than all keys in the child on its left
and not greater than any key in the child on its right. -/
def Sub (t : Tree K V) (m : Int) : Nat → Ref → List K → List K → Prop
  | _, Ref.nil, _, _ => False
  | _, Ref.ofD a, los, his =>
    ∃ n, t.ds.get? a = some n ∧ 0 ≤ n.c ∧ m ≤ n.c ∧ n.c.toNat ≤ n.d.length ∧
      Asc t.cmp (d.keys n) ∧ ∀ k ∈ d.keys n, geLo t.cmp los k ∧ ltHi t.cmp his k
  | 0, Ref.ofX _, _, _ => False
  | h + 1, Ref.ofX a, los, his =>
    ∃ n, t.xs.get? a = some n ∧ 0 ≤ n.c ∧ n.c.toNat + 1 ≤ n.x.length ∧ Asc t.cmp (x.seps n) ∧
      ∀ (i : Nat) (e : xe K), n.x.get? i = some e → i ≤ n.c.toNat →
        Sub t m h e.ch (x.los n i los) (x.his n i e his)

/-- Addresses of the index pages below and including `q` (`fuel` bounds the depth). -/
def xpages (t : Tree K V) : Nat → Ref → List Nat
  | 0, _ => []
  | _ + 1, Ref.nil => []
  | _ + 1, Ref.ofD _ => []
  | fuel + 1, Ref.ofX a =>
    match t.xs.get? a with
    | some n => a :: ((n.x.take (n.c.toNat + 1)).map (fun e => xpages t fuel e.ch)).flatten
    | none => [a]

/-- The pages below `q` form a tree of at most `h` levels of index pages: a data page is in
the store; an index page is in the store, its count is not negative and, with the child after
the last separator, within its array of `2*kx + 2` items, and each of its children up to the
count is nil or has this shape itself, one level lower. -/
def Shaped (t : Tree K V) : Nat → Ref → Prop
  | _, Ref.nil => True
  | _, Ref.ofD a => a < t.ds.length
  | 0, Ref.ofX _ => False
  | h + 1, Ref.ofX a =>
    ∃ n, t.xs.get? a = some n ∧ 0 ≤ n.c ∧ n.c.toNat + 1 ≤ n.x.length ∧
      n.x.length ≤ (2 * kx + 2).toNat ∧
      ∀ (i : Nat) (e : xe K), n.x.get? i = some e → i ≤ n.c.toNat → Shaped t h e.ch

/-- The entries of the data pages `l`, in this order. -/
def entries (t : Tree K V) (l : List Nat) : List (de K V) :=
  (l.map (fun a => match t.ds.get? a with
    | some n => d.ents n
    | none => [])).flatten

/-- The leaf chain is the list `l` of data pages: `first` and `last` are its ends, `n` of each
page is the next page of `l` and `p` the previous one (nil at the ends). -/
def Chain (t : Tree K V) (l : List Nat) : Prop :=
  l.Nodup ∧ t.first = l.head? ∧ t.last = l.getLast? ∧
  ∀ (i : Nat) (a : Nat), l.get? i = some a →
    ∃ n, t.ds.get? a = some n ∧ n.n = l.get? (i + 1) ∧
      n.p = (if i = 0 then none else l.get? (i - 1))

/-- The minimal number of entries asked of the data pages below the root `r`: none of a root
that is a data page, `m` of the data pages below an index page. -/
def minOf (r : Ref) (m : Int) : Int :=
  match r with
  | Ref.ofX _ => m
  | _ => 0

/-- The tree is well formed with height `h`: the root is nil and so are `first` and `last`,
or the subtree at the root is well formed (`Sub`, data pages below an index page holding at
least `m` entries), no index page occurs twice, and the leaf chain is the list of the data
pages below the root, from left to right. -/
def WF (t : Tree K V) (m : Int) (h : Nat) : Prop :=
  (t.r = Ref.nil ∧ t.first = none ∧ t.last = none) ∨
  (Sub t (minOf t.r m) h t.r [] [] ∧ (xpages t (h + 1) t.r).Nodup ∧
    Chain t (leaves t (h + 1) t.r))

/-- The entries of the tree, in the order of the data pages below the root. -/
def Tree.entries (t : Tree K V) (h : Nat) : List (de K V) :=
  b.entries t (leaves t (h + 1) t.r)

/-- The pages `l` are linked by `n` in this order and the last one has no successor; each is
in the store with its count within its array, and each page after the first holds at least
one entry. -/
def Seg (t : Tree K V) : List Nat → Prop
  | [] => True
  | a :: l => ∃ n, t.ds.get? a = some n ∧ 0 ≤ n.c ∧ n.c.toNat ≤ n.d.length ∧ n.n = l.head? ∧
      (∀ a2 ∈ l.head?, ∃ n2, t.ds.get? a2 = some n2 ∧ 1 ≤ n2.c) ∧ Seg t l

/-- The pages `l` are linked by `p` in this order and the last one has no predecessor; each
is in the store with its count within its array, and each page after the first holds at least
one entry. -/
def SegP (t : Tree K V) : List Nat → Prop
  | [] => True
  | a :: l => ∃ n, t.ds.get? a = some n ∧ 0 ≤ n.c ∧ n.c.toNat ≤ n.d.length ∧ n.p = l.head? ∧
      (∀ a2 ∈ l.head?, ∃ n2, t.ds.get? a2 = some n2 ∧ 1 ≤ n2.c) ∧ SegP t l

/-- The outcome `r`, if it is a normal return, satisfies `P`. -/
def Res.all {α : Type} (P : α → Prop) (r : Res α) : Prop := ∀ a, r = Res.ok a → P a

/-- The fields of a tree outside its pages: version, count, root, first and last. -/
def hdr (t : Tree K V) : Int × Int × Ref × Option Nat × Option Nat :=
  (t.ver, t.c, t.r, t.first, t.last)

/-- A tree without a root holds no entry and has no first and no last data page. -/
def Tree.nilOk (t : Tree K V) : Prop :=
  t.r = Ref.nil → t.c = 0 ∧ t.first = none ∧ t.last = none

/-- Every separator in `seps` is greater than all keys in the data pages on its left and not
greater than any key in the data pages on its right, `kids` being the addresses of the
children: separator `j` stands between child `j` and child `j + 1`. -/
def sepsOk (t : Tree K V) (seps : List K) (kids : List Nat) : Prop :=
  ∀ (j i : Nat) (s : K) (c : Nat), seps.get? j = some s → kids.get? i = some c →
    (i ≤ j → ∀ e ∈ entries t [c], t.cmp e.k s < 0) ∧
    (j < i → ∀ e ∈ entries t [c], t.cmp s e.k ≤ 0)

/-- The tree with the data page at address `a` replaced by `n`. -/
def Tree.putD (t : Tree K V) (a : Nat) (n : d K V) : Tree K V := { t with ds := t.ds.set a n }

/-- The tree with the index page at address `a` replaced by `n`. -/
def Tree.putX (t : Tree K V) (a : Nat) (n : x K) : Tree K V := { t with xs := t.xs.set a n }

/-- What an enumerator position depends on: of every data page the count, the keys of its
array and the links `n` and `p`, and `first` and `last` of the tree. -/
def leafShape (t : Tree K V) :
    List (Int × List K × Option Nat × Option Nat) × Option Nat × Option Nat :=
  (t.ds.map (fun n => (n.c, n.d.map (fun e => e.k), n.n, n.p)), t.first, t.last)

/-- An entry as the pair returned by `Next` and `Prev`. -/
def kv (e : de K V) : K × V := (e.k, e.v)

/-- The tree left by a call of `Put` (its first result). -/
def putTree (r : Res (Tree K V × V × Bool)) : Res (Tree K V) :=
  match r with
  | Res.ok a => Res.ok a.1
  | Res.panic => Res.panic
  | Res.hang => Res.hang

end Code

/-! ## Concrete runs over `Int` keys -/

/-- The comparator of the tests: `a - b`. -/
def icmp (a b : Int) : Int := a - b

/-- 129 ascending keys (the root becomes an index page over two data pages, separator 650),
then `Delete(650)` (the separator stays), then 64 more keys that fill the right page. -/
def opsStale : List (Op Int Int) :=
  (List.range 129).map (fun i => Op.set (10 * ((i : Int) + 1)) 0) ++ [Op.delete 650] ++
  (List.range 64).map (fun i => Op.set (1300 + 10 * (i : Int)) 0)

/-- The updater that always writes 7. -/
def write7 : Int → Bool → Int × Bool := fun _ _ => (7, true)

/-- The facts about the tree `t` reached by `opsStale`, the tree `t1` after a further
`Set(650, 7)`, the tree `t2` after a further `Set(5, 0)` and the forward traversal `es` of
`t2`, as a boolean. -/
def staleProps (t t1 t2 : Tree Int Int) (es : List (Int × Int)) : Bool :=
  decide (t.Get 10 = Res.ok (0, true)) &&
  (decide (t1.Get 10 = Res.ok (0, false)) &&
  (!ascending icmp (es.map Prod.fst) &&
  (decide (t2.Get 5 = Res.ok (0, true)) &&
  (decide (es.head? = some (10, 0)) &&
  (decide (t.r = Ref.ofX 0) &&
  (decide (leaves t 3 t.r = [0, 1]) &&
  (decide (t.find (Ref.ofD 1) 655 = Res.ok (0, false)) &&
  (decide (t.dC (some 0) = Res.ok 64) &&
  (decide (t.dC (some 1) = Res.ok 128) &&
  (decide (t.xAt (some 0) 0 = Res.ok ⟨Ref.ofD 0, 650⟩) &&
  (decide (t.dAt (some 1) 0 = Res.ok ⟨660, 0⟩) &&
  (decide (t1.r = Ref.ofX 1) &&
  (decide (leaves t1 3 t1.r = [1, 2]) &&
  decide (chainFrom t1 10 t1.first = [0, 1, 2]))))))))))))))

/-- What the code does on the tree that the run `r` returns: `Set(655, 7)`, `Put(655, write7)`
and the call `overflow(p, q, 1, 0, 655, 7)` they make panic; `Set(650, 7)` and then `Set(5, 0)`
return, and the facts `staleProps` hold. -/
def staleChecksOf (r : Res (Tree Int Int)) : Bool :=
  match r with
  | Res.ok t =>
    match t.Set 655 7 with
    | Res.panic =>
      match t.Put 655 write7 with
      | Res.panic =>
        match t.overflow (some 0) (some 1) 1 0 655 7 with
        | Res.panic =>
          match t.Set 650 7 with
          | Res.ok t1 =>
            match t1.Set 5 0 with
            | Res.ok t2 =>
              match forward t2 300 with
              | Res.ok es => staleProps t t1 t2 es
              | _ => false
            | _ => false
          | _ => false
        | _ => false
      | _ => false
    | _ => false
  | _ => false

/-- What the code does after `opsStale`: the checks `staleChecksOf` on the tree it builds. -/
def staleChecks : Bool := staleChecksOf (exec (TreeNew icmp) opsStale)

/-- The run of C10: keys 10 and 20, `SeekFirst`, `Next` (returns 10), `Delete(20)`, `Next`
(returns `io.EOF`), `Set(20, 7)`, `Next` (returns 20). -/
def stickyChecks : Bool :=
  match exec (TreeNew icmp) ([Op.set 10 1, Op.set 20 2] : List (Op Int Int)) with
  | Res.ok t =>
    match t.SeekFirst with
    | Res.ok (some e0, none) =>
      match e0.Next t with
      | Res.ok (e1, 10, 1, none) =>
        match t.Delete 20 with
        | Res.ok (t1, true) =>
          match e1.Next t1 with
          | Res.ok (e2, _, _, some Err.EOF) =>
            match t1.Set 20 7 with
            | Res.ok t2 =>
              match e2.Next t2 with
              | Res.ok (_, 20, 7, none) => true
              | _ => false
            | _ => false
          | _ => false
        | _ => false
      | _ => false
    | _ => false
  | _ => false

/-- The tree with keys 10, 20, 30 of the enumerator tests. -/
def tree123 : Res (Tree Int Int) :=
  exec (TreeNew icmp) [Op.set 10 100, Op.set 20 200, Op.set 30 300]

/-- The run of C12: keys 10, 20, 30, `SeekLast`, `Prev` (30), `Prev` (20), `Delete(20)`,
`Prev` (returns 30 again). -/
def prevChecks : Bool :=
  match tree123 with
  | Res.ok t =>
    match t.SeekLast with
    | Res.ok (some e0, none) =>
      match e0.Prev t with
      | Res.ok (e1, 30, 300, none) =>
        match e1.Prev t with
        | Res.ok (e2, 20, 200, none) =>
          match t.Delete 20 with
          | Res.ok (t1, true) =>
            match e2.Prev t1 with
            | Res.ok (_, 30, 300, none) => decide (t1.Get 10 = Res.ok (100, true))
            | _ => false
          | _ => false
        | _ => false
      | _ => false
    | _ => false
  | _ => false

/-- The tree with one data page holding the keys 10, 20, 30 (what `tree123` builds). -/
def leaf3 : Tree Int Int :=
  { c := 3, cmp := icmp, first := some 0, last := some 0, r := Ref.ofD 0, ver := 3,
    ds := [⟨3, [⟨10, 100⟩, ⟨20, 200⟩, ⟨30, 300⟩] ++ List.replicate 126 zde, none, none⟩],
    xs := [] }

/-- An index page over two data pages: keys 10, 20 left of the separator 30, keys 30, 40
right of it. -/
def twoLeaves : Tree Int Int :=
  { c := 4, cmp := icmp, first := some 0, last := some 1, r := Ref.ofX 0, ver := 4,
    ds := [⟨2, [⟨10, 100⟩, ⟨20, 200⟩] ++ List.replicate 127 zde, some 1, none⟩,
           ⟨2, [⟨30, 300⟩, ⟨40, 400⟩] ++ List.replicate 127 zde, none, some 0⟩],
    xs := [⟨1, [⟨Ref.ofD 0, 30⟩, ⟨Ref.ofD 1, 0⟩] ++ List.replicate 256 zxe⟩] }

/-- An index page over three data pages of which the first and the last are empty: the only
key is 30, the separators are 20 and 40. -/
def holes : Tree Int Int :=
  { c := 1, cmp := icmp, first := some 0, last := some 2, r := Ref.ofX 0, ver := 1,
    ds := [⟨0, List.replicate 129 zde, some 1, none⟩,
           ⟨1, [⟨30, 300⟩] ++ List.replicate 128 zde, some 2, some 0⟩,
           ⟨0, List.replicate 129 zde, none, some 1⟩],
    xs := [⟨2, [⟨Ref.ofD 0, 20⟩, ⟨Ref.ofD 1, 40⟩, ⟨Ref.ofD 2, 0⟩] ++ List.replicate 255 zxe⟩] }

/-- The tree `leaf3` after `Set(40, 400)`. -/
def leaf4 : Tree Int Int :=
  { c := 4, cmp := icmp, first := some 0, last := some 0, r := Ref.ofD 0, ver := 4,
    ds := [⟨4, [⟨10, 100⟩, ⟨20, 200⟩, ⟨30, 300⟩, ⟨40, 400⟩] ++ List.replicate 125 zde,
      none, none⟩],
    xs := [] }

/-- 129 ascending keys (the root becomes an index page over two data pages, separator 650),
then `Delete(650)`. -/
def opsSep : List (Op Int Int) :=
  (List.range 129).map (fun i => Op.set (10 * ((i : Int) + 1)) 0) ++ [Op.delete 650]

/-- What the tree that the run `r` returns looks like: the store holds two data pages and the
index page 0, which is the root, with one separator, 650, between the data pages 0 and 1; the
key 650 is not stored, and the 64 keys of the data page 1, the first of which is 660, are all
greater than 650. -/
def sepChecksOf (r : Res (Tree Int Int)) : Bool :=
  match r with
  | Res.ok t =>
    decide (t.ds.length = 2) &&
    (decide (t.xs = [⟨1, [⟨Ref.ofD 0, 650⟩, ⟨Ref.ofD 1, 0⟩] ++ List.replicate 256 zxe⟩]) &&
    (decide (t.r = Ref.ofX 0) && (decide (t.xC (some 0) = Res.ok 1) &&
    (decide (t.xAt (some 0) 0 = Res.ok ⟨Ref.ofD 0, 650⟩) &&
    (decide (t.xAt (some 0) 1 = Res.ok ⟨Ref.ofD 1, 0⟩) &&
    (decide (t.dC (some 1) = Res.ok 64) &&
    (decide (t.dAt (some 1) 0 = Res.ok ⟨660, 0⟩) &&
    (decide (t.Get 650 = Res.ok (0, false)) &&
    decide (∀ e ∈ entries t [1], 650 < e.k)))))))))
  | _ => false

/-- What the tree reached by `opsSep` looks like: the checks `sepChecksOf` on it. -/
def sepChecks : Bool := sepChecksOf (exec (TreeNew icmp) opsSep)

/-- A root data page that is full: the keys 10, 20, .., 1280. -/
def fullLeaf : Tree Int Int :=
  { c := 128, cmp := icmp, first := some 0, last := some 0, r := Ref.ofD 0, ver := 128,
    ds := [⟨128, (List.range 128).map (fun i => ⟨10 * ((i : Int) + 1), 0⟩) ++ [zde],
      none, none⟩],
    xs := [] }

/-- Data page number `j` of `wide`: the 128 keys 1000·j, 1000·j + 2, ..., 1000·j + 254. -/
def wideLeaf (j : Nat) : d Int Int :=
  ⟨128, (List.range 128).map (fun m => ⟨1000 * (j : Int) + 2 * (m : Int), 0⟩) ++ [zde],
    if j < 257 then some (j + 1) else none, if 0 < j then some (j - 1) else none⟩

/-- An index page with 2·kx + 1 = 257 separators (1000, 2000, ..., 257000) over 258 full data
pages. -/
def wide : Tree Int Int :=
  { c := 258 * 128, cmp := icmp, first := some 0, last := some 257, r := Ref.ofX 0, ver := 0,
    ds := (List.range 258).map wideLeaf,
    xs := [⟨257, (List.range 258).map
      (fun j => ⟨Ref.ofD j, if j < 257 then 1000 * ((j : Int) + 1) else 0⟩)⟩] }

/-- Index page number `j` of `wideX`: 257 separators over the data pages 258·j, ...,
258·j + 257. -/
def wideXPage (j : Nat) : x Int :=
  ⟨257, (List.range 258).map (fun m =>
    ⟨Ref.ofD (258 * j + m), if m < 257 then 1000 * ((258 * j + m : Nat) + 1 : Int) else 0⟩)⟩

/-- A tree of three levels in which the root and its 258 children are index pages with
2·kx + 1 = 257 separators each; the index pages are at the addresses 1 .. 258, the root at
address 0. -/
def wideX : Tree Int Int :=
  { c := 258 * 258 * 128, cmp := icmp, first := some 0, last := some (258 * 258 - 1),
    r := Ref.ofX 0, ver := 0,
    ds := (List.range (258 * 258)).map (fun n =>
      (⟨128, (List.range 128).map (fun m => ⟨1000 * (n : Int) + 2 * (m : Int), 0⟩) ++ [zde],
        if n + 1 < 258 * 258 then some (n + 1) else none,
        if 0 < n then some (n - 1) else none⟩ : d Int Int)),
    xs := (⟨257, (List.range 258).map (fun j =>
        ⟨Ref.ofX (j + 1), if j < 257 then 258000 * ((j : Int) + 1) else 0⟩)⟩ : x Int)
      :: (List.range 258).map wideXPage }

/-- An index page over two data pages as `Delete` can leave them: the left page holds the 64
keys 10, 20, .., 640, the right page is full with the 128 keys 660, 670, .., 1930, and the
separator is 650, a key that is no longer stored. -/
def staleTwo : Tree Int Int :=
  { c := 192, cmp := icmp, first := some 0, last := some 1, r := Ref.ofX 0, ver := 0,
    ds := [⟨64, (List.range 64).map (fun m => ⟨10 * ((m : Int) + 1), 0⟩)
              ++ List.replicate 65 zde, some 1, none⟩,
           ⟨128, (List.range 128).map (fun m => ⟨10 * ((m : Int) + 66), 0⟩) ++ [zde],
              none, some 0⟩],
    xs := [⟨1, [⟨Ref.ofD 0, 650⟩, ⟨Ref.ofD 1, 0⟩] ++ List.replicate 256 zxe⟩] }

/-- An index page over two data pages as `Delete` leaves them before `underflow`: the left
page holds the kd - 1 = 63 keys 10, 20, .., 630, the right page the 65 keys 640, 650, .., 1280,
and the separator is 640. -/
def thinLeft : Tree Int Int :=
  { c := 128, cmp := icmp, first := some 0, last := some 1, r := Ref.ofX 0, ver := 0,
    ds := [⟨63, (List.range 63).map (fun m => ⟨10 * ((m : Int) + 1), 0⟩)
              ++ List.replicate 66 zde, some 1, none⟩,
           ⟨65, (List.range 65).map (fun m => ⟨10 * ((m : Int) + 64), 0⟩)
              ++ List.replicate 64 zde, none, some 0⟩],
    xs := [⟨1, [⟨Ref.ofD 0, 640⟩, ⟨Ref.ofD 1, 0⟩] ++ List.replicate 256 zxe⟩] }

section Theorems

variable {K V : Type} [Inhabited K] [Inhabited V]

theorem exec_reachable {cmp : K → K → Int} (ops : List (Op K V)) :
    ∀ (t t' : Tree K V), Reachable cmp t → exec t ops = Res.ok t' → Reachable cmp t' := by
  induction ops with
  | nil =>
    intro t t' ht h
    simp only [exec, pure] at h
    cases h
    exact ht
  | cons o os ih =>
    intro t t' ht h
    simp only [exec, bind] at h
    cases o with
    | set k v =>
      simp only [Op.run] at h
      cases hs : t.Set k v with
      | ok t1 => rw [hs] at h; exact ih t1 t' (Reachable.set k v ht hs) h
      | panic => rw [hs] at h; cases h
      | hang => rw [hs] at h; cases h
    | delete k =>
      simp only [Op.run, bind] at h
      cases hs : t.Delete k with
      | ok r =>
        obtain ⟨t1, b⟩ := r
        rw [hs] at h
        exact ih t1 t' (Reachable.delete k b ht hs) h
      | panic => rw [hs] at h; cases h
      | hang => rw [hs] at h; cases h
    | clear =>
      simp only [Op.run] at h
      cases hs : t.Clear with
      | ok t1 => rw [hs] at h; exact ih t1 t' (Reachable.clear ht hs) h
      | panic => rw [hs] at h; cases h
      | hang => rw [hs] at h; cases h

omit [Inhabited K] [Inhabited V] in
theorem putTree_bind {α : Type} (r : Res α) (f : α → Res (Tree K V × V × Bool)) :
    putTree (r >>= f) = r >>= fun a => putTree (f a) := by
  cases r <;> rfl

theorem PutLoop_const (k : K) (v : V) (fuel : Nat) :
    ∀ (t : Tree K V) (p : Option Nat) (pi : Int) (q : Ref),
      putTree (PutLoop k (fun _ _ => (v, true)) fuel t p pi q) = SetLoop k v fuel t p pi q := by
  induction fuel with
  | zero => intro t p pi q; rfl
  | succ n ih =>
    intro t p pi q
    simp only [PutLoop, SetLoop, putTree_bind]
    congr 1
    funext r
    obtain ⟨i, ok⟩ := r
    cases q with
    | nil => rfl
    | ofX a =>
      simp only
      split
      · simp only [putTree_bind, ih]
      · simp only [putTree_bind, ih]
    | ofD a =>
      simp only
      split
      · simp only [putTree_bind, if_true]
        cases (t.dAt (some a) i) with
        | ok e =>
          show (t.dSetAt (some a) i { k := e.k, v := v } >>= fun a => putTree (pure (a, e.v, true)))
            = t.dSetAt (some a) i { k := e.k, v := v }
          cases (t.dSetAt (some a) i { k := e.k, v := v }) <;> rfl
        | panic => rfl
        | hang => rfl
      · simp only [putTree_bind, if_true]
        congr 1
        funext c
        split <;> cases (t.insert (some a) i k v) <;> cases (t.overflow p (some a) pi i k v) <;> rfl

/-- C18: for every tree state `t`, key `k` and value `v`, `Put(k, upd)` with the updater that
always returns `(v, true)` leaves exactly the state that `Set(k, v)` leaves (all fields of the
tree and all pages), and it panics or fails to return exactly when `Set` does. -/
theorem C18_Put_with_constant_updater_is_Set (t : Tree K V) (k : K) (v : V) :
    putTree (t.Put k (fun _ _ => (v, true))) = t.Set k v := by
  unfold Tree.Put Tree.Set
  by_cases h : t.r = Ref.nil
  · simp only [h, ne_eq, not_true_eq_false, if_false, if_true]
    show putTree (do let t1 ← (t.newD).1.insert (t.newD).2 0 k v; pure _) = _
    simp only [putTree_bind]
    rfl
  · simp only [h, ne_eq, not_false_eq_true, if_true, if_false]
    exact PutLoop_const k v _ t none (-1) t.r

theorem Asc.get_lt {cmp : K → K → Int} {ks : List K} (h : Asc cmp ks) {i j : Nat} {a b : K}
    (hi : ks.get? i = some a) (hj : ks.get? j = some b) (hij : i < j) : cmp a b < 0 := by
  unfold Asc at h
  rw [List.pairwise_iff_getElem] at h
  rw [List.get?_eq_getElem?] at hi hj
  obtain ⟨hi1, hi2⟩ := List.getElem?_eq_some_iff.mp hi
  obtain ⟨hj1, hj2⟩ := List.getElem?_eq_some_iff.mp hj
  have := h i j hi1 hj1 hij
  rw [hi2, hj2] at this
  exact this

theorem findLoop_spec {cmp : K → K → Int} (st : StrictTotal cmp) (key : Int → Res K) (k : K)
    (ks : List K) (hs : Asc cmp ks)
    (hkey : ∀ m : Nat, m < ks.length → ∃ a, ks.get? m = some a ∧ key m = Res.ok a) :
    ∀ (fuel : Nat) (l h : Int), 0 ≤ l → h < ks.length → l ≤ h + 1 → h - l + 2 ≤ fuel →
      (∀ (m : Nat) (a : K), ks.get? m = some a → (m : Int) < l → 0 < cmp k a) →
      (∀ (m : Nat) (a : K), ks.get? m = some a → h < (m : Int) → cmp k a < 0) →
      ∃ (j : Nat) (b : Bool), findLoop cmp key k fuel l h = Res.ok ((j : Int), b) ∧
        j ≤ ks.length ∧
        (b = true → ∃ a, ks.get? j = some a ∧ cmp k a = 0) ∧
        (b = false → (∀ (m : Nat) (a : K), ks.get? m = some a → m < j → 0 < cmp k a) ∧
          (∀ (m : Nat) (a : K), ks.get? m = some a → j ≤ m → cmp k a < 0)) := by
  intro fuel
  induction fuel with
  | zero => intro l h _ _ _ hf; omega
  | succ n ih =>
    intro l h hl hh hlh hf hlo hhi
    unfold findLoop
    by_cases c1 : l ≤ h
    · simp only [c1, if_true]
      have hm0 : 0 ≤ (l + h) / 2 := by omega
      have hm1 : l ≤ (l + h) / 2 := by omega
      have hm2 : (l + h) / 2 ≤ h := by omega
      obtain ⟨a, ha, hka⟩ := hkey ((l + h) / 2).toNat (by omega)
      have hcast : (((l + h) / 2).toNat : Int) = (l + h) / 2 := Int.toNat_of_nonneg hm0
      rw [hcast] at hka
      simp only [bind, Res.bind, hka, pure]
      by_cases c2 : 0 < cmp k a
      · simp only [c2, if_true]
        refine ih ((l + h) / 2 + 1) h (by omega) hh (by omega) (by omega) ?_ hhi
        intro m x hx hml
        by_cases e : m = ((l + h) / 2).toNat
        · subst e; rw [ha] at hx; cases hx; exact c2
        · have hlt : m < ((l + h) / 2).toNat := by omega
          have := hs.get_lt hx ha hlt
          have h2 := (st.lt_gt a k).mpr c2
          exact (st.lt_gt x k).mp (st.trans x a k this h2)
      · simp only [c2, if_false]
        by_cases c3 : cmp k a = 0
        · simp only [c3, if_true]
          refine ⟨((l + h) / 2).toNat, true, by rw [hcast], by omega, ?_, ?_⟩
          · intro _; exact ⟨a, ha, c3⟩
          · intro hb; cases hb
        · simp only [c3, if_false]
          have c4 : cmp k a < 0 := by omega
          refine ih l ((l + h) / 2 - 1) hl (by omega) (by omega) (by omega) hlo ?_
          intro m x hx hml
          by_cases e : m = ((l + h) / 2).toNat
          · subst e; rw [ha] at hx; cases hx; exact c4
          · have hlt : ((l + h) / 2).toNat < m := by omega
            have := hs.get_lt ha hx hlt
            exact st.trans k a x c4 this
    · simp only [c1, if_false, pure]
      have e : l = h + 1 := by omega
      refine ⟨l.toNat, false, by rw [Int.toNat_of_nonneg hl], by omega, ?_, ?_⟩
      · intro hb; cases hb
      · intro _
        refine ⟨fun m a ha hm => hlo m a ha (by omega), fun m a ha hm => hhi m a ha (by omega)⟩

theorem idx_ok {α : Type} (a : List α) (m : Nat) (x : α) (h : a.get? m = some x) :
    idx a (m : Int) = Res.ok x := by
  unfold idx
  simp only [Int.ofNat_zero_le, if_true, Int.toNat_ofNat, h]

/-- `find` on a page whose first `c` keys `ks` are strictly ascending. -/
theorem find_spec (t : Tree K V) (st : StrictTotal t.cmp) (q : Ref) (ks : List K)
    (hq : t.keysOf q = some ks) (hs : Asc t.cmp ks) (k : K) :
    ∃ (j : Nat) (b : Bool), t.find q k = Res.ok ((j : Int), b) ∧ j ≤ ks.length ∧
      (b = true → ∃ a, ks.get? j = some a ∧ t.cmp k a = 0) ∧
      (b = false → (∀ (m : Nat) (a : K), ks.get? m = some a → m < j → 0 < t.cmp k a) ∧
        (∀ (m : Nat) (a : K), ks.get? m = some a → j ≤ m → t.cmp k a < 0)) := by
  cases q with
  | nil => simp [Tree.keysOf] at hq
  | ofD a =>
    unfold Tree.keysOf at hq
    dsimp only at hq
    cases hn : t.ds.get? a with
    | none => rw [hn] at hq; cases hq
    | some n =>
      rw [hn] at hq
      simp only at hq
      split at hq
      · rename_i hc
        cases hq
        have hlen : (d.keys n).length = n.c.toNat := by
          simp only [d.keys, List.length_map, List.length_take]; omega
        have hdc : t.dC (some a) = Res.ok n.c := by
          simp only [Tree.dC, Tree.getD, hn, bind, Res.bind, pure]
        simp only [Tree.find, hdc, bind, Res.bind]
        refine findLoop_spec st _ k (d.keys n) hs ?_ (n.c.toNat + 1) 0 (n.c - 1) (le_refl 0)
          (by omega) (by omega) (by omega) (fun m a _ hm => by omega) (fun m a ha hm => ?_)
        · intro m hm
          rw [hlen] at hm
          have hm2 : m < n.d.length := by omega
          refine ⟨(n.d[m]).k, ?_, ?_⟩
          · simp only [d.keys, List.get?_eq_getElem?, List.getElem?_map, List.getElem?_take, hm,
              if_true, List.getElem?_eq_getElem hm2, Option.map_some']
          · simp only [Tree.dAt, Tree.getD, hn, bind, Res.bind, pure]
            rw [idx_ok n.d m n.d[m]]
            simp only [List.get?_eq_getElem?, List.getElem?_eq_getElem hm2]
        · have : m < (d.keys n).length := by
            rw [List.get?_eq_getElem?] at ha
            exact (List.getElem?_eq_some_iff.mp ha).1
          omega
      · cases hq
  | ofX a =>
    unfold Tree.keysOf at hq
    dsimp only at hq
    cases hn : t.xs.get? a with
    | none => rw [hn] at hq; cases hq
    | some n =>
      rw [hn] at hq
      simp only at hq
      split at hq
      · rename_i hc
        cases hq
        have hlen : (x.seps n).length = n.c.toNat := by
          simp only [x.seps, List.length_map, List.length_take]; omega
        have hdc : t.xC (some a) = Res.ok n.c := by
          simp only [Tree.xC, Tree.getX, hn, bind, Res.bind, pure]
        simp only [Tree.find, hdc, bind, Res.bind]
        refine findLoop_spec st _ k (x.seps n) hs ?_ (n.c.toNat + 1) 0 (n.c - 1) (le_refl 0)
          (by omega) (by omega) (by omega) (fun m a _ hm => by omega) (fun m a ha hm => ?_)
        · intro m hm
          rw [hlen] at hm
          have hm2 : m < n.x.length := by omega
          refine ⟨(n.x[m]).k, ?_, ?_⟩
          · simp only [x.seps, List.get?_eq_getElem?, List.getElem?_map, List.getElem?_take, hm,
              if_true, List.getElem?_eq_getElem hm2, Option.map_some']
          · simp only [Tree.xAt, Tree.getX, hn, bind, Res.bind, pure]
            rw [idx_ok n.x m n.x[m]]
            simp only [List.get?_eq_getElem?, List.getElem?_eq_getElem hm2]
        · have : m < (x.seps n).length := by
            rw [List.get?_eq_getElem?] at ha
            exact (List.getElem?_eq_some_iff.mp ha).1
          omega
      · cases hq

/-- C30: on a page (data or index) whose first `c` keys `ks` are strictly ascending under a
strict total order `cmp`, `find` returns `(j, true)` with `cmp(k, ks[j]) = 0` exactly when `k`
occurs among the keys, and otherwise `(j, false)` with `0 <= j <= c`, every key below index
`j` less than `k` and every key from index `j` on greater than `k`. -/
theorem C30_find_is_binary_search (t : Tree K V) (st : StrictTotal t.cmp) (q : Ref)
    (ks : List K) (hq : t.keysOf q = some ks) (hs : Asc t.cmp ks) (k : K) :
    ∃ (j : Nat) (b : Bool), t.find q k = Res.ok ((j : Int), b) ∧
      (b = true ↔ ∃ a ∈ ks, t.cmp k a = 0) ∧
      (b = true → ∃ a, ks.get? j = some a ∧ t.cmp k a = 0) ∧
      (b = false → j ≤ ks.length ∧ (∀ a ∈ ks.take j, t.cmp a k < 0) ∧
        (∀ a ∈ ks.drop j, t.cmp k a < 0)) := by
  obtain ⟨j, b, hf, hj, ht, hff⟩ := find_spec t st q ks hq hs k
  have hfalse : b = false → (∀ a ∈ ks.take j, t.cmp a k < 0) ∧
      (∀ a ∈ ks.drop j, t.cmp k a < 0) := by
    intro hb
    obtain ⟨h1, h2⟩ := hff hb
    constructor
    · intro a ha
      obtain ⟨m, hm, rfl⟩ := List.mem_iff_getElem.mp ha
      rw [List.length_take] at hm
      have hm2 : m < ks.length := by omega
      rw [List.getElem_take]
      refine (st.lt_gt _ _).mpr (h1 m _ ?_ (by omega))
      rw [List.get?_eq_getElem?, List.getElem?_eq_getElem hm2]
    · intro a ha
      obtain ⟨m, hm, rfl⟩ := List.mem_iff_getElem.mp ha
      rw [List.length_drop] at hm
      have hm2 : j + m < ks.length := by omega
      rw [List.getElem_drop]
      refine h2 (j + m) _ ?_ (by omega)
      rw [List.get?_eq_getElem?, List.getElem?_eq_getElem hm2]
  refine ⟨j, b, hf, ?_, ht, fun hb => ⟨hj, hfalse hb⟩⟩
  constructor
  · intro hb
    obtain ⟨a, ha, hc⟩ := ht hb
    rw [List.get?_eq_getElem?] at ha
    exact ⟨a, List.getElem?_mem ha, hc⟩
  · rintro ⟨a, ha, hc⟩
    cases b with
    | true => rfl
    | false =>
      exfalso
      obtain ⟨h1, h2⟩ := hfalse rfl
      rw [← List.take_append_drop j ks, List.mem_append] at ha
      rcases ha with ha | ha
      · have := (st.lt_gt _ _).mp (h1 a ha); omega
      · have := h2 a ha; omega

/-! ### Reading pages -/

theorem getD_of {t : Tree K V} {a : Nat} {n : d K V} (h : t.ds.get? a = some n) :
    t.getD (some a) = Res.ok n := by
  simp only [Tree.getD, h]

theorem dC_of {t : Tree K V} {a : Nat} {n : d K V} (h : t.ds.get? a = some n) :
    t.dC (some a) = Res.ok n.c := by
  simp only [Tree.dC, getD_of h, bind, Res.bind, pure]

theorem dAt_of {t : Tree K V} {a : Nat} {n : d K V} (h : t.ds.get? a = some n) (i : Int) :
    t.dAt (some a) i = idx n.d i := by
  simp only [Tree.dAt, getD_of h, bind, Res.bind]

theorem getX_of {t : Tree K V} {a : Nat} {n : x K} (h : t.xs.get? a = some n) :
    t.getX (some a) = Res.ok n := by
  simp only [Tree.getX, h]

theorem xC_of {t : Tree K V} {a : Nat} {n : x K} (h : t.xs.get? a = some n) :
    t.xC (some a) = Res.ok n.c := by
  simp only [Tree.xC, getX_of h, bind, Res.bind, pure]

theorem xAt_of {t : Tree K V} {a : Nat} {n : x K} (h : t.xs.get? a = some n) (i : Int) :
    t.xAt (some a) i = idx n.x i := by
  simp only [Tree.xAt, getX_of h, bind, Res.bind]

theorem keysOf_D {t : Tree K V} {a : Nat} {n : d K V} (h : t.ds.get? a = some n)
    (h0 : 0 ≤ n.c) (h1 : n.c.toNat ≤ n.d.length) : t.keysOf (Ref.ofD a) = some (d.keys n) := by
  simp only [Tree.keysOf, h, h0, h1, and_self, if_true]

theorem keysOf_X {t : Tree K V} {a : Nat} {n : x K} (h : t.xs.get? a = some n)
    (h0 : 0 ≤ n.c) (h1 : n.c.toNat ≤ n.x.length) : t.keysOf (Ref.ofX a) = some (x.seps n) := by
  simp only [Tree.keysOf, h, h0, h1, and_self, if_true]

/-! ### Order -/

theorem StrictTotal.le_lt {cmp : K → K → Int} (st : StrictTotal cmp) {a b c : K}
    (h1 : cmp a b ≤ 0) (h2 : cmp b c < 0) : cmp a c < 0 := by
  rcases lt_or_eq_of_le h1 with h | h
  · exact st.trans a b c h h2
  · rw [(st.eq_iff a b).mp h]; exact h2

theorem StrictTotal.lt_le {cmp : K → K → Int} (st : StrictTotal cmp) {a b c : K}
    (h1 : cmp a b < 0) (h2 : cmp b c ≤ 0) : cmp a c < 0 := by
  rcases lt_or_eq_of_le h2 with h | h
  · exact st.trans a b c h1 h
  · rw [← (st.eq_iff b c).mp h]; exact h1

theorem StrictTotal.le_le {cmp : K → K → Int} (st : StrictTotal cmp) {a b c : K}
    (h1 : cmp a b ≤ 0) (h2 : cmp b c ≤ 0) : cmp a c ≤ 0 := by
  rcases lt_or_eq_of_le h1 with h | h
  · exact Int.le_of_lt (st.lt_le h h2)
  · rw [(st.eq_iff a b).mp h]; exact h2

theorem StrictTotal.refl {cmp : K → K → Int} (st : StrictTotal cmp) (a : K) : cmp a a = 0 :=
  (st.eq_iff a a).mpr rfl

theorem StrictTotal.flip_le {cmp : K → K → Int} (st : StrictTotal cmp) {a b : K}
    (h : 0 ≤ cmp a b) : cmp b a ≤ 0 := by
  rcases lt_or_eq_of_le h with h | h
  · exact Int.le_of_lt ((st.lt_gt b a).mpr h)
  · have := (st.eq_iff a b).mp h.symm
    rw [this, st.refl]

/-! ### Leaves and entries -/

theorem leaves_D (t : Tree K V) (f : Nat) (a : Nat) : leaves t (f + 1) (Ref.ofD a) = [a] := rfl

theorem leaves_X {t : Tree K V} (f : Nat) {a : Nat} {n : x K} (h : t.xs.get? a = some n) :
    leaves t (f + 1) (Ref.ofX a) =
      ((n.x.take (n.c.toNat + 1)).map (fun e => leaves t f e.ch)).flatten := by
  simp only [leaves, h]

theorem entries_append (t : Tree K V) (l1 l2 : List Nat) :
    entries t (l1 ++ l2) = entries t l1 ++ entries t l2 := by
  simp only [entries, List.map_append, List.flatten_append]

theorem entries_cons {t : Tree K V} {a : Nat} {n : d K V} (h : t.ds.get? a = some n)
    (l : List Nat) : entries t (a :: l) = d.ents n ++ entries t l := by
  simp only [entries, List.map_cons, List.flatten_cons, h]

theorem entries_nil (t : Tree K V) : entries t [] = [] := rfl

theorem mem_entries {t : Tree K V} {l : List Nat} {e : de K V} (h : e ∈ entries t l) :
    ∃ a ∈ l, ∃ n, t.ds.get? a = some n ∧ e ∈ d.ents n := by
  simp only [entries, List.mem_flatten, List.mem_map] at h
  obtain ⟨l0, ⟨a, ha, rfl⟩, he⟩ := h
  cases hn : t.ds.get? a with
  | none => rw [hn] at he; simp at he
  | some n => rw [hn] at he; exact ⟨a, ha, n, hn, he⟩

theorem mem_keys_of_mem_ents {n : d K V} {e : de K V} (h : e ∈ d.ents n) : e.k ∈ d.keys n := by
  simp only [d.keys, List.mem_map]
  exact ⟨e, h, rfl⟩

/-- Every data page below a well-formed subtree is in the store and keeps the bounds. -/
theorem Sub.leaf_bounds {t : Tree K V} {m : Int} :
    ∀ (h : Nat) (q : Ref) (los his : List K), Sub t m h q los his →
      ∀ a ∈ leaves t (h + 1) q, ∃ n, t.ds.get? a = some n ∧ 0 ≤ n.c ∧ m ≤ n.c ∧
        n.c.toNat ≤ n.d.length ∧ Asc t.cmp (d.keys n) ∧
        ∀ k ∈ d.keys n, geLo t.cmp los k ∧ ltHi t.cmp his k := by
  intro h
  induction h with
  | zero =>
    intro q los his hs a ha
    cases q with
    | nil => exact hs.elim
    | ofX _ => exact hs.elim
    | ofD a' =>
      rw [leaves_D] at ha
      simp only [List.mem_singleton] at ha
      subst ha
      exact hs
  | succ h ih =>
    intro q los his hs a ha
    cases q with
    | nil => exact hs.elim
    | ofD a' =>
      rw [leaves_D] at ha
      simp only [List.mem_singleton] at ha
      subst ha
      exact hs
    | ofX a' =>
      obtain ⟨n, hn, h0, h1, hasc, hkids⟩ := hs
      rw [leaves_X _ hn] at ha
      simp only [List.mem_flatten, List.mem_map] at ha
      obtain ⟨l0, ⟨e, he, rfl⟩, hal⟩ := ha
      obtain ⟨i, hi, hie⟩ := List.mem_iff_getElem.mp he
      rw [List.length_take] at hi
      have hi2 : i < n.x.length := by omega
      have hget : n.x.get? i = some e := by
        rw [List.get?_eq_getElem?, List.getElem?_eq_getElem hi2]
        rw [List.getElem_take] at hie
        rw [hie]
      obtain ⟨n', hn', h0', hm', h1', hasc', hb⟩ := ih e.ch _ _ (hkids i e hget (by omega)) a hal
      refine ⟨n', hn', h0', hm', h1', hasc', fun k hk => ?_⟩
      obtain ⟨hlo, hhi⟩ := hb k hk
      constructor
      · intro l hl
        refine hlo l ?_
        unfold x.los
        split
        · exact hl
        · split
          · exact List.mem_cons_of_mem _ hl
          · exact hl
      · intro u hu
        refine hhi u ?_
        unfold x.his
        split
        · exact hu
        · exact List.mem_cons_of_mem _ hu

theorem mem_entries_intro {t : Tree K V} {l : List Nat} {a : Nat} {n : d K V} {e : de K V}
    (ha : a ∈ l) (hn : t.ds.get? a = some n) (he : e ∈ d.ents n) : e ∈ entries t l := by
  simp only [entries, List.mem_flatten, List.mem_map]
  exact ⟨d.ents n, ⟨a, ha, by rw [hn]⟩, he⟩

/-- The entries below a well-formed subtree keep its bounds. -/
theorem Sub.entries_bounds {t : Tree K V} {m : Int} {h : Nat} {q : Ref} {los his : List K}
    (hs : Sub t m h q los his) {e : de K V} (he : e ∈ entries t (leaves t (h + 1) q)) :
    geLo t.cmp los e.k ∧ ltHi t.cmp his e.k := by
  obtain ⟨a, ha, n, hn, hen⟩ := mem_entries he
  obtain ⟨n', hn', _, _, _, _, hb⟩ := Sub.leaf_bounds h q los his hs a ha
  rw [hn] at hn'
  cases hn'
  exact hb e.k (mem_keys_of_mem_ents hen)

theorem x_get {n : x K} {i : Nat} (hi : i < n.x.length) : n.x.get? i = some n.x[i] := by
  rw [List.get?_eq_getElem?, List.getElem?_eq_getElem hi]

theorem seps_get {n : x K} {i : Nat} {e : xe K} (he : n.x.get? i = some e)
    (hi : i < n.c.toNat) : (x.seps n).get? i = some e.k := by
  rw [List.get?_eq_getElem?] at he
  simp only [x.seps, List.get?_eq_getElem?, List.getElem?_map, List.getElem?_take, hi,
    if_true, he, Option.map_some']

theorem seps_length {n : x K} (hl : n.c.toNat ≤ n.x.length) : (x.seps n).length = n.c.toNat := by
  simp only [x.seps, List.length_map, List.length_take]; omega

/-- The child chosen by a descent step at an index page: `find` returns `(j, ok)` and the
descent continues in child `ci = j+1` if `ok`, else `ci = j`; the separators below `ci` are
not greater than `k` and those from `ci` on are greater. -/
theorem find_child (t : Tree K V) (st : StrictTotal t.cmp) {a : Nat} {n : x K}
    (hn : t.xs.get? a = some n) (h0 : 0 ≤ n.c) (hl : n.c.toNat + 1 ≤ n.x.length)
    (hasc : Asc t.cmp (x.seps n)) (k : K) :
    ∃ (j : Nat) (b : Bool) (ci : Nat), t.find (Ref.ofX a) k = Res.ok ((j : Int), b) ∧
      ci = (if b then j + 1 else j) ∧ ci ≤ n.c.toNat ∧
      (∀ (i : Nat) (s : K), (x.seps n).get? i = some s → i < ci → t.cmp s k ≤ 0) ∧
      (∀ (i : Nat) (s : K), (x.seps n).get? i = some s → ci ≤ i → t.cmp k s < 0) := by
  obtain ⟨j, b, hf, hj, ht, hff⟩ :=
    find_spec t st (Ref.ofX a) (x.seps n) (keysOf_X hn h0 (by omega)) hasc k
  rw [seps_length (by omega)] at hj
  cases b with
  | true =>
    obtain ⟨s, hs, hc⟩ := ht rfl
    have hjc : j < n.c.toNat := by
      rw [List.get?_eq_getElem?] at hs
      have := (List.getElem?_eq_some_iff.mp hs).1
      rw [seps_length (by omega)] at this
      exact this
    refine ⟨j, true, j + 1, hf, rfl, by omega, ?_, ?_⟩
    · intro i s' hs' hi
      by_cases e : i = j
      · subst e
        rw [hs] at hs'
        cases hs'
        have := (st.eq_iff k s).mp hc
        rw [this, st.refl]
      · exact Int.le_of_lt (by
          have := hasc.get_lt hs' hs (by omega)
          have e2 := (st.eq_iff k s).mp hc
          rw [e2]; exact this)
    · intro i s' hs' hi
      have := hasc.get_lt hs hs' (by omega)
      have e2 := (st.eq_iff k s).mp hc
      rw [e2]; exact this
  | false =>
    obtain ⟨h1, h2⟩ := hff rfl
    refine ⟨j, false, j, hf, rfl, hj, ?_, h2⟩
    intro i s hs hi
    exact Int.le_of_lt ((st.lt_gt s k).mpr (h1 i s hs hi))

theorem take_split {α : Type} (l : List α) (c ci : Nat) (e : α) (hci : ci ≤ c)
    (he : l.get? ci = some e) :
    l.take (c + 1) = l.take ci ++ e :: (l.take (c + 1)).drop (ci + 1) := by
  rw [List.get?_eq_getElem?] at he
  obtain ⟨hlt, hv⟩ := List.getElem?_eq_some_iff.mp he
  have h1 : (l.take (c + 1)).take ci = l.take ci := by
    rw [List.take_take]; congr 1; omega
  have h2 : (l.take (c + 1))[ci]? = some e := by
    rw [List.getElem?_take]; simp only [show ci < c + 1 by omega, if_true]; exact he
  have h3 := List.getElem?_eq_some_iff.mp h2
  obtain ⟨hlt2, hv2⟩ := h3
  conv_lhs => rw [← List.take_append_drop ci (l.take (c + 1))]
  rw [h1, List.drop_eq_getElem_cons hlt2, hv2]

theorem mem_take_get {α : Type} {l : List α} {ci : Nat} {e : α} (h : e ∈ l.take ci) :
    ∃ i, i < ci ∧ l.get? i = some e := by
  obtain ⟨i, hi, hie⟩ := List.mem_iff_getElem.mp h
  rw [List.length_take] at hi
  rw [List.getElem_take] at hie
  refine ⟨i, by omega, ?_⟩
  rw [List.get?_eq_getElem?, List.getElem?_eq_getElem (by omega), hie]

theorem mem_drop_take_get {α : Type} {l : List α} {c ci : Nat} {e : α}
    (h : e ∈ (l.take (c + 1)).drop (ci + 1)) :
    ∃ i, ci < i ∧ i ≤ c ∧ l.get? i = some e := by
  obtain ⟨i, hi, hie⟩ := List.mem_iff_getElem.mp h
  rw [List.length_drop, List.length_take] at hi
  rw [List.getElem_drop, List.getElem_take] at hie
  refine ⟨ci + 1 + i, by omega, by omega, ?_⟩
  rw [List.get?_eq_getElem?, List.getElem?_eq_getElem (by omega), hie]

theorem mem_entries_kids {t : Tree K V} {f : Nat} {P : List (xe K)} {e : de K V}
    (h : e ∈ entries t ((P.map (fun x => leaves t f x.ch)).flatten)) :
    ∃ x ∈ P, e ∈ entries t (leaves t f x.ch) := by
  obtain ⟨a, ha, n, hn, hen⟩ := mem_entries h
  simp only [List.mem_flatten, List.mem_map] at ha
  obtain ⟨l0, ⟨x, hx, rfl⟩, hal⟩ := ha
  exact ⟨x, hx, mem_entries_intro hal hn hen⟩

theorem xpages_X {t : Tree K V} (f : Nat) {a : Nat} {n : x K} (h : t.xs.get? a = some n) :
    xpages t (f + 1) (Ref.ofX a) =
      a :: ((n.x.take (n.c.toNat + 1)).map (fun e => xpages t f e.ch)).flatten := by
  simp only [xpages, h]

theorem xpages_child_le {t : Tree K V} (f : Nat) {a : Nat} {n : x K}
    (h : t.xs.get? a = some n) {i : Nat} {e : xe K} (he : n.x.get? i = some e)
    (hi : i ≤ n.c.toNat) :
    (xpages t f e.ch).length + 1 ≤ (xpages t (f + 1) (Ref.ofX a)).length := by
  rw [xpages_X f h, List.length_cons]
  have hmem : xpages t f e.ch ∈ (n.x.take (n.c.toNat + 1)).map (fun e => xpages t f e.ch) := by
    rw [List.mem_map]
    refine ⟨e, ?_, rfl⟩
    rw [List.get?_eq_getElem?] at he
    rw [List.mem_iff_getElem?]
    exact ⟨i, by rw [List.getElem?_take]; simp only [show i < n.c.toNat + 1 by omega, if_true]; exact he⟩
  have := (List.sublist_flatten_of_mem hmem).length_le
  omega

/-- The descent of `Seek` in a well-formed subtree ends on a data page `a` of the subtree, at
the index `j` that `find` gives for `k` in that page; the entries of the data pages left of
`a` are less than `k` and those of the pages right of `a` are greater. -/
theorem SeekLoop_spec (t : Tree K V) (st : StrictTotal t.cmp) (m : Int) (k : K) :
    ∀ (h : Nat) (q : Ref) (los his : List K) (fuel : Nat), Sub t m h q los his →
      (xpages t (h + 1) q).length + 1 ≤ fuel →
      ∃ (a : Nat) (n : d K V) (j : Nat) (b : Bool) (L1 L2 : List Nat),
        SeekLoop t k fuel q = Res.ok (⟨none, b, (j : Int), k, some a, t.ver⟩, b) ∧
        leaves t (h + 1) q = L1 ++ a :: L2 ∧ t.ds.get? a = some n ∧
        t.find (Ref.ofD a) k = Res.ok ((j : Int), b) ∧
        (∀ e ∈ entries t L1, t.cmp e.k k < 0) ∧ (∀ e ∈ entries t L2, t.cmp k e.k < 0) := by
  intro h
  induction h with
  | zero =>
    intro q los his fuel hs hf
    cases q with
    | nil => exact hs.elim
    | ofX _ => exact hs.elim
    | ofD a =>
      obtain ⟨n, hn, h0, hm, h1, hasc, hb⟩ := hs
      obtain ⟨j, b, hfind, _⟩ := find_spec t st (Ref.ofD a) (d.keys n) (keysOf_D hn h0 h1) hasc k
      obtain ⟨f, rfl⟩ : ∃ f, fuel = f + 1 := ⟨fuel - 1, by omega⟩
      refine ⟨a, n, j, b, [], [], ?_, rfl, hn, hfind, ?_, ?_⟩
      · simp only [SeekLoop, hfind, bind, Res.bind, pure]
      · intro e he; simp [entries] at he
      · intro e he; simp [entries] at he
  | succ h ih =>
    intro q los his fuel hs hf
    cases q with
    | nil => exact hs.elim
    | ofD a =>
      obtain ⟨n, hn, h0, hm, h1, hasc, hb⟩ := hs
      obtain ⟨j, b, hfind, _⟩ := find_spec t st (Ref.ofD a) (d.keys n) (keysOf_D hn h0 h1) hasc k
      obtain ⟨f, rfl⟩ : ∃ f, fuel = f + 1 := ⟨fuel - 1, by omega⟩
      refine ⟨a, n, j, b, [], [], ?_, rfl, hn, hfind, ?_, ?_⟩
      · simp only [SeekLoop, hfind, bind, Res.bind, pure]
      · intro e he; simp [entries] at he
      · intro e he; simp [entries] at he
    | ofX a =>
      obtain ⟨n, hn, h0, h1, hasc, hkids⟩ := hs
      obtain ⟨j, b, ci, hfind, hci, hcic, hlow, hupp⟩ := find_child t st hn h0 h1 hasc k
      obtain ⟨f, rfl⟩ : ∃ f, fuel = f + 1 := ⟨fuel - 1, by omega⟩
      have hcil : ci < n.x.length := by omega
      have hget : n.x.get? ci = some n.x[ci] := x_get hcil
      have hsub := hkids ci n.x[ci] hget hcic
      have hfuel : (xpages t (h + 1) (n.x[ci]).ch).length + 1 ≤ f := by
        have := xpages_child_le (h + 1) hn hget hcic
        omega
      obtain ⟨a', n', j', b', L1, L2, hseek, hleaves, hn', hfind', hL1, hL2⟩ :=
        ih (n.x[ci]).ch _ _ f hsub hfuel
      have hidx : t.xAt (some a) (ci : Int) = Res.ok n.x[ci] := by
        rw [xAt_of hn, idx_ok n.x ci _ hget]
      have hstep : SeekLoop t k (f + 1) (Ref.ofX a) = SeekLoop t k f (n.x[ci]).ch := by
        simp only [SeekLoop, hfind, bind, Res.bind]
        cases b with
        | true =>
          simp only [if_true] at hci ⊢
          have e1 : ((j : Int) + 1) = ((ci : Nat) : Int) := by rw [hci]; push_cast; rfl
          rw [e1, hidx]
        | false =>
          simp only [Bool.false_eq_true, if_false] at hci ⊢
          rw [← hci, hidx]
      refine ⟨a', n', j', b',
        ((n.x.take ci).map (fun e => leaves t (h + 1) e.ch)).flatten ++ L1,
        L2 ++ (((n.x.take (n.c.toNat + 1)).drop (ci + 1)).map
          (fun e => leaves t (h + 1) e.ch)).flatten, ?_, ?_, hn', hfind', ?_, ?_⟩
      · rw [hstep, hseek]
      · rw [leaves_X _ hn]
        conv_lhs => rw [take_split n.x n.c.toNat ci n.x[ci] hcic hget]
        simp only [List.map_append, List.map_cons, List.flatten_append, List.flatten_cons,
          hleaves, List.append_assoc, List.cons_append]
      · intro e he
        rw [entries_append, List.mem_append] at he
        rcases he with he | he
        · obtain ⟨x0, hx0, hex⟩ := mem_entries_kids he
          obtain ⟨i, hi, hxi⟩ := mem_take_get hx0
          have hb := (Sub.entries_bounds (hkids i x0 hxi (by omega)) hex).2
          have hsep := seps_get hxi (by omega)
          have h3 := hlow i x0.k hsep hi
          have h4 : t.cmp e.k x0.k < 0 := by
            refine hb x0.k ?_
            unfold x.his
            rw [if_neg (by omega)]
            exact List.mem_cons_self _ _
          exact st.lt_le h4 h3
        · exact hL1 e he
      · intro e he
        rw [entries_append, List.mem_append] at he
        rcases he with he | he
        · exact hL2 e he
        · obtain ⟨x0, hx0, hex⟩ := mem_entries_kids he
          obtain ⟨i, hi1, hi2, hxi⟩ := mem_drop_take_get hx0
          have hb := (Sub.entries_bounds (hkids i x0 hxi hi2) hex).1
          obtain ⟨ep, hprev⟩ : ∃ ep, n.x.get? (i - 1) = some ep :=
            ⟨_, x_get (show i - 1 < n.x.length by omega)⟩
          have hsep := seps_get hprev (by omega)
          have h3 := hupp (i - 1) _ hsep (by omega)
          have h4 : t.cmp ep.k e.k ≤ 0 := by
            refine hb _ ?_
            unfold x.los
            rw [if_neg (by omega), hprev]
            exact List.mem_cons_self _ _
          exact st.lt_le h3 h4

theorem d_get {n : d K V} {i : Nat} (hi : i < n.d.length) : n.d.get? i = some n.d[i] := by
  rw [List.get?_eq_getElem?, List.getElem?_eq_getElem hi]

/-- `Next` at index `j < c` of page `a`, the tree unchanged since the enumerator was made:
returns entry `j` and moves to index `j+1`, or to the next page when `j` was the last index. -/
theorem Next_at {t : Tree K V} {a : Nat} {n : d K V} (hn : t.ds.get? a = some n)
    {j : Nat} {e0 : de K V} (hj : (j : Int) < n.c) (he : n.d.get? j = some e0)
    (hit : Bool) (k0 : K) :
    Enumerator.Next t ⟨none, hit, (j : Int), k0, some a, t.ver⟩ =
      Res.ok (if (j : Int) < n.c - 1 then ⟨none, false, (j : Int) + 1, e0.k, some a, t.ver⟩
        else ⟨if n.n = none then some Err.EOF else none, false, 0, e0.k, n.n, t.ver⟩,
        e0.k, e0.v, none) := by
  have h1 : ¬ (n.c ≤ (j : Int)) := by omega
  simp only [Enumerator.Next, ne_eq, not_true_eq_false, if_false, bind, Res.bind, pure,
    reduceCtorEq, dC_of hn, h1, dAt_of hn, idx_ok n.d j e0 he, Enumerator.next, getD_of hn]
  by_cases h2 : (j : Int) < n.c - 1
  · simp only [h2, if_true]
  · simp only [h2, if_false]
    cases hnn : n.n with
    | none => simp only [if_true]
    | some a2 => simp only [reduceCtorEq, if_false]

/-- `Next` past the end of the last page returns `io.EOF`. -/
theorem Next_end {t : Tree K V} {a : Nat} {n : d K V} (hn : t.ds.get? a = some n)
    {j : Int} (hj : n.c ≤ j) (hnn : n.n = none) (hit : Bool) (k0 : K) :
    Enumerator.Next t ⟨none, hit, j, k0, some a, t.ver⟩ =
      Res.ok (⟨some Err.EOF, hit, 0, k0, none, t.ver⟩, default, default, some Err.EOF) := by
  have h2 : ¬ (j < n.c - 1) := by omega
  simp only [Enumerator.Next, ne_eq, not_true_eq_false, if_false, bind, Res.bind, pure,
    reduceCtorEq, dC_of hn, hj, if_true, Enumerator.next, getD_of hn, h2, hnn]

/-- `Next` past the end of a page that has a non-empty successor behaves as `Next` at index 0
of the successor. -/
theorem Next_skip {t : Tree K V} {a a2 : Nat} {n n2 : d K V} (hn : t.ds.get? a = some n)
    (hn2 : t.ds.get? a2 = some n2) {j : Int} (hj : n.c ≤ j) (hnn : n.n = some a2)
    (hc2 : 1 ≤ n2.c) (hit : Bool) (k0 : K) :
    Enumerator.Next t ⟨none, hit, j, k0, some a, t.ver⟩ =
      Enumerator.Next t ⟨none, hit, 0, k0, some a2, t.ver⟩ := by
  have h2 : ¬ (j < n.c - 1) := by omega
  have h3 : ¬ (n2.c ≤ 0) := by omega
  simp only [Enumerator.Next, ne_eq, not_true_eq_false, if_false, bind, Res.bind, pure,
    reduceCtorEq, dC_of hn, hj, if_true, Enumerator.next, getD_of hn, h2, hnn, dC_of hn2, h3]

/-- `Next` on an enumerator that has reported `io.EOF` by setting `err`. -/
theorem Next_err (t : Tree K V) (e : Enumerator K) (err : Err) (h : e.err = some err) :
    Enumerator.Next t e = Res.ok (e, default, default, some err) := by
  simp only [Enumerator.Next, h, pure]

theorem ents_length {n : d K V} (h1 : n.c.toNat ≤ n.d.length) : (d.ents n).length = n.c.toNat := by
  simp only [d.ents, List.length_take]; omega

theorem ents_drop {n : d K V} {j : Nat} {e0 : de K V} (hj : j < n.c.toNat)
    (he : n.d.get? j = some e0) : (d.ents n).drop j = e0 :: (d.ents n).drop (j + 1) := by
  rw [List.get?_eq_getElem?] at he
  obtain ⟨hlt, hv⟩ := List.getElem?_eq_some_iff.mp he
  have hl : j < (d.ents n).length := by simp only [d.ents, List.length_take]; omega
  rw [List.drop_eq_getElem_cons hl]
  congr 1
  simp only [d.ents, List.getElem_take, hv]

theorem ents_drop_all {n : d K V} {j : Nat} (hj : n.c.toNat ≤ j) : (d.ents n).drop j = [] := by
  apply List.drop_eq_nil_of_le
  simp only [d.ents, List.length_take]; omega

theorem nextAll_err (t : Tree K V) (e : Enumerator K) (err : Err) (h : e.err = some err)
    (fuel : Nat) : nextAll t (fuel + 1) e = Res.ok [] := by
  simp only [nextAll, Next_err t e err h, bind, Res.bind, pure]

/-- From an index `j < c` of the first page of a linked run of pages, with the tree unchanged,
`Next` returns the remaining entries of the page and then those of the following pages, and
then `io.EOF`. -/
theorem nextAll_lt (t : Tree K V) :
    ∀ (fuel : Nat) (l : List Nat) (a : Nat) (n : d K V) (j : Nat) (hit : Bool) (k0 : K),
      Seg t (a :: l) → t.ds.get? a = some n → (j : Int) < n.c →
      (n.c.toNat - j) + (entries t l).length + 1 ≤ fuel →
      nextAll t fuel ⟨none, hit, (j : Int), k0, some a, t.ver⟩ =
        Res.ok (((d.ents n).drop j ++ entries t l).map kv) := by
  intro fuel
  induction fuel with
  | zero => intro l a n j hit k0 _ _ _ hf; omega
  | succ f ih =>
    intro l a n j hit k0 hseg hn hj hf
    obtain ⟨n0, hn0, h0, h1, hnn, hnext, hrest⟩ := hseg
    rw [hn] at hn0
    cases hn0
    have hjl : j < n.d.length := by omega
    have he := d_get hjl
    have hdrop := ents_drop (n := n) (j := j) (by omega) he
    simp only [nextAll, Next_at hn hj he hit k0, bind, Res.bind, pure]
    by_cases h2 : (j : Int) < n.c - 1
    · simp only [h2, if_true]
      have e1 : ((j : Int) + 1) = ((j + 1 : Nat) : Int) := by push_cast; rfl
      rw [e1, ih l a n (j + 1) false _ ⟨n, hn, h0, h1, hnn, hnext, hrest⟩ hn (by omega) (by omega)]
      simp only [hdrop, List.cons_append, List.map_cons, kv]
    · simp only [h2, if_false]
      have hd2 : (d.ents n).drop (j + 1) = [] := ents_drop_all (by omega)
      cases l with
      | nil =>
        simp only [List.head?_nil] at hnn
        simp only [hnn, if_true]
        obtain ⟨f', rfl⟩ : ∃ f', f = f' + 1 := ⟨f - 1, by omega⟩
        rw [nextAll_err t _ Err.EOF rfl]
        simp only [hdrop, hd2, entries_nil, List.append_nil, List.map_cons, List.map_nil, kv]
      | cons a2 l2 =>
        simp only [List.head?_cons] at hnn
        obtain ⟨n2, hn2, hc2⟩ := hnext a2 (by simp)
        simp only [hnn, reduceCtorEq, if_false]
        have hseg2 := hrest
        have hents : entries t (a2 :: l2) = d.ents n2 ++ entries t l2 := entries_cons hn2 l2
        obtain ⟨n2', hn2', h0', h1', _⟩ := hrest
        rw [hn2] at hn2'
        cases hn2'
        have hlen : (entries t (a2 :: l2)).length = n2.c.toNat + (entries t l2).length := by
          rw [hents, List.length_append, ents_length h1']
        have := ih l2 a2 n2 0 false (n.d[j]).k hseg2 hn2 (by simpa using hc2) (by omega)
        simp only [Nat.cast_zero] at this
        rw [this]
        simp only [hdrop, hd2, hents, List.drop_zero, List.cons_append, List.nil_append,
          List.map_cons, kv]

/-- As `nextAll_lt`, from any index `j <= c` (the position that `Seek` may give). -/
theorem nextAll_le (t : Tree K V) (l : List Nat) (a : Nat) (n : d K V) (j : Nat) (hit : Bool)
    (k0 : K) (hseg : Seg t (a :: l)) (hn : t.ds.get? a = some n) (hj : (j : Int) ≤ n.c)
    (fuel : Nat) (hf : (n.c.toNat - j) + (entries t l).length + 1 ≤ fuel) :
    nextAll t fuel ⟨none, hit, (j : Int), k0, some a, t.ver⟩ =
      Res.ok (((d.ents n).drop j ++ entries t l).map kv) := by
  by_cases hlt : (j : Int) < n.c
  · exact nextAll_lt t fuel l a n j hit k0 hseg hn hlt hf
  · have hjc : n.c ≤ (j : Int) := by omega
    obtain ⟨n0, hn0, h0, h1, hnn, hnext, hrest⟩ := hseg
    rw [hn] at hn0
    cases hn0
    have hd : (d.ents n).drop j = [] := ents_drop_all (by omega)
    obtain ⟨f, rfl⟩ : ∃ f, fuel = f + 1 := ⟨fuel - 1, by omega⟩
    cases l with
    | nil =>
      simp only [List.head?_nil] at hnn
      simp only [nextAll, Next_end hn hjc hnn hit k0, bind, Res.bind, pure, hd, entries_nil,
        List.append_nil, List.map_nil]
    | cons a2 l2 =>
      simp only [List.head?_cons] at hnn
      obtain ⟨n2, hn2, hc2⟩ := hnext a2 (by simp)
      have hents : entries t (a2 :: l2) = d.ents n2 ++ entries t l2 := entries_cons hn2 l2
      have hseg2 := hrest
      obtain ⟨n2', hn2', h0', h1', _⟩ := hrest
      rw [hn2] at hn2'
      cases hn2'
      have hlen : (entries t (a2 :: l2)).length = n2.c.toNat + (entries t l2).length := by
        rw [hents, List.length_append, ents_length h1']
      have := nextAll_lt t (f + 1) l2 a2 n2 0 hit k0 hseg2 hn2 (by simpa using hc2) (by omega)
      simp only [Nat.cast_zero] at this
      have hstep : nextAll t (f + 1) ⟨none, hit, (j : Int), k0, some a, t.ver⟩ =
          nextAll t (f + 1) ⟨none, hit, 0, k0, some a2, t.ver⟩ := by
        simp only [nextAll, Next_skip hn hn2 hjc hnn hc2 hit k0]
      rw [hstep, this]
      simp only [hd, hents, List.drop_zero, List.nil_append]

/-- A suffix of a list of pages linked by `n` is a linked run. -/
theorem seg_of_links (t : Tree K V) :
    ∀ (l L1 : List Nat),
      (∀ (i : Nat) (a : Nat), (L1 ++ l).get? i = some a →
        ∃ n, t.ds.get? a = some n ∧ n.n = (L1 ++ l).get? (i + 1)) →
      (∀ a ∈ l, ∃ n, t.ds.get? a = some n ∧ 0 ≤ n.c ∧ n.c.toNat ≤ n.d.length) →
      (∀ a ∈ l.tail, ∃ n, t.ds.get? a = some n ∧ 1 ≤ n.c) → Seg t l := by
  intro l
  induction l with
  | nil => intro _ _ _ _; trivial
  | cons a l ih =>
    intro L1 hlink hvalid hne
    obtain ⟨n, hn, h0, h1⟩ := hvalid a (List.mem_cons_self _ _)
    obtain ⟨n', hn', hnn⟩ := hlink L1.length a (by
      rw [List.get?_eq_getElem?, List.getElem?_append_right (le_refl _)]
      simp)
    rw [hn] at hn'
    cases hn'
    refine ⟨n, hn, h0, h1, ?_, ?_, ?_⟩
    · rw [hnn, List.get?_eq_getElem?, List.getElem?_append_right (by omega)]
      simp only [Nat.add_sub_cancel_left, List.getElem?_cons_succ,
        show L1.length + 1 - L1.length = 1 by omega]
      cases l <;> simp
    · intro a2 ha2
      refine hne a2 ?_
      cases l with
      | nil => simp at ha2
      | cons b l2 =>
        simp only [List.head?_cons, Option.mem_def, Option.some.injEq] at ha2
        subst ha2
        simp
    · refine ih (L1 ++ [a]) ?_ (fun b hb => hvalid b (List.mem_cons_of_mem _ hb)) ?_
      · intro i b hib
        have e : L1 ++ [a] ++ l = L1 ++ a :: l := by simp
        rw [e] at hib ⊢
        exact hlink i b hib
      · intro b hb
        exact hne b (List.mem_of_mem_tail hb)

theorem Sub.xpages_lt {t : Tree K V} {m : Int} :
    ∀ (h : Nat) (q : Ref) (los his : List K), Sub t m h q los his →
      ∀ a ∈ xpages t (h + 1) q, a < t.xs.length := by
  intro h
  induction h with
  | zero =>
    intro q los his hs a ha
    cases q with
    | nil => exact hs.elim
    | ofX _ => exact hs.elim
    | ofD a' => simp [xpages] at ha
  | succ h ih =>
    intro q los his hs a ha
    cases q with
    | nil => exact hs.elim
    | ofD a' => simp [xpages] at ha
    | ofX a' =>
      obtain ⟨n, hn, h0, h1, hasc, hkids⟩ := hs
      rw [xpages_X _ hn] at ha
      rcases List.mem_cons.mp ha with ha | ha
      · subst ha
        rw [List.get?_eq_getElem?] at hn
        exact (List.getElem?_eq_some_iff.mp hn).1
      · simp only [List.mem_flatten, List.mem_map] at ha
        obtain ⟨l0, ⟨e, he, rfl⟩, hal⟩ := ha
        obtain ⟨i, hi, hie⟩ := List.mem_iff_getElem.mp he
        rw [List.length_take] at hi
        rw [List.getElem_take] at hie
        have hget : n.x.get? i = some e := by
          rw [List.get?_eq_getElem?, List.getElem?_eq_getElem (by omega), hie]
        exact ih e.ch _ _ (hkids i e hget (by omega)) a hal

theorem nodup_length_le {l : List Nat} {N : Nat} (hn : l.Nodup) (hl : ∀ a ∈ l, a < N) :
    l.length ≤ N := by
  have h1 : l.toFinset.card = l.length := List.toFinset_card_of_nodup hn
  have h2 : l.toFinset ⊆ Finset.range N := by
    intro a ha
    rw [List.mem_toFinset] at ha
    exact Finset.mem_range.mpr (hl a ha)
  have h3 := Finset.card_le_card h2
  rw [Finset.card_range] at h3
  omega

theorem ents_asc {t : Tree K V} {n : d K V} (h : Asc t.cmp (d.keys n)) :
    (d.ents n).Pairwise (fun x y => t.cmp x.k y.k < 0) := by
  unfold Asc d.keys at h
  rw [List.pairwise_map] at h
  exact h

/-- The entries below a well-formed subtree are strictly ascending. -/
theorem Sub.entries_asc {t : Tree K V} (st : StrictTotal t.cmp) {m : Int} :
    ∀ (h : Nat) (q : Ref) (los his : List K), Sub t m h q los his →
      (entries t (leaves t (h + 1) q)).Pairwise (fun x y => t.cmp x.k y.k < 0) := by
  intro h
  induction h with
  | zero =>
    intro q los his hs
    cases q with
    | nil => exact hs.elim
    | ofX _ => exact hs.elim
    | ofD a =>
      obtain ⟨n, hn, h0, hm, h1, hasc, hb⟩ := hs
      rw [leaves_D, entries_cons hn, entries_nil, List.append_nil]
      exact ents_asc hasc
  | succ h ih =>
    intro q los his hs
    cases q with
    | nil => exact hs.elim
    | ofD a =>
      obtain ⟨n, hn, h0, hm, h1, hasc, hb⟩ := hs
      rw [leaves_D, entries_cons hn, entries_nil, List.append_nil]
      exact ents_asc hasc
    | ofX a =>
      have hs0 := hs
      obtain ⟨n, hn, h0, h1, hasc, hkids⟩ := hs
      rw [leaves_X _ hn]
      have hflat : entries t ((n.x.take (n.c.toNat + 1)).map
          (fun e => leaves t (h + 1) e.ch)).flatten =
          ((n.x.take (n.c.toNat + 1)).map (fun e => entries t (leaves t (h + 1) e.ch))).flatten := by
        generalize n.x.take (n.c.toNat + 1) = P
        induction P with
        | nil => rfl
        | cons p P ihP =>
          simp only [List.map_cons, List.flatten_cons, entries_append, ihP]
      rw [hflat, List.pairwise_flatten]
      constructor
      · intro l hl
        rw [List.mem_map] at hl
        obtain ⟨e, he, rfl⟩ := hl
        obtain ⟨i, hi, hie⟩ := List.mem_iff_getElem.mp he
        rw [List.length_take] at hi
        rw [List.getElem_take] at hie
        have hget : n.x.get? i = some e := by
          rw [List.get?_eq_getElem?, List.getElem?_eq_getElem (by omega), hie]
        exact ih e.ch _ _ (hkids i e hget (by omega))
      · rw [List.pairwise_map, List.pairwise_iff_getElem]
        intro i j hi hj hij ex hx ey hy
        rw [List.length_take] at hi hj
        rw [List.getElem_take] at hx hy
        have hgi : n.x.get? i = some n.x[i] := x_get (by omega)
        have hgj : n.x.get? j = some n.x[j] := x_get (by omega)
        obtain ⟨ep, hprev⟩ : ∃ ep, n.x.get? (j - 1) = some ep :=
          ⟨_, x_get (show j - 1 < n.x.length by omega)⟩
        have hbx := (Sub.entries_bounds (hkids i _ hgi (by omega)) hx).2
        have hby := (Sub.entries_bounds (hkids j _ hgj (by omega)) hy).1
        have h4 : t.cmp ex.k (n.x[i]).k < 0 := by
          refine hbx _ ?_
          unfold x.his
          rw [if_neg (by omega)]
          exact List.mem_cons_self _ _
        have h5 : t.cmp ep.k ey.k ≤ 0 := by
          refine hby _ ?_
          unfold x.los
          rw [if_neg (by omega), hprev]
          exact List.mem_cons_self _ _
        have h6 : t.cmp (n.x[i]).k ep.k ≤ 0 := by
          by_cases e : i = j - 1
          · subst e
            rw [hgi] at hprev
            cases hprev
            rw [st.refl]
          · exact Int.le_of_lt (hasc.get_lt (seps_get hgi (by omega)) (seps_get hprev (by omega))
              (by omega))
        exact st.lt_le h4 (st.le_le h6 h5)

theorem ents_get_keys {n : d K V} {m : Nat} {e : de K V} (h : (d.ents n).get? m = some e) :
    (d.keys n).get? m = some e.k := by
  rw [List.get?_eq_getElem?] at h
  simp only [d.keys, List.get?_eq_getElem?, List.getElem?_map]
  simp only [d.ents] at h
  rw [h]
  rfl

/-- The index returned by `find` in a data page splits its entries: those below the index are
less than `k`, those from the index on are not less; the flag tells whether entry `j` has the
key `k`. -/
theorem find_split (t : Tree K V) (st : StrictTotal t.cmp) {a : Nat} {n : d K V}
    (hn : t.ds.get? a = some n) (h0 : 0 ≤ n.c) (h1 : n.c.toNat ≤ n.d.length)
    (hasc : Asc t.cmp (d.keys n)) (k : K) {j : Nat} {b : Bool}
    (hf : t.find (Ref.ofD a) k = Res.ok ((j : Int), b)) :
    (j : Int) ≤ n.c ∧ (∀ e ∈ (d.ents n).take j, t.cmp e.k k < 0) ∧
      (b = true → ∃ e, (d.ents n).get? j = some e ∧ e.k = k) ∧
      (b = false → ∀ e ∈ (d.ents n).drop j, t.cmp k e.k < 0) ∧
      (∀ e ∈ (d.ents n).drop (j + 1), t.cmp k e.k < 0) := by
  obtain ⟨j2, b2, hf2, hj2, ht, hff⟩ := find_spec t st _ _ (keysOf_D hn h0 h1) hasc k
  rw [hf] at hf2
  injection hf2 with hf2
  injection hf2 with hj hb
  have hj : j = j2 := by omega
  subst hj
  subst hb
  have hlen : (d.keys n).length = n.c.toNat := by
    simp only [d.keys, List.length_map, List.length_take]; omega
  have hel : (d.ents n).length = n.c.toNat := ents_length h1
  refine ⟨by omega, ?_, ?_, ?_, ?_⟩
  · intro e he
    obtain ⟨i, hi, hie⟩ := mem_take_get he
    have hk := ents_get_keys hie
    cases hb : b with
    | false => exact (st.lt_gt _ _).mpr ((hff hb).1 i _ hk hi)
    | true =>
      obtain ⟨a0, ha0, hc⟩ := ht hb
      have := hasc.get_lt hk ha0 hi
      rw [(st.eq_iff _ _).mp hc]
      exact this
  · intro hb
    obtain ⟨a0, ha0, hc⟩ := ht hb
    have hjl : j < (d.ents n).length := by
      rw [List.get?_eq_getElem?] at ha0
      have := (List.getElem?_eq_some_iff.mp ha0).1
      omega
    refine ⟨(d.ents n)[j], by rw [List.get?_eq_getElem?, List.getElem?_eq_getElem hjl], ?_⟩
    have hk := ents_get_keys (show (d.ents n).get? j = some (d.ents n)[j] by
      rw [List.get?_eq_getElem?, List.getElem?_eq_getElem hjl])
    rw [ha0] at hk
    cases hk
    exact ((st.eq_iff _ _).mp hc).symm
  · intro hb e he
    obtain ⟨i, hi, hie⟩ := List.mem_iff_getElem.mp he
    rw [List.length_drop] at hi
    rw [List.getElem_drop] at hie
    have hk := ents_get_keys (show (d.ents n).get? (j + i) = some e by
      rw [List.get?_eq_getElem?, List.getElem?_eq_getElem (by omega), hie])
    exact (hff hb).2 (j + i) _ hk (by omega)
  · intro e he
    obtain ⟨i, hi, hie⟩ := List.mem_iff_getElem.mp he
    rw [List.length_drop] at hi
    rw [List.getElem_drop] at hie
    have hk := ents_get_keys (show (d.ents n).get? (j + 1 + i) = some e by
      rw [List.get?_eq_getElem?, List.getElem?_eq_getElem (by omega), hie])
    cases hb : b with
    | false => exact (hff hb).2 (j + 1 + i) _ hk (by omega)
    | true =>
      obtain ⟨a0, ha0, hc⟩ := ht hb
      have := hasc.get_lt ha0 hk (show j < j + 1 + i by omega)
      rw [(st.eq_iff _ _).mp hc]
      exact this

/-- The position `Seek(k)` returns in a well-formed tree with a root: a data page `a` of the
leaves and an index `j` in it, all entries before the position being less than `k` and all
entries from it on not less. -/
theorem Seek_pos (t : Tree K V) (st : StrictTotal t.cmp) (m : Int) (h : Nat)
    (hs : Sub t m h t.r [] []) (hx : (xpages t (h + 1) t.r).Nodup) (k : K) :
    ∃ (a : Nat) (n : d K V) (j : Nat) (b : Bool) (L1 L2 : List Nat),
      t.Seek k = Res.ok (⟨none, b, (j : Int), k, some a, t.ver⟩, b) ∧
      leaves t (h + 1) t.r = L1 ++ a :: L2 ∧ t.ds.get? a = some n ∧
      0 ≤ n.c ∧ n.c.toNat ≤ n.d.length ∧ (j : Int) ≤ n.c ∧
      (∀ e ∈ entries t L1 ++ (d.ents n).take j, t.cmp e.k k < 0) ∧
      (b = true → ∃ e, (d.ents n).get? j = some e ∧ e.k = k) ∧
      (b = false → ∀ e ∈ (d.ents n).drop j ++ entries t L2, t.cmp k e.k < 0) ∧
      (∀ e ∈ (d.ents n).drop (j + 1) ++ entries t L2, t.cmp k e.k < 0) := by
  have hr : t.r ≠ Ref.nil := by
    intro hr
    rw [hr] at hs
    cases h <;> exact hs.elim
  have hfuel : (xpages t (h + 1) t.r).length + 1 ≤ t.xs.length + 1 := by
    have := nodup_length_le hx (Sub.xpages_lt h t.r [] [] hs)
    omega
  obtain ⟨a, n, j, b, L1, L2, hseek, hl, hn, hf, hL1, hL2⟩ :=
    SeekLoop_spec t st m k h t.r [] [] _ hs hfuel
  have ha : a ∈ leaves t (h + 1) t.r := by rw [hl]; simp
  obtain ⟨n2, hn2, h0, _, h1, hasc, _⟩ := Sub.leaf_bounds h t.r [] [] hs a ha
  rw [hn] at hn2
  cases hn2
  obtain ⟨hj, hlt, hbt, hbf, hgt⟩ := find_split t st hn h0 h1 hasc k hf
  refine ⟨a, n, j, b, L1, L2, ?_, hl, hn, h0, h1, hj, ?_, hbt, ?_, ?_⟩
  · simp only [Tree.Seek, hr, if_false]
    exact hseek
  · intro e he
    rcases List.mem_append.mp he with he | he
    · exact hL1 e he
    · exact hlt e he
  · intro hb e he
    rcases List.mem_append.mp he with he | he
    · exact hbf hb e he
    · exact hL2 e he
  · intro e he
    rcases List.mem_append.mp he with he | he
    · exact hgt e he
    · exact hL2 e he

/-- From the position of `Seek(k)` on, no key is less than `k`. -/
theorem drop_ge {cmp : K → K → Int} (st : StrictTotal cmp) {l : List (de K V)} {r : List (de K V)}
    {j : Nat} {b : Bool} {k : K}
    (hbt : b = true → ∃ e, l.get? j = some e ∧ e.k = k)
    (hbf : b = false → ∀ e ∈ l.drop j ++ r, cmp k e.k < 0)
    (hgt : ∀ e ∈ l.drop (j + 1) ++ r, cmp k e.k < 0) :
    ∀ e ∈ l.drop j ++ r, cmp k e.k ≤ 0 := by
  intro e he
  cases hb : b with
  | false => exact Int.le_of_lt (hbf hb e he)
  | true =>
    obtain ⟨e0, he0, hk⟩ := hbt hb
    rw [List.get?_eq_getElem?] at he0
    obtain ⟨hlt, hv⟩ := List.getElem?_eq_some_iff.mp he0
    rw [List.drop_eq_getElem_cons hlt, hv, List.cons_append, List.mem_cons] at he
    rcases he with he | he
    · rw [he, hk, st.refl]
    · exact Int.le_of_lt (hgt e he)

theorem filter_split {α : Type} (p : α → Bool) (l1 l2 : List α) (h1 : ∀ e ∈ l1, p e = false)
    (h2 : ∀ e ∈ l2, p e = true) : (l1 ++ l2).filter p = l2 := by
  rw [List.filter_append, List.filter_eq_nil_iff.mpr (fun e he => by simp [h1 e he]),
    List.filter_eq_self.mpr h2, List.nil_append]

/-- The data pages from the one `Seek` stops at to the last one form a linked run. -/
theorem WF.seg {t : Tree K V} {h : Nat} (hs : Sub t (minOf t.r 1) h t.r [] [])
    (hc : Chain t (leaves t (h + 1) t.r)) {L1 L2 : List Nat} {a : Nat}
    (hl : leaves t (h + 1) t.r = L1 ++ a :: L2) : Seg t (a :: L2) := by
  obtain ⟨_, _, _, hlinks⟩ := hc
  rw [hl] at hlinks
  refine seg_of_links t (a :: L2) L1 ?_ ?_ ?_
  · intro i a0 hi
    obtain ⟨n, hn, hnn, _⟩ := hlinks i a0 hi
    exact ⟨n, hn, hnn⟩
  · intro a0 ha0
    have hm : a0 ∈ leaves t (h + 1) t.r := by
      rw [hl]; exact List.mem_append_right _ ha0
    obtain ⟨n, hn, h0, _, h1, _⟩ := Sub.leaf_bounds h t.r [] [] hs a0 hm
    exact ⟨n, hn, h0, h1⟩
  · intro a0 ha0
    simp only [List.tail_cons] at ha0
    have hm : a0 ∈ leaves t (h + 1) t.r := by
      rw [hl]; exact List.mem_append_right _ (List.mem_cons_of_mem _ ha0)
    obtain ⟨n, hn, _, hmin, _⟩ := Sub.leaf_bounds h t.r [] [] hs a0 hm
    refine ⟨n, hn, ?_⟩
    cases hr : t.r with
    | nil => rw [hr] at hs; cases h <;> exact hs.elim
    | ofD a1 =>
      rw [hr, leaves_D] at hl
      have hlen := congrArg List.length hl
      simp only [List.length_cons, List.length_nil, List.length_append] at hlen
      have : L2 = [] := List.eq_nil_of_length_eq_zero (by omega)
      rw [this] at ha0
      cases ha0
    | ofX a1 =>
      rw [hr] at hmin
      exact hmin

/-- C9 (amended): in a well-formed tree whose data pages below an index page are not empty
(keys strictly ascending within and across data pages, each separator greater than all keys on
its left and not greater than any key on its right, the leaf chain being the data pages in
order), `Seek(k)` returns, its flag is true exactly when `k` is stored, the entries of the
tree are strictly ascending, and with the tree unchanged the successive `Next` calls return
exactly the entries whose key is not less than `k`, in this order, and then an error. -/
theorem C9_Seek_then_Next_returns_entries_from_k (t : Tree K V) (h : Nat)
    (st : StrictTotal t.cmp) (hw : WF t 1 h) (k : K) :
    ∃ (e : Enumerator K) (b : Bool), t.Seek k = Res.ok (e, b) ∧
      (b = true ↔ ∃ x ∈ t.entries h, t.cmp k x.k = 0) ∧
      (t.entries h).Pairwise (fun x y => t.cmp x.k y.k < 0) ∧
      ∃ N, ∀ fuel, N ≤ fuel → nextAll t fuel e =
        Res.ok (((t.entries h).filter (fun x => decide (t.cmp k x.k ≤ 0))).map kv) := by
  rcases hw with ⟨hr, hfirst, hlast⟩ | ⟨hs, hx, hc⟩
  · have hent : t.entries h = [] := by
      simp only [Tree.entries, hr, leaves, entries, List.map_nil, List.flatten_nil]
    refine ⟨⟨none, false, 0, k, none, t.ver⟩, false, ?_, ?_, ?_, 1, ?_⟩
    · simp only [Tree.Seek, hr, if_true, pure]
    · rw [hent]; simp
    · rw [hent]; exact List.Pairwise.nil
    · intro fuel hfuel
      obtain ⟨f, rfl⟩ : ∃ f, fuel = f + 1 := ⟨fuel - 1, by omega⟩
      rw [hent]
      simp only [nextAll, Enumerator.Next, ne_eq, not_true_eq_false, if_false, bind, Res.bind,
        pure, if_true, List.filter_nil, List.map_nil]
  · obtain ⟨a, n, j, b, L1, L2, hseek, hl, hn, h0, h1, hj, hlt, hbt, hbf, hgt⟩ :=
      Seek_pos t st _ h hs hx k
    have hge := drop_ge st hbt hbf hgt
    have hent : t.entries h =
        (entries t L1 ++ (d.ents n).take j) ++ ((d.ents n).drop j ++ entries t L2) := by
      simp only [Tree.entries]
      rw [hl, entries_append, entries_cons hn, List.append_assoc]
      congr 1
      rw [← List.append_assoc, List.take_append_drop]
    refine ⟨_, b, hseek, ?_, Sub.entries_asc st h t.r [] [] hs, ?_⟩
    · constructor
      · intro hb
        obtain ⟨e, he, hk⟩ := hbt hb
        refine ⟨e, ?_, ?_⟩
        · rw [hent]
          refine List.mem_append_right _ (List.mem_append_left _ ?_)
          rw [List.get?_eq_getElem?] at he
          obtain ⟨hlt2, hv⟩ := List.getElem?_eq_some_iff.mp he
          rw [List.drop_eq_getElem_cons hlt2, hv]
          exact List.mem_cons_self _ _
        · rw [hk, st.refl]
      · rintro ⟨e, he, hk⟩
        cases hb : b with
        | true => rfl
        | false =>
          exfalso
          rw [hent] at he
          rcases List.mem_append.mp he with he | he
          · have := hlt e he
            rw [(st.eq_iff _ _).mp hk, st.refl] at this
            omega
          · have := hbf hb e he
            omega
    · refine ⟨(n.c.toNat - j) + (entries t L2).length + 1, ?_⟩
      intro fuel hfuel
      rw [nextAll_le t L2 a n j b k (WF.seg hs hc hl) hn hj fuel hfuel, hent]
      congr 2
      symm
      apply filter_split
      · intro e he
        have := (st.lt_gt _ _).mp (hlt e he)
        simp only [decide_eq_false_iff_not, not_le]
        exact this
      · intro e he
        simp only [decide_eq_true_eq]
        exact hge e he

/-- `Prev` at an index `0 < j < c` of page `a`, the tree unchanged since the enumerator was
made: returns entry `j` and moves to index `j-1`. -/
theorem Prev_in {t : Tree K V} {a : Nat} {n : d K V} (hn : t.ds.get? a = some n)
    {j : Nat} {e0 : de K V} (hj : (j : Int) < n.c) (hj0 : 0 < j) (he : n.d.get? j = some e0)
    (hit : Bool) (k0 : K) :
    Enumerator.Prev t ⟨none, hit, (j : Int), k0, some a, t.ver⟩ =
      Res.ok (⟨none, false, (j : Int) - 1, e0.k, some a, t.ver⟩, e0.k, e0.v, none) := by
  have h1 : ¬ (n.c ≤ (j : Int)) := by omega
  have h2 : (0 : Int) < (j : Int) := by omega
  simp only [Enumerator.Prev, ne_eq, not_true_eq_false, if_false, bind, Res.bind, pure,
    reduceCtorEq, dC_of hn, h1, dAt_of hn, idx_ok n.d j e0 he, Enumerator.prev, h2, if_true]

/-- `Prev` at index 0 of the first page: returns entry 0 and sets `io.EOF`. -/
theorem Prev_first {t : Tree K V} {a : Nat} {n : d K V} (hn : t.ds.get? a = some n)
    {e0 : de K V} (hc : 0 < n.c) (he : n.d.get? 0 = some e0) (hp : n.p = none)
    (hit : Bool) (k0 : K) :
    Enumerator.Prev t ⟨none, hit, 0, k0, some a, t.ver⟩ =
      Res.ok (⟨some Err.EOF, false, 0, e0.k, none, t.ver⟩, e0.k, e0.v, none) := by
  have h1 : ¬ (n.c ≤ 0) := by omega
  have h3 := idx_ok n.d 0 e0 he
  simp only [Nat.cast_zero] at h3
  simp only [Enumerator.Prev, ne_eq, not_true_eq_false, if_false, bind, Res.bind, pure,
    reduceCtorEq, dC_of hn, h1, dAt_of hn, h3, Enumerator.prev, lt_self_iff_false,
    getD_of hn, hp, if_true]

/-- `Prev` at index 0 of a page with a predecessor: returns entry 0 and moves to the last
index of the predecessor. -/
theorem Prev_back {t : Tree K V} {a a2 : Nat} {n n2 : d K V} (hn : t.ds.get? a = some n)
    (hn2 : t.ds.get? a2 = some n2) {e0 : de K V} (hc : 0 < n.c) (he : n.d.get? 0 = some e0)
    (hp : n.p = some a2) (hit : Bool) (k0 : K) :
    Enumerator.Prev t ⟨none, hit, 0, k0, some a, t.ver⟩ =
      Res.ok (⟨none, false, n2.c - 1, e0.k, some a2, t.ver⟩, e0.k, e0.v, none) := by
  have h1 : ¬ (n.c ≤ 0) := by omega
  have h3 := idx_ok n.d 0 e0 he
  simp only [Nat.cast_zero] at h3
  simp only [Enumerator.Prev, ne_eq, not_true_eq_false, if_false, bind, Res.bind, pure,
    reduceCtorEq, dC_of hn, h1, dAt_of hn, h3, Enumerator.prev, lt_self_iff_false,
    getD_of hn, hp, dC_of hn2]

/-- `Prev` past the end of the last page returns `io.EOF`. -/
theorem Prev_end {t : Tree K V} {a : Nat} {n : d K V} (hn : t.ds.get? a = some n)
    {j : Int} (hj : n.c ≤ j) (hnn : n.n = none) (hit : Bool) (k0 : K) :
    Enumerator.Prev t ⟨none, hit, j, k0, some a, t.ver⟩ =
      Res.ok (⟨some Err.EOF, hit, 0, k0, none, t.ver⟩, default, default, some Err.EOF) := by
  have h2 : ¬ (j < n.c - 1) := by omega
  simp only [Enumerator.Prev, ne_eq, not_true_eq_false, if_false, bind, Res.bind, pure,
    reduceCtorEq, dC_of hn, hj, if_true, Enumerator.next, getD_of hn, h2, hnn]

/-- `Prev` past the end of a page that has a non-empty successor behaves as `Prev` at index 0
of the successor. -/
theorem Prev_skip {t : Tree K V} {a a2 : Nat} {n n2 : d K V} (hn : t.ds.get? a = some n)
    (hn2 : t.ds.get? a2 = some n2) {j : Int} (hj : n.c ≤ j) (hnn : n.n = some a2)
    (hc2 : 1 ≤ n2.c) (hit : Bool) (k0 : K) :
    Enumerator.Prev t ⟨none, hit, j, k0, some a, t.ver⟩ =
      Enumerator.Prev t ⟨none, hit, 0, k0, some a2, t.ver⟩ := by
  have h2 : ¬ (j < n.c - 1) := by omega
  have h3 : ¬ (n2.c ≤ 0) := by omega
  simp only [Enumerator.Prev, ne_eq, not_true_eq_false, if_false, bind, Res.bind, pure,
    reduceCtorEq, dC_of hn, hj, if_true, Enumerator.next, getD_of hn, h2, hnn, dC_of hn2, h3]

theorem Prev_err (t : Tree K V) (e : Enumerator K) (err : Err) (h : e.err = some err) :
    Enumerator.Prev t e = Res.ok (e, default, default, some err) := by
  simp only [Enumerator.Prev, h, pure]

theorem prevAll_err (t : Tree K V) (e : Enumerator K) (err : Err) (h : e.err = some err)
    (fuel : Nat) : prevAll t (fuel + 1) e = Res.ok [] := by
  simp only [prevAll, Prev_err t e err h, bind, Res.bind, pure]

theorem ents_take_succ {n : d K V} {j : Nat} {e0 : de K V} (hj : j < n.c.toNat)
    (he : n.d.get? j = some e0) : (d.ents n).take (j + 1) = (d.ents n).take j ++ [e0] := by
  rw [List.get?_eq_getElem?] at he
  obtain ⟨hlt, hv⟩ := List.getElem?_eq_some_iff.mp he
  have hl : j < (d.ents n).length := by simp only [d.ents, List.length_take]; omega
  rw [List.take_succ, List.getElem?_eq_getElem hl]
  simp only [d.ents, List.getElem_take, hv, Option.toList]

/-- From an index `j < c` of the first page of a run of pages linked by `p`, with the tree
unchanged, `Prev` returns the entries of the page from `j` down and then those of the
preceding pages, and then `io.EOF`. -/
theorem prevAll_at (t : Tree K V) :
    ∀ (fuel : Nat) (l : List Nat) (a : Nat) (n : d K V) (j : Nat) (hit : Bool) (k0 : K),
      SegP t (a :: l) → t.ds.get? a = some n → (j : Int) < n.c →
      (j + 1) + (entries t l.reverse).length + 1 ≤ fuel →
      prevAll t fuel ⟨none, hit, (j : Int), k0, some a, t.ver⟩ =
        Res.ok ((entries t l.reverse ++ (d.ents n).take (j + 1)).reverse.map kv) := by
  intro fuel
  induction fuel with
  | zero => intro l a n j hit k0 _ _ _ hf; omega
  | succ f ih =>
    intro l a n j hit k0 hseg hn hj hf
    obtain ⟨n0, hn0, h0, h1, hpp, hprev, hrest⟩ := hseg
    rw [hn] at hn0
    cases hn0
    have hjl : j < n.d.length := by omega
    have he := d_get hjl
    have htake := ents_take_succ (n := n) (j := j) (by omega) he
    rcases Nat.eq_zero_or_pos j with hj0 | hj0
    · subst hj0
      simp only [Nat.cast_zero] at hj ⊢
      have ht0 : (d.ents n).take 0 = [] := rfl
      cases l with
      | nil =>
        simp only [List.head?_nil] at hpp
        simp only [prevAll, Prev_first hn hj he hpp hit k0, bind, Res.bind, pure]
        obtain ⟨f', rfl⟩ : ∃ f', f = f' + 1 := ⟨f - 1, by omega⟩
        rw [prevAll_err t _ Err.EOF rfl]
        simp only [htake, ht0, List.reverse_nil, entries_nil, List.nil_append,
          List.reverse_cons, List.map_cons, List.map_nil, kv]
      | cons a2 l2 =>
        simp only [List.head?_cons] at hpp
        obtain ⟨n2, hn2, hc2⟩ := hprev a2 (by simp)
        simp only [prevAll, Prev_back hn hn2 hj he hpp hit k0, bind, Res.bind, pure]
        have hseg2 := hrest
        obtain ⟨n2', hn2', h0', h1', _⟩ := hrest
        rw [hn2] at hn2'
        cases hn2'
        have hents : entries t (a2 :: l2).reverse = entries t l2.reverse ++ d.ents n2 := by
          rw [List.reverse_cons, entries_append, entries_cons hn2, entries_nil, List.append_nil]
        have hlen : (entries t (a2 :: l2).reverse).length =
            (entries t l2.reverse).length + n2.c.toNat := by
          rw [hents, List.length_append, ents_length h1']
        have e1 : n2.c - 1 = ((n2.c.toNat - 1 : Nat) : Int) := by omega
        rw [e1, ih l2 a2 n2 (n2.c.toNat - 1) false _ hseg2 hn2 (by omega) (by omega)]
        have e2 : n2.c.toNat - 1 + 1 = n2.c.toNat := by omega
        have hents2 : entries t (l2.reverse ++ [a2]) = entries t l2.reverse ++ d.ents n2 := by
          rw [← List.reverse_cons]; exact hents
        have hfull : (d.ents n2).take n2.c.toNat = d.ents n2 := by
          apply List.take_of_length_le
          rw [ents_length h1']
        simp only [e2, hfull, hents2, htake, ht0, List.nil_append, List.reverse_append,
          List.reverse_cons, List.reverse_nil, List.map_append, List.map_cons, List.map_nil,
          List.cons_append, List.append_assoc, kv]
    · simp only [prevAll, Prev_in hn hj hj0 he hit k0, bind, Res.bind, pure]
      obtain ⟨j2, rfl⟩ : ∃ j2, j = j2 + 1 := ⟨j - 1, by omega⟩
      have e1 : (((j2 + 1 : Nat) : Int) - 1) = (j2 : Int) := by push_cast; omega
      rw [e1, ih l a n j2 false _ ⟨n, hn, h0, h1, hpp, hprev, hrest⟩ hn (by omega) (by omega)]
      rw [htake]
      simp only [List.reverse_append, List.reverse_cons, List.reverse_nil, List.nil_append,
        List.map_append, List.map_cons, List.map_nil, List.cons_append, List.singleton_append,
        kv]

theorem reverse_last_head {α : Type} (l : List α) (hl : l ≠ []) :
    l.reverse.get? (l.length - 1) = l.head? := by
  cases l with
  | nil => exact absurd rfl hl
  | cons a l2 =>
    rw [List.get?_eq_getElem?, List.reverse_cons,
      List.getElem?_append_right (by simp)]
    simp

/-- A reversed prefix of a list of pages linked by `p` is a linked run. -/
theorem segP_of_links (t : Tree K V) :
    ∀ (l L2 : List Nat),
      (∀ (i : Nat) (a : Nat), (l.reverse ++ L2).get? i = some a →
        ∃ n, t.ds.get? a = some n ∧
          n.p = (if i = 0 then none else (l.reverse ++ L2).get? (i - 1))) →
      (∀ a ∈ l, ∃ n, t.ds.get? a = some n ∧ 0 ≤ n.c ∧ n.c.toNat ≤ n.d.length) →
      (∀ a ∈ l.tail, ∃ n, t.ds.get? a = some n ∧ 1 ≤ n.c) → SegP t l := by
  intro l
  induction l with
  | nil => intro _ _ _ _; trivial
  | cons a l ih =>
    intro L2 hlink hvalid hne
    obtain ⟨n, hn, h0, h1⟩ := hvalid a (List.mem_cons_self _ _)
    have e : (a :: l).reverse ++ L2 = l.reverse ++ a :: L2 := by simp
    rw [e] at hlink
    obtain ⟨n', hn', hpp⟩ := hlink l.length a (by
      rw [List.get?_eq_getElem?, List.getElem?_append_right (by simp)]
      simp)
    rw [hn] at hn'
    cases hn'
    refine ⟨n, hn, h0, h1, ?_, ?_, ?_⟩
    · rw [hpp]
      cases l with
      | nil => rfl
      | cons b l2 =>
        rw [if_neg (by simp)]
        rw [List.get?_eq_getElem?, List.getElem?_append_left (by simp)]
        rw [← List.get?_eq_getElem?]
        exact reverse_last_head (b :: l2) (by simp)
    · intro a2 ha2
      refine hne a2 ?_
      cases l with
      | nil => simp at ha2
      | cons b l2 =>
        simp only [List.head?_cons, Option.mem_def, Option.some.injEq] at ha2
        subst ha2
        simp
    · refine ih (a :: L2) hlink (fun b hb => hvalid b (List.mem_cons_of_mem _ hb)) ?_
      intro b hb
      exact hne b (List.mem_of_mem_tail hb)

/-- Below a root that is an index page every data page holds at least `m` entries; a root that
is a data page is the only data page. -/
theorem leaf_min {t : Tree K V} {h : Nat} {m : Int} (hs : Sub t (minOf t.r m) h t.r [] [])
    (hlen : (leaves t (h + 1) t.r).length ≠ 1) :
    ∀ a ∈ leaves t (h + 1) t.r, ∃ n, t.ds.get? a = some n ∧ m ≤ n.c := by
  intro a ha
  obtain ⟨n, hn, _, hmin, _⟩ := Sub.leaf_bounds h t.r [] [] hs a ha
  refine ⟨n, hn, ?_⟩
  cases hr : t.r with
  | nil => rw [hr] at hs; cases h <;> exact hs.elim
  | ofD a1 =>
    rw [hr, leaves_D] at hlen
    exact absurd rfl hlen
  | ofX a1 =>
    rw [hr] at hmin
    exact hmin

theorem leaf_valid {t : Tree K V} {h : Nat} {m : Int} (hs : Sub t m h t.r [] []) :
    ∀ a ∈ leaves t (h + 1) t.r, ∃ n, t.ds.get? a = some n ∧ 0 ≤ n.c ∧ n.c.toNat ≤ n.d.length := by
  intro a ha
  obtain ⟨n, hn, h0, _, h1, _⟩ := Sub.leaf_bounds h t.r [] [] hs a ha
  exact ⟨n, hn, h0, h1⟩

theorem filter_split_left {α : Type} (p : α → Bool) (l1 l2 : List α) (h1 : ∀ e ∈ l1, p e = true)
    (h2 : ∀ e ∈ l2, p e = false) : (l1 ++ l2).filter p = l1 := by
  rw [List.filter_append, List.filter_eq_self.mpr h1,
    (List.filter_eq_nil_iff (l := l2)).mpr (fun e he => by simp [h2 e he]), List.append_nil]

/-- The entries of a well-formed tree split at the position of `Seek(k)` into those with a
key less than `k` and those with a key not less than `k`. -/
theorem Seek_filters (t : Tree K V) (st : StrictTotal t.cmp) (k : K) (l1 l2 : List (de K V))
    (hlt : ∀ e ∈ l1, t.cmp e.k k < 0) (hge : ∀ e ∈ l2, t.cmp k e.k ≤ 0) :
    (l1 ++ l2).filter (fun x => decide (t.cmp k x.k ≤ 0)) = l2 ∧
    (l1 ++ l2).filter (fun x => decide (t.cmp x.k k < 0)) = l1 := by
  constructor
  · apply filter_split
    · intro e he
      have := (st.lt_gt _ _).mp (hlt e he)
      simp only [decide_eq_false_iff_not, not_le]
      exact this
    · intro e he
      simp only [decide_eq_true_eq]
      exact hge e he
  · apply filter_split_left
    · intro e he
      simp only [decide_eq_true_eq]
      exact hlt e he
    · intro e he
      simp only [decide_eq_false_iff_not, not_lt]
      by_contra hc
      have := (st.lt_gt _ _).mp (lt_of_not_le hc)
      have := hge e he
      omega

/-- What `Prev` returns from the position of `Seek(k)` in a well-formed tree with a root whose
data pages below an index page are not empty: nothing when no key is `>= k`, else the entry
with the smallest key `>= k` and then the entries with a key `< k`, in descending order. -/
theorem Seek_prevAll (t : Tree K V) (h : Nat) (st : StrictTotal t.cmp)
    (hs : Sub t (minOf t.r 1) h t.r [] []) (hx : (xpages t (h + 1) t.r).Nodup)
    (hc : Chain t (leaves t (h + 1) t.r)) (k : K) :
    ∃ (e : Enumerator K) (b : Bool), t.Seek k = Res.ok (e, b) ∧
      (b = true → ∃ x r, (t.entries h).filter (fun x => decide (t.cmp k x.k ≤ 0)) = x :: r ∧
        x.k = k) ∧
      ∀ fuel, (t.entries h).length + 2 ≤ fuel →
        ((t.entries h).filter (fun x => decide (t.cmp k x.k ≤ 0)) = [] →
          prevAll t fuel e = Res.ok []) ∧
        (∀ x r, (t.entries h).filter (fun x => decide (t.cmp k x.k ≤ 0)) = x :: r →
          prevAll t fuel e = Res.ok (kv x ::
            ((t.entries h).filter (fun x => decide (t.cmp x.k k < 0))).reverse.map kv)) := by
  obtain ⟨a, n, j, b, L1, L2, hseek, hl, hn, h0, h1, hj, hlt, hbt, hbf, hgt⟩ :=
    Seek_pos t st _ h hs hx k
  have hge := drop_ge st hbt hbf hgt
  have hent : t.entries h =
      (entries t L1 ++ (d.ents n).take j) ++ ((d.ents n).drop j ++ entries t L2) := by
    simp only [Tree.entries]
    rw [hl, entries_append, entries_cons hn, List.append_assoc]
    congr 1
    rw [← List.append_assoc, List.take_append_drop]
  obtain ⟨hfge, hflt⟩ := Seek_filters t st k _ _ hlt hge
  rw [← hent] at hfge hflt
  have hlenE : (t.entries h).length =
      (entries t L1).length + n.c.toNat + (entries t L2).length := by
    simp only [Tree.entries]
    rw [hl, entries_append, entries_cons hn, List.length_append, List.length_append,
      ents_length h1]
    omega
  obtain ⟨_, _, _, hlinks⟩ := hc
  have hvalid := leaf_valid hs
  refine ⟨_, b, hseek, ?_, ?_⟩
  · intro hb
    obtain ⟨e, he, hk⟩ := hbt hb
    rw [List.get?_eq_getElem?] at he
    obtain ⟨hlt2, hv⟩ := List.getElem?_eq_some_iff.mp he
    refine ⟨e, (d.ents n).drop (j + 1) ++ entries t L2, ?_, hk⟩
    rw [hfge, List.drop_eq_getElem_cons hlt2, hv, List.cons_append]
  intro fuel hfuel
  rw [hfge, hflt]
  by_cases hjc : (j : Int) < n.c
  · have hjl : j < n.d.length := by omega
    have he := d_get hjl
    have hdrop := ents_drop (n := n) (j := j) (by omega) he
    have htake := ents_take_succ (n := n) (j := j) (by omega) he
    have hseg : SegP t (a :: L1.reverse) := by
      refine segP_of_links t (a :: L1.reverse) L2 ?_ ?_ ?_
      · intro i a0 hi
        have e : (a :: L1.reverse).reverse ++ L2 = L1 ++ a :: L2 := by simp
        rw [e] at hi ⊢
        rw [← hl] at hi ⊢
        obtain ⟨n0, hn0, _, hp0⟩ := hlinks i a0 hi
        exact ⟨n0, hn0, hp0⟩
      · intro a0 ha0
        refine hvalid a0 ?_
        rw [hl]
        rcases List.mem_cons.mp ha0 with rfl | ha0
        · simp
        · exact List.mem_append_left _ (List.mem_reverse.mp ha0)
      · intro a0 ha0
        simp only [List.tail_cons, List.mem_reverse] at ha0
        refine leaf_min hs ?_ a0 (by rw [hl]; exact List.mem_append_left _ ha0)
        rw [hl, List.length_append, List.length_cons]
        have := List.length_pos_of_mem ha0
        omega
    have hres := prevAll_at t fuel L1.reverse a n j b k hseg hn hjc (by
      rw [List.reverse_reverse]; omega)
    rw [List.reverse_reverse, htake] at hres
    constructor
    · intro hnil
      rw [hdrop] at hnil
      cases hnil
    · intro x r hxr
      rw [hdrop, List.cons_append] at hxr
      injection hxr with hx1 _
      subst hx1
      rw [hres]
      simp only [← List.append_assoc, List.reverse_append, List.reverse_cons, List.reverse_nil,
        List.nil_append, List.singleton_append, List.cons_append, List.map_cons]
  · have hjc2 : n.c ≤ (j : Int) := by omega
    have hd : (d.ents n).drop j = [] := ents_drop_all (by omega)
    have ht : (d.ents n).take j = d.ents n := by
      apply List.take_of_length_le
      rw [ents_length h1]
      omega
    obtain ⟨f, rfl⟩ : ∃ f, fuel = f + 1 := ⟨fuel - 1, by omega⟩
    obtain ⟨n', hn', hnn, _⟩ := hlinks L1.length a (by
      rw [hl, List.get?_eq_getElem?, List.getElem?_append_right (le_refl _)]
      simp)
    rw [hn] at hn'
    cases hn'
    rw [hl, List.get?_eq_getElem?, List.getElem?_append_right (by omega)] at hnn
    simp only [show L1.length + 1 - L1.length = 1 by omega, List.getElem?_cons_succ] at hnn
    cases L2 with
    | nil =>
      simp only [List.getElem?_nil] at hnn
      constructor
      · intro _
        simp only [prevAll, Prev_end hn hjc2 hnn b k, bind, Res.bind, pure]
      · intro x r hxr
        rw [hd, entries_nil] at hxr
        cases hxr
    | cons a2 L3 =>
      simp only [List.getElem?_cons_zero] at hnn
      have hlen2 : (leaves t (h + 1) t.r).length ≠ 1 := by
        rw [hl, List.length_append, List.length_cons, List.length_cons]
        omega
      have hmin := leaf_min hs hlen2
      obtain ⟨n2, hn2, hc2⟩ := hmin a2 (by rw [hl]; simp)
      obtain ⟨n2', hn2', h02, h12⟩ := hvalid a2 (by rw [hl]; simp)
      rw [hn2] at hn2'
      cases hn2'
      have hents2 : entries t (a2 :: L3) = d.ents n2 ++ entries t L3 := entries_cons hn2 L3
      have hjl2 : 0 < n2.d.length := by omega
      have he2 := d_get hjl2
      have hdrop2 := ents_drop (n := n2) (j := 0) (by omega) he2
      have htake2 := ents_take_succ (n := n2) (j := 0) (by omega) he2
      simp only [List.drop_zero] at hdrop2
      have hseg : SegP t (a2 :: a :: L1.reverse) := by
        refine segP_of_links t (a2 :: a :: L1.reverse) L3 ?_ ?_ ?_
        · intro i a0 hi
          have e : (a2 :: a :: L1.reverse).reverse ++ L3 = L1 ++ a :: a2 :: L3 := by simp
          rw [e] at hi ⊢
          rw [← hl] at hi ⊢
          obtain ⟨n0, hn0, _, hp0⟩ := hlinks i a0 hi
          exact ⟨n0, hn0, hp0⟩
        · intro a0 ha0
          refine hvalid a0 ?_
          rw [hl]
          rcases List.mem_cons.mp ha0 with rfl | ha0
          · simp
          rcases List.mem_cons.mp ha0 with rfl | ha0
          · simp
          · exact List.mem_append_left _ (List.mem_reverse.mp ha0)
        · intro a0 ha0
          simp only [List.tail_cons] at ha0
          refine hmin a0 ?_
          rw [hl]
          rcases List.mem_cons.mp ha0 with rfl | ha0
          · simp
          · exact List.mem_append_left _ (List.mem_reverse.mp ha0)
      have hrev : (a :: L1.reverse).reverse = L1 ++ [a] := by simp
      have hlen3 : (entries t (L1 ++ [a])).length = (entries t L1).length + n.c.toNat := by
        rw [entries_append, entries_cons hn, entries_nil, List.append_nil, List.length_append,
          ents_length h1]
      have hres := prevAll_at t (f + 1) (a :: L1.reverse) a2 n2 0 b k hseg hn2
        (by simpa using hc2) (by rw [hrev, hlen3]; omega)
      have hstep : prevAll t (f + 1) ⟨none, b, (j : Int), k, some a, t.ver⟩ =
          prevAll t (f + 1) ⟨none, b, 0, k, some a2, t.ver⟩ := by
        simp only [prevAll, Prev_skip hn hn2 hjc2 hnn hc2 b k]
      simp only [Nat.cast_zero] at hres
      rw [hrev, htake2, entries_append, entries_cons hn, entries_nil, List.append_nil] at hres
      constructor
      · intro hnil
        rw [hd, hents2, hdrop2] at hnil
        cases hnil
      · intro x r hxr
        rw [hd, hents2, hdrop2, List.nil_append, List.cons_append] at hxr
        injection hxr with hx1 _
        subst hx1
        rw [hstep, hres, ht]
        simp only [List.take_zero, List.nil_append, List.reverse_append, List.reverse_cons,
          List.reverse_nil, List.singleton_append, List.cons_append, List.map_cons,
          List.append_assoc]

theorem prevAll_cons_inv (t : Tree K V) (f : Nat) (e : Enumerator K) (p : K × V)
    (r : List (K × V)) (hp : prevAll t (f + 1) e = Res.ok (p :: r)) :
    ∃ e1, e.Prev t = Res.ok (e1, p.1, p.2, none) ∧ prevAll t f e1 = Res.ok r := by
  unfold prevAll at hp
  cases hP : e.Prev t with
  | panic => rw [hP] at hp; cases hp
  | hang => rw [hP] at hp; cases hp
  | ok res =>
    obtain ⟨e1, kk, vv, err⟩ := res
    rw [hP] at hp
    cases err with
    | some er => simp only [bind, Res.bind, pure] at hp; cases hp
    | none =>
      simp only [bind, Res.bind, pure] at hp
      cases hr : prevAll t f e1 with
      | panic => rw [hr] at hp; cases hp
      | hang => rw [hr] at hp; cases hp
      | ok r2 =>
        rw [hr] at hp
        simp only [Res.ok.injEq, List.cons.injEq] at hp
        obtain ⟨h1, h2⟩ := hp
        subst h1
        subst h2
        exact ⟨e1, rfl, hr⟩

theorem prevAll_nil_inv (t : Tree K V) (f : Nat) (e : Enumerator K)
    (hp : prevAll t (f + 1) e = Res.ok []) :
    ∃ e1 kk vv, e.Prev t = Res.ok (e1, kk, vv, some Err.EOF) := by
  unfold prevAll at hp
  cases hP : e.Prev t with
  | panic => rw [hP] at hp; cases hp
  | hang => rw [hP] at hp; cases hp
  | ok res =>
    obtain ⟨e1, kk, vv, err⟩ := res
    rw [hP] at hp
    cases err with
    | some er => cases er; exact ⟨e1, kk, vv, rfl⟩
    | none =>
      simp only [bind, Res.bind, pure] at hp
      cases hr : prevAll t f e1 with
      | panic => rw [hr] at hp; cases hp
      | hang => rw [hr] at hp; cases hp
      | ok r2 => rw [hr] at hp; cases hp

theorem entries_of_nil {t : Tree K V} (hr : t.r = Ref.nil) (h : Nat) : t.entries h = [] := by
  simp only [Tree.entries, hr, leaves, entries, List.map_nil, List.flatten_nil]

/-- C14 (amended): in a well-formed tree whose data pages below an index page are not empty,
with the tree unchanged, the successive `Prev` calls on the enumerator returned by `Seek(k)`
return first the entry with the smallest key not less than `k` and then all entries with a
smaller key in descending order, and then an error; when no key is not less than `k` the
first `Prev` returns the error at once. -/
theorem C14_Seek_then_Prev_returns_first_ge_then_smaller (t : Tree K V) (h : Nat)
    (st : StrictTotal t.cmp) (hw : WF t 1 h) (k : K) :
    ∃ (e : Enumerator K) (b : Bool), t.Seek k = Res.ok (e, b) ∧
      ∃ N, ∀ fuel, N ≤ fuel →
        ((t.entries h).filter (fun x => decide (t.cmp k x.k ≤ 0)) = [] →
          prevAll t fuel e = Res.ok []) ∧
        (∀ x r, (t.entries h).filter (fun x => decide (t.cmp k x.k ≤ 0)) = x :: r →
          prevAll t fuel e = Res.ok (kv x ::
            ((t.entries h).filter (fun x => decide (t.cmp x.k k < 0))).reverse.map kv)) := by
  rcases hw with ⟨hr, hfirst, hlast⟩ | ⟨hs, hx, hc⟩
  · refine ⟨⟨none, false, 0, k, none, t.ver⟩, false, ?_, 1, ?_⟩
    · simp only [Tree.Seek, hr, if_true, pure]
    · intro fuel hfuel
      obtain ⟨f, rfl⟩ : ∃ f, fuel = f + 1 := ⟨fuel - 1, by omega⟩
      rw [entries_of_nil hr]
      constructor
      · intro _
        simp only [prevAll, Enumerator.Prev, ne_eq, not_true_eq_false, if_false, bind, Res.bind,
          pure, if_true]
      · intro x r hxr
        cases hxr
  · obtain ⟨e, b, hseek, _, hall⟩ := Seek_prevAll t h st hs hx hc k
    exact ⟨e, b, hseek, _, hall⟩

theorem nextAll_cons_inv (t : Tree K V) (f : Nat) (e : Enumerator K) (p : K × V)
    (r : List (K × V)) (hp : nextAll t (f + 1) e = Res.ok (p :: r)) :
    ∃ e1, e.Next t = Res.ok (e1, p.1, p.2, none) ∧ nextAll t f e1 = Res.ok r := by
  unfold nextAll at hp
  cases hP : e.Next t with
  | panic => rw [hP] at hp; cases hp
  | hang => rw [hP] at hp; cases hp
  | ok res =>
    obtain ⟨e1, kk, vv, err⟩ := res
    rw [hP] at hp
    cases err with
    | some er => simp only [bind, Res.bind, pure] at hp; cases hp
    | none =>
      simp only [bind, Res.bind, pure] at hp
      cases hr : nextAll t f e1 with
      | panic => rw [hr] at hp; cases hp
      | hang => rw [hr] at hp; cases hp
      | ok r2 =>
        rw [hr] at hp
        simp only [Res.ok.injEq, List.cons.injEq] at hp
        obtain ⟨h1, h2⟩ := hp
        subst h1
        subst h2
        exact ⟨e1, rfl, hr⟩

theorem nextAll_nil_inv (t : Tree K V) (f : Nat) (e : Enumerator K)
    (hp : nextAll t (f + 1) e = Res.ok []) :
    ∃ e1 kk vv, e.Next t = Res.ok (e1, kk, vv, some Err.EOF) := by
  unfold nextAll at hp
  cases hP : e.Next t with
  | panic => rw [hP] at hp; cases hp
  | hang => rw [hP] at hp; cases hp
  | ok res =>
    obtain ⟨e1, kk, vv, err⟩ := res
    rw [hP] at hp
    cases err with
    | some er => cases er; exact ⟨e1, kk, vv, rfl⟩
    | none =>
      simp only [bind, Res.bind, pure] at hp
      cases hr : nextAll t f e1 with
      | panic => rw [hr] at hp; cases hp
      | hang => rw [hr] at hp; cases hp
      | ok r2 => rw [hr] at hp; cases hp

/-- The first `Next` at a position `j <= c` of the first page of a linked run, with the tree
unchanged: `io.EOF` when no entry follows, else the first entry that follows. -/
theorem Next_first (t : Tree K V) (l : List Nat) (a : Nat) (n : d K V) (j : Nat) (hit : Bool)
    (k0 : K) (hseg : Seg t (a :: l)) (hn : t.ds.get? a = some n) (hj : (j : Int) ≤ n.c) :
    ∃ e1 kk vv err, Enumerator.Next t ⟨none, hit, (j : Int), k0, some a, t.ver⟩ =
        Res.ok (e1, kk, vv, err) ∧
      ((d.ents n).drop j ++ entries t l = [] → err = some Err.EOF) ∧
      (∀ x r, (d.ents n).drop j ++ entries t l = x :: r → err = none ∧ (kk, vv) = kv x) := by
  have hall := nextAll_le t l a n j hit k0 hseg hn hj
    ((n.c.toNat - j) + (entries t l).length + 1) (le_refl _)
  cases hl : (d.ents n).drop j ++ entries t l with
  | nil =>
    rw [hl] at hall
    obtain ⟨e1, kk, vv, hN⟩ := nextAll_nil_inv t _ _ hall
    exact ⟨e1, kk, vv, _, hN, fun _ => rfl, fun x r hxr => by cases hxr⟩
  | cons x r =>
    rw [hl] at hall
    obtain ⟨e1, hN, _⟩ := nextAll_cons_inv t _ _ _ _ hall
    refine ⟨e1, _, _, _, hN, ?_, ?_⟩
    · intro hnil
      cases hnil
    intro x2 r2 hxr
    injection hxr with h1 _
    subst h1
    exact ⟨rfl, rfl⟩

/-- `Next` on an enumerator whose version differs from the tree's: it continues from the
position of `Seek(e.k)`, after one step of `next` when the enumerator was not on a hit and
`Seek` reports one. -/
theorem Next_resync (t : Tree K V) (e f : Enumerator K) (hit : Bool) (herr : e.err = none)
    (hver : e.ver ≠ t.ver) (hseek : t.Seek e.k = Res.ok (f, hit)) (hfe : f.err = none)
    (hfv : f.ver = t.ver) :
    ((!e.hit && hit) = false → e.Next t = f.Next t) ∧
    ((!e.hit && hit) = true → ∀ f2, Enumerator.next t f = Res.ok (f2, none) → f2.err = none →
      f2.ver = t.ver → e.Next t = f2.Next t) ∧
    ((!e.hit && hit) = true → ∀ f2 er, Enumerator.next t f = Res.ok (f2, some er) →
      e.Next t = Res.ok (e, default, default, some er)) := by
  refine ⟨?_, ?_, ?_⟩
  · intro hh
    simp only [Enumerator.Next, herr, hfe, hver, ne_eq, not_false_eq_true, if_true, hseek, bind,
      Res.bind, pure, hh, hfv, not_true_eq_false, if_false, Bool.false_eq_true]
  · intro hh f2 hnext hf2e hf2v
    simp only [Enumerator.Next, herr, hf2e, hver, ne_eq, not_false_eq_true, if_true, hseek, bind,
      Res.bind, pure, hh, hf2v, not_true_eq_false, if_false, hnext]
  · intro hh f2 er hnext
    simp only [Enumerator.Next, herr, hver, ne_eq, not_false_eq_true, if_true, hseek, bind,
      Res.bind, pure, hh, hnext]

/-- Resynchronisation of `Next`: let the tree be well formed with no empty data page below an
index page, and let an enumerator not yet at the end (`err` unset) hold the key `k` that its
last `Next` returned (`hit` is false after a `Next`) and a version other than the tree's (the
tree was changed since). Then `Next` returns the entry with the smallest key strictly greater
than `k` in the current tree, or `io.EOF` if there is none; the entries of the tree are
strictly ascending. -/
theorem Next_resumes_at_next_greater (t : Tree K V) (h : Nat)
    (st : StrictTotal t.cmp) (hw : WF t 1 h) (e : Enumerator K) (herr : e.err = none)
    (hhit : e.hit = false) (hver : e.ver ≠ t.ver) :
    (t.entries h).Pairwise (fun x y => t.cmp x.k y.k < 0) ∧
    ∃ (e1 : Enumerator K) (kk : K) (vv : V) (err : Option Err),
      e.Next t = Res.ok (e1, kk, vv, err) ∧
      ((t.entries h).filter (fun x => decide (t.cmp e.k x.k < 0)) = [] → err = some Err.EOF) ∧
      (∀ x r, (t.entries h).filter (fun x => decide (t.cmp e.k x.k < 0)) = x :: r →
        err = none ∧ (kk, vv) = kv x) := by
  rcases hw with ⟨hr, hfirst, hlast⟩ | ⟨hs, hx, hc⟩
  · rw [entries_of_nil hr]
    refine ⟨List.Pairwise.nil, ?_⟩
    have hseek : t.Seek e.k = Res.ok (⟨none, false, 0, e.k, none, t.ver⟩, false) := by
      simp only [Tree.Seek, hr, if_true, pure]
    have h1 := (Next_resync t e _ false herr hver hseek rfl rfl).1 (by simp)
    refine ⟨⟨some Err.EOF, false, 0, e.k, none, t.ver⟩, default, default, some Err.EOF, ?_,
      fun _ => rfl, fun x r hxr => by cases hxr⟩
    rw [h1]
    simp only [Enumerator.Next, ne_eq, not_true_eq_false, if_false, bind, Res.bind, pure,
      if_true]
  · refine ⟨Sub.entries_asc st h t.r [] [] hs, ?_⟩
    obtain ⟨a, n, j, b, L1, L2, hseek, hl, hn, h0, h1, hj, hlt, hbt, hbf, hgt⟩ :=
      Seek_pos t st _ h hs hx e.k
    have hseg := WF.seg hs hc hl
    have hres := Next_resync t e _ b herr hver hseek rfl rfl
    cases hb : b with
    | false =>
      subst hb
      have hent : t.entries h =
          (entries t L1 ++ (d.ents n).take j) ++ ((d.ents n).drop j ++ entries t L2) := by
        simp only [Tree.entries]
        rw [hl, entries_append, entries_cons hn, List.append_assoc]
        congr 1
        rw [← List.append_assoc, List.take_append_drop]
      have hf : (t.entries h).filter (fun x => decide (t.cmp e.k x.k < 0)) =
          (d.ents n).drop j ++ entries t L2 := by
        rw [hent]
        apply filter_split
        · intro x hx
          have := (st.lt_gt _ _).mp (hlt x hx)
          simp only [decide_eq_false_iff_not, not_lt]
          omega
        · intro x hx
          simp only [decide_eq_true_eq]
          exact hbf rfl x hx
      rw [hf, hres.1 (by simp)]
      exact Next_first t L2 a n j false e.k hseg hn hj
    | true =>
      subst hb
      obtain ⟨e0, he0, hk0⟩ := hbt rfl
      have hjc : j < n.c.toNat := by
        rw [List.get?_eq_getElem?] at he0
        have := (List.getElem?_eq_some_iff.mp he0).1
        rw [ents_length h1] at this
        exact this
      have hent : t.entries h = (entries t L1 ++ (d.ents n).take (j + 1)) ++
          ((d.ents n).drop (j + 1) ++ entries t L2) := by
        simp only [Tree.entries]
        rw [hl, entries_append, entries_cons hn, List.append_assoc]
        congr 1
        rw [← List.append_assoc, List.take_append_drop]
      have hf : (t.entries h).filter (fun x => decide (t.cmp e.k x.k < 0)) =
          (d.ents n).drop (j + 1) ++ entries t L2 := by
        rw [hent]
        apply filter_split
        · intro x hx
          simp only [decide_eq_false_iff_not, not_lt]
          rcases List.mem_append.mp hx with hx | hx
          · have := (st.lt_gt _ _).mp (hlt x (List.mem_append_left _ hx))
            omega
          · rw [List.take_succ, List.mem_append] at hx
            rcases hx with hx | hx
            · have := (st.lt_gt _ _).mp (hlt x (List.mem_append_right _ hx))
              omega
            · rw [List.get?_eq_getElem?] at he0
              rw [he0] at hx
              simp only [Option.toList, List.mem_singleton] at hx
              rw [hx, hk0, st.refl]
        · intro x hx
          simp only [decide_eq_true_eq]
          exact hgt x hx
      rw [hf]
      have hhh : (!e.hit && true) = true := by rw [hhit]; rfl
      obtain ⟨n0, hn0, _, _, hnn, hnext, hrest⟩ := hseg
      rw [hn] at hn0
      cases hn0
      by_cases hlast : (j : Int) < n.c - 1
      · have hnx : Enumerator.next t ⟨none, true, (j : Int), e.k, some a, t.ver⟩ =
            Res.ok (⟨none, true, (j : Int) + 1, e.k, some a, t.ver⟩, none) := by
          simp only [Enumerator.next, reduceCtorEq, if_false, bind, Res.bind, pure, dC_of hn,
            hlast, if_true]
        rw [hres.2.1 hhh _ hnx rfl rfl]
        have e1 : ((j : Int) + 1) = ((j + 1 : Nat) : Int) := by push_cast; rfl
        rw [e1]
        exact Next_first t L2 a n (j + 1) true e.k ⟨n, hn, h0, h1, hnn, hnext, hrest⟩ hn
          (by omega)
      · have hd : (d.ents n).drop (j + 1) = [] := ents_drop_all (by omega)
        rw [hd, List.nil_append]
        cases L2 with
        | nil =>
          simp only [List.head?_nil] at hnn
          have hnx : Enumerator.next t ⟨none, true, (j : Int), e.k, some a, t.ver⟩ =
              Res.ok (⟨some Err.EOF, true, 0, e.k, none, t.ver⟩, some Err.EOF) := by
            simp only [Enumerator.next, reduceCtorEq, if_false, bind, Res.bind, pure, dC_of hn,
              hlast, getD_of hn, hnn, if_true]
          rw [hres.2.2 hhh _ _ hnx, entries_nil]
          exact ⟨e, default, default, some Err.EOF, rfl, fun _ => rfl,
            fun x r hxr => by cases hxr⟩
        | cons a2 L3 =>
          simp only [List.head?_cons] at hnn
          have hnx : Enumerator.next t ⟨none, true, (j : Int), e.k, some a, t.ver⟩ =
              Res.ok (⟨none, true, 0, e.k, some a2, t.ver⟩, none) := by
            simp only [Enumerator.next, reduceCtorEq, if_false, bind, Res.bind, pure, dC_of hn,
              hlast, getD_of hn, hnn]
          rw [hres.2.1 hhh _ hnx rfl rfl]
          obtain ⟨n2, hn2, hc2⟩ := hnext a2 (by simp)
          have hfirst := Next_first t L3 a2 n2 0 true e.k hrest hn2 (by omega)
          simp only [Nat.cast_zero, List.drop_zero] at hfirst
          rw [entries_cons hn2]
          exact hfirst

theorem all_pure {α : Type} {P : α → Prop} {a : α} (h : P a) : Res.all P (pure a) := by
  intro b hb
  cases hb
  exact h

theorem all_ok {α : Type} {P : α → Prop} {a : α} (h : P a) : Res.all P (Res.ok a) := by
  intro b hb
  cases hb
  exact h

theorem all_panic {α : Type} {P : α → Prop} : Res.all P (Res.panic : Res α) := by
  intro b hb
  cases hb

theorem all_hang {α : Type} {P : α → Prop} : Res.all P (Res.hang : Res α) := by
  intro b hb
  cases hb

theorem all_bind {α β : Type} {Q : β → Prop} {x : Res α} {f : α → Res β}
    (h : Res.all (fun a => Res.all Q (f a)) x) : Res.all Q (x >>= f) := by
  intro b hb
  cases x with
  | ok a => exact h a rfl b hb
  | panic => cases hb
  | hang => cases hb

theorem all_bindR {α β : Type} {Q : β → Prop} {x : Res α} {f : α → Res β}
    (h : ∀ a, Res.all Q (f a)) : Res.all Q (x >>= f) :=
  all_bind (fun a _ => h a)

theorem all_bindW {α β : Type} {P : α → Prop} {Q : β → Prop} {x : Res α} {f : α → Res β}
    (hx : Res.all P x) (h : ∀ a, P a → Res.all Q (f a)) : Res.all Q (x >>= f) :=
  all_bind (fun a ha => h a (hx a ha))

theorem all_ite {α : Type} {P : α → Prop} {c : Prop} [Decidable c] {x y : Res α}
    (hx : c → Res.all P x) (hy : ¬ c → Res.all P y) : Res.all P (if c then x else y) := by
  by_cases hc : c
  · rw [if_pos hc]; exact hx hc
  · rw [if_neg hc]; exact hy hc

theorem all_mono {α : Type} {P Q : α → Prop} {x : Res α} (hx : Res.all P x)
    (h : ∀ a, P a → Q a) : Res.all Q x :=
  fun a ha => h a (hx a ha)

/-! ### Writes to a page leave the header of the tree -/

theorem setD_hdr (t : Tree K V) (q : Option Nat) (n : d K V) :
    Res.all (fun t' => hdr t' = hdr t) (t.setD q n) := by
  unfold Tree.setD
  cases q with
  | none => exact all_panic
  | some a =>
    simp only
    split
    · exact all_ok rfl
    · exact all_panic

theorem setX_hdr (t : Tree K V) (q : Option Nat) (n : x K) :
    Res.all (fun t' => hdr t' = hdr t) (t.setX q n) := by
  unfold Tree.setX
  cases q with
  | none => exact all_panic
  | some a =>
    simp only
    split
    · exact all_ok rfl
    · exact all_panic

theorem dSetC_hdr (t : Tree K V) (q : Option Nat) (c : Int) :
    Res.all (fun t' => hdr t' = hdr t) (t.dSetC q c) :=
  all_bindR (fun _ => setD_hdr _ _ _)

theorem dSetAt_hdr (t : Tree K V) (q : Option Nat) (i : Int) (e : de K V) :
    Res.all (fun t' => hdr t' = hdr t) (t.dSetAt q i e) :=
  all_bindR (fun _ => all_bindR (fun _ => setD_hdr _ _ _))

theorem dSetN_hdr (t : Tree K V) (q a : Option Nat) :
    Res.all (fun t' => hdr t' = hdr t) (t.dSetN q a) :=
  all_bindR (fun _ => setD_hdr _ _ _)

theorem dSetP_hdr (t : Tree K V) (q a : Option Nat) :
    Res.all (fun t' => hdr t' = hdr t) (t.dSetP q a) :=
  all_bindR (fun _ => setD_hdr _ _ _)

theorem dCopy_hdr (t : Tree K V) (dst : Option Nat) (lo hi : Int) (src : Option Nat)
    (a b : Int) : Res.all (fun t' => hdr t' = hdr t) (t.dCopy dst lo hi src a b) :=
  all_bindR (fun _ => all_bindR (fun _ => all_bindR (fun _ => all_bindR (fun _ =>
    setD_hdr _ _ _))))

theorem xSetC_hdr (t : Tree K V) (q : Option Nat) (c : Int) :
    Res.all (fun t' => hdr t' = hdr t) (t.xSetC q c) :=
  all_bindR (fun _ => setX_hdr _ _ _)

theorem xSetAt_hdr (t : Tree K V) (q : Option Nat) (i : Int) (e : xe K) :
    Res.all (fun t' => hdr t' = hdr t) (t.xSetAt q i e) :=
  all_bindR (fun _ => all_bindR (fun _ => setX_hdr _ _ _))

theorem xSetCh_hdr (t : Tree K V) (q : Option Nat) (i : Int) (ch : Ref) :
    Res.all (fun t' => hdr t' = hdr t) (t.xSetCh q i ch) :=
  all_bindR (fun _ => xSetAt_hdr _ _ _ _)

theorem xSetK_hdr (t : Tree K V) (q : Option Nat) (i : Int) (k : K) :
    Res.all (fun t' => hdr t' = hdr t) (t.xSetK q i k) :=
  all_bindR (fun _ => xSetAt_hdr _ _ _ _)

theorem xCopy_hdr (t : Tree K V) (dst : Option Nat) (lo hi : Int) (src : Option Nat)
    (a b : Int) : Res.all (fun t' => hdr t' = hdr t) (t.xCopy dst lo hi src a b) :=
  all_bindR (fun _ => all_bindR (fun _ => all_bindR (fun _ => all_bindR (fun _ =>
    setX_hdr _ _ _))))

theorem x_insert_hdr (t : Tree K V) (q : Option Nat) (i : Int) (k : K) (ch : Ref) :
    Res.all (fun t' => hdr t' = hdr t) (x.insert t q i k ch) := by
  unfold x.insert
  refine all_bindR (fun c => ?_)
  refine all_bindW (P := fun t' => hdr t' = hdr t) ?_ (fun t1 h1 => ?_)
  · refine all_ite (fun _ => ?_) (fun _ => all_pure rfl)
    refine all_bindR (fun e => ?_)
    refine all_bindW (xSetCh_hdr _ _ _ _) (fun t1 h1 => ?_)
    rw [← h1]
    refine all_bindW (xCopy_hdr _ _ _ _ _ _ _) (fun t2 h2 => ?_)
    rw [← h2]
    refine all_bindR (fun e => ?_)
    exact xSetK_hdr _ _ _ _
  · rw [← h1]
    refine all_bindW (xSetC_hdr _ _ _) (fun t2 h2 => ?_)
    rw [← h2]
    refine all_bindW (xSetK_hdr _ _ _ _) (fun t3 h3 => ?_)
    rw [← h3]
    exact xSetCh_hdr _ _ _ _

theorem hdr_ver {t t' : Tree K V} (h : hdr t' = hdr t) : t'.ver = t.ver :=
  congrArg (fun p => p.1) h

theorem hdr_c {t t' : Tree K V} (h : hdr t' = hdr t) : t'.c = t.c :=
  congrArg (fun p => p.2.1) h

theorem hdr_r {t t' : Tree K V} (h : hdr t' = hdr t) : t'.r = t.r :=
  congrArg (fun p => p.2.2.1) h

theorem x_extract_hdr (t : Tree K V) (q : Option Nat) (i : Int) :
    Res.all (fun t' => hdr t' = hdr t) (x.extract t q i) := by
  unfold x.extract
  refine all_bindR (fun c => ?_)
  refine all_bindW (xSetC_hdr _ _ _) (fun t1 h1 => ?_)
  rw [← h1]
  refine all_bindR (fun c => ?_)
  refine all_ite (fun _ => ?_) (fun _ => all_pure rfl)
  refine all_bindW (xCopy_hdr _ _ _ _ _ _ _) (fun t2 h2 => ?_)
  rw [← h2]
  refine all_bindR (fun e => ?_)
  refine all_bindW (xSetCh_hdr _ _ _ _) (fun t3 h3 => ?_)
  rw [← h3]
  refine all_bindW (xSetK_hdr _ _ _ _) (fun t4 h4 => ?_)
  rw [← h4]
  exact xSetAt_hdr _ _ _ _

theorem newX_hdr (t : Tree K V) (ch0 : Ref) :
    Res.all (fun r => hdr r.1 = hdr t) (newX t ch0) := by
  unfold newX
  simp only [Tree.newXpage]
  refine all_bindW (xSetCh_hdr _ _ _ _) (fun t1 h1 => ?_)
  exact all_pure h1

theorem mvL_hdr (t : Tree K V) (l r : Option Nat) (c : Int) :
    Res.all (fun t' => hdr t' = hdr t) (d.mvL t l r c) := by
  unfold d.mvL
  refine all_bindR (fun _ => ?_)
  refine all_bindW (dCopy_hdr _ _ _ _ _ _ _) (fun t1 h1 => ?_)
  rw [← h1]
  refine all_bindR (fun _ => ?_)
  refine all_bindW (dCopy_hdr _ _ _ _ _ _ _) (fun t2 h2 => ?_)
  rw [← h2]
  refine all_bindR (fun _ => ?_)
  refine all_bindW (dSetC_hdr _ _ _) (fun t3 h3 => ?_)
  rw [← h3]
  refine all_bindR (fun _ => ?_)
  exact dSetC_hdr _ _ _

theorem mvR_hdr (t : Tree K V) (l r : Option Nat) (c : Int) :
    Res.all (fun t' => hdr t' = hdr t) (d.mvR t l r c) := by
  unfold d.mvR
  refine all_bindR (fun _ => ?_)
  refine all_bindW (dCopy_hdr _ _ _ _ _ _ _) (fun t1 h1 => ?_)
  rw [← h1]
  refine all_bindR (fun _ => ?_)
  refine all_bindW (dCopy_hdr _ _ _ _ _ _ _) (fun t2 h2 => ?_)
  rw [← h2]
  refine all_bindR (fun _ => ?_)
  refine all_bindW (dSetC_hdr _ _ _) (fun t3 h3 => ?_)
  rw [← h3]
  refine all_bindR (fun _ => ?_)
  exact dSetC_hdr _ _ _

/-- `insert` adds one to the version and to the count. -/
theorem insert_ver (t : Tree K V) (q : Option Nat) (i : Int) (k : K) (v : V) :
    Res.all (fun t' => t'.ver = t.ver + 1 ∧ t'.c = t.c + 1) (t.insert q i k v) := by
  unfold Tree.insert
  simp only
  refine all_bindR (fun c => ?_)
  refine all_bindW (P := fun t' => hdr t' = hdr { t with ver := t.ver + 1 }) ?_
    (fun t1 h1 => ?_)
  · exact all_ite (fun _ => dCopy_hdr _ _ _ _ _ _ _) (fun _ => all_pure rfl)
  refine all_bindW (dSetC_hdr _ _ _) (fun t2 h2 => ?_)
  refine all_bindR (fun _ => ?_)
  refine all_bindW (dSetAt_hdr _ _ _ _) (fun t3 h3 => ?_)
  refine all_bindR (fun _ => ?_)
  refine all_bindW (dSetAt_hdr _ _ _ _) (fun t4 h4 => ?_)
  refine all_pure ?_
  have hv := hdr_ver (h4.trans (h3.trans (h2.trans h1)))
  have hc := hdr_c (h4.trans (h3.trans (h2.trans h1)))
  simp only at hv hc
  exact ⟨hv, by rw [hc]⟩

/-- `extract` adds one to the version and takes one from the count. -/
theorem extract_ver (t : Tree K V) (q : Option Nat) (i : Int) :
    Res.all (fun t' => t'.ver = t.ver + 1 ∧ t'.c = t.c - 1) (t.extract q i) := by
  unfold Tree.extract
  simp only
  refine all_bindR (fun c => ?_)
  refine all_bindW (dSetC_hdr _ _ _) (fun t1 h1 => ?_)
  refine all_bindR (fun _ => ?_)
  refine all_bindW (P := fun t' => hdr t' = hdr t1) ?_ (fun t2 h2 => ?_)
  · exact all_ite (fun _ => dCopy_hdr _ _ _ _ _ _ _) (fun _ => all_pure rfl)
  refine all_bindR (fun _ => ?_)
  refine all_bindW (dSetAt_hdr _ _ _ _) (fun t3 h3 => ?_)
  refine all_pure ?_
  have hv := hdr_ver (h3.trans (h2.trans h1))
  have hc := hdr_c (h3.trans (h2.trans h1))
  simp only at hv hc
  exact ⟨hv, by rw [hc]⟩

/-- `split` makes the version greater and adds one to the count. -/
theorem split_ver (t : Tree K V) (p q : Option Nat) (pi i : Int) (k : K) (v : V) :
    Res.all (fun t' => t.ver < t'.ver ∧ t'.c = t.c + 1) (t.split p q pi i k v) := by
  unfold Tree.split
  simp only [Tree.newD]
  refine all_bindR (fun qn => ?_)
  refine all_bindW (P := fun t' => t'.ver = t.ver + 1 ∧ t'.c = t.c) ?_ (fun t1 h1 => ?_)
  · refine all_ite (fun _ => ?_) (fun _ => all_pure ⟨rfl, rfl⟩)
    refine all_bindW (dSetN_hdr _ _ _) (fun t1 h1 => ?_)
    refine all_bindR (fun _ => ?_)
    refine all_mono (dSetP_hdr _ _ _) (fun t2 h2 => ?_)
    have hv := hdr_ver (h2.trans h1)
    have hc := hdr_c (h2.trans h1)
    exact ⟨hv, hc⟩
  refine all_bindW (dSetN_hdr _ _ _) (fun t2 h2 => ?_)
  refine all_bindW (dSetP_hdr _ _ _) (fun t3 h3 => ?_)
  refine all_bindW (dCopy_hdr _ _ _ _ _ _ _) (fun t4 h4 => ?_)
  refine all_bindR (fun _ => ?_)
  refine all_bindW (setD_hdr _ _ _) (fun t5 h5 => ?_)
  refine all_bindW (dSetC_hdr _ _ _) (fun t6 h6 => ?_)
  refine all_bindW (dSetC_hdr _ _ _) (fun t7 h7 => ?_)
  have h71 := h7.trans (h6.trans (h5.trans (h4.trans (h3.trans h2))))
  have hv7 : t7.ver = t.ver + 1 := (hdr_ver h71).trans h1.1
  have hc7 : t7.c = t.c := (hdr_c h71).trans h1.2
  refine all_bindW (P := fun t8 => t8.ver = t.ver + 1 + (if kd < i then 1 else 0) ∧
    t8.c = t.c + (if kd < i then 1 else 0)) ?_ (fun t8 h8 => ?_)
  · refine all_ite (fun hd => ?_) (fun hd => ?_)
    · refine all_mono (insert_ver _ _ _ _ _) (fun t8 h8 => ?_)
      simp only [hd, if_true]
      omega
    · refine all_pure ?_
      simp only [hd, if_false]
      omega
  refine all_bindR (fun e => ?_)
  refine all_bindW (P := fun t9 => t9.ver = t8.ver ∧ t9.c = t8.c) ?_ (fun t9 h9 => ?_)
  · refine all_ite (fun _ => ?_) (fun _ => ?_)
    · exact all_mono (x_insert_hdr _ _ _ _ _) (fun t9 h9 => ⟨hdr_ver h9, hdr_c h9⟩)
    · refine all_bindW (newX_hdr _ _) (fun r1 hr1 => ?_)
      refine all_bindW (x_insert_hdr _ _ _ _ _) (fun t9 h9 => ?_)
      refine all_pure ⟨?_, ?_⟩
      · show t9.ver = t8.ver
        exact hdr_ver (h9.trans hr1)
      · show t9.c = t8.c
        exact hdr_c (h9.trans hr1)
  refine all_ite (fun hd => ?_) (fun hd => ?_)
  · refine all_pure ?_
    have hd2 : kd < i := of_decide_eq_true hd
    simp only [hd2, if_true] at h8
    omega
  · refine all_mono (insert_ver _ _ _ _ _) (fun t10 h10 => ?_)
    have hd2 : ¬ kd < i := fun hh => hd (decide_eq_true hh)
    simp only [hd2, if_false] at h8
    omega

/-- `overflow` makes the version greater and adds one to the count. -/
theorem overflow_ver (t : Tree K V) (p q : Option Nat) (pi i : Int) (k : K) (v : V) :
    Res.all (fun t' => t.ver < t'.ver ∧ t'.c = t.c + 1) (t.overflow p q pi i k v) := by
  unfold Tree.overflow
  simp only
  refine all_bindR (fun lr => ?_)
  refine all_bindR (fun lok => ?_)
  refine all_ite (fun _ => ?_) (fun _ => ?_)
  · refine all_bindW (mvL_hdr _ _ _ _) (fun t1 h1 => ?_)
    refine all_bindW (insert_ver _ _ _ _ _) (fun t2 h2 => ?_)
    refine all_bindR (fun e => ?_)
    refine all_mono (xSetK_hdr _ _ _ _) (fun t3 h3 => ?_)
    have := hdr_ver h3
    have := hdr_c h3
    have := hdr_ver h1
    have := hdr_c h1
    simp only at *
    omega
  · refine all_bindR (fun rok => ?_)
    refine all_ite (fun _ => ?_) (fun _ => ?_)
    · refine all_ite (fun _ => ?_) (fun _ => ?_)
      · refine all_bindW (mvR_hdr _ _ _ _) (fun t1 h1 => ?_)
        refine all_bindW (insert_ver _ _ _ _ _) (fun t2 h2 => ?_)
        refine all_bindR (fun e => ?_)
        refine all_mono (xSetK_hdr _ _ _ _) (fun t3 h3 => ?_)
        have := hdr_ver h3
        have := hdr_c h3
        have := hdr_ver h1
        have := hdr_c h1
        simp only at *
        omega
      · refine all_bindW (insert_ver _ _ _ _ _) (fun t2 h2 => ?_)
        refine all_mono (xSetK_hdr _ _ _ _) (fun t3 h3 => ?_)
        have := hdr_ver h3
        have := hdr_c h3
        simp only at *
        omega
    · refine all_mono (split_ver _ _ _ _ _ _ _) (fun t3 h3 => ?_)
      simp only at *
      omega

/-- `splitX` adds one to the version and leaves the count. -/
theorem splitX_ver (t : Tree K V) (p pp : Option Nat) (pi i : Int) :
    Res.all (fun r => r.1.ver = t.ver + 1 ∧ r.1.c = t.c) (t.splitX p pp pi i) := by
  unfold Tree.splitX
  simp only [Tree.newXpage]
  refine all_bindW (xCopy_hdr _ _ _ _ _ _ _) (fun t1 h1 => ?_)
  refine all_bindW (xSetC_hdr _ _ _) (fun t2 h2 => ?_)
  refine all_bindW (xSetC_hdr _ _ _) (fun t3 h3 => ?_)
  refine all_bindW (P := fun t4 => t4.ver = t3.ver ∧ t4.c = t3.c) ?_ (fun t4 h4 => ?_)
  · refine all_ite (fun _ => ?_) (fun _ => ?_)
    · refine all_bindR (fun e => ?_)
      exact all_mono (x_insert_hdr _ _ _ _ _) (fun t9 h9 => ⟨hdr_ver h9, hdr_c h9⟩)
    · refine all_bindW (newX_hdr _ _) (fun r1 hr1 => ?_)
      refine all_bindR (fun e => ?_)
      refine all_bindW (x_insert_hdr _ _ _ _ _) (fun t9 h9 => ?_)
      refine all_pure ⟨?_, ?_⟩
      · show t9.ver = t3.ver
        exact hdr_ver (h9.trans hr1)
      · show t9.c = t3.c
        exact hdr_c (h9.trans hr1)
  refine all_bindW (xSetK_hdr _ _ _ _) (fun t5 h5 => ?_)
  refine all_bindR (fun qn => ?_)
  refine all_bindW (setX_hdr _ _ _) (fun t6 h6 => ?_)
  have h31 := h3.trans (h2.trans h1)
  have hv := hdr_ver h31
  have hc := hdr_c h31
  have hv6 := hdr_ver (h6.trans h5)
  have hc6 := hdr_c (h6.trans h5)
  simp only at hv hc
  refine all_ite (fun _ => all_pure ?_) (fun _ => all_pure ?_)
  · simp only
    omega
  · simp only
    omega

/-- The loop of `Set` does not lower the version, and raises it unless the count stays. -/
theorem SetLoop_ver (k : K) (v : V) :
    ∀ (fuel : Nat) (t : Tree K V) (p : Option Nat) (pi : Int) (q : Ref),
      Res.all (fun t' => t.ver ≤ t'.ver ∧ (t'.c = t.c ∨ t.ver < t'.ver))
        (SetLoop k v fuel t p pi q) := by
  intro fuel
  induction fuel with
  | zero => intro t p pi q; exact all_hang
  | succ f ih =>
    intro t p pi q
    unfold SetLoop
    refine all_bindR (fun r => ?_)
    obtain ⟨i, ok⟩ := r
    cases q with
    | nil => exact all_hang
    | ofX a =>
      simp only
      refine all_ite (fun _ => ?_) (fun _ => ?_)
      · refine all_bindR (fun e => ?_)
        exact ih _ _ _ _
      · refine all_bindR (fun c => ?_)
        refine all_bindW (P := fun r => t.ver ≤ r.1.ver ∧ r.1.c = t.c) ?_ (fun r hr => ?_)
        · refine all_ite (fun _ => ?_) (fun _ => all_pure ⟨le_refl _, rfl⟩)
          refine all_mono (splitX_ver _ _ _ _ _) (fun r hr => ?_)
          omega
        refine all_bindR (fun e => ?_)
        refine all_mono (ih _ _ _ _) (fun t' h' => ?_)
        omega
    | ofD a =>
      simp only
      refine all_ite (fun _ => ?_) (fun _ => ?_)
      · refine all_bindR (fun e => ?_)
        refine all_mono (dSetAt_hdr _ _ _ _) (fun t' h' => ?_)
        have := hdr_ver h'
        have := hdr_c h'
        omega
      · refine all_bindR (fun c => ?_)
        refine all_ite (fun _ => ?_) (fun _ => ?_)
        · refine all_mono (insert_ver _ _ _ _ _) (fun t' h' => ?_)
          omega
        · refine all_mono (overflow_ver _ _ _ _ _ _ _) (fun t' h' => ?_)
          omega

theorem Set_ver (t : Tree K V) (k : K) (v : V) :
    Res.all (fun t' => t.ver ≤ t'.ver ∧ (t'.c = t.c ∨ t.ver < t'.ver)) (t.Set k v) := by
  unfold Tree.Set
  refine all_ite (fun _ => ?_) (fun _ => SetLoop_ver k v _ _ _ _ _)
  simp only [Tree.newD]
  refine all_bindW (insert_ver _ _ _ _ _) (fun t2 h2 => ?_)
  refine all_pure ?_
  simp only at h2 ⊢
  omega

/-- The loop of `Put` does not lower the version, and raises it unless the count stays. -/
theorem PutLoop_ver (k : K) (upd : V → Bool → V × Bool) :
    ∀ (fuel : Nat) (t : Tree K V) (p : Option Nat) (pi : Int) (q : Ref),
      Res.all (fun r => t.ver ≤ r.1.ver ∧ (r.1.c = t.c ∨ t.ver < r.1.ver))
        (PutLoop k upd fuel t p pi q) := by
  intro fuel
  induction fuel with
  | zero => intro t p pi q; exact all_hang
  | succ f ih =>
    intro t p pi q
    unfold PutLoop
    refine all_bindR (fun r => ?_)
    obtain ⟨i, ok⟩ := r
    cases q with
    | nil => exact all_hang
    | ofX a =>
      simp only
      refine all_ite (fun _ => ?_) (fun _ => ?_)
      · refine all_bindR (fun e => ?_)
        exact ih _ _ _ _
      · refine all_bindR (fun c => ?_)
        refine all_bindW (P := fun r => t.ver ≤ r.1.ver ∧ r.1.c = t.c) ?_ (fun r hr => ?_)
        · refine all_ite (fun _ => ?_) (fun _ => all_pure ⟨le_refl _, rfl⟩)
          refine all_mono (splitX_ver _ _ _ _ _) (fun r hr => ?_)
          omega
        refine all_bindR (fun e => ?_)
        refine all_mono (ih _ _ _ _) (fun t' h' => ?_)
        omega
    | ofD a =>
      simp only
      refine all_ite (fun _ => ?_) (fun _ => ?_)
      · refine all_bindR (fun e => ?_)
        refine all_ite (fun _ => ?_) (fun _ => all_pure ⟨le_refl _, Or.inl rfl⟩)
        refine all_bindR (fun e => ?_)
        refine all_bindW (dSetAt_hdr _ _ _ _) (fun t' h' => ?_)
        refine all_pure ?_
        have := hdr_ver h'
        have := hdr_c h'
        simp only
        omega
      · refine all_ite (fun _ => ?_) (fun _ => all_pure ⟨le_refl _, Or.inl rfl⟩)
        refine all_bindR (fun c => ?_)
        refine all_bindW (P := fun t' => t.ver < t'.ver) ?_ (fun t' h' => ?_)
        · refine all_ite (fun _ => ?_) (fun _ => ?_)
          · refine all_mono (insert_ver _ _ _ _ _) (fun t' h' => ?_)
            omega
          · refine all_mono (overflow_ver _ _ _ _ _ _ _) (fun t' h' => ?_)
            omega
        refine all_pure ?_
        simp only
        omega

theorem Put_ver (t : Tree K V) (k : K) (upd : V → Bool → V × Bool) :
    Res.all (fun r => t.ver ≤ r.1.ver ∧ (r.1.c = t.c ∨ t.ver < r.1.ver)) (t.Put k upd) := by
  unfold Tree.Put
  refine all_ite (fun _ => PutLoop_ver k upd _ _ _ _ _) (fun _ => ?_)
  simp only [Tree.newD]
  refine all_ite (fun _ => ?_) (fun _ => all_pure ⟨le_refl _, Or.inl rfl⟩)
  refine all_bindW (insert_ver _ _ _ _ _) (fun t2 h2 => ?_)
  refine all_pure ?_
  simp only at h2 ⊢
  omega

theorem clr_hdr : ∀ (fuel : Nat) (t : Tree K V) (q : Ref),
    Res.all (fun t' => hdr t' = hdr t) (clr fuel t q) := by
  intro fuel
  induction fuel with
  | zero => intro t q; exact all_hang
  | succ f ih =>
    intro t q
    unfold clr
    cases q with
    | nil => exact all_pure rfl
    | ofD a => exact setD_hdr _ _ _
    | ofX a =>
      simp only
      have hloop : ∀ (n : Nat) (t1 : Tree K V) (i : Int),
          Res.all (fun t' => hdr t' = hdr t1) (clrLoop (clr f) (some a) n t1 i) := by
        intro n
        induction n with
        | zero => intro t1 i; exact all_hang
        | succ n ihn =>
          intro t1 i
          unfold clrLoop
          refine all_bindR (fun c => ?_)
          refine all_ite (fun _ => ?_) (fun _ => all_pure rfl)
          refine all_bindR (fun e => ?_)
          refine all_bindW (ih _ _) (fun t2 h2 => ?_)
          rw [← h2]
          exact ihn _ _
      refine all_bindW (hloop _ _ _) (fun t1 h1 => ?_)
      rw [← h1]
      exact setX_hdr _ _ _

/-- `Clear` does not lower the version; it raises it when the tree has a root. -/
theorem Clear_ver (t : Tree K V) :
    Res.all (fun t' => t.ver ≤ t'.ver ∧ (t.r ≠ Ref.nil → t.ver < t'.ver)) t.Clear := by
  unfold Tree.Clear
  refine all_ite (fun hr => all_pure ⟨le_refl _, fun h => absurd hr h⟩) (fun _ => ?_)
  refine all_bindW (clr_hdr _ _ _) (fun t1 h1 => ?_)
  refine all_pure ?_
  have := hdr_ver h1
  simp only
  omega

/-- `cat` adds one to the version. -/
theorem cat_ver (t : Tree K V) (p q r : Option Nat) (pi : Int) :
    Res.all (fun t' => t'.ver = t.ver + 1) (t.cat p q r pi) := by
  unfold Tree.cat
  simp only
  refine all_bindR (fun rc => ?_)
  refine all_bindW (mvL_hdr _ _ _ _) (fun t1 h1 => ?_)
  refine all_bindR (fun rn => ?_)
  refine all_bindW (P := fun t2 => t2.ver = t1.ver) ?_ (fun t2 h2 => ?_)
  · refine all_ite (fun _ => ?_) (fun _ => all_pure rfl)
    exact all_mono (dSetP_hdr _ _ _) (fun t2 h2 => hdr_ver h2)
  refine all_bindR (fun rn => ?_)
  refine all_bindW (dSetN_hdr _ _ _) (fun t3 h3 => ?_)
  refine all_bindR (fun pc => ?_)
  have hv1 := hdr_ver h1
  have hv3 := hdr_ver h3
  simp only at hv1
  refine all_ite (fun _ => ?_) (fun _ => ?_)
  · refine all_bindW (x_extract_hdr _ _ _) (fun t4 h4 => ?_)
    refine all_mono (xSetCh_hdr _ _ _ _) (fun t5 h5 => ?_)
    have := hdr_ver (h5.trans h4)
    omega
  · refine all_pure ?_
    simp only
    omega

/-- `catX` adds one to the version. -/
theorem catX_ver (t : Tree K V) (p q r : Option Nat) (pi : Int) :
    Res.all (fun t' => t'.ver = t.ver + 1) (t.catX p q r pi) := by
  unfold Tree.catX
  simp only
  refine all_bindR (fun _ => ?_)
  refine all_bindR (fun _ => ?_)
  refine all_bindW (xSetK_hdr _ _ _ _) (fun t1 h1 => ?_)
  refine all_bindR (fun _ => ?_)
  refine all_bindR (fun _ => ?_)
  refine all_bindW (xCopy_hdr _ _ _ _ _ _ _) (fun t2 h2 => ?_)
  refine all_bindR (fun _ => ?_)
  refine all_bindR (fun _ => ?_)
  refine all_bindW (xSetC_hdr _ _ _) (fun t3 h3 => ?_)
  refine all_bindR (fun _ => ?_)
  refine all_bindR (fun _ => ?_)
  refine all_bindR (fun _ => ?_)
  refine all_bindW (xSetCh_hdr _ _ _ _) (fun t4 h4 => ?_)
  refine all_bindR (fun _ => ?_)
  have hv4 := hdr_ver (h4.trans (h3.trans (h2.trans h1)))
  simp only at hv4
  refine all_ite (fun _ => ?_) (fun _ => all_pure hv4)
  refine all_bindW (xSetC_hdr _ _ _) (fun t5 h5 => ?_)
  refine all_bindR (fun _ => ?_)
  have hv5 := hdr_ver h5
  refine all_ite (fun _ => ?_) (fun _ => all_pure (by omega))
  refine all_bindR (fun _ => ?_)
  refine all_bindW (xSetK_hdr _ _ _ _) (fun t6 h6 => ?_)
  refine all_bindW (xCopy_hdr _ _ _ _ _ _ _) (fun t7 h7 => ?_)
  refine all_bindR (fun _ => ?_)
  refine all_bindW (xSetCh_hdr _ _ _ _) (fun t8 h8 => ?_)
  refine all_bindW (xSetK_hdr _ _ _ _) (fun t9 h9 => ?_)
  refine all_mono (xSetCh_hdr _ _ _ _) (fun t10 h10 => ?_)
  have := hdr_ver (h10.trans (h9.trans (h8.trans (h7.trans h6))))
  omega

/-- `underflow` makes the version greater. -/
theorem underflow_ver (t : Tree K V) (p q : Option Nat) (pi : Int) :
    Res.all (fun t' => t.ver < t'.ver) (t.underflow p q pi) := by
  unfold Tree.underflow
  simp only
  refine all_bindR (fun lr => ?_)
  refine all_bindR (fun c1 => ?_)
  refine all_ite (fun _ => ?_) (fun _ => ?_)
  · refine all_bindW (mvR_hdr _ _ _ _) (fun t1 h1 => ?_)
    refine all_bindR (fun _ => ?_)
    refine all_mono (xSetK_hdr _ _ _ _) (fun t2 h2 => ?_)
    have := hdr_ver (h2.trans h1)
    simp only at this
    omega
  · refine all_bindR (fun c2 => ?_)
    refine all_ite (fun _ => ?_) (fun _ => ?_)
    · refine all_bindW (mvL_hdr _ _ _ _) (fun t1 h1 => ?_)
      refine all_bindR (fun _ => ?_)
      refine all_bindW (xSetK_hdr _ _ _ _) (fun t2 h2 => ?_)
      refine all_bindR (fun _ => ?_)
      refine all_mono (dSetAt_hdr _ _ _ _) (fun t3 h3 => ?_)
      have := hdr_ver (h3.trans (h2.trans h1))
      simp only at this
      omega
    · refine all_ite (fun _ => ?_) (fun _ => ?_)
      · refine all_mono (cat_ver _ _ _ _ _) (fun t3 h3 => ?_)
        simp only at h3
        omega
      · refine all_mono (cat_ver _ _ _ _ _) (fun t3 h3 => ?_)
        simp only at h3
        omega

/-- `underflowX` makes the version greater. -/
theorem underflowX_ver (t : Tree K V) (p pp : Option Nat) (pi i : Int) :
    Res.all (fun r => t.ver < r.1.ver) (t.underflowX p pp pi i) := by
  unfold Tree.underflowX
  simp only
  refine all_bindR (fun lr => ?_)
  refine all_bindR (fun c1 => ?_)
  refine all_ite (fun _ => ?_) (fun _ => ?_)
  · refine all_bindR (fun _ => ?_)
    refine all_bindR (fun _ => ?_)
    refine all_bindW (xSetCh_hdr _ _ _ _) (fun t1 h1 => ?_)
    refine all_bindR (fun _ => ?_)
    refine all_bindW (xCopy_hdr _ _ _ _ _ _ _) (fun t2 h2 => ?_)
    refine all_bindR (fun _ => ?_)
    refine all_bindR (fun _ => ?_)
    refine all_bindW (xSetCh_hdr _ _ _ _) (fun t3 h3 => ?_)
    refine all_bindR (fun _ => ?_)
    refine all_bindW (xSetK_hdr _ _ _ _) (fun t4 h4 => ?_)
    refine all_bindR (fun _ => ?_)
    refine all_bindW (xSetC_hdr _ _ _) (fun t5 h5 => ?_)
    refine all_bindR (fun _ => ?_)
    refine all_bindW (xSetC_hdr _ _ _) (fun t6 h6 => ?_)
    refine all_bindR (fun _ => ?_)
    refine all_bindR (fun _ => ?_)
    refine all_bindW (xSetK_hdr _ _ _ _) (fun t7 h7 => ?_)
    refine all_pure ?_
    have := hdr_ver (h7.trans (h6.trans (h5.trans (h4.trans (h3.trans (h2.trans h1))))))
    simp only at this ⊢
    omega
  · refine all_bindR (fun c2 => ?_)
    refine all_ite (fun _ => ?_) (fun _ => ?_)
    · refine all_bindR (fun _ => ?_)
      refine all_bindR (fun _ => ?_)
      refine all_bindW (xSetK_hdr _ _ _ _) (fun t1 h1 => ?_)
      refine all_bindR (fun _ => ?_)
      refine all_bindW (xSetC_hdr _ _ _) (fun t2 h2 => ?_)
      refine all_bindR (fun _ => ?_)
      refine all_bindR (fun _ => ?_)
      refine all_bindW (xSetCh_hdr _ _ _ _) (fun t3 h3 => ?_)
      refine all_bindR (fun _ => ?_)
      refine all_bindW (xSetK_hdr _ _ _ _) (fun t4 h4 => ?_)
      refine all_bindR (fun _ => ?_)
      refine all_bindW (xCopy_hdr _ _ _ _ _ _ _) (fun t5 h5 => ?_)
      refine all_bindR (fun _ => ?_)
      refine all_bindW (xSetC_hdr _ _ _) (fun t6 h6 => ?_)
      refine all_bindR (fun _ => ?_)
      refine all_bindR (fun _ => ?_)
      refine all_bindW (xSetCh_hdr _ _ _ _) (fun t7 h7 => ?_)
      refine all_bindW (xSetK_hdr _ _ _ _) (fun t8 h8 => ?_)
      refine all_bindW (xSetCh_hdr _ _ _ _) (fun t9 h9 => ?_)
      refine all_pure ?_
      have := hdr_ver (h9.trans (h8.trans (h7.trans (h6.trans (h5.trans (h4.trans
        (h3.trans (h2.trans h1))))))))
      simp only at this ⊢
      omega
    · refine all_ite (fun _ => ?_) (fun _ => ?_)
      · refine all_bindR (fun _ => ?_)
        refine all_bindW (catX_ver _ _ _ _ _) (fun t3 h3 => ?_)
        refine all_pure ?_
        simp only at h3 ⊢
        omega
      · refine all_bindW (catX_ver _ _ _ _ _) (fun t3 h3 => ?_)
        refine all_pure ?_
        simp only at h3 ⊢
        omega

/-- The loop of `Delete` does not lower the version, and raises it when it returns true. -/
theorem DeleteLoop_ver (k : K) :
    ∀ (fuel : Nat) (t : Tree K V) (p : Option Nat) (pi : Int) (q : Ref),
      Res.all (fun r => t.ver ≤ r.1.ver ∧ (r.2 = true → t.ver < r.1.ver))
        (DeleteLoop k fuel t p pi q) := by
  intro fuel
  induction fuel with
  | zero => intro t p pi q; exact all_hang
  | succ f ih =>
    intro t p pi q
    unfold DeleteLoop
    refine all_bindR (fun r => ?_)
    obtain ⟨i, ok⟩ := r
    cases q with
    | nil => exact all_hang
    | ofX a =>
      simp only
      refine all_bindR (fun c => ?_)
      refine all_bindW (P := fun r => t.ver ≤ r.1.ver) ?_ (fun r hr => ?_)
      · refine all_ite (fun _ => ?_) (fun _ => all_pure (le_refl _))
        exact all_mono (underflowX_ver _ _ _ _ _) (fun r hr => Int.le_of_lt hr)
      refine all_ite (fun _ => ?_) (fun _ => ?_)
      · refine all_bindR (fun e => ?_)
        refine all_mono (ih _ _ _ _) (fun t' h' => ?_)
        exact ⟨by omega, fun hb => by have := h'.2 hb; omega⟩
      · refine all_bindR (fun e => ?_)
        refine all_mono (ih _ _ _ _) (fun t' h' => ?_)
        exact ⟨by omega, fun hb => by have := h'.2 hb; omega⟩
    | ofD a =>
      simp only
      refine all_ite (fun _ => ?_) (fun _ => all_pure ⟨le_refl _, fun hb => by cases hb⟩)
      refine all_bindW (extract_ver _ _ _) (fun t1 h1 => ?_)
      refine all_bindR (fun c => ?_)
      refine all_ite (fun _ => all_pure ?_) (fun _ => ?_)
      · simp only
        omega
      refine all_ite (fun _ => ?_) (fun _ => ?_)
      · refine all_bindW (underflow_ver _ _ _ _) (fun t2 h2 => ?_)
        refine all_pure ?_
        simp only
        omega
      · refine all_ite (fun _ => ?_) (fun _ => all_pure ?_)
        · refine all_bindW (Clear_ver _) (fun t2 h2 => ?_)
          refine all_pure ?_
          simp only
          omega
        · simp only
          omega

theorem Delete_ver (t : Tree K V) (k : K) :
    Res.all (fun r => t.ver ≤ r.1.ver ∧ (r.2 = true → t.ver < r.1.ver)) (t.Delete k) := by
  unfold Tree.Delete
  exact all_ite (fun _ => all_pure ⟨le_refl _, fun hb => by cases hb⟩)
    (fun _ => DeleteLoop_ver k _ _ _ _ _)

/-- No call of `Set`, `Put`, `Delete` or `Clear` that returns lowers the version of the tree;
a `Set` or `Put` call after which `Len()` differs (a new key was inserted), a `Delete` call
that returns true and a `Clear` call on a tree with a root leave the version strictly greater
than before. -/
theorem version_grows_on_change (t t' : Tree K V) :
    (∀ k v, t.Set k v = Res.ok t' → t.ver ≤ t'.ver ∧ (t'.Len ≠ t.Len → t.ver < t'.ver)) ∧
    (∀ k upd o w, t.Put k upd = Res.ok (t', o, w) →
      t.ver ≤ t'.ver ∧ (t'.Len ≠ t.Len → t.ver < t'.ver)) ∧
    (∀ k ok, t.Delete k = Res.ok (t', ok) → t.ver ≤ t'.ver ∧ (ok = true → t.ver < t'.ver)) ∧
    (t.Clear = Res.ok t' → t.ver ≤ t'.ver ∧ (t.r ≠ Ref.nil → t.ver < t'.ver)) := by
  refine ⟨?_, ?_, ?_, ?_⟩
  · intro k v h
    obtain ⟨h1, h2⟩ := Set_ver t k v t' h
    refine ⟨h1, fun hne => ?_⟩
    rcases h2 with h2 | h2
    · exact absurd h2 hne
    · exact h2
  · intro k upd o w h
    obtain ⟨h1, h2⟩ := Put_ver t k upd _ h
    refine ⟨h1, fun hne => ?_⟩
    rcases h2 with h2 | h2
    · exact absurd h2 hne
    · exact h2
  · intro k ok h
    exact Delete_ver t k _ h
  · intro h
    exact Clear_ver t t' h

/-! ### The root stays a page -/

theorem newX_some (t : Tree K V) (ch0 : Ref) :
    Res.all (fun r => hdr r.1 = hdr t ∧ r.2 = some t.xs.length) (newX t ch0) := by
  unfold newX
  simp only [Tree.newXpage]
  refine all_bindW (xSetCh_hdr _ _ _ _) (fun t1 h1 => ?_)
  exact all_pure ⟨h1, rfl⟩

theorem insert_root (t : Tree K V) (q : Option Nat) (i : Int) (k : K) (v : V) :
    Res.all (fun t' => t'.r = t.r) (t.insert q i k v) := by
  unfold Tree.insert
  simp only
  refine all_bindR (fun c => ?_)
  refine all_bindW (P := fun t' => hdr t' = hdr { t with ver := t.ver + 1 }) ?_
    (fun t1 h1 => ?_)
  · exact all_ite (fun _ => dCopy_hdr _ _ _ _ _ _ _) (fun _ => all_pure rfl)
  refine all_bindW (dSetC_hdr _ _ _) (fun t2 h2 => ?_)
  refine all_bindR (fun _ => ?_)
  refine all_bindW (dSetAt_hdr _ _ _ _) (fun t3 h3 => ?_)
  refine all_bindR (fun _ => ?_)
  refine all_bindW (dSetAt_hdr _ _ _ _) (fun t4 h4 => ?_)
  refine all_pure ?_
  have := hdr_r (h4.trans (h3.trans (h2.trans h1)))
  exact this

theorem extract_root (t : Tree K V) (q : Option Nat) (i : Int) :
    Res.all (fun t' => t'.r = t.r) (t.extract q i) := by
  unfold Tree.extract
  simp only
  refine all_bindR (fun c => ?_)
  refine all_bindW (dSetC_hdr _ _ _) (fun t1 h1 => ?_)
  refine all_bindR (fun _ => ?_)
  refine all_bindW (P := fun t' => hdr t' = hdr t1) ?_ (fun t2 h2 => ?_)
  · exact all_ite (fun _ => dCopy_hdr _ _ _ _ _ _ _) (fun _ => all_pure rfl)
  refine all_bindR (fun _ => ?_)
  refine all_bindW (dSetAt_hdr _ _ _ _) (fun t3 h3 => ?_)
  refine all_pure ?_
  have := hdr_r (h3.trans (h2.trans h1))
  exact this

theorem split_root (t : Tree K V) (p q : Option Nat) (pi i : Int) (k : K) (v : V)
    (hr : t.r ≠ Ref.nil) : Res.all (fun t' => t'.r ≠ Ref.nil) (t.split p q pi i k v) := by
  unfold Tree.split
  simp only [Tree.newD]
  refine all_bindR (fun qn => ?_)
  refine all_bindW (P := fun t' => t'.r = t.r) ?_ (fun t1 h1 => ?_)
  · refine all_ite (fun _ => ?_) (fun _ => all_pure rfl)
    refine all_bindW (dSetN_hdr _ _ _) (fun t1 h1 => ?_)
    refine all_bindR (fun _ => ?_)
    refine all_mono (dSetP_hdr _ _ _) (fun t2 h2 => ?_)
    have := hdr_r (h2.trans h1)
    exact this
  refine all_bindW (dSetN_hdr _ _ _) (fun t2 h2 => ?_)
  refine all_bindW (dSetP_hdr _ _ _) (fun t3 h3 => ?_)
  refine all_bindW (dCopy_hdr _ _ _ _ _ _ _) (fun t4 h4 => ?_)
  refine all_bindR (fun _ => ?_)
  refine all_bindW (setD_hdr _ _ _) (fun t5 h5 => ?_)
  refine all_bindW (dSetC_hdr _ _ _) (fun t6 h6 => ?_)
  refine all_bindW (dSetC_hdr _ _ _) (fun t7 h7 => ?_)
  have hr7 : t7.r = t.r :=
    (hdr_r (h7.trans (h6.trans (h5.trans (h4.trans (h3.trans h2)))))).trans h1
  refine all_bindW (P := fun t8 => t8.r = t.r) ?_ (fun t8 h8 => ?_)
  · refine all_ite (fun _ => ?_) (fun _ => all_pure hr7)
    exact all_mono (insert_root _ _ _ _ _) (fun t8 h8 => h8.trans hr7)
  refine all_bindR (fun e => ?_)
  refine all_bindW (P := fun t9 => t9.r ≠ Ref.nil) ?_ (fun t9 h9 => ?_)
  · refine all_ite (fun _ => ?_) (fun _ => ?_)
    · refine all_mono (x_insert_hdr _ _ _ _ _) (fun t9 h9 => ?_)
      rw [hdr_r h9, h8]
      exact hr
    · refine all_bindW (newX_some _ _) (fun r1 hr1 => ?_)
      refine all_bindW (x_insert_hdr _ _ _ _ _) (fun t9 h9 => ?_)
      refine all_pure ?_
      show refX r1.2 ≠ Ref.nil
      rw [hr1.2]
      simp [refX]
  refine all_ite (fun _ => all_pure h9) (fun _ => ?_)
  exact all_mono (insert_root _ _ _ _ _) (fun t10 h10 => by rw [h10]; exact h9)

theorem overflow_root (t : Tree K V) (p q : Option Nat) (pi i : Int) (k : K) (v : V)
    (hr : t.r ≠ Ref.nil) : Res.all (fun t' => t'.r ≠ Ref.nil) (t.overflow p q pi i k v) := by
  unfold Tree.overflow
  simp only
  refine all_bindR (fun lr => ?_)
  refine all_bindR (fun lok => ?_)
  refine all_ite (fun _ => ?_) (fun _ => ?_)
  · refine all_bindW (mvL_hdr _ _ _ _) (fun t1 h1 => ?_)
    refine all_bindW (insert_root _ _ _ _ _) (fun t2 h2 => ?_)
    refine all_bindR (fun e => ?_)
    refine all_mono (xSetK_hdr _ _ _ _) (fun t3 h3 => ?_)
    rw [hdr_r h3, h2, hdr_r h1]
    exact hr
  · refine all_bindR (fun rok => ?_)
    refine all_ite (fun _ => ?_) (fun _ => ?_)
    · refine all_ite (fun _ => ?_) (fun _ => ?_)
      · refine all_bindW (mvR_hdr _ _ _ _) (fun t1 h1 => ?_)
        refine all_bindW (insert_root _ _ _ _ _) (fun t2 h2 => ?_)
        refine all_bindR (fun e => ?_)
        refine all_mono (xSetK_hdr _ _ _ _) (fun t3 h3 => ?_)
        rw [hdr_r h3, h2, hdr_r h1]
        exact hr
      · refine all_bindW (insert_root _ _ _ _ _) (fun t2 h2 => ?_)
        refine all_mono (xSetK_hdr _ _ _ _) (fun t3 h3 => ?_)
        rw [hdr_r h3, h2]
        exact hr
    · exact split_root _ _ _ _ _ _ _ hr

theorem splitX_root (t : Tree K V) (p pp : Option Nat) (pi i : Int) (hr : t.r ≠ Ref.nil) :
    Res.all (fun r => r.1.r ≠ Ref.nil) (t.splitX p pp pi i) := by
  unfold Tree.splitX
  simp only [Tree.newXpage]
  refine all_bindW (xCopy_hdr _ _ _ _ _ _ _) (fun t1 h1 => ?_)
  refine all_bindW (xSetC_hdr _ _ _) (fun t2 h2 => ?_)
  refine all_bindW (xSetC_hdr _ _ _) (fun t3 h3 => ?_)
  have hr3 : t3.r = t.r := by
    have := hdr_r (h3.trans (h2.trans h1))
    exact this
  refine all_bindW (P := fun t4 => t4.r ≠ Ref.nil) ?_ (fun t4 h4 => ?_)
  · refine all_ite (fun _ => ?_) (fun _ => ?_)
    · refine all_bindR (fun e => ?_)
      refine all_mono (x_insert_hdr _ _ _ _ _) (fun t9 h9 => ?_)
      rw [hdr_r h9, hr3]
      exact hr
    · refine all_bindW (newX_some _ _) (fun r1 hr1 => ?_)
      refine all_bindR (fun e => ?_)
      refine all_bindW (x_insert_hdr _ _ _ _ _) (fun t9 h9 => ?_)
      refine all_pure ?_
      show refX r1.2 ≠ Ref.nil
      rw [hr1.2]
      simp [refX]
  refine all_bindW (xSetK_hdr _ _ _ _) (fun t5 h5 => ?_)
  refine all_bindR (fun qn => ?_)
  refine all_bindW (setX_hdr _ _ _) (fun t6 h6 => ?_)
  have hr6 : t6.r ≠ Ref.nil := by
    rw [hdr_r (h6.trans h5)]
    exact h4
  exact all_ite (fun _ => all_pure hr6) (fun _ => all_pure hr6)

theorem SetLoop_root (k : K) (v : V) :
    ∀ (fuel : Nat) (t : Tree K V) (p : Option Nat) (pi : Int) (q : Ref), t.r ≠ Ref.nil →
      Res.all (fun t' => t'.r ≠ Ref.nil) (SetLoop k v fuel t p pi q) := by
  intro fuel
  induction fuel with
  | zero => intro t p pi q _; exact all_hang
  | succ f ih =>
    intro t p pi q hr
    unfold SetLoop
    refine all_bindR (fun r => ?_)
    obtain ⟨i, ok⟩ := r
    cases q with
    | nil => exact all_hang
    | ofX a =>
      simp only
      refine all_ite (fun _ => ?_) (fun _ => ?_)
      · refine all_bindR (fun e => ?_)
        exact ih _ _ _ _ hr
      · refine all_bindR (fun c => ?_)
        refine all_bindW (P := fun r => r.1.r ≠ Ref.nil) ?_ (fun r hr2 => ?_)
        · exact all_ite (fun _ => splitX_root _ _ _ _ _ hr) (fun _ => all_pure hr)
        refine all_bindR (fun e => ?_)
        exact ih _ _ _ _ hr2
    | ofD a =>
      simp only
      refine all_ite (fun _ => ?_) (fun _ => ?_)
      · refine all_bindR (fun e => ?_)
        refine all_mono (dSetAt_hdr _ _ _ _) (fun t' h' => ?_)
        rw [hdr_r h']
        exact hr
      · refine all_bindR (fun c => ?_)
        refine all_ite (fun _ => ?_) (fun _ => overflow_root _ _ _ _ _ _ _ hr)
        refine all_mono (insert_root _ _ _ _ _) (fun t' h' => ?_)
        rw [h']
        exact hr

theorem Set_root (t : Tree K V) (k : K) (v : V) :
    Res.all (fun t' => t'.r ≠ Ref.nil) (t.Set k v) := by
  unfold Tree.Set
  refine all_ite (fun _ => ?_) (fun hr => SetLoop_root k v _ _ _ _ _ hr)
  simp only [Tree.newD]
  refine all_bindW (insert_root _ _ _ _ _) (fun t2 h2 => ?_)
  refine all_pure ?_
  simp [refD]

theorem PutLoop_root (k : K) (upd : V → Bool → V × Bool) :
    ∀ (fuel : Nat) (t : Tree K V) (p : Option Nat) (pi : Int) (q : Ref), t.r ≠ Ref.nil →
      Res.all (fun r => r.1.r ≠ Ref.nil) (PutLoop k upd fuel t p pi q) := by
  intro fuel
  induction fuel with
  | zero => intro t p pi q _; exact all_hang
  | succ f ih =>
    intro t p pi q hr
    unfold PutLoop
    refine all_bindR (fun r => ?_)
    obtain ⟨i, ok⟩ := r
    cases q with
    | nil => exact all_hang
    | ofX a =>
      simp only
      refine all_ite (fun _ => ?_) (fun _ => ?_)
      · refine all_bindR (fun e => ?_)
        exact ih _ _ _ _ hr
      · refine all_bindR (fun c => ?_)
        refine all_bindW (P := fun r => r.1.r ≠ Ref.nil) ?_ (fun r hr2 => ?_)
        · exact all_ite (fun _ => splitX_root _ _ _ _ _ hr) (fun _ => all_pure hr)
        refine all_bindR (fun e => ?_)
        exact ih _ _ _ _ hr2
    | ofD a =>
      simp only
      refine all_ite (fun _ => ?_) (fun _ => ?_)
      · refine all_bindR (fun e => ?_)
        refine all_ite (fun _ => ?_) (fun _ => all_pure hr)
        refine all_bindR (fun e => ?_)
        refine all_bindW (dSetAt_hdr _ _ _ _) (fun t' h' => ?_)
        refine all_pure ?_
        show t'.r ≠ Ref.nil
        rw [hdr_r h']
        exact hr
      · refine all_ite (fun _ => ?_) (fun _ => all_pure hr)
        refine all_bindR (fun c => ?_)
        refine all_bindW (P := fun t' => t'.r ≠ Ref.nil) ?_ (fun t' h' => all_pure h')
        refine all_ite (fun _ => ?_) (fun _ => overflow_root _ _ _ _ _ _ _ hr)
        refine all_mono (insert_root _ _ _ _ _) (fun t' h' => ?_)
        rw [h']
        exact hr

/-- `Put` keeps a tree without a root as it is or gives it a root, and keeps a root. -/
theorem Put_nilOk (t : Tree K V) (k : K) (upd : V → Bool → V × Bool) (h0 : t.nilOk) :
    Res.all (fun r => r.1.nilOk) (t.Put k upd) := by
  unfold Tree.Put
  refine all_ite (fun hr => ?_) (fun _ => ?_)
  · exact all_mono (PutLoop_root k upd _ _ _ _ _ hr) (fun r hr2 h => absurd h hr2)
  · simp only [Tree.newD]
    refine all_ite (fun _ => ?_) (fun _ => all_pure h0)
    refine all_bindW (insert_root _ _ _ _ _) (fun t2 h2 => ?_)
    refine all_pure ?_
    intro h
    simp [refD] at h

theorem cat_root (t : Tree K V) (p q r : Option Nat) (pi : Int) (hr : t.r ≠ Ref.nil) :
    Res.all (fun t' => t'.r ≠ Ref.nil) (t.cat p q r pi) := by
  unfold Tree.cat
  simp only
  refine all_bindR (fun rc => ?_)
  cases q with
  | none => exact all_panic
  | some a =>
    refine all_bindW (mvL_hdr _ _ _ _) (fun t1 h1 => ?_)
    refine all_bindR (fun rn => ?_)
    refine all_bindW (P := fun t2 => t2.r = t1.r) ?_ (fun t2 h2 => ?_)
    · refine all_ite (fun _ => ?_) (fun _ => all_pure rfl)
      exact all_mono (dSetP_hdr _ _ _) (fun t2 h2 => hdr_r h2)
    refine all_bindR (fun rn => ?_)
    refine all_bindW (dSetN_hdr _ _ _) (fun t3 h3 => ?_)
    refine all_bindR (fun pc => ?_)
    refine all_ite (fun _ => ?_) (fun _ => ?_)
    · refine all_bindW (x_extract_hdr _ _ _) (fun t4 h4 => ?_)
      refine all_mono (xSetCh_hdr _ _ _ _) (fun t5 h5 => ?_)
      have h51 := hdr_r (h5.trans h4)
      have h31 := hdr_r h3
      have h11 := hdr_r h1
      simp only at h11
      rw [h51, h31, h2, h11]
      exact hr
    · refine all_pure ?_
      simp [refD]

theorem catX_root (t : Tree K V) (p q r : Option Nat) (pi : Int) (hr : t.r ≠ Ref.nil) :
    Res.all (fun t' => t'.r ≠ Ref.nil) (t.catX p q r pi) := by
  unfold Tree.catX
  simp only
  cases q with
  | none => exact all_panic
  | some a =>
    refine all_bindR (fun _ => ?_)
    refine all_bindR (fun _ => ?_)
    refine all_bindW (xSetK_hdr _ _ _ _) (fun t1 h1 => ?_)
    refine all_bindR (fun _ => ?_)
    refine all_bindR (fun _ => ?_)
    refine all_bindW (xCopy_hdr _ _ _ _ _ _ _) (fun t2 h2 => ?_)
    refine all_bindR (fun _ => ?_)
    refine all_bindR (fun _ => ?_)
    refine all_bindW (xSetC_hdr _ _ _) (fun t3 h3 => ?_)
    refine all_bindR (fun _ => ?_)
    refine all_bindR (fun _ => ?_)
    refine all_bindR (fun _ => ?_)
    refine all_bindW (xSetCh_hdr _ _ _ _) (fun t4 h4 => ?_)
    refine all_bindR (fun _ => ?_)
    have hr4 : t4.r ≠ Ref.nil := by
      have := hdr_r (h4.trans (h3.trans (h2.trans h1)))
      simp only at this
      rw [this]
      exact hr
    refine all_ite (fun _ => ?_) (fun _ => all_pure (by simp [refX]))
    refine all_bindW (xSetC_hdr _ _ _) (fun t5 h5 => ?_)
    refine all_bindR (fun _ => ?_)
    have hr5 : t5.r ≠ Ref.nil := by rw [hdr_r h5]; exact hr4
    refine all_ite (fun _ => ?_) (fun _ => all_pure hr5)
    refine all_bindR (fun _ => ?_)
    refine all_bindW (xSetK_hdr _ _ _ _) (fun t6 h6 => ?_)
    refine all_bindW (xCopy_hdr _ _ _ _ _ _ _) (fun t7 h7 => ?_)
    refine all_bindR (fun _ => ?_)
    refine all_bindW (xSetCh_hdr _ _ _ _) (fun t8 h8 => ?_)
    refine all_bindW (xSetK_hdr _ _ _ _) (fun t9 h9 => ?_)
    refine all_mono (xSetCh_hdr _ _ _ _) (fun t10 h10 => ?_)
    rw [hdr_r (h10.trans (h9.trans (h8.trans (h7.trans h6))))]
    exact hr5

theorem underflow_root (t : Tree K V) (p q : Option Nat) (pi : Int) (hr : t.r ≠ Ref.nil) :
    Res.all (fun t' => t'.r ≠ Ref.nil) (t.underflow p q pi) := by
  unfold Tree.underflow
  simp only
  have hr0 : ({ t with ver := t.ver + 1 } : Tree K V).r ≠ Ref.nil := hr
  refine all_bindR (fun lr => ?_)
  refine all_bindR (fun c1 => ?_)
  refine all_ite (fun _ => ?_) (fun _ => ?_)
  · refine all_bindW (mvR_hdr _ _ _ _) (fun t1 h1 => ?_)
    refine all_bindR (fun _ => ?_)
    refine all_mono (xSetK_hdr _ _ _ _) (fun t2 h2 => ?_)
    rw [hdr_r (h2.trans h1)]
    exact hr
  · refine all_bindR (fun c2 => ?_)
    refine all_ite (fun _ => ?_) (fun _ => ?_)
    · refine all_bindW (mvL_hdr _ _ _ _) (fun t1 h1 => ?_)
      refine all_bindR (fun _ => ?_)
      refine all_bindW (xSetK_hdr _ _ _ _) (fun t2 h2 => ?_)
      refine all_bindR (fun _ => ?_)
      refine all_mono (dSetAt_hdr _ _ _ _) (fun t3 h3 => ?_)
      rw [hdr_r (h3.trans (h2.trans h1))]
      exact hr
    · exact all_ite (fun _ => cat_root _ _ _ _ _ hr0) (fun _ => cat_root _ _ _ _ _ hr0)

theorem underflowX_root (t : Tree K V) (p pp : Option Nat) (pi i : Int) (hr : t.r ≠ Ref.nil) :
    Res.all (fun r => r.1.r ≠ Ref.nil) (t.underflowX p pp pi i) := by
  unfold Tree.underflowX
  simp only
  have hr0 : ({ t with ver := t.ver + 1 } : Tree K V).r ≠ Ref.nil := hr
  refine all_bindR (fun lr => ?_)
  refine all_bindR (fun c1 => ?_)
  refine all_ite (fun _ => ?_) (fun _ => ?_)
  · refine all_bindR (fun _ => ?_)
    refine all_bindR (fun _ => ?_)
    refine all_bindW (xSetCh_hdr _ _ _ _) (fun t1 h1 => ?_)
    refine all_bindR (fun _ => ?_)
    refine all_bindW (xCopy_hdr _ _ _ _ _ _ _) (fun t2 h2 => ?_)
    refine all_bindR (fun _ => ?_)
    refine all_bindR (fun _ => ?_)
    refine all_bindW (xSetCh_hdr _ _ _ _) (fun t3 h3 => ?_)
    refine all_bindR (fun _ => ?_)
    refine all_bindW (xSetK_hdr _ _ _ _) (fun t4 h4 => ?_)
    refine all_bindR (fun _ => ?_)
    refine all_bindW (xSetC_hdr _ _ _) (fun t5 h5 => ?_)
    refine all_bindR (fun _ => ?_)
    refine all_bindW (xSetC_hdr _ _ _) (fun t6 h6 => ?_)
    refine all_bindR (fun _ => ?_)
    refine all_bindR (fun _ => ?_)
    refine all_bindW (xSetK_hdr _ _ _ _) (fun t7 h7 => ?_)
    refine all_pure ?_
    show t7.r ≠ Ref.nil
    rw [hdr_r (h7.trans (h6.trans (h5.trans (h4.trans (h3.trans (h2.trans h1))))))]
    exact hr
  · refine all_bindR (fun c2 => ?_)
    refine all_ite (fun _ => ?_) (fun _ => ?_)
    · refine all_bindR (fun _ => ?_)
      refine all_bindR (fun _ => ?_)
      refine all_bindW (xSetK_hdr _ _ _ _) (fun t1 h1 => ?_)
      refine all_bindR (fun _ => ?_)
      refine all_bindW (xSetC_hdr _ _ _) (fun t2 h2 => ?_)
      refine all_bindR (fun _ => ?_)
      refine all_bindR (fun _ => ?_)
      refine all_bindW (xSetCh_hdr _ _ _ _) (fun t3 h3 => ?_)
      refine all_bindR (fun _ => ?_)
      refine all_bindW (xSetK_hdr _ _ _ _) (fun t4 h4 => ?_)
      refine all_bindR (fun _ => ?_)
      refine all_bindW (xCopy_hdr _ _ _ _ _ _ _) (fun t5 h5 => ?_)
      refine all_bindR (fun _ => ?_)
      refine all_bindW (xSetC_hdr _ _ _) (fun t6 h6 => ?_)
      refine all_bindR (fun _ => ?_)
      refine all_bindR (fun _ => ?_)
      refine all_bindW (xSetCh_hdr _ _ _ _) (fun t7 h7 => ?_)
      refine all_bindW (xSetK_hdr _ _ _ _) (fun t8 h8 => ?_)
      refine all_bindW (xSetCh_hdr _ _ _ _) (fun t9 h9 => ?_)
      refine all_pure ?_
      show t9.r ≠ Ref.nil
      rw [hdr_r (h9.trans (h8.trans (h7.trans (h6.trans (h5.trans (h4.trans
        (h3.trans (h2.trans h1))))))))]
      exact hr
    · refine all_ite (fun _ => ?_) (fun _ => ?_)
      · refine all_bindR (fun _ => ?_)
        exact all_bindW (catX_root _ _ _ _ _ hr0) (fun t3 h3 => all_pure h3)
      · exact all_bindW (catX_root _ _ _ _ _ hr0) (fun t3 h3 => all_pure h3)

/-- What `Clear` leaves. -/
theorem Clear_fields (t : Tree K V) (h0 : t.nilOk) :
    Res.all (fun t' => t'.r = Ref.nil ∧ t'.c = 0 ∧ t'.first = none ∧ t'.last = none)
      t.Clear := by
  unfold Tree.Clear
  refine all_ite (fun hr => all_pure ⟨hr, h0 hr⟩) (fun _ => ?_)
  refine all_bindW (clr_hdr _ _ _) (fun t1 h1 => ?_)
  exact all_pure ⟨rfl, rfl, rfl, rfl⟩

theorem DeleteLoop_nilOk (k : K) :
    ∀ (fuel : Nat) (t : Tree K V) (p : Option Nat) (pi : Int) (q : Ref), t.r ≠ Ref.nil →
      Res.all (fun r => r.1.nilOk) (DeleteLoop k fuel t p pi q) := by
  intro fuel
  induction fuel with
  | zero => intro t p pi q _; exact all_hang
  | succ f ih =>
    intro t p pi q hr
    have hok : ∀ t1 : Tree K V, t1.r ≠ Ref.nil → t1.nilOk := fun t1 h1 h => absurd h h1
    unfold DeleteLoop
    refine all_bindR (fun r => ?_)
    obtain ⟨i, ok⟩ := r
    cases q with
    | nil => exact all_hang
    | ofX a =>
      simp only
      refine all_bindR (fun c => ?_)
      refine all_bindW (P := fun r => r.1.r ≠ Ref.nil) ?_ (fun r hr2 => ?_)
      · exact all_ite (fun _ => underflowX_root _ _ _ _ _ hr) (fun _ => all_pure hr)
      refine all_ite (fun _ => ?_) (fun _ => ?_)
      · refine all_bindR (fun e => ?_)
        exact ih _ _ _ _ hr2
      · refine all_bindR (fun e => ?_)
        exact ih _ _ _ _ hr2
    | ofD a =>
      simp only
      refine all_ite (fun _ => ?_) (fun _ => all_pure (hok _ hr))
      refine all_bindW (extract_root _ _ _) (fun t1 h1 => ?_)
      have hr1 : t1.r ≠ Ref.nil := by rw [h1]; exact hr
      refine all_bindR (fun c => ?_)
      refine all_ite (fun _ => all_pure (hok _ hr1)) (fun _ => ?_)
      refine all_ite (fun _ => ?_) (fun _ => ?_)
      · refine all_bindW (underflow_root _ _ _ _ hr1) (fun t2 h2 => ?_)
        exact all_pure (hok _ h2)
      · refine all_ite (fun _ => ?_) (fun _ => all_pure (hok _ hr1))
        refine all_bindW (Clear_fields _ (hok _ hr1)) (fun t2 h2 => ?_)
        exact all_pure (fun _ => h2.2)

theorem Delete_nilOk (t : Tree K V) (k : K) (h0 : t.nilOk) :
    Res.all (fun r => r.1.nilOk) (t.Delete k) := by
  unfold Tree.Delete
  exact all_ite (fun _ => all_pure h0) (fun hr => DeleteLoop_nilOk k _ _ _ _ _ hr)

/-- Every reachable tree without a root holds no entry and has no first and no last page. -/
theorem reachable_nilOk {cmp : K → K → Int} {t : Tree K V} (h : Reachable cmp t) : t.nilOk := by
  induction h with
  | new => intro _; exact ⟨rfl, rfl, rfl⟩
  | set k v _ hs _ => exact fun hnil => absurd hnil (Set_root _ k v _ hs)
  | put k upd o w _ hp ih => exact Put_nilOk _ k upd ih _ hp
  | delete k ok _ hd ih => exact Delete_nilOk _ k ih _ hd
  | clear _ hc ih =>
    have := Clear_fields _ ih _ hc
    exact fun _ => this.2

theorem zd_d_length : (zd : d K V).d.length = 129 := by
  simp [zd, kd]

theorem zd_d_eq : (zd : d K V).d = zde :: List.replicate 128 zde := by
  simp only [zd, kd]
  rfl

/-- `Set` on a tree without a root: the tree gets a root data page that holds the entry. -/
theorem Set_of_nil (t : Tree K V) (hr : t.r = Ref.nil) (k : K) (v : V) :
    t.Set k v = Res.ok { t with
      ver := t.ver + 1, c := t.c + 1, r := Ref.ofD t.ds.length, first := some t.ds.length,
      last := some t.ds.length,
      ds := t.ds ++ [⟨1, ⟨k, v⟩ :: List.replicate 128 zde, none, none⟩] } := by
  have hg : ∀ (n : d K V), (t.ds ++ [n]).get? t.ds.length = some n := by
    intro n
    rw [List.get?_eq_getElem?, List.getElem?_append_right (le_refl _)]
    simp
  have hg2 : ∀ (l : List (d K V)) (n : d K V), l.length = t.ds.length →
      (l ++ [n]).get? t.ds.length = some n := by
    intro l n hl
    rw [List.get?_eq_getElem?, List.getElem?_append_right (by omega)]
    simp [hl]
  have hrep : List.replicate (2 * kd + 1).toNat (zde : de K V) =
      zde :: List.replicate 128 zde := by
    simp only [kd]
    rfl
  simp only [Tree.Set, hr, if_true, Tree.newD, Tree.insert, Tree.dC, Tree.getD, hg, bind,
    Res.bind, pure, lt_self_iff_false, if_false, Tree.dSetC, Tree.setD, List.length_append,
    List.length_singleton, Nat.lt_succ_self, zero_add, Tree.dAt, idx, le_refl,
    Int.toNat_zero, List.set_append_right, Nat.sub_self, List.set_cons_zero,
    List.get?_cons_zero, Tree.dSetAt, upd, List.length_cons, List.length_replicate,
    Nat.zero_lt_succ, and_self, refD, true_and, List.length_set, le_refl, List.length_nil,
    Nat.lt_add_one, zd, hrep]

/-- `Get(k)` on the tree that `Set(k, v)` makes of a tree without a root. -/
theorem Get_after_Set_of_nil (t : Tree K V) (k : K) (v : V) (hk : t.cmp k k = 0) :
    Tree.Get ({ t with
      ver := t.ver + 1, c := t.c + 1, r := Ref.ofD t.ds.length, first := some t.ds.length,
      last := some t.ds.length,
      ds := t.ds ++ [⟨1, ⟨k, v⟩ :: List.replicate 128 zde, none, none⟩] } : Tree K V) k =
      Res.ok (v, true) := by
  have hg : ∀ (n : d K V), (t.ds ++ [n]).get? t.ds.length = some n := by
    intro n
    rw [List.get?_eq_getElem?, List.getElem?_append_right (le_refl _)]
    simp
  simp only [Tree.Get, reduceCtorEq, if_false, GetLoop, Tree.find, Tree.dC, Tree.getD, hg, bind,
    Res.bind, pure, findLoop, Tree.dAt, idx, le_refl, if_true, hk, lt_self_iff_false,
    Int.toNat_zero, List.get?_cons_zero, show ((0 : Int) + (1 - 1)) / 2 = 0 by decide,
    show (1 : Int) - 1 = 0 by decide, show ((0 : Int) + 0) / 2 = 0 by decide,
    show (1 : Int).toNat = 1 by rfl]

theorem all_and {α : Type} {P Q : α → Prop} {x : Res α} (hp : Res.all P x)
    (hq : Res.all Q x) : Res.all (fun a => P a ∧ Q a) x :=
  fun a ha => ⟨hp a ha, hq a ha⟩

/-! ### Writes to index pages leave the data pages, and conversely -/

theorem setX_ds (t : Tree K V) (q : Option Nat) (n : x K) :
    Res.all (fun t' => t'.ds = t.ds) (t.setX q n) := by
  unfold Tree.setX
  cases q with
  | none => exact all_panic
  | some a =>
    simp only
    split
    · exact all_ok rfl
    · exact all_panic

theorem xSetAt_ds (t : Tree K V) (q : Option Nat) (i : Int) (e : xe K) :
    Res.all (fun t' => t'.ds = t.ds) (t.xSetAt q i e) :=
  all_bindR (fun _ => all_bindR (fun _ => setX_ds _ _ _))

theorem xSetC_ds (t : Tree K V) (q : Option Nat) (c : Int) :
    Res.all (fun t' => t'.ds = t.ds) (t.xSetC q c) :=
  all_bindR (fun _ => setX_ds _ _ _)

theorem xSetCh_ds (t : Tree K V) (q : Option Nat) (i : Int) (ch : Ref) :
    Res.all (fun t' => t'.ds = t.ds) (t.xSetCh q i ch) :=
  all_bindR (fun _ => xSetAt_ds _ _ _ _)

theorem xSetK_ds (t : Tree K V) (q : Option Nat) (i : Int) (k : K) :
    Res.all (fun t' => t'.ds = t.ds) (t.xSetK q i k) :=
  all_bindR (fun _ => xSetAt_ds _ _ _ _)

theorem xCopy_ds (t : Tree K V) (dst : Option Nat) (lo hi : Int) (src : Option Nat)
    (a b : Int) : Res.all (fun t' => t'.ds = t.ds) (t.xCopy dst lo hi src a b) :=
  all_bindR (fun _ => all_bindR (fun _ => all_bindR (fun _ => all_bindR (fun _ =>
    setX_ds _ _ _))))

/-- What `q.x[i] = e` leaves: the element is at index `i` of the page. -/
theorem xSetAt_post (t : Tree K V) (q : Option Nat) (i : Int) (e : xe K) :
    Res.all (fun t' => t'.xAt q i = Res.ok e ∧
      ∀ j e0, j ≠ i → t.xAt q j = Res.ok e0 → t'.xAt q j = Res.ok e0) (t.xSetAt q i e) := by
  intro t' h
  cases q with
  | none => simp only [Tree.xSetAt, Tree.getX, bind, Res.bind, reduceCtorEq] at h
  | some a =>
    cases hn : t.xs.get? a with
    | none => simp only [Tree.xSetAt, Tree.getX, hn, bind, Res.bind, reduceCtorEq] at h
    | some n =>
      have hlt : a < t.xs.length := by
        rw [List.get?_eq_getElem?] at hn
        exact (List.getElem?_eq_some_iff.mp hn).1
      simp only [Tree.xSetAt, Tree.getX, hn, bind, Res.bind, upd, Tree.setX, hlt, if_true] at h
      by_cases hi : 0 ≤ i ∧ i.toNat < n.x.length
      · simp only [hi, and_self, if_true, Res.ok.injEq] at h
        subst h
        have hg : (t.xs.set a { c := n.c, x := n.x.set i.toNat e }).get? a =
            some { c := n.c, x := n.x.set i.toNat e } := by
          rw [List.get?_eq_getElem?, List.getElem?_set_self hlt]
        constructor
        · simp only [Tree.xAt, Tree.getX, hg, bind, Res.bind, idx, hi.1, if_true,
            List.get?_eq_getElem?, List.getElem?_set_self hi.2]
        · intro j e0 hj h0
          simp only [Tree.xAt, Tree.getX, hn, hg, bind, Res.bind, idx] at h0 ⊢
          by_cases hj0 : 0 ≤ j
          · simp only [hj0, if_true] at h0 ⊢
            have hne : i.toNat ≠ j.toNat := by omega
            rw [List.get?_eq_getElem?, List.getElem?_set_ne hne, ← List.get?_eq_getElem?]
            exact h0
          · simp only [hj0, if_false] at h0
            cases h0
      · simp only [hi, if_false] at h
        cases h

theorem xSetK_post (t : Tree K V) (q : Option Nat) (i : Int) (k : K) :
    Res.all (fun t' => (∃ e1, t'.xAt q i = Res.ok e1 ∧ e1.k = k) ∧
      ∀ j e0, j ≠ i → t.xAt q j = Res.ok e0 → t'.xAt q j = Res.ok e0) (t.xSetK q i k) := by
  unfold Tree.xSetK
  refine all_bindR (fun e => ?_)
  exact all_mono (xSetAt_post _ _ _ _) (fun t' h => ⟨⟨_, h.1, rfl⟩, h.2⟩)

theorem xSetCh_post (t : Tree K V) (q : Option Nat) (i : Int) (ch : Ref) :
    Res.all (fun t' => (∃ e1, t'.xAt q i = Res.ok e1 ∧ e1.ch = ch) ∧
      ∀ j e0, j ≠ i → t.xAt q j = Res.ok e0 → t'.xAt q j = Res.ok e0) (t.xSetCh q i ch) := by
  unfold Tree.xSetCh
  refine all_bindR (fun e => ?_)
  exact all_mono (xSetAt_post _ _ _ _) (fun t' h => ⟨⟨_, h.1, rfl⟩, h.2⟩)

/-- What `q.insert(i, k, ch)` leaves: the data pages as they were, the key `k` at index `i`
and the child `ch` at index `i+1` of the page. -/
theorem x_insert_post (t : Tree K V) (q : Option Nat) (i : Int) (k : K) (ch : Ref) :
    Res.all (fun t' => t'.ds = t.ds ∧
      (∃ e1, t'.xAt q i = Res.ok e1 ∧ e1.k = k) ∧
      (∃ e2, t'.xAt q (i + 1) = Res.ok e2 ∧ e2.ch = ch)) (x.insert t q i k ch) := by
  unfold x.insert
  refine all_bindR (fun c => ?_)
  refine all_bindW (P := fun t' => t'.ds = t.ds) ?_ (fun t1 h1 => ?_)
  · refine all_ite (fun _ => ?_) (fun _ => all_pure rfl)
    refine all_bindR (fun e => ?_)
    refine all_bindW (xSetCh_ds _ _ _ _) (fun t1 h1 => ?_)
    refine all_bindW (xCopy_ds _ _ _ _ _ _ _) (fun t2 h2 => ?_)
    refine all_bindR (fun e => ?_)
    exact all_mono (xSetK_ds _ _ _ _) (fun t3 h3 => h3.trans (h2.trans h1))
  refine all_bindW (xSetC_ds _ _ _) (fun t2 h2 => ?_)
  refine all_bind (fun t3 h3 => ?_)
  have hd3 := xSetK_ds _ _ _ _ _ h3
  obtain ⟨hk3, _⟩ := xSetK_post _ _ _ _ _ h3
  intro t4 h4
  have hd4 := xSetCh_ds _ _ _ _ _ h4
  obtain ⟨hc4, hf4⟩ := xSetCh_post _ _ _ _ _ h4
  obtain ⟨e1, he1, hk1⟩ := hk3
  exact ⟨hd4.trans (hd3.trans (h2.trans h1)), ⟨e1, hf4 i e1 (by omega) he1, hk1⟩, hc4⟩

/-- The index pages and the data pages other than `q` are as in `t`. -/
theorem setD_frame (t : Tree K V) (q : Option Nat) (n : d K V) :
    Res.all (fun t' => t'.xs = t.xs ∧ ∀ b, some b ≠ q → t'.ds.get? b = t.ds.get? b)
      (t.setD q n) := by
  unfold Tree.setD
  cases q with
  | none => exact all_panic
  | some a =>
    simp only
    split
    · refine all_ok ⟨rfl, ?_⟩
      intro b hb
      have hne : a ≠ b := fun h => hb (by rw [h])
      simp only [List.get?_eq_getElem?, List.getElem?_set_ne hne]
    · exact all_panic

theorem dSetC_frame (t : Tree K V) (q : Option Nat) (c : Int) :
    Res.all (fun t' => t'.xs = t.xs ∧ ∀ b, some b ≠ q → t'.ds.get? b = t.ds.get? b)
      (t.dSetC q c) :=
  all_bindR (fun _ => setD_frame _ _ _)

theorem dSetAt_frame (t : Tree K V) (q : Option Nat) (i : Int) (e : de K V) :
    Res.all (fun t' => t'.xs = t.xs ∧ ∀ b, some b ≠ q → t'.ds.get? b = t.ds.get? b)
      (t.dSetAt q i e) :=
  all_bindR (fun _ => all_bindR (fun _ => setD_frame _ _ _))

theorem dSetN_frame (t : Tree K V) (q a : Option Nat) :
    Res.all (fun t' => t'.xs = t.xs ∧ ∀ b, some b ≠ q → t'.ds.get? b = t.ds.get? b)
      (t.dSetN q a) :=
  all_bindR (fun _ => setD_frame _ _ _)

theorem dSetP_frame (t : Tree K V) (q a : Option Nat) :
    Res.all (fun t' => t'.xs = t.xs ∧ ∀ b, some b ≠ q → t'.ds.get? b = t.ds.get? b)
      (t.dSetP q a) :=
  all_bindR (fun _ => setD_frame _ _ _)

theorem dCopy_frame (t : Tree K V) (dst : Option Nat) (lo hi : Int) (src : Option Nat)
    (a b : Int) :
    Res.all (fun t' => t'.xs = t.xs ∧ ∀ b, some b ≠ dst → t'.ds.get? b = t.ds.get? b)
      (t.dCopy dst lo hi src a b) :=
  all_bindR (fun _ => all_bindR (fun _ => all_bindR (fun _ => all_bindR (fun _ =>
    setD_frame _ _ _))))

/-- `insert` into the page `q` leaves the index pages and the other data pages. -/
theorem insert_frame (t : Tree K V) (q : Option Nat) (i : Int) (k : K) (v : V) :
    Res.all (fun t' => t'.xs = t.xs ∧ ∀ b, some b ≠ q → t'.ds.get? b = t.ds.get? b)
      (t.insert q i k v) := by
  unfold Tree.insert
  simp only
  refine all_bindR (fun c => ?_)
  refine all_bindW (P := fun t' => t'.xs = t.xs ∧
    ∀ b, some b ≠ q → t'.ds.get? b = t.ds.get? b) ?_ (fun t1 h1 => ?_)
  · exact all_ite (fun _ => dCopy_frame _ _ _ _ _ _ _) (fun _ => all_pure ⟨rfl, fun _ _ => rfl⟩)
  refine all_bindW (dSetC_frame _ _ _) (fun t2 h2 => ?_)
  refine all_bindR (fun _ => ?_)
  refine all_bindW (dSetAt_frame _ _ _ _) (fun t3 h3 => ?_)
  refine all_bindR (fun _ => ?_)
  refine all_bindW (dSetAt_frame _ _ _ _) (fun t4 h4 => ?_)
  refine all_pure ⟨?_, ?_⟩
  · show t4.xs = t.xs
    rw [h4.1, h3.1, h2.1, h1.1]
  · intro b hb
    show t4.ds.get? b = t.ds.get? b
    rw [h4.2 b hb, h3.2 b hb, h2.2 b hb, h1.2 b hb]

theorem newX_post (t : Tree K V) (ch0 : Ref) :
    Res.all (fun r => r.1.ds = t.ds ∧ r.2 = some t.xs.length) (newX t ch0) := by
  unfold newX
  simp only [Tree.newXpage]
  refine all_bindW (xSetCh_ds _ _ _ _) (fun t1 h1 => ?_)
  exact all_pure ⟨h1, rfl⟩

theorem dAt_congr {t t' : Tree K V} {a : Nat} (h : t'.ds.get? a = t.ds.get? a) (i : Int) :
    t'.dAt (some a) i = t.dAt (some a) i := by
  simp only [Tree.dAt, Tree.getD, h]

theorem xAt_congr {t t' : Tree K V} (h : t'.xs = t.xs) (q : Option Nat) (i : Int) :
    t'.xAt q i = t.xAt q i := by
  simp only [Tree.xAt, Tree.getX, h]

/-- The separator that `split` stores: after `split(p, q, pi, i, k, v)` on a data page `q`
of the store, the new data page is at the address `t.ds.length`; the key stored at index `j`
of the page `z` (index `pi` of `p`, or index 0 of a new root when `pi < 0`) is the first key
of the new data page, which is the child at index `j+1`. -/
theorem split_sep (t : Tree K V) (p : Option Nat) (a : Nat) (pi i : Int) (k : K) (v : V)
    (ha : a < t.ds.length) :
    Res.all (fun t' => ∃ (z : Option Nat) (j : Int) (e1 e2 : xe K) (e : de K V),
      (0 ≤ pi → z = p ∧ j = pi) ∧
      (pi < 0 → z = some t.xs.length ∧ j = 0 ∧ t'.r = Ref.ofX t.xs.length) ∧
      t'.xAt z j = Res.ok e1 ∧ t'.xAt z (j + 1) = Res.ok e2 ∧
      e2.ch = Ref.ofD t.ds.length ∧ t'.dAt (some t.ds.length) 0 = Res.ok e ∧ e1.k = e.k)
    (t.split p (some a) pi i k v) := by
  unfold Tree.split
  simp only [Tree.newD]
  have hne : some t.ds.length ≠ some a := by
    intro h
    injection h with h
    omega
  refine all_bindR (fun qn => ?_)
  refine all_bindW (P := fun t1 => t1.xs = t.xs) ?_ (fun t1 h1 => ?_)
  · refine all_ite (fun _ => ?_) (fun _ => all_pure rfl)
    refine all_bindW (dSetN_frame _ _ _) (fun t1 h1 => ?_)
    refine all_bindR (fun _ => ?_)
    exact all_mono (dSetP_frame _ _ _) (fun t2 h2 => h2.1.trans h1.1)
  refine all_bindW (dSetN_frame _ _ _) (fun t2 h2 => ?_)
  refine all_bindW (dSetP_frame _ _ _) (fun t3 h3 => ?_)
  refine all_bindW (dCopy_frame _ _ _ _ _ _ _) (fun t4 h4 => ?_)
  refine all_bindR (fun _ => ?_)
  refine all_bindW (setD_frame _ _ _) (fun t5 h5 => ?_)
  refine all_bindW (dSetC_frame _ _ _) (fun t6 h6 => ?_)
  refine all_bindW (dSetC_frame _ _ _) (fun t7 h7 => ?_)
  have hx7 : t7.xs = t.xs := by
    rw [h7.1, h6.1, h5.1, h4.1, h3.1, h2.1, h1]
  refine all_bindW (P := fun t8 => t8.xs = t.xs) ?_ (fun t8 hx8 => ?_)
  · refine all_ite (fun _ => ?_) (fun _ => all_pure hx7)
    exact all_mono (insert_frame _ _ _ _ _) (fun t8 h8 => h8.1.trans hx7)
  refine all_bind (fun e he => ?_)
  refine all_bindW (P := fun t9 => t9.ds = t8.ds ∧ ∃ (z : Option Nat) (j : Int) (e1 e2 : xe K),
      (0 ≤ pi → z = p ∧ j = pi) ∧
      (pi < 0 → z = some t.xs.length ∧ j = 0 ∧ t9.r = Ref.ofX t.xs.length) ∧
      t9.xAt z j = Res.ok e1 ∧ t9.xAt z (j + 1) = Res.ok e2 ∧
      e2.ch = Ref.ofD t.ds.length ∧ e1.k = e.k) ?_ (fun t9 h9 => ?_)
  · refine all_ite (fun hpi => ?_) (fun hpi => ?_)
    · refine all_mono (x_insert_post _ _ _ _ _) (fun t9 h9 => ?_)
      obtain ⟨hd, ⟨e1, he1, hk1⟩, ⟨e2, he2, hc2⟩⟩ := h9
      exact ⟨hd, p, pi, e1, e2, fun _ => ⟨rfl, rfl⟩, fun h => absurd hpi (by omega), he1, he2,
        hc2, hk1⟩
    · refine all_bindW (newX_post _ _) (fun r1 hr1 => ?_)
      refine all_bindW (x_insert_post _ _ _ _ _) (fun t9 h9 => ?_)
      obtain ⟨hd, ⟨e1, he1, hk1⟩, ⟨e2, he2, hc2⟩⟩ := h9
      refine all_pure ⟨hd.trans hr1.1, r1.2, 0, e1, e2, fun h => absurd h hpi, fun _ => ?_,
        ?_, ?_, hc2, hk1⟩
      · refine ⟨?_, rfl, ?_⟩
        · rw [hr1.2, hx8]
        · show refX r1.2 = Ref.ofX t.xs.length
          rw [hr1.2, hx8]
          rfl
      · exact he1
      · exact he2
  obtain ⟨hd9, z, j, e1, e2, hz1, hz2, he1, he2, hc2, hk1⟩ := h9
  have he9 : t9.dAt (some t.ds.length) 0 = Res.ok e := by
    rw [← he]
    exact dAt_congr (by rw [hd9]) 0
  refine all_ite (fun _ => all_pure ⟨z, j, e1, e2, e, hz1, hz2, he1, he2, hc2, he9, hk1⟩)
    (fun _ => ?_)
  refine all_mono (all_and (insert_frame _ _ _ _ _) (insert_root _ _ _ _ _))
    (fun t10 h10 => ?_)
  obtain ⟨⟨hx10, hd10⟩, hr10⟩ := h10
  refine ⟨z, j, e1, e2, e, hz1, fun h => ?_, ?_, ?_, hc2, ?_, hk1⟩
  · obtain ⟨hz, hj, hr⟩ := hz2 h
    exact ⟨hz, hj, hr10.trans hr⟩
  · rw [xAt_congr hx10]; exact he1
  · rw [xAt_congr hx10]; exact he2
  · rw [dAt_congr (hd10 _ hne)]; exact he9

/-- When the binary search reports a match at index `m`, the key at `m` was read. -/
theorem findLoop_true (cmp : K → K → Int) (key : Int → Res K) (k : K) :
    ∀ (n : Nat) (l h m : Int), findLoop cmp key k n l h = Res.ok (m, true) →
      ∃ mk, key m = Res.ok mk := by
  intro n
  induction n with
  | zero => intro l h m hf; cases hf
  | succ n ih =>
    intro l h m hf
    unfold findLoop at hf
    by_cases hlh : l ≤ h
    · simp only [hlh, if_true, bind, Res.bind] at hf
      cases hk : key ((l + h) / 2) with
      | panic => rw [hk] at hf; cases hf
      | hang => rw [hk] at hf; cases hf
      | ok mk =>
        rw [hk] at hf
        simp only at hf
        by_cases h1 : 0 < cmp k mk
        · simp only [h1, if_true] at hf
          exact ih _ _ _ hf
        · simp only [h1, if_false] at hf
          by_cases h2 : cmp k mk = 0
          · simp only [h2, if_true, pure, Res.ok.injEq, Prod.mk.injEq, and_true] at hf
            rw [← hf]
            exact ⟨mk, hk⟩
          · simp only [h2, if_false] at hf
            exact ih _ _ _ hf
    · simp only [hlh, if_false, pure, Res.ok.injEq, Prod.mk.injEq, Bool.false_eq_true,
        and_false] at hf

/-- A match of `find` in a data page is at an index that can be read. -/
theorem find_true_dAt (t : Tree K V) (a : Nat) (k : K) (i : Int)
    (h : t.find (Ref.ofD a) k = Res.ok (i, true)) : ∃ e, t.dAt (some a) i = Res.ok e := by
  unfold Tree.find at h
  simp only [bind, Res.bind] at h
  cases hc : t.dC (some a) with
  | panic => rw [hc] at h; cases h
  | hang => rw [hc] at h; cases h
  | ok c =>
    rw [hc] at h
    simp only at h
    obtain ⟨mk, hmk⟩ := findLoop_true _ _ _ _ _ _ _ h
    cases he : t.dAt (some a) i with
    | ok e => exact ⟨e, rfl⟩
    | panic => rw [he] at hmk; cases hmk
    | hang => rw [he] at hmk; cases hmk

/-- The loops of `Seek` and `Get` make the same descent: one returns exactly when the other
does, with the same flag, and on a match the entry at the position of `Seek` holds the value
that `Get` returns. -/
theorem SeekLoop_GetLoop (t : Tree K V) (k : K) :
    ∀ (fuel : Nat) (q : Ref),
      match SeekLoop t k fuel q, GetLoop t k fuel q with
      | Res.ok (e, b), Res.ok (v, b2) =>
        b = b2 ∧ (b = true → ∃ en, t.dAt e.q e.i = Res.ok en ∧ en.v = v) ∧
        (b = false → v = default)
      | Res.panic, Res.panic => True
      | Res.hang, Res.hang => True
      | Res.hang, Res.ok (v, b2) => b2 = false ∧ v = default
      | _, _ => False := by
  intro fuel
  induction fuel with
  | zero => intro q; simp only [SeekLoop, GetLoop]
  | succ f ih =>
    intro q
    unfold SeekLoop GetLoop
    cases hf : t.find q k with
    | panic => simp only [bind, Res.bind]
    | hang => simp only [bind, Res.bind]
    | ok r =>
      obtain ⟨i, ok⟩ := r
      simp only [bind, Res.bind]
      cases q with
      | nil =>
        simp only [pure, and_self]
      | ofX a =>
        simp only
        cases ok with
        | true =>
          simp only [if_true]
          cases he : t.xAt (some a) (i + 1) with
          | panic => simp only
          | hang => simp only
          | ok e => exact ih e.ch
        | false =>
          simp only [Bool.false_eq_true, if_false]
          cases he : t.xAt (some a) i with
          | panic => simp only
          | hang => simp only
          | ok e => exact ih e.ch
      | ofD a =>
        simp only
        cases ok with
        | true =>
          obtain ⟨e, he⟩ := find_true_dAt t a k i hf
          simp only [if_true, he, pure, true_and]
          exact ⟨fun _ => ⟨e, rfl, rfl⟩, fun hb => by cases hb⟩
        | false =>
          simp only [Bool.false_eq_true, if_false, pure, true_and, false_implies]
          trivial

/-- C37: for every tree state and key `k`, `Seek(k)` and `Get(k)` make the same descent. When
`Seek` returns `(e, ok)`, `Get` returns `(v, ok)` with the same flag, when the flag is true the
entry at the page and index of `e` holds the value `v`, and when it is false `v` is the zero
value; `Seek` panics exactly when `Get` does. The one difference: at a nil child pointer (a state that is not well formed) `Get`
returns (zero value, false) while the loop of `Seek` does not end. -/
theorem C37_Seek_flag_equals_Get_flag (t : Tree K V) (k : K) :
    match t.Seek k, t.Get k with
    | Res.ok (e, b), Res.ok (v, b2) =>
      b = b2 ∧ (b = true → ∃ en, t.dAt e.q e.i = Res.ok en ∧ en.v = v) ∧
      (b = false → v = default)
    | Res.panic, Res.panic => True
    | Res.hang, Res.hang => True
    | Res.hang, Res.ok (v, b2) => b2 = false ∧ v = default
    | _, _ => False := by
  unfold Tree.Seek Tree.Get
  by_cases hr : t.r = Ref.nil
  · simp only [hr, if_true, pure, Bool.false_eq_true, false_implies, true_and]
    exact fun _ => trivial
  · simp only [hr, if_false]
    exact SeekLoop_GetLoop t k _ _

/-- A subtree that is well formed with data pages of at least `m` entries is so with any
smaller bound. -/
theorem Sub.weaken {t : Tree K V} {m m2 : Int} (hm : m2 ≤ m) :
    ∀ (h : Nat) (q : Ref) (los his : List K), Sub t m h q los his → Sub t m2 h q los his := by
  intro h
  induction h with
  | zero =>
    intro q los his hs
    cases q with
    | nil => exact hs.elim
    | ofX _ => exact hs.elim
    | ofD a =>
      obtain ⟨n, hn, h0, hmin, hrest⟩ := hs
      exact ⟨n, hn, h0, by omega, hrest⟩
  | succ h ih =>
    intro q los his hs
    cases q with
    | nil => exact hs.elim
    | ofD a =>
      obtain ⟨n, hn, h0, hmin, hrest⟩ := hs
      exact ⟨n, hn, h0, by omega, hrest⟩
    | ofX a =>
      obtain ⟨n, hn, h0, h1, hasc, hkids⟩ := hs
      exact ⟨n, hn, h0, h1, hasc, fun i e hi hle => ih _ _ _ (hkids i e hi hle)⟩

/-- In a strictly ascending list of entries, two entries with the same key are the same. -/
theorem asc_key_unique {cmp : K → K → Int} (st : StrictTotal cmp) {l : List (de K V)}
    (hl : l.Pairwise (fun x y => cmp x.k y.k < 0)) {e1 e2 : de K V} (h1 : e1 ∈ l) (h2 : e2 ∈ l)
    (hk : e1.k = e2.k) : e1 = e2 := by
  obtain ⟨i, hi, rfl⟩ := List.mem_iff_getElem.mp h1
  obtain ⟨j, hj, rfl⟩ := List.mem_iff_getElem.mp h2
  rw [List.pairwise_iff_getElem] at hl
  rcases Nat.lt_trichotomy i j with hij | hij | hij
  · have := hl i j hi hj hij
    rw [hk, st.refl] at this
    omega
  · subst hij
    rfl
  · have := hl j i hj hi hij
    rw [hk, st.refl] at this
    omega

/-- C31: in a well-formed tree (the keys of every data page and the separators of every
index page strictly ascending, each separator greater than all keys in the subtree on its
left and not greater than any key in the subtree on its right; the index pages below the
root are distinct pages), `Get(k)` returns; it returns `(v, true)` if an entry `(k, v)` is
stored in a data page of the tree and (zero value, false) if no data page stores `k`. -/
theorem C31_Get_returns_stored_value (t : Tree K V) (h : Nat) (st : StrictTotal t.cmp)
    (hw : t.r = Ref.nil ∨ (Sub t 0 h t.r [] [] ∧ (xpages t (h + 1) t.r).Nodup)) (k : K) :
    ∃ (v : V) (b : Bool), t.Get k = Res.ok (v, b) ∧
      (∀ e ∈ t.entries h, t.cmp k e.k = 0 → b = true ∧ v = e.v) ∧
      ((∀ e ∈ t.entries h, t.cmp k e.k ≠ 0) → b = false ∧ v = default) := by
  rcases hw with hr | ⟨hs, hx⟩
  · refine ⟨default, false, ?_, ?_, fun _ => ⟨rfl, rfl⟩⟩
    · simp only [Tree.Get, hr, if_true, pure]
    · intro e he
      rw [entries_of_nil hr] at he
      cases he
  · obtain ⟨a, n, j, b, L1, L2, hseek, hl, hn, h0, h1, hj, hlt, hbt, hbf, hgt⟩ :=
      Seek_pos t st _ h hs hx k
    have hent : t.entries h =
        (entries t L1 ++ (d.ents n).take j) ++ ((d.ents n).drop j ++ entries t L2) := by
      simp only [Tree.entries]
      rw [hl, entries_append, entries_cons hn, List.append_assoc]
      congr 1
      rw [← List.append_assoc, List.take_append_drop]
    have hasc := Sub.entries_asc st h t.r [] [] hs
    have hr : t.r ≠ Ref.nil := by
      intro hr
      rw [hr] at hs
      cases h <;> exact hs.elim
    have hsg := SeekLoop_GetLoop t k (t.xs.length + 1) t.r
    simp only [Tree.Seek, hr, if_false] at hseek
    rw [hseek] at hsg
    cases hg : GetLoop t k (t.xs.length + 1) t.r with
    | panic => rw [hg] at hsg; exact hsg.elim
    | hang => rw [hg] at hsg; exact hsg.elim
    | ok r =>
      obtain ⟨v, b2⟩ := r
      rw [hg] at hsg
      obtain ⟨hb, htrue, hfalse⟩ := hsg
      subst hb
      refine ⟨v, b, ?_, ?_, ?_⟩
      · simp only [Tree.Get, hr, if_false]
        exact hg
      · intro e he hke
        cases hb : b with
        | false =>
          exfalso
          rw [hent] at he
          rcases List.mem_append.mp he with he | he
          · have := hlt e he
            rw [(st.eq_iff _ _).mp hke, st.refl] at this
            omega
          · have := hbf hb e he
            omega
        | true =>
          obtain ⟨e0, he0, hk0⟩ := hbt hb
          obtain ⟨en, hen, hv⟩ := htrue hb
          have hjl : j < (d.ents n).length := by
            rw [List.get?_eq_getElem?] at he0
            exact (List.getElem?_eq_some_iff.mp he0).1
          have hjd : n.d.get? j = some e0 := by
            rw [List.get?_eq_getElem?] at he0 ⊢
            simp only [d.ents, List.getElem?_take] at he0
            rw [ents_length h1] at hjl
            simp only [hjl, if_true] at he0
            exact he0
          have hen2 : en = e0 := by
            simp only at hen
            rw [dAt_of hn, idx_ok n.d j e0 hjd] at hen
            cases hen
            rfl
          have he0m : e0 ∈ t.entries h := by
            rw [hent]
            refine List.mem_append_right _ (List.mem_append_left _ ?_)
            rw [List.get?_eq_getElem?] at he0
            obtain ⟨hlt2, hv2⟩ := List.getElem?_eq_some_iff.mp he0
            rw [List.drop_eq_getElem_cons hlt2, hv2]
            exact List.mem_cons_self _ _
          have hee : e = e0 := asc_key_unique st hasc he he0m
            (by rw [hk0]; exact ((st.eq_iff _ _).mp hke).symm)
          refine ⟨rfl, ?_⟩
          rw [hee, ← hv, hen2]
      · intro hall
        cases hb : b with
        | false => exact ⟨rfl, hfalse hb⟩
        | true =>
          exfalso
          obtain ⟨e0, he0, hk0⟩ := hbt hb
          refine hall e0 ?_ (by rw [hk0, st.refl])
          rw [hent]
          refine List.mem_append_right _ (List.mem_append_left _ ?_)
          rw [List.get?_eq_getElem?] at he0
          obtain ⟨hlt2, hv2⟩ := List.getElem?_eq_some_iff.mp he0
          rw [List.drop_eq_getElem_cons hlt2, hv2]
          exact List.mem_cons_self _ _

/-- Overwriting the value of the entry at index `i` of a data page leaves the shape of the
data pages. -/
theorem overwrite_shape (t : Tree K V) (q : Option Nat) (i : Int) (v : V) :
    Res.all (fun t' => leafShape t' = leafShape t ∧ hdr t' = hdr t)
      (t.dAt q i >>= fun e => t.dSetAt q i { e with v := v }) := by
  intro t' h
  cases q with
  | none => simp only [Tree.dAt, Tree.getD, bind, Res.bind, reduceCtorEq] at h
  | some a =>
    cases hn : t.ds.get? a with
    | none => simp only [Tree.dAt, Tree.getD, hn, bind, Res.bind, reduceCtorEq] at h
    | some n =>
      have hlt : a < t.ds.length := by
        rw [List.get?_eq_getElem?] at hn
        exact (List.getElem?_eq_some_iff.mp hn).1
      simp only [Tree.dAt, Tree.getD, hn, bind, Res.bind, idx] at h
      by_cases hi : 0 ≤ i
      · simp only [hi, if_true] at h
        cases he : n.d.get? i.toNat with
        | none => rw [he] at h; cases h
        | some e =>
          rw [he] at h
          have hil : i.toNat < n.d.length := by
            rw [List.get?_eq_getElem?] at he
            exact (List.getElem?_eq_some_iff.mp he).1
          simp only [Tree.dSetAt, Tree.getD, hn, bind, Res.bind, upd, hi, hil, and_self,
            if_true, Tree.setD, hlt, Res.ok.injEq] at h
          subst h
          refine ⟨?_, rfl⟩
          simp only [leafShape, List.map_set, Prod.mk.injEq, and_true]
          have hk : (n.d.map (fun e => e.k)).set i.toNat e.k = n.d.map (fun e => e.k) := by
            apply List.ext_getElem
            · simp
            · intro m h1 h2
              by_cases hm : i.toNat = m
              · subst hm
                rw [List.getElem_set_self]
                rw [List.get?_eq_getElem?] at he
                have := (List.getElem?_eq_some_iff.mp he).2
                simp only [List.getElem_map, this]
              · rw [List.getElem_set_ne hm]
          rw [hk]
          apply List.ext_getElem
          · simp
          · intro m h1 h2
            by_cases hm : a = m
            · subst hm
              rw [List.getElem_set_self]
              rw [List.get?_eq_getElem?] at hn
              have := (List.getElem?_eq_some_iff.mp hn).2
              simp only [List.getElem_map, this]
            · rw [List.getElem_set_ne hm]
      · simp only [hi, if_false] at h
        cases h

/-- The loop of `Set` does not lower the version and, when the version stays, leaves the
shape of the data pages. -/
theorem SetLoop_shape (k : K) (v : V) :
    ∀ (fuel : Nat) (t : Tree K V) (p : Option Nat) (pi : Int) (q : Ref),
      Res.all (fun t' => t'.ver = t.ver → leafShape t' = leafShape t)
        (SetLoop k v fuel t p pi q) := by
  intro fuel
  induction fuel with
  | zero => intro t p pi q; exact all_hang
  | succ f ih =>
    intro t p pi q
    unfold SetLoop
    refine all_bindR (fun r => ?_)
    obtain ⟨i, ok⟩ := r
    cases q with
    | nil => exact all_hang
    | ofX a =>
      simp only
      refine all_ite (fun _ => ?_) (fun _ => ?_)
      · refine all_bindR (fun e => ?_)
        exact ih _ _ _ _
      · refine all_bindR (fun c => ?_)
        refine all_bindW (P := fun r => r.1 = t ∨ t.ver < r.1.ver) ?_ (fun r hr => ?_)
        · refine all_ite (fun _ => ?_) (fun _ => all_pure (Or.inl rfl))
          refine all_mono (splitX_ver _ _ _ _ _) (fun r hr => Or.inr ?_)
          omega
        refine all_bindR (fun e => ?_)
        refine all_mono (all_and (ih r.1 _ _ _) (SetLoop_ver k v f r.1 _ _ _)) (fun t' h' => ?_)
        intro hv
        rcases hr with hr | hr
        · rw [hr] at h'
          exact h'.1 hv
        · have := h'.2.1
          omega
    | ofD a =>
      simp only
      refine all_ite (fun _ => ?_) (fun _ => ?_)
      · exact all_mono (overwrite_shape t (some a) i v) (fun t' h' _ => h'.1)
      · refine all_bindR (fun c => ?_)
        refine all_ite (fun _ => ?_) (fun _ => ?_)
        · refine all_mono (insert_ver _ _ _ _ _) (fun t' h' => ?_)
          intro hv
          omega
        · refine all_mono (overflow_ver _ _ _ _ _ _ _) (fun t' h' => ?_)
          intro hv
          omega

theorem Set_shape (t : Tree K V) (k : K) (v : V) :
    Res.all (fun t' => t'.ver = t.ver → leafShape t' = leafShape t) (t.Set k v) := by
  unfold Tree.Set
  refine all_ite (fun _ => ?_) (fun _ => SetLoop_shape k v _ _ _ _ _)
  simp only [Tree.newD]
  refine all_bindW (insert_ver _ _ _ _ _) (fun t2 h2 => ?_)
  refine all_pure ?_
  intro hv
  simp only at h2 hv
  omega

theorem PutLoop_shape (k : K) (upd : V → Bool → V × Bool) :
    ∀ (fuel : Nat) (t : Tree K V) (p : Option Nat) (pi : Int) (q : Ref),
      Res.all (fun r => r.1.ver = t.ver → leafShape r.1 = leafShape t)
        (PutLoop k upd fuel t p pi q) := by
  intro fuel
  induction fuel with
  | zero => intro t p pi q; exact all_hang
  | succ f ih =>
    intro t p pi q
    unfold PutLoop
    refine all_bindR (fun r => ?_)
    obtain ⟨i, ok⟩ := r
    cases q with
    | nil => exact all_hang
    | ofX a =>
      simp only
      refine all_ite (fun _ => ?_) (fun _ => ?_)
      · refine all_bindR (fun e => ?_)
        exact ih _ _ _ _
      · refine all_bindR (fun c => ?_)
        refine all_bindW (P := fun r => r.1 = t ∨ t.ver < r.1.ver) ?_ (fun r hr => ?_)
        · refine all_ite (fun _ => ?_) (fun _ => all_pure (Or.inl rfl))
          refine all_mono (splitX_ver _ _ _ _ _) (fun r hr => Or.inr ?_)
          omega
        refine all_bindR (fun e => ?_)
        refine all_mono (all_and (ih r.1 _ _ _) (PutLoop_ver k upd f r.1 _ _ _))
          (fun t' h' => ?_)
        intro hv
        rcases hr with hr | hr
        · rw [hr] at h'
          exact h'.1 hv
        · have := h'.2.1
          omega
    | ofD a =>
      simp only
      refine all_ite (fun _ => ?_) (fun _ => ?_)
      · refine all_bind (fun e he => ?_)
        refine all_ite (fun _ => ?_) (fun _ => all_pure (fun _ => rfl))
        refine all_bind (fun e2 he2 => ?_)
        rw [he] at he2
        cases he2
        refine all_bind (fun t' h' => ?_)
        have hs := overwrite_shape t (some a) i (upd e.v true).1 t'
          (by simp only [he, bind, Res.bind]; exact h')
        exact all_pure (fun _ => hs.1)
      · refine all_ite (fun _ => ?_) (fun _ => all_pure (fun _ => rfl))
        refine all_bindR (fun c => ?_)
        refine all_bindW (P := fun t' => t.ver < t'.ver) ?_ (fun t' h' => ?_)
        · refine all_ite (fun _ => ?_) (fun _ => ?_)
          · refine all_mono (insert_ver _ _ _ _ _) (fun t' h' => ?_)
            omega
          · refine all_mono (overflow_ver _ _ _ _ _ _ _) (fun t' h' => ?_)
            omega
        refine all_pure ?_
        intro hv
        simp only at hv
        omega

theorem Put_shape (t : Tree K V) (k : K) (upd : V → Bool → V × Bool) :
    Res.all (fun r => r.1.ver = t.ver → leafShape r.1 = leafShape t) (t.Put k upd) := by
  unfold Tree.Put
  refine all_ite (fun _ => PutLoop_shape k upd _ _ _ _ _) (fun _ => ?_)
  simp only [Tree.newD]
  refine all_ite (fun _ => ?_) (fun _ => all_pure (fun _ => rfl))
  refine all_bindW (insert_ver _ _ _ _ _) (fun t2 h2 => ?_)
  refine all_pure ?_
  intro hv
  simp only at h2 hv
  omega

theorem DeleteLoop_shape (k : K) :
    ∀ (fuel : Nat) (t : Tree K V) (p : Option Nat) (pi : Int) (q : Ref),
      Res.all (fun r => r.1.ver = t.ver → leafShape r.1 = leafShape t)
        (DeleteLoop k fuel t p pi q) := by
  intro fuel
  induction fuel with
  | zero => intro t p pi q; exact all_hang
  | succ f ih =>
    intro t p pi q
    unfold DeleteLoop
    refine all_bindR (fun r => ?_)
    obtain ⟨i, ok⟩ := r
    cases q with
    | nil => exact all_hang
    | ofX a =>
      simp only
      refine all_bindR (fun c => ?_)
      refine all_bindW (P := fun r => r.1 = t ∨ t.ver < r.1.ver) ?_ (fun r hr => ?_)
      · refine all_ite (fun _ => ?_) (fun _ => all_pure (Or.inl rfl))
        exact all_mono (underflowX_ver _ _ _ _ _) (fun r hr => Or.inr hr)
      have hstep : ∀ (pi2 : Int) (q2 : Ref),
          Res.all (fun r2 => r2.1.ver = t.ver → leafShape r2.1 = leafShape t)
            (DeleteLoop k f r.1 r.2.1 pi2 q2) := by
        intro pi2 q2
        refine all_mono (all_and (ih r.1 _ _ _) (DeleteLoop_ver k f r.1 _ _ _))
          (fun t' h' => ?_)
        intro hv
        rcases hr with hr | hr
        · rw [hr] at h'
          exact h'.1 hv
        · have := h'.2.1
          omega
      refine all_ite (fun _ => ?_) (fun _ => ?_)
      · refine all_bindR (fun e => ?_)
        exact hstep _ _
      · refine all_bindR (fun e => ?_)
        exact hstep _ _
    | ofD a =>
      simp only
      refine all_ite (fun _ => ?_) (fun _ => all_pure (fun _ => rfl))
      refine all_bindW (extract_ver _ _ _) (fun t1 h1 => ?_)
      refine all_bindR (fun c => ?_)
      refine all_ite (fun _ => all_pure ?_) (fun _ => ?_)
      · intro hv
        simp only at hv
        omega
      refine all_ite (fun _ => ?_) (fun _ => ?_)
      · refine all_bindW (underflow_ver _ _ _ _) (fun t2 h2 => ?_)
        refine all_pure ?_
        intro hv
        simp only at hv
        omega
      · refine all_ite (fun _ => ?_) (fun _ => all_pure ?_)
        · refine all_bindW (Clear_ver _) (fun t2 h2 => ?_)
          refine all_pure ?_
          intro hv
          simp only at hv
          omega
        · intro hv
          simp only at hv
          omega

theorem Delete_shape (t : Tree K V) (k : K) :
    Res.all (fun r => r.1.ver = t.ver → leafShape r.1 = leafShape t) (t.Delete k) := by
  unfold Tree.Delete
  exact all_ite (fun _ => all_pure (fun _ => rfl)) (fun _ => DeleteLoop_shape k _ _ _ _ _)

theorem Clear_shape (t : Tree K V) :
    Res.all (fun t' => t'.ver = t.ver → leafShape t' = leafShape t) t.Clear := by
  refine all_mono (all_and (Clear_ver t) (fun t' h => h)) (fun t' h' => ?_)
  intro hv
  obtain ⟨⟨_, h2⟩, h3⟩ := h'
  by_cases hr : t.r = Ref.nil
  · simp only [Tree.Clear, hr, if_true, pure, Res.ok.injEq] at h3
    rw [← h3]
  · have := h2 hr
    omega

/-- A run of `Set`, `Delete` and `Clear` calls does not lower the version and, when the
version is the same at the end, leaves the shape of the data pages. -/
theorem exec_shape (ops : List (Op K V)) :
    ∀ (t : Tree K V), Res.all (fun t' => t.ver ≤ t'.ver ∧
      (t'.ver = t.ver → leafShape t' = leafShape t)) (exec t ops) := by
  induction ops with
  | nil => intro t; exact all_pure ⟨le_refl _, fun _ => rfl⟩
  | cons o os ih =>
    intro t
    unfold exec
    refine all_bindW (P := fun t1 => t.ver ≤ t1.ver ∧
      (t1.ver = t.ver → leafShape t1 = leafShape t)) ?_ (fun t1 h1 => ?_)
    · cases o with
      | set k v =>
        exact all_mono (all_and (Set_ver t k v) (Set_shape t k v)) (fun t1 h => ⟨h.1.1, h.2⟩)
      | delete k =>
        simp only [Op.run]
        refine all_bindW (all_and (Delete_ver t k) (Delete_shape t k)) (fun r h => ?_)
        exact all_pure ⟨h.1.1, h.2⟩
      | clear =>
        exact all_mono (all_and (Clear_ver t) (Clear_shape t)) (fun t1 h => ⟨h.1.1, h.2⟩)
    · refine all_mono (ih t1) (fun t' h' => ?_)
      refine ⟨by omega, fun hv => ?_⟩
      have e1 : t1.ver = t.ver := by omega
      rw [h'.2 (by omega), h1.2 e1]

/-- C39: no `Set`, `Put`, `Delete` or `Clear` call lowers the version of the tree (`Get` and
`Seek` return no new tree state), and a call that leaves the version as it was leaves the
count, the keys at every index and the links of every data page, and `first` and `last`, as
they were: every call that changes one of these raises the version. The same holds for a run
of calls, so while the version of the tree equals the version an enumerator has recorded, the
page and index of the enumerator designate the same entry position. -/
theorem C39_version_guards_leaf_shape (t t' : Tree K V) :
    (∀ k v, t.Set k v = Res.ok t' →
      t.ver ≤ t'.ver ∧ (t'.ver = t.ver → leafShape t' = leafShape t)) ∧
    (∀ k upd o w, t.Put k upd = Res.ok (t', o, w) →
      t.ver ≤ t'.ver ∧ (t'.ver = t.ver → leafShape t' = leafShape t)) ∧
    (∀ k ok, t.Delete k = Res.ok (t', ok) →
      t.ver ≤ t'.ver ∧ (t'.ver = t.ver → leafShape t' = leafShape t)) ∧
    (t.Clear = Res.ok t' → t.ver ≤ t'.ver ∧ (t'.ver = t.ver → leafShape t' = leafShape t)) ∧
    (∀ ops, exec t ops = Res.ok t' →
      t.ver ≤ t'.ver ∧ (t'.ver = t.ver → leafShape t' = leafShape t)) := by
  refine ⟨?_, ?_, ?_, ?_, ?_⟩
  · intro k v h
    exact ⟨(Set_ver t k v t' h).1, Set_shape t k v t' h⟩
  · intro k upd o w h
    exact ⟨(Put_ver t k upd _ h).1, Put_shape t k upd _ h⟩
  · intro k ok h
    exact ⟨(Delete_ver t k _ h).1, Delete_shape t k _ h⟩
  · intro h
    exact ⟨(Clear_ver t t' h).1, Clear_shape t t' h⟩
  · intro ops h
    exact exec_shape ops t t' h

theorem bind_ok {α β : Type} (a : α) (f : α → Res β) : (Res.ok a >>= f) = f a := rfl

theorem pure_ok {α : Type} (a : α) : (pure a : Res α) = Res.ok a := rfl

theorem get?_lt {α : Type} {l : List α} {a : Nat} {n : α} (h : l.get? a = some n) :
    a < l.length := by
  rcases Nat.lt_or_ge a l.length with h1 | h1
  · exact h1
  · rw [List.get?_eq_none.mpr h1] at h
    cases h

theorem putD_same (t : Tree K V) (a : Nat) (n : d K V) (h : a < t.ds.length) :
    (t.putD a n).ds.get? a = some n := by
  simp only [Tree.putD, List.get?_eq_getElem?, List.getElem?_set_self h]

theorem putD_ne (t : Tree K V) (a b : Nat) (n : d K V) (h : a ≠ b) :
    (t.putD a n).ds.get? b = t.ds.get? b := by
  simp only [Tree.putD, List.get?_eq_getElem?, List.getElem?_set_ne h]

theorem putD_putD (t : Tree K V) (a : Nat) (n m : d K V) :
    (t.putD a n).putD a m = t.putD a m := by
  simp only [Tree.putD, List.set_set]

theorem putD_comm (t : Tree K V) (a b : Nat) (n m : d K V) (h : a ≠ b) :
    (t.putD a n).putD b m = (t.putD b m).putD a n := by
  simp only [Tree.putD, List.set_comm n m t.ds h]

theorem setD_ok (t : Tree K V) (a : Nat) (n : d K V) (h : a < t.ds.length) :
    t.setD (some a) n = Res.ok (t.putD a n) := by
  simp only [Tree.setD, h, if_true, Tree.putD]

theorem dSetC_ok (t : Tree K V) (a : Nat) (n : d K V) (c : Int) (h : t.ds.get? a = some n) :
    t.dSetC (some a) c = Res.ok (t.putD a { n with c := c }) := by
  simp only [Tree.dSetC, getD_of h, bind_ok, setD_ok t a _ (get?_lt h)]

theorem dSetN_ok (t : Tree K V) (a : Nat) (n : d K V) (c : Option Nat)
    (h : t.ds.get? a = some n) :
    t.dSetN (some a) c = Res.ok (t.putD a { n with n := c }) := by
  simp only [Tree.dSetN, getD_of h, bind_ok, setD_ok t a _ (get?_lt h)]

theorem dSetP_ok (t : Tree K V) (a : Nat) (n : d K V) (c : Option Nat)
    (h : t.ds.get? a = some n) :
    t.dSetP (some a) c = Res.ok (t.putD a { n with p := c }) := by
  simp only [Tree.dSetP, getD_of h, bind_ok, setD_ok t a _ (get?_lt h)]

theorem idx_int {α : Type} (l : List α) (i : Int) (e : α) (hi : 0 ≤ i)
    (he : l.get? i.toNat = some e) : idx l i = Res.ok e := by
  have := get?_lt he
  simp only [idx, hi, this, and_self, if_true, he]

theorem upd_ok {α : Type} (l : List α) (i : Int) (e : α) (hi : 0 ≤ i)
    (h2 : i.toNat < l.length) : upd l i e = Res.ok (l.set i.toNat e) := by
  simp only [upd, hi, h2, and_self, if_true]

theorem slice_ok {α : Type} (l : List α) (lo hi : Int) (h0 : 0 ≤ lo) (h1 : lo ≤ hi)
    (h2 : hi.toNat ≤ l.length) :
    slice l lo hi = Res.ok ((l.drop lo.toNat).take (hi.toNat - lo.toNat)) := by
  simp only [slice, h0, h1, h2, and_self, if_true]

theorem copy_ok {α : Type} (l : List α) (lo hi : Int) (s : List α) (h0 : 0 ≤ lo) (h1 : lo ≤ hi)
    (h2 : hi.toNat ≤ l.length) :
    copy l lo hi s = Res.ok (l.take lo.toNat ++ s.take (hi.toNat - lo.toNat)
      ++ l.drop (lo.toNat + min s.length (hi.toNat - lo.toNat))) := by
  simp only [copy, h0, h1, h2, and_self, if_true]

theorem dAt_ok (t : Tree K V) (a : Nat) (n : d K V) (i : Int) (e : de K V)
    (h : t.ds.get? a = some n) (hi : 0 ≤ i) (he : n.d.get? i.toNat = some e) :
    t.dAt (some a) i = Res.ok e := by
  simp only [Tree.dAt, getD_of h, bind_ok, idx_int n.d i e hi he]

theorem dSetAt_ok (t : Tree K V) (a : Nat) (n : d K V) (i : Int) (e : de K V)
    (h : t.ds.get? a = some n) (hi : 0 ≤ i) (h2 : i.toNat < n.d.length) :
    t.dSetAt (some a) i e = Res.ok (t.putD a { n with d := n.d.set i.toNat e }) := by
  simp only [Tree.dSetAt, getD_of h, bind_ok, upd_ok n.d i e hi h2,
    setD_ok t a _ (get?_lt h)]

theorem dCopy_ok (t : Tree K V) (dst src : Nat) (dn sn : d K V) (lo hi a b : Int)
    (hd : t.ds.get? dst = some dn) (hs : t.ds.get? src = some sn)
    (h0 : 0 ≤ lo) (h1 : lo ≤ hi) (h2 : hi.toNat ≤ dn.d.length)
    (h3 : 0 ≤ a) (h4 : a ≤ b) (h5 : b.toNat ≤ sn.d.length) :
    t.dCopy (some dst) lo hi (some src) a b = Res.ok (t.putD dst { dn with
      d := dn.d.take lo.toNat ++ ((sn.d.drop a.toNat).take (b.toNat - a.toNat)).take
          (hi.toNat - lo.toNat)
        ++ dn.d.drop (lo.toNat + min ((sn.d.drop a.toNat).take (b.toNat - a.toNat)).length
          (hi.toNat - lo.toNat)) }) := by
  simp only [Tree.dCopy, getD_of hd, getD_of hs, bind_ok,
    slice_ok sn.d a b h3 h4 h5, copy_ok dn.d lo hi _ h0 h1 h2, setD_ok t dst _ (get?_lt hd)]

theorem kd_eq : kd = 64 := rfl

theorem kx_eq : kx = 128 := rfl

theorem dLen_eq : dLen = 129 := rfl

theorem xLen_eq : xLen = 258 := rfl

/-- `copy(dst.d[lo:hi], src.d[a:b])` when the source is not longer than the window. -/
theorem dCopy_fit (t : Tree K V) (dst src : Nat) (dn sn : d K V) (lo hi a b : Int)
    (hd : t.ds.get? dst = some dn) (hs : t.ds.get? src = some sn)
    (h0 : 0 ≤ lo) (h1 : lo ≤ hi) (h2 : hi.toNat ≤ dn.d.length)
    (h3 : 0 ≤ a) (h4 : a ≤ b) (h5 : b.toNat ≤ sn.d.length) (h6 : b - a ≤ hi - lo) :
    ∃ dn2 : d K V, t.dCopy (some dst) lo hi (some src) a b = Res.ok (t.putD dst dn2) ∧
      dn2.c = dn.c ∧ dn2.n = dn.n ∧ dn2.p = dn.p ∧ dn2.d.length = dn.d.length ∧
      dn2.d = dn.d.take lo.toNat ++ (sn.d.drop a.toNat).take (b.toNat - a.toNat)
        ++ dn.d.drop (lo.toNat + (b.toNat - a.toNat)) := by
  refine ⟨_, dCopy_ok t dst src dn sn lo hi a b hd hs h0 h1 h2 h3 h4 h5, rfl, rfl, rfl, ?_, ?_⟩
  · simp only [List.length_append, List.length_take, List.length_drop]
    omega
  · simp only [List.length_take, List.length_drop]
    have e1 : min (b.toNat - a.toNat) (sn.d.length - a.toNat) = b.toNat - a.toNat := by omega
    have e2 : min (b.toNat - a.toNat) (hi.toNat - lo.toNat) = b.toNat - a.toNat := by omega
    rw [e1, e2, List.take_take, min_comm, e2]

/-- `copy(dst.d[lo:hi], src.d[a:b])` when the source is at least as long as the window. -/
theorem dCopy_cut (t : Tree K V) (dst src : Nat) (dn sn : d K V) (lo hi a b : Int)
    (hd : t.ds.get? dst = some dn) (hs : t.ds.get? src = some sn)
    (h0 : 0 ≤ lo) (h1 : lo ≤ hi) (h2 : hi.toNat ≤ dn.d.length)
    (h3 : 0 ≤ a) (h4 : a ≤ b) (h5 : b.toNat ≤ sn.d.length) (h6 : hi - lo ≤ b - a) :
    ∃ dn2 : d K V, t.dCopy (some dst) lo hi (some src) a b = Res.ok (t.putD dst dn2) ∧
      dn2.c = dn.c ∧ dn2.n = dn.n ∧ dn2.p = dn.p ∧ dn2.d.length = dn.d.length ∧
      dn2.d = dn.d.take lo.toNat ++ (sn.d.drop a.toNat).take (hi.toNat - lo.toNat)
        ++ dn.d.drop hi.toNat := by
  refine ⟨_, dCopy_ok t dst src dn sn lo hi a b hd hs h0 h1 h2 h3 h4 h5, rfl, rfl, rfl, ?_, ?_⟩
  · simp only [List.length_append, List.length_take, List.length_drop]
    omega
  · simp only [List.length_take, List.length_drop]
    have e1 : min (b.toNat - a.toNat) (sn.d.length - a.toNat) = b.toNat - a.toNat := by omega
    have e2 : min (b.toNat - a.toNat) (hi.toNat - lo.toNat) = hi.toNat - lo.toNat := by omega
    have e3 : lo.toNat + (hi.toNat - lo.toNat) = hi.toNat := by omega
    rw [e1, e2, List.take_take, min_comm, e2, e3]


theorem take_app3 {α : Type} (A B C : List α) (n : Nat) (h : A.length + B.length = n) :
    (A ++ B ++ C).take n = A ++ B := by
  apply List.take_left'
  rw [List.length_append, h]

theorem putD_four (t : Tree K V) (l r : Nat) (a b c e : d K V) (hne : l ≠ r) :
    (((t.putD l a).putD r b).putD l c).putD r e = (t.putD l c).putD r e := by
  rw [putD_comm _ r l _ _ (Ne.symm hne), putD_putD, putD_putD]

/-- Exact result of `l.mvL(r, c)` on two different pages of the store. -/
theorem mvL_ok (t : Tree K V) (l r : Nat) (ln rn : d K V) (c : Int)
    (hl : t.ds.get? l = some ln) (hr : t.ds.get? r = some rn) (hne : l ≠ r)
    (hll : ln.d.length = 129) (hrl : rn.d.length = 129)
    (hlc : 0 ≤ ln.c) (hc : 0 ≤ c) (hcr : c ≤ rn.c) (hrc : rn.c ≤ 129) (hsum : ln.c + c ≤ 129) :
    ∃ ln2 rn2 : d K V, d.mvL t (some l) (some r) c = Res.ok ((t.putD l ln2).putD r rn2) ∧
      ln2.c = ln.c + c ∧ rn2.c = rn.c - c ∧ ln2.n = ln.n ∧ ln2.p = ln.p ∧
      rn2.n = rn.n ∧ rn2.p = rn.p ∧ ln2.d.length = 129 ∧ rn2.d.length = 129 ∧
      d.ents ln2 = d.ents ln ++ (d.ents rn).take c.toNat ∧
      d.ents rn2 = (d.ents rn).drop c.toNat := by
  obtain ⟨ln1, e1, hc1, hn1, hp1, hl1, hd1⟩ := dCopy_fit t l r ln rn ln.c dLen 0 c hl hr hlc
    (by rw [dLen_eq]; omega) (by rw [dLen_eq, hll]; decide) (le_refl _) hc (by rw [hrl]; omega)
    (by rw [dLen_eq]; omega)
  have g1 : (t.putD l ln1).ds.get? r = some rn := (putD_ne t l r _ hne).trans hr
  obtain ⟨rn1, e2, hc2, hn2, hp2, hl2, hd2⟩ := dCopy_fit (t.putD l ln1) r r rn rn 0 dLen c rn.c
    g1 g1 (le_refl _) (by rw [dLen_eq]; decide) (by rw [dLen_eq, hrl]; decide) hc hcr
    (by rw [hrl]; omega) (by rw [dLen_eq]; omega)
  have g2 : ((t.putD l ln1).putD r rn1).ds.get? l = some ln1 :=
    (putD_ne _ r l _ (Ne.symm hne)).trans (putD_same t l _ (get?_lt hl))
  have e3 := dSetC_ok _ l ln1 (ln1.c + c) g2
  have g3 : ((t.putD l ln1).putD r rn1).ds.get? r = some rn1 := putD_same _ r _ (get?_lt g1)
  have g4 : ((((t.putD l ln1).putD r rn1).putD l { ln1 with c := ln1.c + c })).ds.get? r
      = some rn1 := (putD_ne _ l r _ hne).trans g3
  have e4 := dSetC_ok _ r rn1 (rn1.c - c) g4
  refine ⟨{ ln1 with c := ln1.c + c }, { rn1 with c := rn1.c - c }, ?_, ?_, ?_, hn1, hp1, hn2,
    hp2, ?_, ?_, ?_, ?_⟩
  · unfold d.mvL
    rw [dC_of hl, bind_ok, e1, bind_ok, dC_of g1, bind_ok, e2, bind_ok, dC_of g2, bind_ok, e3,
      bind_ok, dC_of g4, bind_ok, e4]
    rw [putD_four _ _ _ _ _ _ _ hne]
  · rw [hc1]
  · rw [hc2]
  · rw [hl1, hll]
  · rw [hl2, hrl]
  · have e5 : (rn.d.take rn.c.toNat).take c.toNat = rn.d.take c.toNat := by
      rw [List.take_take, min_eq_left (by omega)]
    simp only [d.ents, hd1, hc1, Int.toNat_zero, List.drop_zero, Nat.sub_zero, e5]
    apply take_app3
    simp only [List.length_take]
    omega
  · simp only [d.ents, hd2, hc2, Int.toNat_zero, List.take_zero, List.nil_append, Nat.zero_add]
    rw [List.take_append_of_le_length (by simp only [List.length_take, List.length_drop]; omega),
      List.take_take, List.drop_take]
    congr 1
    omega

/-- Exact result of `l.mvR(r, c)` on two different pages of the store. -/
theorem mvR_ok (t : Tree K V) (l r : Nat) (ln rn : d K V) (c : Int)
    (hl : t.ds.get? l = some ln) (hr : t.ds.get? r = some rn) (hne : l ≠ r)
    (hll : ln.d.length = 129) (hrl : rn.d.length = 129)
    (hrc : 0 ≤ rn.c) (hc : 0 ≤ c) (hcl : c ≤ ln.c) (hlc : ln.c ≤ 129) (hsum : rn.c + c ≤ 129) :
    ∃ ln2 rn2 : d K V, d.mvR t (some l) (some r) c = Res.ok ((t.putD l ln2).putD r rn2) ∧
      ln2.c = ln.c - c ∧ rn2.c = rn.c + c ∧ ln2.n = ln.n ∧ ln2.p = ln.p ∧
      rn2.n = rn.n ∧ rn2.p = rn.p ∧ ln2.d.length = 129 ∧ rn2.d.length = 129 ∧
      d.ents ln2 = (d.ents ln).take (ln.c - c).toNat ∧
      d.ents rn2 = (d.ents ln).drop (ln.c - c).toNat ++ d.ents rn := by
  have hne2 : r ≠ l := Ne.symm hne
  obtain ⟨rn1, e1, hc1, hn1, hp1, hl1, hd1⟩ := dCopy_fit t r r rn rn c dLen 0 rn.c hr hr hc
    (by rw [dLen_eq]; omega) (by rw [dLen_eq, hrl]; decide) (le_refl _) hrc (by rw [hrl]; omega)
    (by rw [dLen_eq]; omega)
  have g1 : (t.putD r rn1).ds.get? l = some ln := (putD_ne t r l _ hne2).trans hl
  have g1r : (t.putD r rn1).ds.get? r = some rn1 := putD_same t r _ (get?_lt hr)
  obtain ⟨rn2, e2, hc2, hn2, hp2, hl2, hd2⟩ := dCopy_cut (t.putD r rn1) r l rn1 ln 0 c
    (ln.c - c) dLen g1r g1 (le_refl _) hc (by rw [hl1, hrl]; omega) (by omega)
    (by rw [dLen_eq]; omega) (by rw [dLen_eq, hll]; decide) (by rw [dLen_eq]; omega)
  rw [putD_putD] at e2
  have g2 : (t.putD r rn2).ds.get? r = some rn2 := putD_same t r _ (get?_lt hr)
  have e3 := dSetC_ok _ r rn2 (rn2.c + c) g2
  rw [putD_putD] at e3
  have g3 : (t.putD r { rn2 with c := rn2.c + c }).ds.get? l = some ln :=
    (putD_ne t r l _ hne2).trans hl
  have e4 := dSetC_ok _ l ln (ln.c - c) g3
  rw [putD_comm _ r l _ _ hne2] at e4
  refine ⟨{ ln with c := ln.c - c }, { rn2 with c := rn2.c + c }, ?_, rfl, ?_, rfl, rfl,
    hn2.trans hn1, hp2.trans hp1, hll, ?_, ?_, ?_⟩
  · unfold d.mvR
    rw [dC_of hr, bind_ok, e1, bind_ok, dC_of g1, bind_ok, e2, bind_ok, dC_of g2, bind_ok, e3,
      bind_ok, dC_of g3, bind_ok, e4]
  · show rn2.c + c = rn.c + c
    rw [hc2, hc1]
  · rw [hl2, hl1, hrl]
  · simp only [d.ents]
    rw [List.take_take, min_eq_left (by omega)]
  · simp only [d.ents, hd2, hd1, hc2, hc1, Int.toNat_zero, List.take_zero, List.nil_append,
      List.drop_zero, Nat.sub_zero]
    have hA : (rn.d.take c.toNat).length = c.toNat := by
      rw [List.length_take]
      omega
    rw [List.append_assoc (rn.d.take c.toNat), List.drop_left' hA, ← List.append_assoc,
      take_app3 _ _ _ _ (by simp only [List.length_take, List.length_drop]; omega),
      List.drop_take]
    congr 2
    omega

/-- C40: for two different leaves `l` and `r` of the store (arrays of 2·kd+1 elements, counts
within the arrays) and a count `n` with 0 ≤ n: when n ≤ r.c and l.c + n ≤ 2·kd+1, `l.mvL(r, n)`
returns, with the first `n` entries of `r` appended to the entries of `l` and removed from the
front of `r`; when n ≤ l.c and r.c + n ≤ 2·kd+1, `l.mvR(r, n)` returns, with the last `n`
entries of `l` put in front of the entries of `r` and removed from `l`. In both cases the
counts change by `n` in opposite directions, the entries of `l` followed by the entries of `r`
are the same list as before, the links of the two pages stay, and nothing else in the tree
changes. -/
theorem C40_mvL_mvR_move_entries (t : Tree K V) (l r : Nat) (ln rn : d K V) (n : Int)
    (hl : t.ds.get? l = some ln) (hr : t.ds.get? r = some rn) (hne : l ≠ r)
    (hll : ln.d.length = dLen.toNat) (hrl : rn.d.length = dLen.toNat)
    (hlc : 0 ≤ ln.c ∧ ln.c ≤ 2 * kd + 1) (hrc : 0 ≤ rn.c ∧ rn.c ≤ 2 * kd + 1) (hn : 0 ≤ n) :
    (n ≤ rn.c → ln.c + n ≤ 2 * kd + 1 →
      ∃ ln2 rn2 : d K V, d.mvL t (some l) (some r) n = Res.ok ((t.putD l ln2).putD r rn2) ∧
        ln2.c = ln.c + n ∧ rn2.c = rn.c - n ∧
        d.ents ln2 = d.ents ln ++ (d.ents rn).take n.toNat ∧
        d.ents rn2 = (d.ents rn).drop n.toNat ∧
        d.ents ln2 ++ d.ents rn2 = d.ents ln ++ d.ents rn ∧
        ln2.n = ln.n ∧ ln2.p = ln.p ∧ rn2.n = rn.n ∧ rn2.p = rn.p) ∧
    (n ≤ ln.c → rn.c + n ≤ 2 * kd + 1 →
      ∃ ln2 rn2 : d K V, d.mvR t (some l) (some r) n = Res.ok ((t.putD l ln2).putD r rn2) ∧
        ln2.c = ln.c - n ∧ rn2.c = rn.c + n ∧
        d.ents ln2 = (d.ents ln).take (ln.c - n).toNat ∧
        d.ents rn2 = (d.ents ln).drop (ln.c - n).toNat ++ d.ents rn ∧
        d.ents ln2 ++ d.ents rn2 = d.ents ln ++ d.ents rn ∧
        ln2.n = ln.n ∧ ln2.p = ln.p ∧ rn2.n = rn.n ∧ rn2.p = rn.p) := by
  have hll2 : ln.d.length = 129 := hll
  have hrl2 : rn.d.length = 129 := hrl
  rw [kd_eq] at hlc hrc
  rw [kd_eq]
  refine ⟨fun h1 h2 => ?_, fun h1 h2 => ?_⟩
  · obtain ⟨ln2, rn2, e, h3, h4, h5, h6, h7, h8, _, _, h9, h10⟩ :=
      mvL_ok t l r ln rn n hl hr hne hll2 hrl2 hlc.1 hn h1 (by omega) (by omega)
    refine ⟨ln2, rn2, e, h3, h4, h9, h10, ?_, h5, h6, h7, h8⟩
    rw [h9, h10, List.append_assoc, List.take_append_drop]
  · obtain ⟨ln2, rn2, e, h3, h4, h5, h6, h7, h8, _, _, h9, h10⟩ :=
      mvR_ok t l r ln rn n hl hr hne hll2 hrl2 hrc.1 hn h1 (by omega) (by omega)
    refine ⟨ln2, rn2, e, h3, h4, h9, h10, ?_, h5, h6, h7, h8⟩
    rw [h9, h10, ← List.append_assoc, List.take_append_drop]

theorem putX_same (t : Tree K V) (a : Nat) (n : x K) (h : a < t.xs.length) :
    (t.putX a n).xs.get? a = some n := by
  simp only [Tree.putX, List.get?_eq_getElem?, List.getElem?_set_self h]

theorem putX_ne (t : Tree K V) (a b : Nat) (n : x K) (h : a ≠ b) :
    (t.putX a n).xs.get? b = t.xs.get? b := by
  simp only [Tree.putX, List.get?_eq_getElem?, List.getElem?_set_ne h]

theorem putX_putX (t : Tree K V) (a : Nat) (n m : x K) :
    (t.putX a n).putX a m = t.putX a m := by
  simp only [Tree.putX, List.set_set]

theorem putX_comm (t : Tree K V) (a b : Nat) (n m : x K) (h : a ≠ b) :
    (t.putX a n).putX b m = (t.putX b m).putX a n := by
  simp only [Tree.putX, List.set_comm n m t.xs h]

theorem setX_ok (t : Tree K V) (a : Nat) (n : x K) (h : a < t.xs.length) :
    t.setX (some a) n = Res.ok (t.putX a n) := by
  simp only [Tree.setX, h, if_true, Tree.putX]

theorem xSetC_ok (t : Tree K V) (a : Nat) (n : x K) (c : Int) (h : t.xs.get? a = some n) :
    t.xSetC (some a) c = Res.ok (t.putX a { n with c := c }) := by
  simp only [Tree.xSetC, getX_of h, bind_ok, setX_ok t a _ (get?_lt h)]

theorem xAt_ok (t : Tree K V) (a : Nat) (n : x K) (i : Int) (e : xe K)
    (h : t.xs.get? a = some n) (hi : 0 ≤ i) (he : n.x.get? i.toNat = some e) :
    t.xAt (some a) i = Res.ok e := by
  simp only [Tree.xAt, getX_of h, bind_ok, idx_int n.x i e hi he]

theorem xSetAt_ok (t : Tree K V) (a : Nat) (n : x K) (i : Int) (e : xe K)
    (h : t.xs.get? a = some n) (hi : 0 ≤ i) (h2 : i.toNat < n.x.length) :
    t.xSetAt (some a) i e = Res.ok (t.putX a { n with x := n.x.set i.toNat e }) := by
  simp only [Tree.xSetAt, getX_of h, bind_ok, upd_ok n.x i e hi h2,
    setX_ok t a _ (get?_lt h)]

theorem xSetCh_ok (t : Tree K V) (a : Nat) (n : x K) (i : Int) (e : xe K) (ch : Ref)
    (h : t.xs.get? a = some n) (hi : 0 ≤ i) (he : n.x.get? i.toNat = some e) :
    t.xSetCh (some a) i ch
      = Res.ok (t.putX a { n with x := n.x.set i.toNat { e with ch := ch } }) := by
  simp only [Tree.xSetCh, xAt_ok t a n i e h hi he, bind_ok,
    xSetAt_ok t a n i _ h hi (get?_lt he)]

theorem xSetK_ok (t : Tree K V) (a : Nat) (n : x K) (i : Int) (e : xe K) (k : K)
    (h : t.xs.get? a = some n) (hi : 0 ≤ i) (he : n.x.get? i.toNat = some e) :
    t.xSetK (some a) i k
      = Res.ok (t.putX a { n with x := n.x.set i.toNat { e with k := k } }) := by
  simp only [Tree.xSetK, xAt_ok t a n i e h hi he, bind_ok,
    xSetAt_ok t a n i _ h hi (get?_lt he)]

theorem xCopy_ok (t : Tree K V) (dst src : Nat) (dn sn : x K) (lo hi a b : Int)
    (hd : t.xs.get? dst = some dn) (hs : t.xs.get? src = some sn)
    (h0 : 0 ≤ lo) (h1 : lo ≤ hi) (h2 : hi.toNat ≤ dn.x.length)
    (h3 : 0 ≤ a) (h4 : a ≤ b) (h5 : b.toNat ≤ sn.x.length) :
    t.xCopy (some dst) lo hi (some src) a b = Res.ok (t.putX dst { dn with
      x := dn.x.take lo.toNat ++ ((sn.x.drop a.toNat).take (b.toNat - a.toNat)).take
          (hi.toNat - lo.toNat)
        ++ dn.x.drop (lo.toNat + min ((sn.x.drop a.toNat).take (b.toNat - a.toNat)).length
          (hi.toNat - lo.toNat)) }) := by
  simp only [Tree.xCopy, getX_of hd, getX_of hs, bind_ok,
    slice_ok sn.x a b h3 h4 h5, copy_ok dn.x lo hi _ h0 h1 h2, setX_ok t dst _ (get?_lt hd)]

/-- `copy(dst.x[lo:hi], src.x[a:b])` when the source is not longer than the window. -/
theorem xCopy_fit (t : Tree K V) (dst src : Nat) (dn sn : x K) (lo hi a b : Int)
    (hd : t.xs.get? dst = some dn) (hs : t.xs.get? src = some sn)
    (h0 : 0 ≤ lo) (h1 : lo ≤ hi) (h2 : hi.toNat ≤ dn.x.length)
    (h3 : 0 ≤ a) (h4 : a ≤ b) (h5 : b.toNat ≤ sn.x.length) (h6 : b - a ≤ hi - lo) :
    ∃ dn2 : x K, t.xCopy (some dst) lo hi (some src) a b = Res.ok (t.putX dst dn2) ∧
      dn2.c = dn.c ∧ dn2.x.length = dn.x.length ∧
      dn2.x = dn.x.take lo.toNat ++ (sn.x.drop a.toNat).take (b.toNat - a.toNat)
        ++ dn.x.drop (lo.toNat + (b.toNat - a.toNat)) := by
  refine ⟨_, xCopy_ok t dst src dn sn lo hi a b hd hs h0 h1 h2 h3 h4 h5, rfl, ?_, ?_⟩
  · simp only [List.length_append, List.length_take, List.length_drop]
    omega
  · simp only [List.length_take, List.length_drop]
    have e1 : min (b.toNat - a.toNat) (sn.x.length - a.toNat) = b.toNat - a.toNat := by omega
    have e2 : min (b.toNat - a.toNat) (hi.toNat - lo.toNat) = b.toNat - a.toNat := by omega
    rw [e1, e2, List.take_take, min_comm, e2]

theorem idx_getD {α : Type} (l : List α) (i : Int) (z : α) (hi : 0 ≤ i)
    (h2 : i.toNat < l.length) : idx l i = Res.ok (l.getD i.toNat z) := by
  apply idx_int l i _ hi
  rw [List.get?_eq_getElem?, List.getD_eq_getElem?_getD, List.getElem?_eq_getElem h2]
  rfl

theorem putD_self (t : Tree K V) (a : Nat) (n : d K V) (h : t.ds.get? a = some n) :
    t.putD a n = t := by
  have e : t.ds.set a n = t.ds := by
    apply List.ext_getElem?
    intro j
    rw [List.getElem?_set]
    split
    · rename_i hj
      subst hj
      rw [← List.get?_eq_getElem?, h, if_pos (get?_lt h)]
    · rfl
  simp only [Tree.putD, e]

theorem putX_self (t : Tree K V) (a : Nat) (n : x K) (h : t.xs.get? a = some n) :
    t.putX a n = t := by
  have e : t.xs.set a n = t.xs := by
    apply List.ext_getElem?
    intro j
    rw [List.getElem?_set]
    split
    · rename_i hj
      subst hj
      rw [← List.get?_eq_getElem?, h, if_pos (get?_lt h)]
    · rfl
  simp only [Tree.putX, e]

theorem dC_put (t : Tree K V) (a : Nat) (n : d K V) (ha : a < t.ds.length) :
    (t.putD a n).dC (some a) = Res.ok n.c := dC_of (putD_same t a n ha)

theorem dAt_put (t : Tree K V) (a : Nat) (n : d K V) (i : Int) (ha : a < t.ds.length)
    (hi : 0 ≤ i) (h2 : i.toNat < n.d.length) :
    (t.putD a n).dAt (some a) i = Res.ok (n.d.getD i.toNat zde) := by
  rw [dAt_of (putD_same t a n ha), idx_getD n.d i zde hi h2]

theorem dSetC_put (t : Tree K V) (a : Nat) (n : d K V) (c : Int) (ha : a < t.ds.length) :
    (t.putD a n).dSetC (some a) c = Res.ok (t.putD a { n with c := c }) := by
  rw [dSetC_ok _ a n c (putD_same t a n ha), putD_putD]

theorem dSetN_put (t : Tree K V) (a : Nat) (n : d K V) (c : Option Nat) (ha : a < t.ds.length) :
    (t.putD a n).dSetN (some a) c = Res.ok (t.putD a { n with n := c }) := by
  rw [dSetN_ok _ a n c (putD_same t a n ha), putD_putD]

theorem dSetP_put (t : Tree K V) (a : Nat) (n : d K V) (c : Option Nat) (ha : a < t.ds.length) :
    (t.putD a n).dSetP (some a) c = Res.ok (t.putD a { n with p := c }) := by
  rw [dSetP_ok _ a n c (putD_same t a n ha), putD_putD]

theorem dSetAt_put (t : Tree K V) (a : Nat) (n : d K V) (i : Int) (e : de K V)
    (ha : a < t.ds.length) (hi : 0 ≤ i) (h2 : i.toNat < n.d.length) :
    (t.putD a n).dSetAt (some a) i e
      = Res.ok (t.putD a { n with d := n.d.set i.toNat e }) := by
  rw [dSetAt_ok _ a n i e (putD_same t a n ha) hi h2, putD_putD]

/-- `copy(q.d[lo:hi], q.d[a:b])` within one page, the source not longer than the window. -/
theorem dCopy_put (t : Tree K V) (a : Nat) (n : d K V) (lo hi s e : Int)
    (ha : a < t.ds.length) (h0 : 0 ≤ lo) (h1 : lo ≤ hi) (h2 : hi.toNat ≤ n.d.length)
    (h3 : 0 ≤ s) (h4 : s ≤ e) (h5 : e.toNat ≤ n.d.length) (h6 : e - s ≤ hi - lo) :
    (t.putD a n).dCopy (some a) lo hi (some a) s e = Res.ok (t.putD a { n with
      d := n.d.take lo.toNat ++ (n.d.drop s.toNat).take (e.toNat - s.toNat)
        ++ n.d.drop (lo.toNat + (e.toNat - s.toNat)) }) := by
  have g := putD_same t a n ha
  obtain ⟨n2, e1, hc, hn, hp, _, hd⟩ := dCopy_fit _ a a n n lo hi s e g g h0 h1 h2 h3 h4 h5 h6
  rw [e1, putD_putD]
  congr 2
  cases n2
  simp only at hc hn hp hd
  simp only [hc, hn, hp, hd]

theorem xC_put (t : Tree K V) (a : Nat) (n : x K) (ha : a < t.xs.length) :
    (t.putX a n).xC (some a) = Res.ok n.c := xC_of (putX_same t a n ha)

theorem xAt_put (t : Tree K V) (a : Nat) (n : x K) (i : Int) (ha : a < t.xs.length)
    (hi : 0 ≤ i) (h2 : i.toNat < n.x.length) :
    (t.putX a n).xAt (some a) i = Res.ok (n.x.getD i.toNat zxe) := by
  rw [xAt_of (putX_same t a n ha), idx_getD n.x i zxe hi h2]

theorem xSetC_put (t : Tree K V) (a : Nat) (n : x K) (c : Int) (ha : a < t.xs.length) :
    (t.putX a n).xSetC (some a) c = Res.ok (t.putX a { n with c := c }) := by
  rw [xSetC_ok _ a n c (putX_same t a n ha), putX_putX]

theorem xSetAt_put (t : Tree K V) (a : Nat) (n : x K) (i : Int) (e : xe K)
    (ha : a < t.xs.length) (hi : 0 ≤ i) (h2 : i.toNat < n.x.length) :
    (t.putX a n).xSetAt (some a) i e
      = Res.ok (t.putX a { n with x := n.x.set i.toNat e }) := by
  rw [xSetAt_ok _ a n i e (putX_same t a n ha) hi h2, putX_putX]

theorem xSetCh_put (t : Tree K V) (a : Nat) (n : x K) (i : Int) (ch : Ref)
    (ha : a < t.xs.length) (hi : 0 ≤ i) (h2 : i.toNat < n.x.length) :
    (t.putX a n).xSetCh (some a) i ch = Res.ok (t.putX a { n with
      x := n.x.set i.toNat { n.x.getD i.toNat zxe with ch := ch } }) := by
  unfold Tree.xSetCh
  rw [xAt_put t a n i ha hi h2, bind_ok, xSetAt_put t a n i _ ha hi h2]

theorem xSetK_put (t : Tree K V) (a : Nat) (n : x K) (i : Int) (k : K)
    (ha : a < t.xs.length) (hi : 0 ≤ i) (h2 : i.toNat < n.x.length) :
    (t.putX a n).xSetK (some a) i k = Res.ok (t.putX a { n with
      x := n.x.set i.toNat { n.x.getD i.toNat zxe with k := k } }) := by
  unfold Tree.xSetK
  rw [xAt_put t a n i ha hi h2, bind_ok, xSetAt_put t a n i _ ha hi h2]

/-- `copy(q.x[lo:hi], q.x[a:b])` within one page, the source not longer than the window. -/
theorem xCopy_put (t : Tree K V) (a : Nat) (n : x K) (lo hi s e : Int)
    (ha : a < t.xs.length) (h0 : 0 ≤ lo) (h1 : lo ≤ hi) (h2 : hi.toNat ≤ n.x.length)
    (h3 : 0 ≤ s) (h4 : s ≤ e) (h5 : e.toNat ≤ n.x.length) (h6 : e - s ≤ hi - lo) :
    (t.putX a n).xCopy (some a) lo hi (some a) s e = Res.ok (t.putX a { n with
      x := n.x.take lo.toNat ++ (n.x.drop s.toNat).take (e.toNat - s.toNat)
        ++ n.x.drop (lo.toNat + (e.toNat - s.toNat)) }) := by
  have g := putX_same t a n ha
  obtain ⟨n2, e1, hc, _, hd⟩ := xCopy_fit _ a a n n lo hi s e g g h0 h1 h2 h3 h4 h5 h6
  rw [e1, putX_putX]
  congr 2
  cases n2
  simp only at hc hd
  simp only [hc, hd]

theorem dC_mk (t : Tree K V) (a : Nat) (c : Int) (X : List (de K V)) (nn pp : Option Nat)
    (ha : a < t.ds.length) : (t.putD a ⟨c, X, nn, pp⟩).dC (some a) = Res.ok c :=
  dC_put t a _ ha

theorem dAt_mk (t : Tree K V) (a : Nat) (c : Int) (X : List (de K V)) (nn pp : Option Nat)
    (i : Int) (ha : a < t.ds.length) (hi : 0 ≤ i) (h2 : i.toNat < X.length) :
    (t.putD a ⟨c, X, nn, pp⟩).dAt (some a) i = Res.ok (X.getD i.toNat zde) :=
  dAt_put t a _ i ha hi h2

theorem dSetC_mk (t : Tree K V) (a : Nat) (c : Int) (X : List (de K V)) (nn pp : Option Nat)
    (c2 : Int) (ha : a < t.ds.length) :
    (t.putD a ⟨c, X, nn, pp⟩).dSetC (some a) c2 = Res.ok (t.putD a ⟨c2, X, nn, pp⟩) :=
  dSetC_put t a _ c2 ha

theorem dSetN_mk (t : Tree K V) (a : Nat) (c : Int) (X : List (de K V)) (nn pp : Option Nat)
    (n2 : Option Nat) (ha : a < t.ds.length) :
    (t.putD a ⟨c, X, nn, pp⟩).dSetN (some a) n2 = Res.ok (t.putD a ⟨c, X, n2, pp⟩) :=
  dSetN_put t a _ n2 ha

theorem dSetP_mk (t : Tree K V) (a : Nat) (c : Int) (X : List (de K V)) (nn pp : Option Nat)
    (p2 : Option Nat) (ha : a < t.ds.length) :
    (t.putD a ⟨c, X, nn, pp⟩).dSetP (some a) p2 = Res.ok (t.putD a ⟨c, X, nn, p2⟩) :=
  dSetP_put t a _ p2 ha

theorem dSetAt_mk (t : Tree K V) (a : Nat) (c : Int) (X : List (de K V)) (nn pp : Option Nat)
    (i : Int) (e : de K V) (ha : a < t.ds.length) (hi : 0 ≤ i) (h2 : i.toNat < X.length) :
    (t.putD a ⟨c, X, nn, pp⟩).dSetAt (some a) i e
      = Res.ok (t.putD a ⟨c, X.set i.toNat e, nn, pp⟩) :=
  dSetAt_put t a _ i e ha hi h2

theorem dCopy_mk (t : Tree K V) (a : Nat) (c : Int) (X : List (de K V)) (nn pp : Option Nat)
    (lo hi s e : Int)
    (ha : a < t.ds.length) (h0 : 0 ≤ lo) (h1 : lo ≤ hi) (h2 : hi.toNat ≤ X.length)
    (h3 : 0 ≤ s) (h4 : s ≤ e) (h5 : e.toNat ≤ X.length) (h6 : e - s ≤ hi - lo) :
    (t.putD a ⟨c, X, nn, pp⟩).dCopy (some a) lo hi (some a) s e = Res.ok (t.putD a ⟨c,
      X.take lo.toNat ++ (X.drop s.toNat).take (e.toNat - s.toNat)
        ++ X.drop (lo.toNat + (e.toNat - s.toNat)), nn, pp⟩) :=
  dCopy_put t a _ lo hi s e ha h0 h1 h2 h3 h4 h5 h6

theorem xC_mk (t : Tree K V) (a : Nat) (c : Int) (X : List (xe K))
    (ha : a < t.xs.length) : (t.putX a ⟨c, X⟩).xC (some a) = Res.ok c :=
  xC_put t a _ ha

theorem xAt_mk (t : Tree K V) (a : Nat) (c : Int) (X : List (xe K))
    (i : Int) (ha : a < t.xs.length) (hi : 0 ≤ i) (h2 : i.toNat < X.length) :
    (t.putX a ⟨c, X⟩).xAt (some a) i = Res.ok (X.getD i.toNat zxe) :=
  xAt_put t a _ i ha hi h2

theorem xSetC_mk (t : Tree K V) (a : Nat) (c : Int) (X : List (xe K))
    (c2 : Int) (ha : a < t.xs.length) :
    (t.putX a ⟨c, X⟩).xSetC (some a) c2 = Res.ok (t.putX a ⟨c2, X⟩) :=
  xSetC_put t a _ c2 ha

theorem xSetAt_mk (t : Tree K V) (a : Nat) (c : Int) (X : List (xe K))
    (i : Int) (e : xe K) (ha : a < t.xs.length) (hi : 0 ≤ i) (h2 : i.toNat < X.length) :
    (t.putX a ⟨c, X⟩).xSetAt (some a) i e = Res.ok (t.putX a ⟨c, X.set i.toNat e⟩) :=
  xSetAt_put t a _ i e ha hi h2

theorem xSetCh_mk (t : Tree K V) (a : Nat) (c : Int) (X : List (xe K))
    (i : Int) (ch : Ref) (ha : a < t.xs.length) (hi : 0 ≤ i) (h2 : i.toNat < X.length) :
    (t.putX a ⟨c, X⟩).xSetCh (some a) i ch
      = Res.ok (t.putX a ⟨c, X.set i.toNat ⟨ch, (X.getD i.toNat zxe).k⟩⟩) :=
  xSetCh_put t a _ i ch ha hi h2

theorem xSetK_mk (t : Tree K V) (a : Nat) (c : Int) (X : List (xe K))
    (i : Int) (k : K) (ha : a < t.xs.length) (hi : 0 ≤ i) (h2 : i.toNat < X.length) :
    (t.putX a ⟨c, X⟩).xSetK (some a) i k
      = Res.ok (t.putX a ⟨c, X.set i.toNat ⟨(X.getD i.toNat zxe).ch, k⟩⟩) :=
  xSetK_put t a _ i k ha hi h2

theorem xCopy_mk (t : Tree K V) (a : Nat) (c : Int) (X : List (xe K))
    (lo hi s e : Int)
    (ha : a < t.xs.length) (h0 : 0 ≤ lo) (h1 : lo ≤ hi) (h2 : hi.toNat ≤ X.length)
    (h3 : 0 ≤ s) (h4 : s ≤ e) (h5 : e.toNat ≤ X.length) (h6 : e - s ≤ hi - lo) :
    (t.putX a ⟨c, X⟩).xCopy (some a) lo hi (some a) s e = Res.ok (t.putX a ⟨c,
      X.take lo.toNat ++ (X.drop s.toNat).take (e.toNat - s.toNat)
        ++ X.drop (lo.toNat + (e.toNat - s.toNat))⟩) :=
  xCopy_put t a _ lo hi s e ha h0 h1 h2 h3 h4 h5 h6

/-- Exact result of `t.insert(q, i, k, v)` on a data page with room. -/
theorem insert_ok (t : Tree K V) (a : Nat) (n : d K V) (i : Int) (k : K) (v : V)
    (h : t.ds.get? a = some n) (hl : n.d.length = 129) (hi : 0 ≤ i) (hic : i ≤ n.c)
    (hc : n.c ≤ 128) :
    ∃ n2 : d K V, t.insert (some a) i k v
        = Res.ok { t with ver := t.ver + 1, c := t.c + 1, ds := t.ds.set a n2 } ∧
      n2.c = n.c + 1 ∧ n2.n = n.n ∧ n2.p = n.p ∧ n2.d.length = 129 ∧
      d.ents n2 = (d.ents n).take i.toNat ++ [⟨k, v⟩] ++ (d.ents n).drop i.toNat := by
  have ha : a < t.ds.length := get?_lt h
  unfold Tree.insert
  simp only []
  generalize hT : ({ t with ver := t.ver + 1 } : Tree K V) = T
  have hTd : T.ds.get? a = some n := by rw [← hT]; exact h
  have ha1 : a < T.ds.length := get?_lt hTd
  rw [← putD_self T a n hTd]
  obtain ⟨c, X, nn, pp⟩ := n
  simp only at hl hic hc
  rw [dC_mk T a _ _ _ _ ha1, bind_ok]
  by_cases hlt : i < c
  · rw [if_pos hlt, dCopy_mk T a _ _ _ _ (i + 1) dLen i c ha1 (by omega) (by rw [dLen_eq]; omega)
      (by rw [dLen_eq, hl]; decide) hi hic (by omega) (by rw [dLen_eq]; omega), bind_ok,
      dSetC_mk T a _ _ _ _ _ ha1, bind_ok, dAt_mk T a _ _ _ _ i ha1 hi, bind_ok,
      dSetAt_mk T a _ _ _ _ i _ ha1 hi,
      bind_ok, dAt_mk T a _ _ _ _ i ha1 hi, bind_ok, dSetAt_mk T a _ _ _ _ i _ ha1 hi, bind_ok]
    · apply Exists.intro
      refine ⟨?h1, ?h0, ?h01, ?h02, ?h2, ?h3⟩
      case h1 =>
        rw [← hT]
        rfl
      case h0 => rfl
      case h01 => rfl
      case h02 => rfl
      case h2 =>
        simp only [List.length_set, List.length_append, List.length_take, List.length_drop]
        omega
      case h3 =>
        simp only [d.ents]
        have t1 : (i + 1).toNat = i.toNat + 1 := by omega
        have t2 : (c + 1).toNat = c.toNat + 1 := by omega
        have t3 : i.toNat < c.toNat := by omega
        have t4 : c.toNat ≤ 128 := by omega
        rw [t1, t2]
        generalize i.toNat = I at t3
        generalize c.toNat = C at t3 t4
        rw [List.set_set]
        apply List.ext_getElem?
        intro j
        simp only [List.getElem?_take, List.getElem?_set, List.getElem?_append, List.getElem?_drop,
          List.length_take, List.length_drop, List.length_append, List.length_set, hl,
          List.getD_eq_getElem?_getD, List.length_cons, List.length_nil, List.getElem?_cons]
        rcases Nat.lt_trichotomy j I with hj | hj | hj
        · simp (disch := omega) only [if_pos, if_neg, Nat.min_def]
        · subst hj
          simp (disch := omega) only [if_pos, if_neg, Nat.min_def, Option.getD_some, if_true,
            Nat.sub_self]
        · by_cases hj2 : j < C + 1
          · simp (disch := omega) only [if_pos, if_neg, Nat.min_def]
          · simp (disch := omega) only [if_pos, if_neg, Nat.min_def]
    all_goals first | omega | (simp only [List.length_set, List.length_append,
      List.length_take, List.length_drop]; omega)
  · have hic2 : i = c := by omega
    subst hic2
    rw [if_neg hlt, pure_ok, bind_ok,
      dSetC_mk T a _ _ _ _ _ ha1, bind_ok, dAt_mk T a _ _ _ _ i ha1 hi, bind_ok,
      dSetAt_mk T a _ _ _ _ i _ ha1 hi,
      bind_ok, dAt_mk T a _ _ _ _ i ha1 hi, bind_ok, dSetAt_mk T a _ _ _ _ i _ ha1 hi, bind_ok]
    · apply Exists.intro
      refine ⟨?h1, ?h0, ?h01, ?h02, ?h2, ?h3⟩
      case h1 =>
        rw [← hT]
        rfl
      case h0 => rfl
      case h01 => rfl
      case h02 => rfl
      case h2 =>
        simp only [List.length_set, List.length_append, List.length_take, List.length_drop]
        omega
      case h3 =>
        simp only [d.ents]
        have t2 : (i + 1).toNat = i.toNat + 1 := by omega
        have t4 : i.toNat ≤ 128 := by omega
        rw [t2]
        generalize i.toNat = I at t4
        apply List.ext_getElem?
        intro j
        simp only [List.getElem?_take, List.getElem?_set, List.getElem?_append,
          List.getElem?_drop, List.length_take, List.length_drop, List.length_append,
          List.length_set, hl, List.getD_eq_getElem?_getD, List.length_cons, List.length_nil,
          List.getElem?_cons]
        rcases Nat.lt_trichotomy j I with hj | hj | hj
        · simp (disch := omega) only [if_pos, if_neg, Nat.min_def]
        · subst hj
          simp (disch := omega) only [if_pos, if_neg, Nat.min_def, Option.getD_some, if_true,
            Nat.sub_self]
        · simp (disch := omega) only [if_pos, if_neg, Nat.min_def]
    all_goals first | omega | (simp only [List.length_set]; omega)

theorem getD_k (X : List (xe K)) (i : Nat) :
    (X.getD i zxe).k = (X.map (fun e => e.k)).getD i zk := by
  simp only [List.getD_eq_getElem?_getD, List.getElem?_map]
  cases X[i]? <;> rfl

theorem getD_ch (X : List (xe K)) (i : Nat) :
    (X.getD i zxe).ch = (X.map (fun e => e.ch)).getD i Ref.nil := by
  simp only [List.getD_eq_getElem?_getD, List.getElem?_map]
  cases X[i]? <;> rfl

theorem map_k_set (X : List (xe K)) (i : Nat) (c : Ref) (k : K) :
    (X.set i ⟨c, k⟩).map (fun e => e.k) = (X.map (fun e => e.k)).set i k := by
  rw [List.map_set]

theorem map_ch_set (X : List (xe K)) (i : Nat) (c : Ref) (k : K) :
    (X.set i ⟨c, k⟩).map (fun e => e.ch) = (X.map (fun e => e.ch)).set i c := by
  rw [List.map_set]

theorem set_getD_self {α : Type} (L : List α) (i : Nat) (z : α) :
    L.set i (L.getD i z) = L := by
  apply List.ext_getElem?
  intro j
  rw [List.getElem?_set]
  split
  · rename_i hj
    subst hj
    split
    · rename_i hi
      rw [List.getD_eq_getElem?_getD, List.getElem?_eq_getElem hi]
      rfl
    · rename_i hi
      rw [List.getElem?_eq_none (by omega)]
  · rfl

theorem some_getD {α : Type} (L : List α) (i : Nat) (z : α) (h : i < L.length) :
    some (L[i]?.getD z) = L[i]? := by
  rw [List.getElem?_eq_getElem h]
  rfl

/-- Exact result of `q.insert(i, k, ch)` on an index page with room. -/
theorem x_insert_ok (t : Tree K V) (a : Nat) (n : x K) (i : Int) (k : K) (ch : Ref)
    (h : t.xs.get? a = some n) (hl : n.x.length = 258) (hi : 0 ≤ i) (hic : i ≤ n.c)
    (hc : n.c ≤ 256) :
    ∃ n2 : x K, x.insert t (some a) i k ch = Res.ok (t.putX a n2) ∧ n2.c = n.c + 1 ∧
      n2.x.length = 258 ∧
      x.seps n2 = (x.seps n).take i.toNat ++ [k] ++ (x.seps n).drop i.toNat ∧
      x.kids n2 = (x.kids n).take (i.toNat + 1) ++ [ch] ++ (x.kids n).drop (i.toNat + 1) := by
  have ha : a < t.xs.length := get?_lt h
  unfold x.insert
  rw [← putX_self t a n h]
  obtain ⟨c, X⟩ := n
  simp only at hl hic hc
  rw [xC_mk t a _ _ ha, bind_ok]
  by_cases hlt : i < c
  · rw [if_pos hlt, xAt_mk t a _ _ c ha (by omega), bind_ok,
      xSetCh_mk t a _ _ (c + 1) _ ha (by omega), bind_ok,
      xCopy_mk t a _ _ (i + 2) xLen (i + 1) c ha (by omega) (by rw [xLen_eq]; omega) ?_
        (by omega) (by omega) ?_ (by rw [xLen_eq]; omega), bind_ok,
      xAt_mk t a _ _ i ha hi, bind_ok, xSetK_mk t a _ _ (i + 1) _ ha (by omega), bind_ok]
    simp only []
    rw [xSetC_mk t a _ _ _ ha, bind_ok, xSetK_mk t a _ _ i _ ha hi, bind_ok,
      xSetCh_mk t a _ _ (i + 1) _ ha (by omega)]
    · have t1 : (i + 1).toNat = i.toNat + 1 := by omega
      have t1b : (i + 2).toNat = i.toNat + 2 := by omega
      have t2 : (c + 1).toNat = c.toNat + 1 := by omega
      have t3 : i.toNat < c.toNat := by omega
      have t4 : c.toNat ≤ 256 := by omega
      apply Exists.intro
      refine ⟨?h1, ?h0, ?h2, ?h3, ?h4⟩
      case h1 => rw [putX_putX]
      case h0 => rfl
      case h2 =>
        simp only [List.length_set, List.length_append, List.length_take, List.length_drop]
        omega
      case h3 =>
        simp only [x.seps]
        rw [t1, t2, t1b]
        generalize i.toNat = I at t3
        generalize c.toNat = C at t3 t4
        simp only [List.map_take, List.map_drop, List.map_append, map_k_set, getD_k,
          set_getD_self]
        have hl2 : (X.map (fun e => e.k)).length = 258 := by rw [List.length_map, hl]
        generalize X.map (fun e => e.k) = Y at hl2
        apply List.ext_getElem?
        intro j
        simp only [List.getElem?_take, List.getElem?_set, List.getElem?_append,
          List.getElem?_drop, List.length_take, List.length_drop, List.length_append,
          List.length_set, hl2, List.getD_eq_getElem?_getD, List.length_cons, List.length_nil,
          List.getElem?_cons]
        rcases Nat.lt_trichotomy j I with hj | hj | hj
        · simp (disch := omega) only [if_pos, if_neg, Nat.min_def]
        · subst hj
          simp (disch := omega) only [if_pos, if_neg, Nat.min_def, if_true, Nat.sub_self]
        · by_cases hj2 : j = I + 1
          · subst hj2
            simp (disch := omega) only [if_pos, if_neg, Nat.min_def, if_true, Nat.sub_self,
              some_getD, Nat.add_sub_cancel_left, Nat.add_zero]
          · by_cases hj3 : j < C + 1
            · simp (disch := omega) only [if_pos, if_neg, Nat.min_def]
              congr 1
              omega
            · simp (disch := omega) only [if_pos, if_neg, Nat.min_def]
      case h4 =>
        simp only [x.kids]
        rw [t1, t2, t1b]
        generalize i.toNat = I at t3
        generalize c.toNat = C at t3 t4
        simp only [List.map_take, List.map_drop, List.map_append, map_ch_set, getD_ch,
          set_getD_self]
        have hl2 : (X.map (fun e => e.ch)).length = 258 := by rw [List.length_map, hl]
        generalize X.map (fun e => e.ch) = Y at hl2
        apply List.ext_getElem?
        intro j
        simp only [List.getElem?_take, List.getElem?_set, List.getElem?_append,
          List.getElem?_drop, List.length_take, List.length_drop, List.length_append,
          List.length_set, hl2, List.getD_eq_getElem?_getD, List.length_cons, List.length_nil,
          List.getElem?_cons]
        rcases Nat.lt_trichotomy j (I + 1) with hj | hj | hj
        · simp (disch := omega) only [if_pos, if_neg, Nat.min_def]
        · subst hj
          simp (disch := omega) only [if_pos, if_neg, Nat.min_def, if_true, Nat.sub_self]
        · by_cases hj2 : j = C + 1
          · subst hj2
            simp (disch := omega) only [if_pos, if_neg, Nat.min_def, if_true, Nat.sub_self,
              some_getD, Nat.add_sub_cancel_left, Nat.add_zero]
            congr 1
            omega
          · by_cases hj3 : j < C + 1
            · simp (disch := omega) only [if_pos, if_neg, Nat.min_def]
            · simp (disch := omega) only [if_pos, if_neg, Nat.min_def]
    all_goals first | omega | (simp only [List.length_set, List.length_append,
      List.length_take, List.length_drop]; omega) | (rw [xLen_eq]; simp only [List.length_set,
      List.length_append, List.length_take, List.length_drop]; omega)
  · have hic2 : i = c := by omega
    subst hic2
    rw [if_neg hlt, pure_ok, bind_ok]
    simp only []
    rw [xSetC_mk t a _ _ _ ha, bind_ok, xSetK_mk t a _ _ i _ ha hi, bind_ok,
      xSetCh_mk t a _ _ (i + 1) _ ha (by omega)]
    · have t1 : (i + 1).toNat = i.toNat + 1 := by omega
      have t4 : i.toNat ≤ 256 := by omega
      apply Exists.intro
      refine ⟨?h1, ?h0, ?h2, ?h3, ?h4⟩
      case h1 => rw [putX_putX]
      case h0 => rfl
      case h2 =>
        simp only [List.length_set, List.length_append, List.length_take, List.length_drop]
        omega
      case h3 =>
        simp only [x.seps]
        rw [t1]
        generalize i.toNat = I at t4
        simp only [List.map_take, List.map_drop, List.map_append, map_k_set, getD_k,
          set_getD_self]
        have hl2 : (X.map (fun e => e.k)).length = 258 := by rw [List.length_map, hl]
        generalize X.map (fun e => e.k) = Y at hl2
        apply List.ext_getElem?
        intro j
        simp only [List.getElem?_take, List.getElem?_set, List.getElem?_append,
          List.getElem?_drop, List.length_take, List.length_drop, List.length_append,
          List.length_set, hl2, List.getD_eq_getElem?_getD, List.length_cons, List.length_nil,
          List.getElem?_cons]
        rcases Nat.lt_trichotomy j I with hj | hj | hj
        · simp (disch := omega) only [if_pos, if_neg, Nat.min_def]
        · subst hj
          simp (disch := omega) only [if_pos, if_neg, Nat.min_def, if_true, Nat.sub_self]
        · simp (disch := omega) only [if_pos, if_neg, Nat.min_def]
      case h4 =>
        simp only [x.kids]
        rw [t1]
        generalize i.toNat = I at t4
        simp only [List.map_take, List.map_drop, List.map_append, map_ch_set, getD_ch,
          set_getD_self]
        have hl2 : (X.map (fun e => e.ch)).length = 258 := by rw [List.length_map, hl]
        generalize X.map (fun e => e.ch) = Y at hl2
        apply List.ext_getElem?
        intro j
        simp only [List.getElem?_take, List.getElem?_set, List.getElem?_append,
          List.getElem?_drop, List.length_take, List.length_drop, List.length_append,
          List.length_set, hl2, List.getD_eq_getElem?_getD, List.length_cons, List.length_nil,
          List.getElem?_cons]
        rcases Nat.lt_trichotomy j (I + 1) with hj | hj | hj
        · simp (disch := omega) only [if_pos, if_neg, Nat.min_def]
        · subst hj
          simp (disch := omega) only [if_pos, if_neg, Nat.min_def, if_true, Nat.sub_self]
        · simp (disch := omega) only [if_pos, if_neg, Nat.min_def]
    all_goals first | omega | (simp only [List.length_set, List.length_append,
      List.length_take, List.length_drop]; omega)

theorem get?_append_new {α : Type} (l : List α) (z : α) : (l ++ [z]).get? l.length = some z := by
  simp only [List.get?_eq_getElem?, List.getElem?_append_right (le_refl _), Nat.sub_self,
    List.getElem?_cons_zero]

theorem get?_append_old {α : Type} (l : List α) (z : α) (j : Nat) (h : j < l.length) :
    (l ++ [z]).get? j = l.get? j := by
  simp only [List.get?_eq_getElem?, List.getElem?_append_left h]

theorem set_append_new {α : Type} (l : List α) (z e : α) :
    (l ++ [z]).set l.length e = l ++ [e] := by
  rw [List.set_append_right _ _ (le_refl _), Nat.sub_self]
  rfl

theorem zx_x_length : (zx : x K).x.length = 258 := by
  simp only [zx, List.length_replicate]
  rfl

/-- Exact result of `newX(ch0)`. -/
theorem newX_ok (t : Tree K V) (ch0 : Ref) :
    newX t ch0 = Res.ok ({ t with xs := t.xs ++ [⟨0, (zx : x K).x.set 0 ⟨ch0, zk⟩⟩] },
      some t.xs.length) := by
  unfold newX Tree.newXpage
  simp only []
  have g : ({ t with xs := t.xs ++ [zx] } : Tree K V).xs.get? t.xs.length = some zx :=
    get?_append_new t.xs zx
  have e0 : (zx : x K).x.get? (0 : Int).toNat = some zxe := by
    simp only [zx, kx]
    rfl
  rw [xSetCh_ok _ t.xs.length zx 0 zxe ch0 g (le_refl _) e0, bind_ok, pure_ok]
  congr 2
  simp only [Tree.putX, set_append_new]
  rfl

theorem get?_of_lt {α : Type} (l : List α) (j : Nat) (h : j < l.length) :
    ∃ e, l.get? j = some e := ⟨l.get ⟨j, h⟩, List.get?_eq_get h⟩

theorem putD_length (t : Tree K V) (a : Nat) (n : d K V) :
    (t.putD a n).ds.length = t.ds.length := List.length_set _ _ _

/-- The first steps of `split`: the new page `r` (at the address `L`) gets the successor of
`q`, and the successor, if there is one, gets `r` as its predecessor; without a successor `r`
becomes `t.last`. -/
theorem split_link (T : Tree K V) (a L : Nat) (qn zp : d K V)
    (hq : T.ds.get? a = some qn) (hL : T.ds.get? L = some zp) (hzn : zp.n = none) (hne : a ≠ L)
    (hn : ∀ b, qn.n = some b → b < T.ds.length ∧ b ≠ L) :
    ∃ (T2 : Tree K V),
      (if qn.n ≠ none then do
          let t ← T.dSetN (some L) qn.n
          let rn ← t.getD (some L)
          t.dSetP rn.n (some L)
        else pure { T with last := some L }) = Res.ok T2 ∧
      T2.ds.get? L = some ⟨zp.c, zp.d, qn.n, zp.p⟩ ∧ T2.xs = T.xs ∧
      T2.ds.length = T.ds.length ∧
      (∀ j jn, j ≠ L → T.ds.get? j = some jn → ∃ jn2, T2.ds.get? j = some jn2 ∧
        jn2.c = jn.c ∧ jn2.d = jn.d ∧ jn2.n = jn.n ∧
        (qn.n ≠ some j → jn2.p = jn.p) ∧ (qn.n = some j → jn2.p = some L)) ∧
      T2.ver = T.ver ∧ T2.c = T.c ∧ T2.r = T.r ∧ T2.first = T.first ∧ T2.cmp = T.cmp ∧
      (qn.n = none → T2.last = some L) ∧ (qn.n ≠ none → T2.last = T.last) := by
  cases hnn : qn.n with
  | none =>
    refine ⟨{ T with last := some L }, ?_, ?_, rfl, rfl, ?_, rfl, rfl,
      rfl, rfl, rfl, fun _ => rfl, fun h => absurd rfl h⟩
    · rw [if_neg (by simp)]
      rfl
    · rw [← hzn]
      exact hL
    · intro j jn _ hj
      refine ⟨jn, hj, rfl, rfl, rfl, fun _ => rfl, fun h => ?_⟩
      cases h
  | some b =>
    obtain ⟨hb1, hb2⟩ := hn b hnn
    obtain ⟨bn, hbn⟩ := get?_of_lt T.ds b hb1
    have e1 := dSetN_ok T L zp (some b) hL
    have g1 : (T.putD L ⟨zp.c, zp.d, some b, zp.p⟩).ds.get? L
        = some ⟨zp.c, zp.d, some b, zp.p⟩ := putD_same T L _ (get?_lt hL)
    have g2 : (T.putD L ⟨zp.c, zp.d, some b, zp.p⟩).ds.get? b = some bn :=
      (putD_ne T L b _ (Ne.symm hb2)).trans hbn
    have e2 := dSetP_ok _ b bn (some L) g2
    have hb3 : b < ((T.putD L ⟨zp.c, zp.d, some b, zp.p⟩)).ds.length := by
      rw [putD_length]
      exact hb1
    have hif : (some b : Option Nat) ≠ none := by simp
    refine ⟨(T.putD L ⟨zp.c, zp.d, some b, zp.p⟩).putD b { bn with p := some L },
      ?_, ?_, rfl, ?_, ?_, rfl, rfl, rfl, rfl, rfl, ?_, fun _ => rfl⟩
    · rw [if_pos hif, e1, bind_ok, getD_of g1, bind_ok]
      exact e2
    · exact (putD_ne _ b L _ hb2).trans g1
    · rw [putD_length, putD_length]
    · intro j jn hjL hj
      by_cases hjb : j = b
      · subst hjb
        have hbq : bn = jn := Option.some.inj (hbn.symm.trans hj)
        subst hbq
        exact ⟨_, putD_same _ j _ hb3, rfl, rfl, rfl, fun h => absurd rfl h, fun _ => rfl⟩
      · refine ⟨jn, ?_, rfl, rfl, rfl, fun _ => rfl, fun h => ?_⟩
        · exact (putD_ne _ b j _ (Ne.symm hjb)).trans ((putD_ne T L j _ (Ne.symm hjL)).trans hj)
        · exact absurd (Option.some.inj h).symm hjb
    · intro h
      cases h

theorem seps_zx_set (ch0 : Ref) (k : K) :
    x.seps (⟨0, (zx : x K).x.set 0 ⟨ch0, k⟩⟩ : x K) = [] := rfl

theorem kids_zx_set (ch0 : Ref) (k : K) :
    x.kids (⟨0, (zx : x K).x.set 0 ⟨ch0, k⟩⟩ : x K) = [ch0] := by
  simp only [x.kids, zx]
  rfl

/-- The last step of `split` and `splitX`: the separator `ek` and the new page `ch` go into
the parent `p` at index `pi`, or, when `pi < 0`, into a new root over `ch0` and `ch`. -/
theorem grow_ok (T : Tree K V) (p : Option Nat) (pi : Int) (ek : K) (ch0 ch : Ref)
    (hp : 0 ≤ pi → ∃ pa pn, p = some pa ∧ T.xs.get? pa = some pn ∧ pn.x.length = 258 ∧
      pi ≤ pn.c ∧ pn.c ≤ 256) :
    ∃ T2 : Tree K V,
      (if 0 ≤ pi then x.insert T p pi ek ch
        else do
          let (t, z) ← newX T ch0
          let t ← x.insert t z 0 ek ch
          pure { t with r := refX z }) = Res.ok T2 ∧
      T2.ds = T.ds ∧ T2.ver = T.ver ∧ T2.c = T.c ∧ T2.first = T.first ∧ T2.last = T.last ∧
      T2.cmp = T.cmp ∧ T2.xs.length = T.xs.length + (if 0 ≤ pi then 0 else 1) ∧
      (∀ j jn, T.xs.get? j = some jn → p ≠ some j → T2.xs.get? j = some jn) ∧
      (0 ≤ pi → ∃ pa pn pn2, p = some pa ∧ T.xs.get? pa = some pn ∧ T2.xs.get? pa = some pn2 ∧
        pn2.c = pn.c + 1 ∧ pn2.x.length = 258 ∧
        x.seps pn2 = (x.seps pn).take pi.toNat ++ [ek] ++ (x.seps pn).drop pi.toNat ∧
        x.kids pn2 = (x.kids pn).take (pi.toNat + 1) ++ [ch] ++ (x.kids pn).drop (pi.toNat + 1) ∧
        T2.r = T.r) ∧
      (pi < 0 → ∃ z : x K, T2.xs.get? T.xs.length = some z ∧ T2.r = Ref.ofX T.xs.length ∧
        z.c = 1 ∧ z.x.length = 258 ∧ x.seps z = [ek] ∧ x.kids z = [ch0, ch] ∧
        ∀ j jn, T.xs.get? j = some jn → T2.xs.get? j = some jn) := by
  by_cases hpi : 0 ≤ pi
  · obtain ⟨pa, pn, hpa, hpn, hlen, h1, h2⟩ := hp hpi
    obtain ⟨pn2, e1, hc, hl, hs, hk⟩ := x_insert_ok T pa pn pi ek ch hpn hlen hpi h1 h2
    have hlt := get?_lt hpn
    refine ⟨T.putX pa pn2, ?_, rfl, rfl, rfl, rfl, rfl, rfl, ?_, ?_, ?_, ?_⟩
    · rw [if_pos hpi, hpa, e1]
    · rw [if_pos hpi, Nat.add_zero]
      exact List.length_set _ _ _
    · intro j jn hj hne
      rw [hpa] at hne
      have hne2 : pa ≠ j := fun h => hne (by rw [h])
      exact (putX_ne T pa j pn2 hne2).trans hj
    · intro _
      exact ⟨pa, pn, pn2, hpa, hpn, putX_same T pa pn2 hlt, hc, hl, hs, hk, rfl⟩
    · intro h
      omega
  · have hpi2 : pi < 0 := by omega
    have g : ({ T with xs := T.xs ++ [⟨0, (zx : x K).x.set 0 ⟨ch0, zk⟩⟩] } : Tree K V).xs.get?
        T.xs.length = some ⟨0, (zx : x K).x.set 0 ⟨ch0, zk⟩⟩ := get?_append_new _ _
    obtain ⟨z, e1, hc, hl, hs, hk⟩ := x_insert_ok _ T.xs.length _ 0 ek ch g
      (by simp only [List.length_set]; exact zx_x_length) (le_refl _) (le_refl _)
      (by show (0 : Int) ≤ 256; decide)
    refine ⟨{ T with xs := T.xs ++ [z], r := Ref.ofX T.xs.length }, ?_, rfl, rfl, rfl, rfl, rfl,
      rfl, ?_, ?_, ?_, ?_⟩
    · rw [if_neg hpi, newX_ok, bind_ok]
      simp only []
      rw [e1, bind_ok, pure_ok]
      simp only [Tree.putX, set_append_new, refX]
    · rw [if_neg hpi]
      exact List.length_append _ _
    · intro j jn hj _
      exact (get?_append_old T.xs z j (get?_lt hj)).trans hj
    · intro h
      omega
    · intro _
      refine ⟨z, get?_append_new _ _, rfl, hc, hl, ?_, ?_, ?_⟩
      · rw [hs, seps_zx_set]
        rfl
      · rw [hk, kids_zx_set]
        rfl
      · intro j jn hj
        exact (get?_append_old T.xs z j (get?_lt hj)).trans hj

theorem ents_head (n : d K V) (e : de K V) (hc : 0 < n.c) (he : n.d.get? 0 = some e) :
    (d.ents n).head? = some e := by
  unfold d.ents
  obtain ⟨m, hm⟩ : ∃ m, n.c.toNat = m + 1 := ⟨n.c.toNat - 1, by omega⟩
  rw [hm]
  cases hd : n.d with
  | nil => rw [hd] at he; cases he
  | cons x xs =>
    rw [hd] at he
    simp only [List.get?_cons_zero, Option.some.injEq] at he
    rw [List.take_succ_cons, List.head?_cons, he]

/-- The result of `t.insert(q, i, k, v)` on a data page with room, field by field. -/
theorem insert_rel (t : Tree K V) (a : Nat) (n : d K V) (i : Int) (k : K) (v : V)
    (h : t.ds.get? a = some n) (hl : n.d.length = 129) (hi : 0 ≤ i) (hic : i ≤ n.c)
    (hc : n.c ≤ 128) :
    ∃ (t2 : Tree K V) (n2 : d K V), t.insert (some a) i k v = Res.ok t2 ∧
      t2.ds.get? a = some n2 ∧ (∀ j, j ≠ a → t2.ds.get? j = t.ds.get? j) ∧
      t2.ds.length = t.ds.length ∧ t2.xs = t.xs ∧ t2.ver = t.ver + 1 ∧ t2.c = t.c + 1 ∧
      t2.r = t.r ∧ t2.first = t.first ∧ t2.last = t.last ∧ t2.cmp = t.cmp ∧
      n2.c = n.c + 1 ∧ n2.n = n.n ∧ n2.p = n.p ∧ n2.d.length = 129 ∧
      d.ents n2 = (d.ents n).take i.toNat ++ [⟨k, v⟩] ++ (d.ents n).drop i.toNat := by
  obtain ⟨n2, e, h1, h2, h3, h4, h5⟩ := insert_ok t a n i k v h hl hi hic hc
  refine ⟨_, n2, e, putD_same t a n2 (get?_lt h), fun j hj => putD_ne t a j n2 (Ne.symm hj),
    putD_length t a n2, rfl, rfl, rfl, rfl, rfl, rfl, rfl, h1, h2, h3, h4, h5⟩

/-- Exact result of `split` on a full data page `q` of the store. The new page is at the
address `L = len(t.ds)`. -/
theorem split_ok (t : Tree K V) (a : Nat) (qn : d K V) (p : Option Nat) (pi i : Int)
    (k : K) (v : V)
    (hq : t.ds.get? a = some qn) (hc : qn.c = 128) (hl : qn.d.length = 129)
    (hi : 0 ≤ i) (hi2 : i ≤ 128)
    (hn : ∀ b, qn.n = some b → b < t.ds.length)
    (hp : 0 ≤ pi → ∃ pa pn, p = some pa ∧ t.xs.get? pa = some pn ∧ pn.x.length = 258 ∧
      pi ≤ pn.c ∧ pn.c ≤ 256) :
    ∃ (t2 : Tree K V) (q2 r2 : d K V) (e : de K V),
      t.split p (some a) pi i k v = Res.ok t2 ∧
      t2.ds.get? a = some q2 ∧ t2.ds.get? t.ds.length = some r2 ∧
      t2.ds.length = t.ds.length + 1 ∧ q2.d.length = 129 ∧ r2.d.length = 129 ∧
      (64 < i → q2.c = 64 ∧ r2.c = 65 ∧ d.ents q2 = (d.ents qn).take 64 ∧
        d.ents r2 = ((d.ents qn).drop 64).take (i.toNat - 64) ++ [⟨k, v⟩]
          ++ ((d.ents qn).drop 64).drop (i.toNat - 64)) ∧
      (i ≤ 64 → q2.c = 65 ∧ r2.c = 64 ∧ d.ents r2 = (d.ents qn).drop 64 ∧
        d.ents q2 = ((d.ents qn).take 64).take i.toNat ++ [⟨k, v⟩]
          ++ ((d.ents qn).take 64).drop i.toNat) ∧
      (d.ents r2).head? = some e ∧
      q2.n = some t.ds.length ∧ r2.p = some a ∧ r2.n = qn.n ∧
      (qn.n ≠ some a → q2.p = qn.p) ∧
      (∀ j jn, j ≠ a → t.ds.get? j = some jn → ∃ jn2, t2.ds.get? j = some jn2 ∧
        jn2.c = jn.c ∧ jn2.d = jn.d ∧ jn2.n = jn.n ∧ (qn.n ≠ some j → jn2.p = jn.p)) ∧
      (∀ j, qn.n = some j → ∃ jn2, t2.ds.get? j = some jn2 ∧ jn2.p = some t.ds.length) ∧
      (qn.n = none → t2.last = some t.ds.length) ∧ (qn.n ≠ none → t2.last = t.last) ∧
      t2.c = t.c + 1 ∧ t2.ver = t.ver + 2 ∧ t2.first = t.first ∧ t2.cmp = t.cmp ∧
      t2.xs.length = t.xs.length + (if 0 ≤ pi then 0 else 1) ∧
      (∀ j jn, t.xs.get? j = some jn → p ≠ some j → t2.xs.get? j = some jn) ∧
      (0 ≤ pi → ∃ pa pn pn2, p = some pa ∧ t.xs.get? pa = some pn ∧ t2.xs.get? pa = some pn2 ∧
        pn2.c = pn.c + 1 ∧ pn2.x.length = 258 ∧
        x.seps pn2 = (x.seps pn).take pi.toNat ++ [e.k] ++ (x.seps pn).drop pi.toNat ∧
        x.kids pn2 = (x.kids pn).take (pi.toNat + 1) ++ [Ref.ofD t.ds.length]
          ++ (x.kids pn).drop (pi.toNat + 1) ∧
        t2.r = t.r) ∧
      (pi < 0 → ∃ z : x K, t2.xs.get? t.xs.length = some z ∧ t2.r = Ref.ofX t.xs.length ∧
        z.c = 1 ∧ z.x.length = 258 ∧ x.seps z = [e.k] ∧
        x.kids z = [Ref.ofD a, Ref.ofD t.ds.length]) := by
  have ha : a < t.ds.length := get?_lt hq
  obtain ⟨L, hLdef⟩ : ∃ L, L = t.ds.length := ⟨_, rfl⟩
  have hne : a ≠ L := by omega
  unfold Tree.split
  simp only [Tree.newD]
  rw [← hLdef]
  generalize hT : ({ t with ver := t.ver + 1, ds := t.ds ++ [zd] } : Tree K V) = T1
  have g1a : T1.ds.get? a = some qn := by
    rw [← hT]
    exact (get?_append_old t.ds zd a ha).trans hq
  have g1L : T1.ds.get? L = some zd := by
    rw [← hT, hLdef]
    exact get?_append_new t.ds zd
  have hlen1 : T1.ds.length = L + 1 := by
    rw [← hT, hLdef]
    exact List.length_append _ _
  have g1old : ∀ j jn, t.ds.get? j = some jn → T1.ds.get? j = some jn := by
    intro j jn hj
    rw [← hT]
    exact (get?_append_old t.ds zd j (get?_lt hj)).trans hj
  obtain ⟨T2, e2, g2L, hxs2, hlen2, hfr2, hver2, hc2, hr2, hf2, hcmp2,
    hlast2a, hlast2b⟩ := split_link T1 a L qn zd g1a g1L rfl hne
      (fun b hb => ⟨by have := hn b hb; omega, by have := hn b hb; omega⟩)
  obtain ⟨qa, g2a, hqc, hqd, hqn, hqp, hqp2⟩ := hfr2 a qn hne g1a
  have hlit : ({ t with ver := t.ver + 1, ds := t.ds ++ [zd], last := some L } : Tree K V)
      = { T1 with last := some L } := by rw [← hT]
  rw [hlit, getD_of g1a, bind_ok, e2, bind_ok]
  obtain ⟨qc, X, qnn, qpp⟩ := qa
  simp only at hqc hqd hqn hqp hqp2
  have hlX : X.length = 129 := by rw [hqd]; exact hl
  have e3 := dSetN_ok T2 a _ (some L) g2a
  have g3L := (putD_ne T2 a L ⟨qc, X, some L, qpp⟩ hne).trans g2L
  have e4 := dSetP_ok _ L _ (some a) g3L
  have hL2 : L < T2.ds.length := get?_lt g2L
  have ha2 : a < T2.ds.length := get?_lt g2a
  have g4L := putD_same (T2.putD a ⟨qc, X, some L, qpp⟩) L
    ⟨(zd : d K V).c, (zd : d K V).d, qn.n, some a⟩ (by rw [putD_length]; exact hL2)
  have g4a := (putD_ne (T2.putD a ⟨qc, X, some L, qpp⟩) L a
    ⟨(zd : d K V).c, (zd : d K V).d, qn.n, some a⟩ (Ne.symm hne)).trans (putD_same T2 a _ ha2)
  obtain ⟨r5, e5, hc5, hn5, hp5, hl5, hd5⟩ := dCopy_fit _ L a _ _ 0 dLen kd (2 * kd) g4L g4a
    (le_refl _) (by rw [dLen_eq]; decide) (by rw [dLen_eq]; exact le_of_eq zd_d_length.symm)
    (by rw [kd_eq]; decide) (by rw [kd_eq]; decide) (by rw [kd_eq, hlX]; decide)
    (by rw [kd_eq, dLen_eq]; decide)
  rw [putD_putD] at e5
  simp only at hc5 hn5 hp5 hl5 hd5
  rw [e3, bind_ok, e4, bind_ok, e5, bind_ok]
  have g5a := (putD_ne (T2.putD a ⟨qc, X, some L, qpp⟩) L a r5 (Ne.symm hne)).trans
    (putD_same T2 a _ ha2)
  have ha5 : a < ((T2.putD a ⟨qc, X, some L, qpp⟩).putD L r5).ds.length := get?_lt g5a
  rw [getD_of g5a, bind_ok]
  simp only []
  rw [setD_ok _ a _ ha5, bind_ok, dSetC_ok _ a _ kd (putD_same _ a _ ha5), bind_ok, putD_putD]
  simp only []
  have g7L := (putD_ne ((T2.putD a ⟨qc, X, some L, qpp⟩).putD L r5) a L (⟨kd,
      X.take kd.toNat ++ (X.drop kd.toNat).map (fun _ => zde), some L, qpp⟩ : d K V) hne).trans
      (putD_same _ L r5 (by rw [putD_length]; exact hL2))
  rw [dSetC_ok _ L r5 kd g7L, bind_ok, putD_four _ a L _ _ _ _ hne]
  -- the two pages after the division
  generalize hq7 : (⟨kd, X.take kd.toNat ++ (X.drop kd.toNat).map (fun _ => zde), some L, qpp⟩
    : d K V) = q7
  generalize hr8 : (⟨kd, r5.d, r5.n, r5.p⟩ : d K V) = r8
  have hL7 : L < (T2.putD a q7).ds.length := by rw [putD_length]; exact hL2
  have g8L : ((T2.putD a q7).putD L r8).ds.get? L = some r8 := putD_same _ L r8 hL7
  have g8a : ((T2.putD a q7).putD L r8).ds.get? a = some q7 :=
    (putD_ne _ L a r8 (Ne.symm hne)).trans (putD_same T2 a q7 ha2)
  have g8o : ∀ j, j ≠ a → j ≠ L → ((T2.putD a q7).putD L r8).ds.get? j = T2.ds.get? j :=
    fun j h1 h2 => (putD_ne _ L j r8 (Ne.symm h2)).trans (putD_ne T2 a j q7 (Ne.symm h1))
  have hq7c : q7.c = 64 := by rw [← hq7]; rfl
  have hq7l : q7.d.length = 129 := by
    rw [← hq7]
    simp only [List.length_append, List.length_take, List.length_map, List.length_drop, hlX,
      kd_eq]
    rfl
  have hq7e : d.ents q7 = (d.ents qn).take 64 := by
    rw [← hq7]
    simp only [d.ents, hc, ← hqd, kd_eq]
    rw [List.take_append_of_le_length (by rw [List.length_take, hlX]; decide), List.take_take,
      List.take_take]
    rfl
  have hq7n : q7.n = some L := by rw [← hq7]
  have hq7p : q7.p = qpp := by rw [← hq7]
  have hr8c : r8.c = 64 := by rw [← hr8]; rfl
  have hr8l : r8.d.length = 129 := by rw [← hr8]; exact hl5.trans zd_d_length
  have hr8n : r8.n = qn.n := by rw [← hr8]; exact hn5
  have hr8p : r8.p = some a := by rw [← hr8]; exact hp5
  have hr8e : d.ents r8 = (d.ents qn).drop 64 := by
    rw [← hr8]
    simp only [d.ents, hd5, hc, ← hqd, kd_eq]
    rw [show (Int.toNat 0) = 0 from rfl, List.take_zero, List.nil_append,
      List.take_append_of_le_length (by
        rw [List.length_take, List.length_drop, hlX]; decide), List.take_take, List.drop_take]
    rfl
  have hv8 : ((T2.putD a q7).putD L r8).ver = t.ver + 1 := by
    show T2.ver = _
    rw [hver2, ← hT]
  have hc8 : ((T2.putD a q7).putD L r8).c = t.c := by
    show T2.c = _
    rw [hc2, ← hT]
  have hf8 : ((T2.putD a q7).putD L r8).first = t.first := by
    show T2.first = _
    rw [hf2, ← hT]
  have hcmp8 : ((T2.putD a q7).putD L r8).cmp = t.cmp := by
    show T2.cmp = _
    rw [hcmp2, ← hT]
  have hr8r : ((T2.putD a q7).putD L r8).r = t.r := by
    show T2.r = _
    rw [hr2, ← hT]
  have hla8 : ((T2.putD a q7).putD L r8).last = T2.last := rfl
  have hxs8 : ((T2.putD a q7).putD L r8).xs = t.xs := by
    show T2.xs = _
    rw [hxs2, ← hT]
  have hlen8 : ((T2.putD a q7).putD L r8).ds.length = L + 1 := by
    rw [putD_length, putD_length, hlen2, hlen1]
  generalize hT8 : (T2.putD a q7).putD L r8 = T8 at g8L g8a g8o hv8 hc8 hf8 hcmp8 hr8r hla8 hxs8 hlen8
  clear e3 e4 e5 g3L g4L g4a g5a g7L ha5 hT8
  -- the pages other than `q` and `r`
  have hfr8 : ∀ j jn, j ≠ a → t.ds.get? j = some jn → ∃ jn2, T8.ds.get? j = some jn2 ∧
      jn2.c = jn.c ∧ jn2.d = jn.d ∧ jn2.n = jn.n ∧ (qn.n ≠ some j → jn2.p = jn.p) ∧
      (qn.n = some j → jn2.p = some L) := by
    intro j jn hja hj
    have hjL : j ≠ L := by have := get?_lt hj; omega
    obtain ⟨jn2, h1, h2⟩ := hfr2 j jn hjL (g1old j jn hj)
    exact ⟨jn2, (g8o j hja hjL).trans h1, h2⟩
  have hlast8a : qn.n = none → T8.last = some L := fun h => hla8.trans (hlast2a h)
  have hlast8b : qn.n ≠ none → T8.last = t.last := by
    intro h
    rw [hla8, hlast2b h, ← hT]
  have hp8 : 0 ≤ pi → ∃ pa pn, p = some pa ∧ T8.xs.get? pa = some pn ∧ pn.x.length = 258 ∧
      pi ≤ pn.c ∧ pn.c ≤ 256 := by
    rw [hxs8]
    exact hp
  by_cases hki : kd < i
  · have hki2 : 64 < i := hki
    obtain ⟨T9, r9, e9, g9L, g9o, hlen9, hxs9, hv9, hc9t, hr9, hf9, hla9, hcmp9, hc9, hn9, hp9,
      hl9, he9⟩ := insert_rel T8 L r8 (i - kd) k v g8L hr8l
      (by rw [kd_eq]; omega) (by rw [kd_eq, hr8c]; omega) (by rw [hr8c]; decide)
    obtain ⟨e, hee⟩ := get?_of_lt r9.d 0 (by rw [hl9]; decide)
    have e10 := dAt_ok T9 L r9 0 e g9L (le_refl _) hee
    obtain ⟨T11, e11, hds11, hv11, hc11, hf11, hla11, hcmp11, hxl11, hxo11, hx11a, hx11b⟩ :=
      grow_ok T9 p pi e.k (refD (some a)) (refD (some L))
        (by rw [hxs9]; exact hp8)
    simp only [] at e11
    rw [if_pos hki, e9, bind_ok, e10, bind_ok, e11, bind_ok, if_pos (decide_eq_true hki), pure_ok]
    have hit : (i - kd).toNat = i.toNat - 64 := by rw [kd_eq]; omega
    refine ⟨T11, q7, r9, e, rfl, ?_, ?_, ?_, hq7l, hl9, ?_, ?_, ?_, hq7n, ?_, ?_, ?_, ?_, ?_, ?_,
      ?_, ?_, ?_, ?_, ?_, ?_, ?_, ?_, ?_⟩
    · rw [hds11, g9o a hne]
      exact g8a
    · rw [hds11]
      exact g9L
    · rw [hds11, hlen9, hlen8]
    · intro _
      refine ⟨hq7c, ?_, hq7e, ?_⟩
      · rw [hc9, hr8c]
        rfl
      · rw [he9, hr8e, hit]
    · intro h
      omega
    · exact ents_head r9 e (by rw [hc9, hr8c]; decide) hee
    · rw [hp9]
      exact hr8p
    · rw [hn9]
      exact hr8n
    · intro h
      rw [hq7p]
      exact hqp h
    · intro j jn hja hj
      have hjL : j ≠ L := by have := get?_lt hj; omega
      obtain ⟨jn2, h1, h2, h3, h4, h5, _⟩ := hfr8 j jn hja hj
      refine ⟨jn2, ?_, h2, h3, h4, h5⟩
      rw [hds11, g9o j hjL]
      exact h1
    · intro j hj
      have hjL : j ≠ L := by have := hn j hj; omega
      by_cases hja : j = a
      · subst hja
        refine ⟨q7, ?_, ?_⟩
        · rw [hds11, g9o j hjL]
          exact g8a
        · rw [hq7p]
          exact hqp2 hj
      · obtain ⟨jn, hjn⟩ := get?_of_lt t.ds j (hn j hj)
        obtain ⟨jn2, h1, _, _, _, _, h6⟩ := hfr8 j jn hja hjn
        refine ⟨jn2, ?_, h6 hj⟩
        rw [hds11, g9o j hjL]
        exact h1
    · intro h
      rw [hla11, hla9]
      exact hlast8a h
    · intro h
      rw [hla11, hla9]
      exact hlast8b h
    · rw [hc11, hc9t, hc8]
    · rw [hv11, hv9, hv8]
      omega
    · rw [hf11, hf9, hf8]
    · rw [hcmp11, hcmp9, hcmp8]
    · rw [hxl11, hxs9, hxs8]
    · intro j jn hj hpj
      exact hxo11 j jn (by rw [hxs9, hxs8]; exact hj) hpj
    · intro h
      obtain ⟨pa, pn, pn2, h1, h2, h3, h4, h5, h6, h7, h8⟩ := hx11a h
      refine ⟨pa, pn, pn2, h1, ?_, h3, h4, h5, h6, h7, ?_⟩
      · rw [hxs9, hxs8] at h2
        exact h2
      · rw [h8, hr9, hr8r]
    · intro h
      obtain ⟨z, h1, h2, h3, h4, h5, h6, _⟩ := hx11b h
      rw [hxs9, hxs8] at h1 h2
      exact ⟨z, h1, h2, h3, h4, h5, h6⟩
  · have hki2 : i ≤ 64 := by rw [kd_eq] at hki; omega
    obtain ⟨e, hee⟩ := get?_of_lt r8.d 0 (by rw [hr8l]; decide)
    have e10 := dAt_ok T8 L r8 0 e g8L (le_refl _) hee
    obtain ⟨T11, e11, hds11, hv11, hc11, hf11, hla11, hcmp11, hxl11, hxo11, hx11a, hx11b⟩ :=
      grow_ok T8 p pi e.k (refD (some a)) (refD (some L)) hp8
    simp only [] at e11
    have g11a : T11.ds.get? a = some q7 := by rw [hds11]; exact g8a
    obtain ⟨T12, q12, e12, g12a, g12o, hlen12, hxs12, hv12, hc12t, hr12, hf12, hla12, hcmp12,
      hc12, hn12, hp12, hl12, he12⟩ := insert_rel T11 a q7 i k v g11a hq7l hi
      (by rw [hq7c]; exact hki2) (by rw [hq7c]; decide)
    have hdec : ¬ (decide (kd < i) = true) := by
      intro h
      exact hki (of_decide_eq_true h)
    rw [if_neg hki, pure_ok, bind_ok, e10, bind_ok, e11, bind_ok, if_neg hdec, e12]
    refine ⟨T12, q12, r8, e, rfl, g12a, ?_, ?_, hl12, hr8l, ?_, ?_, ?_, ?_, hr8p, hr8n, ?_, ?_,
      ?_, ?_, ?_, ?_, ?_, ?_, ?_, ?_, ?_, ?_, ?_⟩
    · rw [g12o L (Ne.symm hne), hds11]
      exact g8L
    · rw [hlen12, hds11, hlen8]
    · intro h
      omega
    · intro _
      refine ⟨?_, hr8c, hr8e, ?_⟩
      · rw [hc12, hq7c]
        rfl
      · rw [he12, hq7e]
    · exact ents_head r8 e (by rw [hr8c]; decide) hee
    · rw [hn12]
      exact hq7n
    · intro h
      rw [hp12, hq7p]
      exact hqp h
    · intro j jn hja hj
      obtain ⟨jn2, h1, h2, h3, h4, h5, _⟩ := hfr8 j jn hja hj
      refine ⟨jn2, ?_, h2, h3, h4, h5⟩
      rw [g12o j hja, hds11]
      exact h1
    · intro j hj
      by_cases hja : j = a
      · subst hja
        refine ⟨q12, g12a, ?_⟩
        rw [hp12, hq7p]
        exact hqp2 hj
      · obtain ⟨jn, hjn⟩ := get?_of_lt t.ds j (hn j hj)
        obtain ⟨jn2, h1, _, _, _, _, h6⟩ := hfr8 j jn hja hjn
        refine ⟨jn2, ?_, h6 hj⟩
        rw [g12o j hja, hds11]
        exact h1
    · intro h
      rw [hla12, hla11]
      exact hlast8a h
    · intro h
      rw [hla12, hla11]
      exact hlast8b h
    · rw [hc12t, hc11, hc8]
    · rw [hv12, hv11, hv8]
      omega
    · rw [hf12, hf11, hf8]
    · rw [hcmp12, hcmp11, hcmp8]
    · rw [hxs12, hxl11, hxs8]
    · intro j jn hj hpj
      rw [hxs12]
      exact hxo11 j jn (by rw [hxs8]; exact hj) hpj
    · intro h
      obtain ⟨pa, pn, pn2, h1, h2, h3, h4, h5, h6, h7, h8⟩ := hx11a h
      refine ⟨pa, pn, pn2, h1, ?_, ?_, h4, h5, h6, h7, ?_⟩
      · rw [hxs8] at h2
        exact h2
      · rw [hxs12]
        exact h3
      · rw [hr12, h8, hr8r]
    · intro h
      obtain ⟨z, h1, h2, h3, h4, h5, h6, _⟩ := hx11b h
      rw [hxs8] at h1 h2
      refine ⟨z, ?_, ?_, h3, h4, h5, h6⟩
      · rw [hxs12]
        exact h1
      · rw [hr12]
        exact h2

/-- C33 (amended): for a full data page `q` of the store (c = 2·kd, array of 2·kd+1
elements, the successor `q.n`, if there is one, a page of the store), an index `i` with
0 ≤ i ≤ 2·kd, and `p`, `pi` with either `pi < 0` or `p` an index page of the store that holds
at most 2·kx separators and 0 ≤ pi ≤ p.c: `split(p, q, pi, i, k, v)` returns, and with `r` the
new data page (at the next free address): the entries of `q` followed by the entries of `r`
are the old entries of `q` with (k, v) inserted at position `i`; for i > kd the page `q` holds
the first kd old entries and `r` holds kd+1 entries, the new one among them, and for i ≤ kd
the page `q` holds kd+1 entries, the new one among them, and `r` holds the last kd old entries;
the first key of `r` is the separator put into `p` at index `pi` with `r` as the child on its
right, or, when `pi < 0`, the only separator of a new root whose children are `q` and `r`;
`q.n = r`, `r.p = q`, `r.n` is the old successor of `q`, whose `p` is `r`; `t.last` is `r` if
`q` had no successor and unchanged otherwise; `Len()` grows by one. -/
theorem C33_split_divides_full_data_page (t : Tree K V) (a : Nat) (qn : d K V)
    (p : Option Nat) (pi i : Int) (k : K) (v : V)
    (hq : t.ds.get? a = some qn) (hc : qn.c = 2 * kd) (hl : qn.d.length = dLen.toNat)
    (hi : 0 ≤ i ∧ i ≤ 2 * kd)
    (hn : ∀ b, qn.n = some b → b < t.ds.length)
    (hp : 0 ≤ pi → ∃ pa pn, p = some pa ∧ t.xs.get? pa = some pn ∧
      pn.x.length = xLen.toNat ∧ pi ≤ pn.c ∧ pn.c ≤ 2 * kx) :
    ∃ (t2 : Tree K V) (q2 r2 : d K V) (e : de K V),
      t.split p (some a) pi i k v = Res.ok t2 ∧
      t2.ds.get? a = some q2 ∧ t2.ds.get? t.ds.length = some r2 ∧
      d.ents q2 ++ d.ents r2
        = (d.ents qn).take i.toNat ++ [⟨k, v⟩] ++ (d.ents qn).drop i.toNat ∧
      (kd < i → q2.c = kd ∧ r2.c = kd + 1 ∧ d.ents q2 = (d.ents qn).take kd.toNat ∧
        d.ents r2 = ((d.ents qn).drop kd.toNat).take (i.toNat - kd.toNat) ++ [⟨k, v⟩]
          ++ ((d.ents qn).drop kd.toNat).drop (i.toNat - kd.toNat)) ∧
      (i ≤ kd → q2.c = kd + 1 ∧ r2.c = kd ∧ d.ents r2 = (d.ents qn).drop kd.toNat ∧
        d.ents q2 = ((d.ents qn).take kd.toNat).take i.toNat ++ [⟨k, v⟩]
          ++ ((d.ents qn).take kd.toNat).drop i.toNat) ∧
      (d.ents r2).head? = some e ∧
      (0 ≤ pi → ∃ pa pn pn2, p = some pa ∧ t.xs.get? pa = some pn ∧ t2.xs.get? pa = some pn2 ∧
        pn2.c = pn.c + 1 ∧
        x.seps pn2 = (x.seps pn).take pi.toNat ++ [e.k] ++ (x.seps pn).drop pi.toNat ∧
        x.kids pn2 = (x.kids pn).take (pi.toNat + 1) ++ [Ref.ofD t.ds.length]
          ++ (x.kids pn).drop (pi.toNat + 1) ∧
        t2.r = t.r) ∧
      (pi < 0 → ∃ z : x K, t2.xs.get? t.xs.length = some z ∧ t2.r = Ref.ofX t.xs.length ∧
        z.c = 1 ∧ x.seps z = [e.k] ∧ x.kids z = [Ref.ofD a, Ref.ofD t.ds.length]) ∧
      q2.n = some t.ds.length ∧ r2.p = some a ∧ r2.n = qn.n ∧
      (∀ j, qn.n = some j → ∃ jn2, t2.ds.get? j = some jn2 ∧ jn2.p = some t.ds.length) ∧
      (qn.n = none → t2.last = some t.ds.length) ∧ (qn.n ≠ none → t2.last = t.last) ∧
      t2.Len = t.Len + 1 := by
  have hc2 : qn.c = 128 := hc
  have hl2 : qn.d.length = 129 := hl
  have hi2 : i ≤ 128 := hi.2
  obtain ⟨t2, q2, r2, e, h1, h2, h3, _, _, _, h7, h8, h9, h10, h11, h12, _, _, h15, h16, h17,
    h18, _, _, _, _, _, h24, h25⟩ := split_ok t a qn p pi i k v hq hc2 hl2 hi.1 hi2 hn hp
  have hE : (d.ents qn).length = 128 := by
    rw [ents_length (by omega), hc2]
    rfl
  refine ⟨t2, q2, r2, e, h1, h2, h3, ?_, ?_, ?_, h9, ?_, ?_, h10, h11, h12, h15, h16, h17, h18⟩
  · by_cases hki : 64 < i
    · obtain ⟨_, _, e1, e2⟩ := h7 hki
      rw [e1, e2]
      have hi3 : i.toNat = 64 + (i.toNat - 64) := by omega
      rw [← List.append_assoc, ← List.append_assoc, List.drop_drop]
      nth_rewrite 3 [hi3]
      rw [List.take_add]
      congr 3
      omega
    · obtain ⟨_, _, e1, e2⟩ := h8 (by omega)
      rw [e1, e2, List.take_take, min_eq_left (by omega), List.append_assoc]
      congr 1
      rw [← List.drop_append_of_le_length (by rw [List.length_take, hE]; omega),
        List.take_append_drop]
  · intro h
    exact h7 h
  · intro h
    exact h8 h
  · intro h
    obtain ⟨pa, pn, pn2, g1, g2, g3, g4, _, g6, g7, g8⟩ := h24 h
    exact ⟨pa, pn, pn2, g1, g2, g3, g4, g6, g7, g8⟩
  · intro h
    obtain ⟨z, g1, g2, g3, _, g5, g6⟩ := h25 h
    exact ⟨z, g1, g2, g3, g5, g6⟩

theorem putX_length (t : Tree K V) (a : Nat) (n : x K) :
    (t.putX a n).xs.length = t.xs.length := List.length_set _ _ _

theorem putX_three (t : Tree K V) (l r : Nat) (a b c : x K) (hne : l ≠ r) :
    ((t.putX l a).putX r b).putX l c = (t.putX r b).putX l c := by
  rw [putX_comm _ l r _ _ hne, putX_putX]

/-- The division of the page in `splitX`: the new page `r` (address `L`) gets the elements of
`q` from index kx+1 on, and both counts become kx. -/
theorem splitX_pages (T : Tree K V) (a L : Nat) (X : List (xe K)) (c : Int)
    (hq : T.xs.get? a = some ⟨c, X⟩) (hL : T.xs.get? L = some zx) (hne : a ≠ L)
    (hl : X.length = 258) :
    ∃ (T5 : Tree K V) (r5 : x K),
      (do
        let t ← T.xCopy (some L) 0 xLen (some a) (kx + 1) xLen
        let t ← t.xSetC (some a) kx
        t.xSetC (some L) kx) = Res.ok T5 ∧
      T5.xs.get? a = some ⟨kx, X⟩ ∧ T5.xs.get? L = some r5 ∧
      (∀ j, j ≠ a → j ≠ L → T5.xs.get? j = T.xs.get? j) ∧
      T5.xs.length = T.xs.length ∧ T5.ds = T.ds ∧ T5.ver = T.ver ∧ T5.c = T.c ∧ T5.r = T.r ∧
      T5.first = T.first ∧ T5.last = T.last ∧ T5.cmp = T.cmp ∧
      r5.c = kx ∧ r5.x.length = 258 ∧
      x.seps r5 = ((X.map (fun e => e.k)).drop 129).take 128 ∧
      x.kids r5 = ((X.map (fun e => e.ch)).drop 129).take 129 := by
  obtain ⟨r1, e1, hc1, hl1, hx1⟩ := xCopy_fit T L a zx ⟨c, X⟩ 0 xLen (kx + 1) xLen hL hq
    (le_refl _) (by rw [xLen_eq]; decide) (by rw [xLen_eq, zx_x_length]; decide)
    (by rw [kx_eq]; decide) (by rw [kx_eq, xLen_eq]; decide) (by rw [xLen_eq, hl]; decide)
    (by rw [kx_eq, xLen_eq]; decide)
  have haT : a < T.xs.length := get?_lt hq
  have hLT : L < T.xs.length := get?_lt hL
  have g3a : (T.putX L r1).xs.get? a = some ⟨c, X⟩ := (putX_ne T L a r1 (Ne.symm hne)).trans hq
  have e2 := xSetC_ok _ a _ kx g3a
  have g4L : ((T.putX L r1).putX a ⟨kx, X⟩).xs.get? L = some r1 :=
    (putX_ne _ a L _ hne).trans (putX_same T L r1 hLT)
  have e3 := xSetC_ok _ L _ kx g4L
  refine ⟨(T.putX a ⟨kx, X⟩).putX L ⟨kx, r1.x⟩, ⟨kx, r1.x⟩, ?_, ?_, ?_, ?_, ?_, rfl, rfl, rfl,
    rfl, rfl, rfl, rfl, rfl, ?_, ?_, ?_⟩
  · rw [e1, bind_ok, e2, bind_ok, e3, putX_comm _ L a _ _ (Ne.symm hne), putX_putX]
  · exact (putX_ne _ L a _ (Ne.symm hne)).trans (putX_same T a _ haT)
  · exact putX_same _ L _ (by rw [putX_length]; exact hLT)
  · intro j h1 h2
    exact (putX_ne _ L j _ (Ne.symm h2)).trans (putX_ne T a j _ (Ne.symm h1))
  · rw [putX_length, putX_length]
  · exact hl1.trans zx_x_length
  · simp only [x.seps, hx1, kx_eq, xLen_eq]
    rw [show (Int.toNat 0) = 0 from rfl, List.take_zero, List.nil_append,
      show (128 : Int).toNat = 128 from rfl,
      List.take_append_of_le_length (by
        simp only [List.length_take, List.length_drop, hl]; decide), List.take_take,
      List.map_take, List.map_drop]
    rfl
  · simp only [x.kids, hx1, kx_eq, xLen_eq]
    rw [show (Int.toNat 0) = 0 from rfl, List.take_zero, List.nil_append,
      show (128 : Int).toNat + 1 = 129 from rfl,
      List.take_append_of_le_length (by
        simp only [List.length_take, List.length_drop, hl]; decide), List.take_take,
      List.map_take, List.map_drop]
    rfl

/-- The last steps of `splitX`: the elements of `q` from index kx+1 on, and the key at index
kx, are cleared. -/
theorem splitX_tail (T : Tree K V) (a : Nat) (X : List (xe K))
    (hq : T.xs.get? a = some ⟨kx, X⟩) (hl : X.length = 258) :
    ∃ q8 : x K,
      (do
        let t ← T.xSetK (some a) kx zk
        let qn ← t.getX (some a)
        t.setX (some a)
          { qn with x := qn.x.take (kx + 1).toNat ++ (qn.x.drop (kx + 1).toNat).map (fun _ => zxe) })
        = Res.ok (T.putX a q8) ∧
      q8.c = kx ∧ q8.x.length = 258 ∧
      x.seps q8 = (X.map (fun e => e.k)).take 128 ∧
      x.kids q8 = (X.map (fun e => e.ch)).take 129 := by
  have haT : a < T.xs.length := get?_lt hq
  obtain ⟨e, he⟩ := get?_of_lt X kx.toNat (by rw [hl, kx_eq]; decide)
  have e1 := xSetK_ok T a _ kx e zk hq (by rw [kx_eq]; decide) he
  have g1 := putX_same T a (⟨kx, X.set kx.toNat ⟨e.ch, zk⟩⟩ : x K) haT
  refine ⟨⟨kx, (X.set kx.toNat ⟨e.ch, zk⟩).take (kx + 1).toNat
    ++ ((X.set kx.toNat ⟨e.ch, zk⟩).drop (kx + 1).toNat).map (fun _ => zxe)⟩, ?_, ?_, ?_, ?_, ?_⟩
  · rw [e1, bind_ok, getX_of g1, bind_ok, setX_ok _ a _ (by rw [putX_length]; exact haT),
      putX_putX]
  · rfl
  · simp only [List.length_append, List.length_take, List.length_map, List.length_drop,
      List.length_set, hl, kx_eq]
    rfl
  · simp only [x.seps, kx_eq]
    rw [show (128 : Int).toNat = 128 from rfl, show ((128 : Int) + 1).toNat = 129 from rfl,
      List.take_append_of_le_length (by
        simp only [List.length_take, List.length_set, hl]; decide), List.take_take,
      List.map_take, List.map_set]
    apply List.ext_getElem?
    intro j
    simp only [List.getElem?_take, List.getElem?_set, List.length_map, hl]
    by_cases hj : j < 128
    · simp (disch := omega) only [if_pos, if_neg, Nat.min_def]
    · simp (disch := omega) only [if_pos, if_neg, Nat.min_def]
  · simp only [x.kids, kx_eq]
    rw [show (128 : Int).toNat = 128 from rfl, show ((128 : Int) + 1).toNat = 129 from rfl,
      show 128 + 1 = 129 from rfl,
      List.take_append_of_le_length (by
        simp only [List.length_take, List.length_set, hl]; decide), List.take_take,
      List.map_take, List.map_set]
    apply List.ext_getElem?
    intro j
    simp only [List.getElem?_take, List.getElem?_set, List.length_map, hl]
    by_cases hj : j = 128
    · subst hj
      rw [List.get?_eq_getElem?] at he
      have he2 : X[128]? = some e := he
      simp (disch := omega) only [if_pos, if_neg, Nat.min_def, List.getElem?_map, he2, if_true,
        Option.map_some']
    · by_cases hj2 : j < 129
      · simp (disch := omega) only [if_pos, if_neg, Nat.min_def]
      · simp (disch := omega) only [if_pos, if_neg, Nat.min_def]

theorem bind3_ok {α β γ δ : Type} {x : Res α} {f : α → Res β} {g : α → β → Res γ}
    {h : γ → Res δ} {c : γ} (e : (x >>= fun a => f a >>= fun b => g a b) = Res.ok c) :
    (x >>= fun a => f a >>= fun b => g a b >>= h) = h c := by
  cases x with
  | ok a =>
    change (f a >>= fun b => g a b) = Res.ok c at e
    change (f a >>= fun b => g a b >>= h) = h c
    cases hf : f a with
    | ok b =>
      rw [hf] at e
      change g a b = Res.ok c at e
      change (g a b >>= h) = h c
      rw [e]
      rfl
    | panic => rw [hf] at e; cases e
    | hang => rw [hf] at e; cases e
  | panic => cases e
  | hang => cases e

/-- Exact result of `splitX` on an index page `q` with 2·kx+1 separators. The new page is at
the address `L = len(t.xs)`. -/
theorem splitX_ok (t : Tree K V) (a : Nat) (qn : x K) (p : Option Nat) (pi i : Int)
    (hq : t.xs.get? a = some qn) (hc : qn.c = 257) (hl : qn.x.length = 258)
    (hp : 0 ≤ pi → ∃ pa pn, p = some pa ∧ pa ≠ a ∧ t.xs.get? pa = some pn ∧
      pn.x.length = 258 ∧ pi ≤ pn.c ∧ pn.c ≤ 256) :
    ∃ (t2 : Tree K V) (q2 r2 : x K) (sep : K),
      t.splitX p (some a) pi i
        = Res.ok (t2, if kx < i then some t.xs.length else some a,
            if kx < i then i - (kx + 1) else i) ∧
      t2.xs.get? a = some q2 ∧ t2.xs.get? t.xs.length = some r2 ∧
      q2.c = 128 ∧ r2.c = 128 ∧ q2.x.length = 258 ∧ r2.x.length = 258 ∧
      x.seps q2 = (x.seps qn).take 128 ∧ x.kids q2 = (x.kids qn).take 129 ∧
      x.seps r2 = (x.seps qn).drop 129 ∧ x.kids r2 = (x.kids qn).drop 129 ∧
      (x.seps qn).get? 128 = some sep ∧
      t2.ds = t.ds ∧ t2.c = t.c ∧ t2.ver = t.ver + 1 ∧ t2.first = t.first ∧
      t2.last = t.last ∧ t2.cmp = t.cmp ∧
      t2.xs.length = t.xs.length + (if 0 ≤ pi then 1 else 2) ∧
      (∀ j jn, t.xs.get? j = some jn → j ≠ a → p ≠ some j → t2.xs.get? j = some jn) ∧
      (0 ≤ pi → ∃ pa pn pn2, p = some pa ∧ t.xs.get? pa = some pn ∧ t2.xs.get? pa = some pn2 ∧
        pn2.c = pn.c + 1 ∧ pn2.x.length = 258 ∧
        x.seps pn2 = (x.seps pn).take pi.toNat ++ [sep] ++ (x.seps pn).drop pi.toNat ∧
        x.kids pn2 = (x.kids pn).take (pi.toNat + 1) ++ [Ref.ofX t.xs.length]
          ++ (x.kids pn).drop (pi.toNat + 1) ∧
        t2.r = t.r) ∧
      (pi < 0 → ∃ z : x K, t2.xs.get? (t.xs.length + 1) = some z ∧
        t2.r = Ref.ofX (t.xs.length + 1) ∧
        z.c = 1 ∧ z.x.length = 258 ∧ x.seps z = [sep] ∧
        x.kids z = [Ref.ofX a, Ref.ofX t.xs.length]) := by
  have ha : a < t.xs.length := get?_lt hq
  obtain ⟨L, hLdef⟩ : ∃ L, L = t.xs.length := ⟨_, rfl⟩
  have hne : a ≠ L := by omega
  unfold Tree.splitX
  simp only [Tree.newXpage]
  rw [← hLdef]
  generalize hT : ({ t with ver := t.ver + 1, xs := t.xs ++ [zx] } : Tree K V) = T1
  have g1a : T1.xs.get? a = some qn := by
    rw [← hT]
    exact (get?_append_old t.xs zx a ha).trans hq
  have g1L : T1.xs.get? L = some zx := by
    rw [← hT, hLdef]
    exact get?_append_new t.xs zx
  have hlen1 : T1.xs.length = L + 1 := by
    rw [← hT, hLdef]
    exact List.length_append _ _
  have g1old : ∀ j jn, t.xs.get? j = some jn → T1.xs.get? j = some jn := by
    intro j jn hj
    rw [← hT]
    exact (get?_append_old t.xs zx j (get?_lt hj)).trans hj
  obtain ⟨c, X⟩ := qn
  simp only at hc hl
  obtain ⟨T5, r5, e5, g5a, g5L, g5o, hlen5, hds5, hv5, hc5, hr5, hf5, hla5, hcmp5, hrc5, hrl5,
    hrs5, hrk5⟩ := splitX_pages T1 a L X c g1a g1L hne hl
  rw [bind3_ok e5]
  obtain ⟨e, he⟩ := get?_of_lt X kx.toNat (by rw [hl, kx_eq]; decide)
  have hsep : (x.seps (⟨c, X⟩ : x K)).get? 128 = some e.k := by
    have he2 : X[128]? = some e := by rw [← List.get?_eq_getElem?]; exact he
    simp only [x.seps, hc, List.get?_eq_getElem?, List.getElem?_take, List.getElem?_map, he2]
    rfl
  have hsq : x.seps (⟨c, X⟩ : x K) = (X.map (fun e => e.k)).take 257 := by
    simp only [x.seps, hc, List.map_take]
    rfl
  have hkq : x.kids (⟨c, X⟩ : x K) = X.map (fun e => e.ch) := by
    simp only [x.kids, hc, List.map_take]
    rw [List.take_of_length_le (by rw [List.length_map, hl]; decide)]
  have hkx0 : (0 : Int) ≤ kx := by rw [kx_eq]; decide
  have hbranch : ∃ T6 : Tree K V,
      (if 0 ≤ pi then do
          let e ← T5.xAt (some a) kx
          x.insert T5 p pi e.k (refX (some L))
        else do
          let dd ← newX T5 (refX (some a))
          let e ← dd.1.xAt (some a) kx
          let t ← x.insert dd.1 dd.2 0 e.k (refX (some L))
          pure { t with r := refX dd.2 }) = Res.ok T6 ∧
      T6.xs.get? a = some ⟨kx, X⟩ ∧ T6.xs.get? L = some r5 ∧
      T6.ds = T5.ds ∧ T6.c = T5.c ∧ T6.ver = T5.ver ∧ T6.first = T5.first ∧
      T6.last = T5.last ∧ T6.cmp = T5.cmp ∧
      T6.xs.length = L + (if 0 ≤ pi then 1 else 2) ∧
      (∀ j jn, t.xs.get? j = some jn → j ≠ a → p ≠ some j → T6.xs.get? j = some jn) ∧
      (0 ≤ pi → ∃ pa pn pn2, p = some pa ∧ pa ≠ a ∧ t.xs.get? pa = some pn ∧
        T6.xs.get? pa = some pn2 ∧
        pn2.c = pn.c + 1 ∧ pn2.x.length = 258 ∧
        x.seps pn2 = (x.seps pn).take pi.toNat ++ [e.k] ++ (x.seps pn).drop pi.toNat ∧
        x.kids pn2 = (x.kids pn).take (pi.toNat + 1) ++ [Ref.ofX L]
          ++ (x.kids pn).drop (pi.toNat + 1) ∧
        T6.r = t.r) ∧
      (pi < 0 → ∃ z : x K, T6.xs.get? (L + 1) = some z ∧
        T6.r = Ref.ofX (L + 1) ∧
        z.c = 1 ∧ z.x.length = 258 ∧ x.seps z = [e.k] ∧
        x.kids z = [Ref.ofX a, Ref.ofX L]) := by
    by_cases hpi : 0 ≤ pi
    · obtain ⟨pa, pn, hpa, hpaa, hpn, hpl, hpc1, hpc2⟩ := hp hpi
      have hpaL : pa ≠ L := by have := get?_lt hpn; omega
      have g5p : T5.xs.get? pa = some pn := (g5o pa hpaa hpaL).trans (g1old pa pn hpn)
      obtain ⟨pn2, eins, hc2, hl2, hs2, hk2⟩ :=
        x_insert_ok T5 pa pn pi e.k (refX (some L)) g5p hpl hpi hpc1 hpc2
      refine ⟨T5.putX pa pn2, ?_, ?_, ?_, rfl, rfl, rfl, rfl, rfl, rfl, ?_, ?_, ?_, ?_⟩
      · rw [if_pos hpi, xAt_ok T5 a _ kx e g5a hkx0 he, bind_ok, hpa, eins]
      · exact (putX_ne T5 pa a pn2 hpaa).trans g5a
      · exact (putX_ne T5 pa L pn2 hpaL).trans g5L
      · rw [putX_length, hlen5, hlen1, if_pos hpi]
      · intro j jn hj hja hjp
        have hjL : j ≠ L := by have := get?_lt hj; omega
        have hjp2 : pa ≠ j := fun h => hjp (by rw [hpa, h])
        exact (putX_ne T5 pa j pn2 hjp2).trans ((g5o j hja hjL).trans (g1old j jn hj))
      · intro _
        exact ⟨pa, pn, pn2, hpa, hpaa, hpn, putX_same T5 pa pn2 (get?_lt g5p), hc2, hl2, hs2, hk2,
          by show T5.r = t.r; rw [hr5, ← hT]⟩
      · intro h
        omega
    · have hpi2 : pi < 0 := by omega
      have hL5 : T5.xs.length = L + 1 := by rw [hlen5, hlen1]
      have g : ({ T5 with xs := T5.xs ++ [⟨0, (zx : x K).x.set 0 ⟨refX (some a), zk⟩⟩] }
          : Tree K V).xs.get? (L + 1) = some ⟨0, (zx : x K).x.set 0 ⟨refX (some a), zk⟩⟩ := by
        rw [← hL5]
        exact get?_append_new _ _
      have ga : ({ T5 with xs := T5.xs ++ [⟨0, (zx : x K).x.set 0 ⟨refX (some a), zk⟩⟩] }
          : Tree K V).xs.get? a = some ⟨kx, X⟩ :=
        (get?_append_old T5.xs _ a (get?_lt g5a)).trans g5a
      have gL : ({ T5 with xs := T5.xs ++ [⟨0, (zx : x K).x.set 0 ⟨refX (some a), zk⟩⟩] }
          : Tree K V).xs.get? L = some r5 :=
        (get?_append_old T5.xs _ L (get?_lt g5L)).trans g5L
      obtain ⟨z, eins, hzc, hzl, hzs, hzk⟩ := x_insert_ok _ (L + 1) _ 0 e.k (refX (some L)) g
        (by simp only [List.length_set]; exact zx_x_length) (le_refl _) (le_refl _)
        (by show (0 : Int) ≤ 256; decide)
      have hLa : L + 1 ≠ a := by omega
      have hLL : L + 1 ≠ L := by omega
      refine ⟨{ ({ T5 with xs := T5.xs ++ [⟨0, (zx : x K).x.set 0 ⟨refX (some a), zk⟩⟩] }
          : Tree K V).putX (L + 1) z with r := Ref.ofX (L + 1) }, ?_, ?_, ?_, rfl, rfl, rfl, rfl,
          rfl, rfl, ?_, ?_, ?_, ?_⟩
      · rw [if_neg hpi, newX_ok, bind_ok]
        simp only []
        rw [xAt_ok _ a _ kx e ga hkx0 he, bind_ok, hL5, eins, bind_ok, pure_ok]
        rfl
      · exact (putX_ne _ (L + 1) a z hLa).trans ga
      · exact (putX_ne _ (L + 1) L z hLL).trans gL
      · rw [if_neg hpi]
        show (List.set _ _ _).length = _
        rw [List.length_set, List.length_append, hL5]
        rfl
      · intro j jn hj hja hjp
        have hjL : j ≠ L := by have := get?_lt hj; omega
        have hjL1 : L + 1 ≠ j := by have := get?_lt hj; omega
        have h5 : T5.xs.get? j = some jn := (g5o j hja hjL).trans (g1old j jn hj)
        exact (putX_ne _ (L + 1) j z hjL1).trans
          ((get?_append_old T5.xs _ j (get?_lt h5)).trans h5)
      · intro h
        omega
      · intro _
        refine ⟨z, ?_, rfl, hzc, hzl, ?_, ?_⟩
        · exact putX_same _ (L + 1) z (get?_lt g)
        · rw [hzs, seps_zx_set]
          rfl
        · rw [hzk, kids_zx_set]
          rfl
  obtain ⟨T6, e6, g6a, g6L, hds6, hc6, hv6, hf6, hla6, hcmp6, hlen6, hfr6, hx6a, hx6b⟩ := hbranch
  obtain ⟨q8, e8, hq8c, hq8l, hq8s, hq8k⟩ := splitX_tail T6 a X g6a hl
  simp only [] at e6
  rw [e6, bind_ok, bind3_ok e8]
  have ha6 : a < T6.xs.length := get?_lt g6a
  refine ⟨T6.putX a q8, q8, r5, e.k, ?_, putX_same T6 a q8 ha6, ?_, hq8c, hrc5, hq8l, hrl5,
    ?_, ?_, ?_, ?_, hsep, ?_, ?_, ?_, ?_, ?_, ?_, ?_, ?_, ?_, ?_⟩
  · by_cases hki : kx < i
    · rw [if_pos hki, if_pos hki, if_pos hki]
      rfl
    · rw [if_neg hki, if_neg hki, if_neg hki]
      rfl
  · exact (putX_ne T6 a L q8 hne).trans g6L
  · rw [hq8s, hsq, List.take_take]
    rfl
  · rw [hq8k, hkq]
  · rw [hrs5, hsq, List.drop_take]
  · rw [hrk5, hkq, List.take_of_length_le (by
      rw [List.length_drop, List.length_map, hl])]
  · show T6.ds = t.ds
    rw [hds6, hds5, ← hT]
  · show T6.c = t.c
    rw [hc6, hc5, ← hT]
  · show T6.ver = t.ver + 1
    rw [hv6, hv5, ← hT]
  · show T6.first = t.first
    rw [hf6, hf5, ← hT]
  · show T6.last = t.last
    rw [hla6, hla5, ← hT]
  · show T6.cmp = t.cmp
    rw [hcmp6, hcmp5, ← hT]
  · rw [putX_length]
    exact hlen6
  · intro j jn hj hja hjp
    exact (putX_ne T6 a j q8 (Ne.symm hja)).trans (hfr6 j jn hj hja hjp)
  · intro h
    obtain ⟨pa, pn, pn2, h1, h1b, h2, h3, h4, h5, h6, h7, h8⟩ := hx6a h
    exact ⟨pa, pn, pn2, h1, h2, (putX_ne T6 a pa q8 (Ne.symm h1b)).trans h3, h4, h5, h6, h7, h8⟩
  · intro h
    obtain ⟨z, h1, h2, h3, h4, h5, h6⟩ := hx6b h
    exact ⟨z, (putX_ne T6 a (L + 1) q8 (by omega)).trans h1, h2, h3, h4, h5, h6⟩

theorem kids_length (n : x K) (h1 : n.c.toNat + 1 ≤ n.x.length) :
    (x.kids n).length = n.c.toNat + 1 := by
  unfold x.kids
  rw [List.length_map, List.length_take]
  omega

/-- C35 (amended): for an index page `q` of the store with c = 2·kx+1 separators (array of
2·kx+2 elements) and `p`, `pi` with either `pi < 0` or `p` another index page of the store
that holds at most 2·kx separators and 0 ≤ pi ≤ p.c, and every `i`: `splitX(p, q, pi, i)`
returns; `q` keeps its first kx separators and first kx+1 children, the new page `r` (at the
next free address) holds the last kx separators and the last kx+1 children, so that the
separators of `q`, the former separator at index kx and the separators of `r` are the old
separators of `q`, and the children of `q` followed by those of `r` are the old children of
`q`; the former separator at index kx is put into `p` at index `pi` with `r` as the child on
its right, or, when `pi < 0`, becomes the only separator of a new root whose children are `q`
and `r`; the pair handed back is `q` and `i` when i ≤ kx, and `r` and i-(kx+1) otherwise,
and for 0 ≤ i ≤ 2·kx+1 it designates the child that `q.x[i].ch` was before the call. -/
theorem C35_splitX_divides_index_page (t : Tree K V) (a : Nat) (qn : x K)
    (p : Option Nat) (pi i : Int)
    (hq : t.xs.get? a = some qn) (hc : qn.c = 2 * kx + 1) (hl : qn.x.length = xLen.toNat)
    (hp : 0 ≤ pi → ∃ pa pn, p = some pa ∧ pa ≠ a ∧ t.xs.get? pa = some pn ∧
      pn.x.length = xLen.toNat ∧ pi ≤ pn.c ∧ pn.c ≤ 2 * kx) :
    ∃ (t2 : Tree K V) (q2 r2 : x K) (sep : K) (pp : Option Nat) (i2 : Int),
      t.splitX p (some a) pi i = Res.ok (t2, pp, i2) ∧
      t2.xs.get? a = some q2 ∧ t2.xs.get? t.xs.length = some r2 ∧
      q2.c = kx ∧ r2.c = kx ∧
      x.seps q2 = (x.seps qn).take kx.toNat ∧ x.kids q2 = (x.kids qn).take (kx.toNat + 1) ∧
      x.seps r2 = (x.seps qn).drop (kx.toNat + 1) ∧
      x.kids r2 = (x.kids qn).drop (kx.toNat + 1) ∧
      (x.seps qn).get? kx.toNat = some sep ∧
      x.seps q2 ++ [sep] ++ x.seps r2 = x.seps qn ∧ x.kids q2 ++ x.kids r2 = x.kids qn ∧
      (0 ≤ pi → ∃ pa pn pn2, p = some pa ∧ t.xs.get? pa = some pn ∧ t2.xs.get? pa = some pn2 ∧
        pn2.c = pn.c + 1 ∧
        x.seps pn2 = (x.seps pn).take pi.toNat ++ [sep] ++ (x.seps pn).drop pi.toNat ∧
        x.kids pn2 = (x.kids pn).take (pi.toNat + 1) ++ [Ref.ofX t.xs.length]
          ++ (x.kids pn).drop (pi.toNat + 1) ∧
        t2.r = t.r) ∧
      (pi < 0 → ∃ z : x K, t2.xs.get? (t.xs.length + 1) = some z ∧
        t2.r = Ref.ofX (t.xs.length + 1) ∧
        z.c = 1 ∧ x.seps z = [sep] ∧ x.kids z = [Ref.ofX a, Ref.ofX t.xs.length]) ∧
      (i ≤ kx → pp = some a ∧ i2 = i ∧
        (0 ≤ i → (x.kids q2).get? i2.toNat = (x.kids qn).get? i.toNat)) ∧
      (kx < i → pp = some t.xs.length ∧ i2 = i - (kx + 1) ∧
        (i ≤ 2 * kx + 1 → (x.kids r2).get? i2.toNat = (x.kids qn).get? i.toNat)) ∧
      t2.ds = t.ds ∧ t2.Len = t.Len := by
  have hc2 : qn.c = 257 := hc
  have hl2 : qn.x.length = 258 := hl
  obtain ⟨t2, q2, r2, sep, h1, h2, h3, h4, h5, _, _, h8, h9, h10, h11, h12, h13, h14, _, _, _,
    _, _, _, h21, h22⟩ := splitX_ok t a qn p pi i hq hc2 hl2 hp
  have hS : (x.seps qn).length = 257 := by
    rw [seps_length (by omega), hc2]
    rfl
  have hK : (x.kids qn).length = 258 := by
    rw [kids_length qn (by rw [hc2, hl2]; decide), hc2]
    rfl
  refine ⟨t2, q2, r2, sep, _, _, h1, h2, h3, h4, h5, h8, h9, h10, h11, h12, ?_, ?_, ?_, ?_,
    ?_, ?_, h13, h14⟩
  · rw [h8, h10]
    have e1 : (x.seps qn).drop 128 = sep :: (x.seps qn).drop 129 := by
      rw [List.get?_eq_getElem?] at h12
      obtain ⟨hlt, hv⟩ := List.getElem?_eq_some_iff.mp h12
      rw [List.drop_eq_getElem_cons hlt, hv]
    rw [List.append_assoc, List.singleton_append, ← e1, List.take_append_drop]
  · rw [h9, h11, List.take_append_drop]
  · intro h
    obtain ⟨pa, pn, pn2, g1, g2, g3, g4, _, g6, g7, g8⟩ := h21 h
    exact ⟨pa, pn, pn2, g1, g2, g3, g4, g6, g7, g8⟩
  · intro h
    obtain ⟨z, g1, g2, g3, _, g5, g6⟩ := h22 h
    exact ⟨z, g1, g2, g3, g5, g6⟩
  · intro h
    rw [if_neg (by omega), if_neg (by omega)]
    refine ⟨rfl, rfl, fun h0 => ?_⟩
    rw [h9, List.get?_eq_getElem?, List.get?_eq_getElem?, List.getElem?_take]
    rw [kx_eq] at h
    rw [if_pos (by omega)]
  · intro h
    rw [if_pos h, if_pos h]
    refine ⟨rfl, rfl, fun h0 => ?_⟩
    rw [kx_eq] at h h0
    rw [h11, List.get?_eq_getElem?, List.get?_eq_getElem?, List.getElem?_drop, kx_eq]
    congr 1
    omega

/-- Exact result of `p.extract(i)` followed by `p.x[i].ch = ch`, as in `cat`: the separator
at index `i` goes, and the children at the indices `i` and `i+1` are replaced by `ch`. -/
theorem x_extract_set_ok (t : Tree K V) (a : Nat) (n : x K) (i : Int) (ch : Ref)
    (h : t.xs.get? a = some n) (hl : n.x.length = 258) (hi : 0 ≤ i) (hic : i < n.c)
    (hc : n.c ≤ 257) :
    ∃ n2 : x K, (do
        let t ← x.extract t (some a) i
        t.xSetCh (some a) i ch) = Res.ok (t.putX a n2) ∧ n2.c = n.c - 1 ∧
      n2.x.length = 258 ∧
      x.seps n2 = (x.seps n).take i.toNat ++ (x.seps n).drop (i.toNat + 1) ∧
      x.kids n2 = (x.kids n).take i.toNat ++ [ch] ++ (x.kids n).drop (i.toNat + 2) := by
  have ha : a < t.xs.length := get?_lt h
  unfold x.extract
  rw [← putX_self t a n h]
  obtain ⟨c, X⟩ := n
  simp only at hl hic hc
  rw [xC_mk t a _ _ ha, bind_ok, xSetC_mk t a _ _ _ ha, bind_ok, xC_mk t a _ _ ha, bind_ok]
  have t0 : (c - 1).toNat = c.toNat - 1 := by omega
  have t1 : (c - 1 + 1).toNat = c.toNat := by omega
  have t2 : (i + 1).toNat = i.toNat + 1 := by omega
  have t3 : i.toNat < c.toNat := by omega
  have t4 : c.toNat ≤ 257 := by omega
  by_cases hlt : i < c - 1
  · rw [if_pos hlt, xCopy_mk t a _ _ i xLen (i + 1) (c - 1 + 1) ha hi (by rw [xLen_eq]; omega)
        (by rw [xLen_eq, hl]; decide) (by omega) (by omega) (by omega)
        (by rw [xLen_eq]; omega), bind_ok,
      xAt_mk t a _ _ (c - 1 + 1) ha (by omega), bind_ok,
      xSetCh_mk t a _ _ (c - 1) _ ha (by omega), bind_ok,
      xSetK_mk t a _ _ (c - 1) _ ha (by omega), bind_ok,
      xSetAt_mk t a _ _ (c - 1 + 1) _ ha (by omega), bind_ok,
      xSetCh_mk t a _ _ i _ ha hi]
    · apply Exists.intro
      refine ⟨?h1, ?h0, ?h2, ?h3, ?h4⟩
      case h1 => rw [putX_putX]
      case h0 => rfl
      case h2 =>
        simp only [List.length_set, List.length_append, List.length_take, List.length_drop]
        omega
      case h3 =>
        simp only [x.seps]
        rw [t0, t1, t2]
        have t5 : i.toNat < c.toNat - 1 := by omega
        generalize i.toNat = I at t3 t5
        generalize c.toNat = C at t3 t4 t5
        simp only [List.map_take, List.map_drop, List.map_append, List.map_set, getD_k,
          set_getD_self]
        have hl2 : (X.map (fun e => e.k)).length = 258 := by rw [List.length_map, hl]
        generalize X.map (fun e => e.k) = Y at hl2
        apply List.ext_getElem?
        intro j
        simp only [List.getElem?_take, List.getElem?_set, List.getElem?_append,
          List.getElem?_drop, List.length_take, List.length_drop, List.length_append,
          List.length_set, hl2, List.getD_eq_getElem?_getD, List.length_cons, List.length_nil,
          List.getElem?_cons]
        by_cases hj : j < I
        · simp (disch := omega) only [if_pos, if_neg, Nat.min_def]
        · by_cases hj2 : j < C - 1
          · simp (disch := omega) only [if_pos, if_neg, Nat.min_def]
          · simp (disch := omega) only [if_pos, if_neg, Nat.min_def]
      case h4 =>
        simp only [x.kids]
        rw [t0, t1, t2]
        have t5 : i.toNat < c.toNat - 1 := by omega
        generalize i.toNat = I at t3 t5
        generalize c.toNat = C at t3 t4 t5
        simp only [List.map_take, List.map_drop, List.map_append, List.map_set, getD_ch,
          set_getD_self]
        have hl2 : (X.map (fun e => e.ch)).length = 258 := by rw [List.length_map, hl]
        generalize X.map (fun e => e.ch) = Y at hl2
        apply List.ext_getElem?
        intro j
        simp only [List.getElem?_take, List.getElem?_set, List.getElem?_append,
          List.getElem?_drop, List.length_take, List.length_drop, List.length_append,
          List.length_set, hl2, List.getD_eq_getElem?_getD, List.length_cons, List.length_nil,
          List.getElem?_cons]
        rcases Nat.lt_trichotomy j I with hj | hj | hj
        · simp (disch := omega) only [if_pos, if_neg, Nat.min_def]
        · subst hj
          simp (disch := omega) only [if_pos, if_neg, Nat.min_def, if_true, Nat.sub_self]
        · by_cases hj2 : j < C - 1
          · simp (disch := omega) only [if_pos, if_neg, Nat.min_def]
            congr 1
            omega
          · by_cases hj3 : j = C - 1
            · subst hj3
              simp (disch := omega) only [if_pos, if_neg, Nat.min_def, if_true, Nat.sub_self,
                some_getD]
              congr 1
              omega
            · simp (disch := omega) only [if_pos, if_neg, Nat.min_def]
    all_goals first | omega | (simp only [List.length_set, List.length_append,
      List.length_take, List.length_drop]; omega) | (rw [xLen_eq]; simp only [List.length_set,
      List.length_append, List.length_take, List.length_drop]; omega)
  · have hic2 : i = c - 1 := by omega
    rw [if_neg hlt, pure_ok, bind_ok, xSetCh_mk t a _ _ i _ ha hi (by omega)]
    have t6 : c.toNat = i.toNat + 1 := by omega
    have t7 : i.toNat ≤ 256 := by omega
    apply Exists.intro
    refine ⟨?h1, ?h0, ?h2, ?h3, ?h4⟩
    case h1 => rw [putX_putX]
    case h0 => rfl
    case h2 =>
      simp only [List.length_set]
      exact hl
    case h3 =>
      simp only [x.seps]
      rw [t0, t6]
      generalize i.toNat = I at t7
      simp only [List.map_take, List.map_drop, List.map_append, List.map_set, getD_k,
        set_getD_self, Nat.add_sub_cancel]
      have hl2 : (X.map (fun e => e.k)).length = 258 := by rw [List.length_map, hl]
      generalize X.map (fun e => e.k) = Y at hl2
      apply List.ext_getElem?
      intro j
      simp only [List.getElem?_take, List.getElem?_set, List.getElem?_append,
        List.getElem?_drop, List.length_take, List.length_drop, List.length_append,
        List.length_set, hl2, List.getD_eq_getElem?_getD, List.length_cons, List.length_nil,
        List.getElem?_cons]
      by_cases hj : j < I
      · simp (disch := omega) only [if_pos, if_neg, Nat.min_def]
      · simp (disch := omega) only [if_pos, if_neg, Nat.min_def]
    case h4 =>
      simp only [x.kids]
      rw [t0, t6]
      generalize i.toNat = I at t7
      simp only [List.map_take, List.map_drop, List.map_append, List.map_set, getD_ch,
        set_getD_self, Nat.add_sub_cancel]
      have hl2 : (X.map (fun e => e.ch)).length = 258 := by rw [List.length_map, hl]
      generalize X.map (fun e => e.ch) = Y at hl2
      apply List.ext_getElem?
      intro j
      simp only [List.getElem?_take, List.getElem?_set, List.getElem?_append,
        List.getElem?_drop, List.length_take, List.length_drop, List.length_append,
        List.length_set, hl2, List.getD_eq_getElem?_getD, List.length_cons, List.length_nil,
        List.getElem?_cons]
      rcases Nat.lt_trichotomy j I with hj | hj | hj
      · simp (disch := omega) only [if_pos, if_neg, Nat.min_def]
      · subst hj
        simp (disch := omega) only [if_pos, if_neg, Nat.min_def, if_true, Nat.sub_self]
      · simp (disch := omega) only [if_pos, if_neg, Nat.min_def]

/-- Exact result of `cat(p, q, r, pi)`: the entries of `r` go to the end of `q`, `q` takes
the successor of `r`, and `p` loses the separator at `pi` and the child `r`; when `p` holds a
single separator, `q` becomes the root. -/
theorem cat_ok (t : Tree K V) (pa qa ra : Nat) (pn : x K) (qn rn : d K V) (pi : Int)
    (hq : t.ds.get? qa = some qn) (hr : t.ds.get? ra = some rn) (hne : qa ≠ ra)
    (hql : qn.d.length = 129) (hrl : rn.d.length = 129)
    (hqc : 0 ≤ qn.c) (hrc : 0 ≤ rn.c) (hsum : qn.c + rn.c ≤ 129)
    (hn : ∀ b, rn.n = some b → b < t.ds.length ∧ b ≠ qa ∧ b ≠ ra)
    (hp : t.xs.get? pa = some pn) (hpl : pn.x.length = 258) (hpi : 0 ≤ pi)
    (hpc : pn.c ≤ 257) (hpic : 1 < pn.c → pi < pn.c) :
    ∃ (t2 : Tree K V) (q2 r2 : d K V),
      t.cat (some pa) (some qa) (some ra) pi = Res.ok t2 ∧
      t2.ds.get? qa = some q2 ∧ q2.c = qn.c + rn.c ∧ d.ents q2 = d.ents qn ++ d.ents rn ∧
      q2.n = rn.n ∧ q2.p = qn.p ∧ q2.d.length = 129 ∧
      t2.ds.get? ra = some r2 ∧ r2.c = 0 ∧
      t2.ds.length = t.ds.length ∧
      (∀ j jn, j ≠ qa → j ≠ ra → t.ds.get? j = some jn → ∃ jn2, t2.ds.get? j = some jn2 ∧
        jn2.c = jn.c ∧ jn2.d = jn.d ∧ jn2.n = jn.n ∧
        (rn.n ≠ some j → jn2.p = jn.p) ∧ (rn.n = some j → jn2.p = some qa)) ∧
      (rn.n = none → t2.last = some qa) ∧ (rn.n ≠ none → t2.last = t.last) ∧
      t2.ver = t.ver + 1 ∧ t2.c = t.c ∧ t2.first = t.first ∧ t2.cmp = t.cmp ∧
      t2.xs.length = t.xs.length ∧
      (∀ j, j ≠ pa → t2.xs.get? j = t.xs.get? j) ∧
      (1 < pn.c → ∃ pn2, t2.xs.get? pa = some pn2 ∧ pn2.c = pn.c - 1 ∧ pn2.x.length = 258 ∧
        x.seps pn2 = (x.seps pn).take pi.toNat ++ (x.seps pn).drop (pi.toNat + 1) ∧
        x.kids pn2 = (x.kids pn).take pi.toNat ++ [Ref.ofD qa]
          ++ (x.kids pn).drop (pi.toNat + 2) ∧
        t2.r = t.r) ∧
      (pn.c ≤ 1 → t2.xs = t.xs ∧ t2.r = Ref.ofD qa) := by
  have hqa : qa < t.ds.length := get?_lt hq
  have hra : ra < t.ds.length := get?_lt hr
  unfold Tree.cat
  simp only []
  generalize hT : ({ t with ver := t.ver + 1 } : Tree K V) = T0
  have g0q : T0.ds.get? qa = some qn := by rw [← hT]; exact hq
  have g0r : T0.ds.get? ra = some rn := by rw [← hT]; exact hr
  have g0o : ∀ j, T0.ds.get? j = t.ds.get? j := by intro j; rw [← hT]
  have hx0 : T0.xs = t.xs := by rw [← hT]
  obtain ⟨q1, r1, e1, hc1, hrc1, hn1, hp1, hrn1, hrp1, hl1, hrl1, he1, hre1⟩ :=
    mvL_ok T0 qa ra qn rn rn.c g0q g0r hne hql hrl hqc hrc (le_refl _) (by omega) hsum
  rw [dC_of g0r, bind_ok, e1, bind_ok]
  have hlen0 : T0.ds.length = t.ds.length := by rw [← hT]
  have g1r : ((T0.putD qa q1).putD ra r1).ds.get? ra = some r1 :=
    putD_same _ ra r1 (by rw [putD_length, hlen0]; exact hra)
  have g1q : ((T0.putD qa q1).putD ra r1).ds.get? qa = some q1 :=
    (putD_ne _ ra qa r1 (Ne.symm hne)).trans (putD_same T0 qa q1 (by rw [hlen0]; exact hqa))
  have g1o : ∀ j, j ≠ qa → j ≠ ra → ((T0.putD qa q1).putD ra r1).ds.get? j = t.ds.get? j := by
    intro j h1 h2
    exact (putD_ne _ ra j r1 (Ne.symm h2)).trans ((putD_ne T0 qa j q1 (Ne.symm h1)).trans (g0o j))
  have hlen1 : ((T0.putD qa q1).putD ra r1).ds.length = t.ds.length := by
    rw [putD_length, putD_length, hlen0]
  generalize hT1 : (T0.putD qa q1).putD ra r1 = T1 at g1r g1q g1o hlen1
  have hx1 : T1.xs = t.xs := by rw [← hT1]; exact hx0
  have hv1 : T1.ver = t.ver + 1 := by rw [← hT1, ← hT]; rfl
  have hc1t : T1.c = t.c := by rw [← hT1, ← hT]; rfl
  have hf1 : T1.first = t.first := by rw [← hT1, ← hT]; rfl
  have hla1 : T1.last = t.last := by rw [← hT1, ← hT]; rfl
  have hcmp1 : T1.cmp = t.cmp := by rw [← hT1, ← hT]; rfl
  have hr1 : T1.r = t.r := by rw [← hT1, ← hT]; rfl
  clear hT1 e1
  rw [getD_of g1r, bind_ok]
  -- the link of the successor
  have hlink : ∃ T2 : Tree K V,
      (if r1.n ≠ none then T1.dSetP r1.n (some qa) else pure { T1 with last := some qa })
        = Res.ok T2 ∧
      T2.ds.get? qa = some q1 ∧ T2.ds.get? ra = some r1 ∧ T2.ds.length = t.ds.length ∧
      (∀ j jn, j ≠ qa → j ≠ ra → t.ds.get? j = some jn → ∃ jn2, T2.ds.get? j = some jn2 ∧
        jn2.c = jn.c ∧ jn2.d = jn.d ∧ jn2.n = jn.n ∧
        (rn.n ≠ some j → jn2.p = jn.p) ∧ (rn.n = some j → jn2.p = some qa)) ∧
      (rn.n = none → T2.last = some qa) ∧ (rn.n ≠ none → T2.last = t.last) ∧
      T2.xs = t.xs ∧ T2.ver = t.ver + 1 ∧ T2.c = t.c ∧ T2.first = t.first ∧ T2.cmp = t.cmp ∧
      T2.r = t.r := by
    rw [hrn1]
    cases hnn : rn.n with
    | none =>
      refine ⟨{ T1 with last := some qa }, ?_, g1q, g1r, hlen1, ?_, fun _ => rfl,
        fun h => absurd rfl h, hx1, hv1, hc1t, hf1, hcmp1, hr1⟩
      · rw [if_neg (by simp)]
        rfl
      · intro j jn h1 h2 hj
        refine ⟨jn, (g1o j h1 h2).trans hj, rfl, rfl, rfl, fun _ => rfl, fun h => ?_⟩
        cases h
    | some b =>
      obtain ⟨hb1, hb2, hb3⟩ := hn b hnn
      obtain ⟨bn, hbn⟩ := get?_of_lt t.ds b hb1
      have g1b : T1.ds.get? b = some bn := (g1o b hb2 hb3).trans hbn
      have hb4 : b < T1.ds.length := get?_lt g1b
      refine ⟨T1.putD b { bn with p := some qa }, ?_, ?_, ?_, ?_, ?_, ?_, fun _ => hla1, hx1,
        hv1, hc1t, hf1, hcmp1, hr1⟩
      · rw [if_pos (by simp)]
        exact dSetP_ok T1 b bn (some qa) g1b
      · exact (putD_ne T1 b qa _ hb2).trans g1q
      · exact (putD_ne T1 b ra _ hb3).trans g1r
      · rw [putD_length, hlen1]
      · intro j jn h1 h2 hj
        by_cases hjb : j = b
        · subst hjb
          have hbq : bn = jn := Option.some.inj (hbn.symm.trans hj)
          subst hbq
          exact ⟨_, putD_same T1 j _ hb4, rfl, rfl, rfl, fun h => absurd rfl h, fun _ => rfl⟩
        · refine ⟨jn, ?_, rfl, rfl, rfl, fun _ => rfl, fun h => ?_⟩
          · exact (putD_ne T1 b j _ (Ne.symm hjb)).trans ((g1o j h1 h2).trans hj)
          · exact absurd (Option.some.inj h).symm hjb
      · intro h
        cases h
  obtain ⟨T2, e2, g2q, g2r, hlen2, hfr2, hla2a, hla2b, hx2, hv2, hc2, hf2, hcmp2, hr2⟩ := hlink
  rw [e2, bind_ok, getD_of g2r, bind_ok, dSetN_ok T2 qa q1 r1.n g2q, bind_ok]
  have hqa2 : qa < T2.ds.length := get?_lt g2q
  have g3q := putD_same T2 qa (⟨q1.c, q1.d, r1.n, q1.p⟩ : d K V) hqa2
  have g3o : ∀ j, j ≠ qa → (T2.putD qa (⟨q1.c, q1.d, r1.n, q1.p⟩ : d K V)).ds.get? j
      = T2.ds.get? j := fun j h => putD_ne T2 qa j _ (Ne.symm h)
  have hlen3 : (T2.putD qa (⟨q1.c, q1.d, r1.n, q1.p⟩ : d K V)).ds.length = t.ds.length := by
    rw [putD_length, hlen2]
  generalize hT3 : T2.putD qa (⟨q1.c, q1.d, r1.n, q1.p⟩ : d K V) = T3 at g3q g3o hlen3
  have hx3 : T3.xs = t.xs := by rw [← hT3]; exact hx2
  have hv3 : T3.ver = t.ver + 1 := by rw [← hT3]; exact hv2
  have hc3 : T3.c = t.c := by rw [← hT3]; exact hc2
  have hf3 : T3.first = t.first := by rw [← hT3]; exact hf2
  have hcmp3 : T3.cmp = t.cmp := by rw [← hT3]; exact hcmp2
  have hr3 : T3.r = t.r := by rw [← hT3]; exact hr2
  have hla3 : T3.last = T2.last := by rw [← hT3]; rfl
  have g3p : T3.xs.get? pa = some pn := by rw [hx3]; exact hp
  rw [xC_of g3p, bind_ok]
  have hfr3 : ∀ j jn, j ≠ qa → j ≠ ra → t.ds.get? j = some jn → ∃ jn2, T3.ds.get? j = some jn2 ∧
      jn2.c = jn.c ∧ jn2.d = jn.d ∧ jn2.n = jn.n ∧
      (rn.n ≠ some j → jn2.p = jn.p) ∧ (rn.n = some j → jn2.p = some qa) := by
    intro j jn h1 h2 hj
    obtain ⟨jn2, g, rest⟩ := hfr2 j jn h1 h2 hj
    exact ⟨jn2, (g3o j h1).trans g, rest⟩
  have hq3e : d.ents (⟨q1.c, q1.d, r1.n, q1.p⟩ : d K V) = d.ents qn ++ d.ents rn := by
    have : d.ents (⟨q1.c, q1.d, r1.n, q1.p⟩ : d K V) = d.ents q1 := rfl
    rw [this, he1, List.take_of_length_le]
    rw [ents_length (by omega)]
  by_cases hpc1 : 1 < pn.c
  · obtain ⟨pn2, e4, hpc2, hpl2, hs2, hk2⟩ := x_extract_set_ok T3 pa pn pi (refD (some qa)) g3p
      hpl hpi (hpic hpc1) hpc
    rw [if_pos hpc1, e4]
    refine ⟨T3.putX pa pn2, _, r1, rfl, g3q, hc1, hq3e, hrn1, hp1, hl1, ?_, ?_, hlen3, hfr3, ?_,
      ?_, hv3, hc3, hf3, hcmp3, ?_, ?_, ?_, ?_⟩
    · exact (g3o ra (Ne.symm hne)).trans g2r
    · rw [hrc1]
      omega
    · intro h
      exact hla3.trans (hla2a h)
    · intro h
      exact hla3.trans (hla2b h)
    · rw [putX_length, hx3]
    · intro j hj
      rw [← hx3]
      exact putX_ne T3 pa j pn2 (Ne.symm hj)
    · intro _
      exact ⟨pn2, putX_same T3 pa pn2 (get?_lt g3p), hpc2, hpl2, hs2, hk2, hr3⟩
    · intro h
      omega
  · rw [if_neg hpc1]
    refine ⟨{ T3 with r := refD (some qa) }, _, r1, rfl, g3q, hc1, hq3e, hrn1, hp1, hl1, ?_, ?_,
      hlen3, hfr3, ?_, ?_, hv3, hc3, hf3, hcmp3, ?_, ?_, ?_, ?_⟩
    · exact (g3o ra (Ne.symm hne)).trans g2r
    · rw [hrc1]
      omega
    · intro h
      exact hla3.trans (hla2a h)
    · intro h
      exact hla3.trans (hla2b h)
    · show T3.xs.length = _
      rw [hx3]
    · intro j _
      show T3.xs.get? j = _
      rw [hx3]
    · intro h
      exact absurd h hpc1
    · intro _
      exact ⟨hx3, rfl⟩

theorem kids_get (n : x K) (j : Nat) (ch : Ref) (h : (x.kids n).get? j = some ch) :
    ∃ e, n.x.get? j = some e ∧ e.ch = ch ∧ j < n.c.toNat + 1 := by
  unfold x.kids at h
  rw [List.get?_eq_getElem?, List.getElem?_map, List.getElem?_take] at h
  by_cases hj : j < n.c.toNat + 1
  · rw [if_pos hj] at h
    cases he : n.x[j]? with
    | none => rw [he] at h; cases h
    | some e =>
      rw [he] at h
      simp only [Option.map_some', Option.some.injEq] at h
      exact ⟨e, by rw [List.get?_eq_getElem?, he], h, hj⟩
  · rw [if_neg hj] at h
    cases h

/-- Exact result of `p.siblings(pi)` when the neighbours of child `pi` are data pages. -/
theorem siblings_ok (t : Tree K V) (pa : Nat) (pn : x K) (pi : Int) (l r : Option Nat)
    (hp : t.xs.get? pa = some pn) (hpi : 0 ≤ pi)
    (hl : 0 < pi → ∃ la, (x.kids pn).get? (pi.toNat - 1) = some (Ref.ofD la) ∧ l = some la)
    (hl0 : ¬ 0 < pi → l = none)
    (hr : pi < pn.c → ∃ ra, (x.kids pn).get? (pi.toNat + 1) = some (Ref.ofD ra) ∧ r = some ra)
    (hr0 : ¬ pi < pn.c → r = none) :
    x.siblings t (some pa) pi = Res.ok (l, r) := by
  unfold x.siblings
  rw [if_pos hpi]
  have e1 : (if 0 < pi then do
        let e ← t.xAt (some pa) (pi - 1)
        e.ch.asD
      else pure none) = Res.ok l := by
    by_cases h : 0 < pi
    · obtain ⟨la, h1, h2⟩ := hl h
      obtain ⟨e, he, hch, _⟩ := kids_get pn _ _ h1
      have he2 : pn.x.get? (pi - 1).toNat = some e := by
        rw [show (pi - 1).toNat = pi.toNat - 1 by omega]
        exact he
      rw [if_pos h, xAt_ok t pa pn (pi - 1) e hp (by omega) he2, bind_ok, hch, h2]
      rfl
    · rw [if_neg h, hl0 h]
      rfl
  have e2 : (if pi < pn.c then do
        let e ← t.xAt (some pa) (pi + 1)
        e.ch.asD
      else pure none) = Res.ok r := by
    by_cases h : pi < pn.c
    · obtain ⟨ra, h1, h2⟩ := hr h
      obtain ⟨e, he, hch, _⟩ := kids_get pn _ _ h1
      have he2 : pn.x.get? (pi + 1).toNat = some e := by
        rw [show (pi + 1).toNat = pi.toNat + 1 by omega]
        exact he
      rw [if_pos h, xAt_ok t pa pn (pi + 1) e hp (by omega) he2, bind_ok, hch, h2]
      rfl
    · rw [if_neg h, hr0 h]
      rfl
  rw [e1, bind_ok, xC_of hp, bind_ok, e2, bind_ok]
  rfl

theorem seps_setK (c : Int) (X : List (xe K)) (j : Nat) (e : xe K) (k : K)
    (he : X.get? j = some e) :
    x.seps (⟨c, X.set j ⟨e.ch, k⟩⟩ : x K) = (x.seps (⟨c, X⟩ : x K)).set j k ∧
    x.kids (⟨c, X.set j ⟨e.ch, k⟩⟩ : x K) = x.kids (⟨c, X⟩ : x K) := by
  rw [List.get?_eq_getElem?] at he
  have hj : j < X.length := (List.getElem?_eq_some_iff.mp he).1
  constructor
  · simp only [x.seps]
    apply List.ext_getElem?
    intro i
    simp only [List.getElem?_map, List.getElem?_take, List.getElem?_set, List.length_map,
      List.length_take]
    by_cases hi : j = i
    · subst hi
      by_cases hc : j < c.toNat
      · simp (disch := omega) only [if_pos, if_neg, Nat.min_def, if_true, Option.map_some']
        split <;> rfl
      · simp (disch := omega) only [if_pos, if_neg, Nat.min_def, if_true, Option.map_none']
    · simp (disch := omega) only [if_pos, if_neg]
  · simp only [x.kids]
    apply List.ext_getElem?
    intro i
    simp only [List.getElem?_map, List.getElem?_take, List.getElem?_set]
    by_cases hi : j = i
    · subst hi
      simp (disch := omega) only [if_pos, if_neg, if_true, he]
      split <;> rfl
    · simp (disch := omega) only [if_pos, if_neg]

/-- `underflow`, first case: the left sibling `l` can spare an entry (l.c + q.c ≥ 2·kd). Its
last entry becomes the first entry of `q`, and its key the separator at index `pi-1`. -/
theorem underflow_BL (t : Tree K V) (pa a la : Nat) (pn : x K) (qn ln : d K V) (pi : Int)
    (r : Option Nat)
    (hp : t.xs.get? pa = some pn) (hpi : 0 < pi)
    (hq : t.ds.get? a = some qn) (hql : qn.d.length = 129) (hqc : 0 ≤ qn.c)
    (hqc2 : qn.c + 1 ≤ 129)
    (hkl : (x.kids pn).get? (pi.toNat - 1) = some (Ref.ofD la)) (hla : la ≠ a)
    (hl : t.ds.get? la = some ln) (hll : ln.d.length = 129) (hlc : 1 ≤ ln.c) (hlc2 : ln.c ≤ 129)
    (hcond : 2 * kd ≤ ln.c + qn.c)
    (hr : pi < pn.c → ∃ ra, (x.kids pn).get? (pi.toNat + 1) = some (Ref.ofD ra) ∧ r = some ra)
    (hr0 : ¬ pi < pn.c → r = none) :
    ∃ (l2 q2 : d K V) (pn2 : x K) (m : de K V),
      t.underflow (some pa) (some a) pi
        = Res.ok { t with ver := t.ver + 1, ds := (t.ds.set la l2).set a q2,
                          xs := t.xs.set pa pn2 } ∧
      l2.c = ln.c - 1 ∧ q2.c = qn.c + 1 ∧ l2.n = ln.n ∧ l2.p = ln.p ∧ q2.n = qn.n ∧
      q2.p = qn.p ∧ l2.d.length = 129 ∧ q2.d.length = 129 ∧
      d.ents l2 = (d.ents ln).take (ln.c - 1).toNat ∧
      d.ents q2 = (d.ents ln).drop (ln.c - 1).toNat ++ d.ents qn ∧
      (d.ents q2).head? = some m ∧
      pn2.c = pn.c ∧ pn2.x.length = pn.x.length ∧
      x.seps pn2 = (x.seps pn).set (pi.toNat - 1) m.k ∧ x.kids pn2 = x.kids pn := by
  unfold Tree.underflow
  simp only []
  generalize hT : ({ t with ver := t.ver + 1 } : Tree K V) = T0
  have g0q : T0.ds.get? a = some qn := by rw [← hT]; exact hq
  have g0l : T0.ds.get? la = some ln := by rw [← hT]; exact hl
  have g0p : T0.xs.get? pa = some pn := by rw [← hT]; exact hp
  rw [siblings_ok T0 pa pn pi (some la) r g0p (by omega) (fun _ => ⟨la, hkl, rfl⟩)
    (fun h => absurd hpi h) hr hr0, bind_ok]
  simp only []
  rw [if_pos (by simp), dC_of g0l, bind_ok, dC_of g0q, bind_ok, pure_ok, bind_ok,
    decide_eq_true hcond]
  simp only [if_true]
  obtain ⟨l2, q2, e1, hc1, hc2, hn1, hp1, hn2, hp2, hl1, hl2, he1, he2⟩ :=
    mvR_ok T0 la a ln qn 1 g0l g0q hla hll hql hqc (by decide) hlc hlc2 hqc2
  obtain ⟨m, hm⟩ := get?_of_lt q2.d 0 (by rw [hl2]; decide)
  have hla0 : la < T0.ds.length := get?_lt g0l
  have ha0 : a < T0.ds.length := get?_lt g0q
  have g1q : ((T0.putD la l2).putD a q2).ds.get? a = some q2 :=
    putD_same _ a q2 (by rw [putD_length]; exact ha0)
  obtain ⟨el, hel, _, _⟩ := kids_get pn _ _ hkl
  have hel2 : pn.x.get? (pi - 1).toNat = some el := by
    rw [show (pi - 1).toNat = pi.toNat - 1 by omega]
    exact hel
  have g1p : ((T0.putD la l2).putD a q2).xs.get? pa = some pn := g0p
  rw [e1, bind_ok, dAt_ok _ a q2 0 m g1q (le_refl _) hm, bind_ok,
    xSetK_ok _ pa pn (pi - 1) el m.k g1p (by omega) hel2]
  obtain ⟨pc, X⟩ := pn
  have hsk := seps_setK pc X (pi.toNat - 1) el m.k hel
  refine ⟨l2, q2, ⟨pc, X.set (pi - 1).toNat ⟨el.ch, m.k⟩⟩, m, ?_, hc1, hc2, hn1, hp1, hn2, hp2,
    hl1, hl2, he1, he2, ?_, rfl, ?_, ?_, ?_⟩
  · rw [← hT]
    rfl
  · exact ents_head q2 m (by rw [hc2]; omega) hm
  · simp only [List.length_set]
  · rw [show (pi - 1).toNat = pi.toNat - 1 by omega]
    exact hsk.1
  · rw [show (pi - 1).toNat = pi.toNat - 1 by omega]
    exact hsk.2

/-- The test of the first branch of `underflow` is false when there is no left sibling or
the left sibling cannot spare an entry. -/
theorem underflow_c1_false (T : Tree K V) (a : Nat) (qn : d K V) (l : Option Nat)
    (hq : T.ds.get? a = some qn)
    (hl : ∀ la, l = some la → ∃ ln, T.ds.get? la = some ln ∧ ln.c + qn.c < 2 * kd) :
    (if l ≠ none then do
        let lc ← T.dC l
        let qc ← T.dC (some a)
        pure (decide (2 * kd ≤ lc + qc))
      else pure false) = Res.ok false := by
  cases l with
  | none =>
    rw [if_neg (by simp)]
    rfl
  | some la =>
    obtain ⟨ln, h1, h2⟩ := hl la rfl
    rw [if_pos (by simp), dC_of h1, bind_ok, dC_of hq, bind_ok, pure_ok,
      decide_eq_false (by omega)]

theorem underflow_c2_false (T : Tree K V) (a : Nat) (qn : d K V) (r : Option Nat)
    (hq : T.ds.get? a = some qn)
    (hr : ∀ ra, r = some ra → ∃ rn, T.ds.get? ra = some rn ∧ qn.c + rn.c < 2 * kd) :
    (if r ≠ none then do
        let qc ← T.dC (some a)
        let rc ← T.dC r
        pure (decide (2 * kd ≤ qc + rc))
      else pure false) = Res.ok false := by
  cases r with
  | none =>
    rw [if_neg (by simp)]
    rfl
  | some ra =>
    obtain ⟨rn, h1, h2⟩ := hr ra rfl
    rw [if_pos (by simp), dC_of hq, bind_ok, dC_of h1, bind_ok, pure_ok,
      decide_eq_false (by omega)]

/-- `underflow`, second case: the left sibling cannot spare an entry and the right sibling
`r` can (q.c + r.c ≥ 2·kd). The first entry of `r` becomes the last entry of `q`, and the
next key of `r` the separator at index `pi`. -/
theorem underflow_BR (t : Tree K V) (pa a ra : Nat) (pn : x K) (qn rn : d K V) (pi : Int)
    (l : Option Nat)
    (hp : t.xs.get? pa = some pn) (hpi : 0 ≤ pi) (hpic : pi < pn.c)
    (hq : t.ds.get? a = some qn) (hql : qn.d.length = 129) (hqc : 0 ≤ qn.c)
    (hqc2 : qn.c + 1 ≤ 129)
    (hkr : (x.kids pn).get? (pi.toNat + 1) = some (Ref.ofD ra)) (hra : a ≠ ra)
    (hr : t.ds.get? ra = some rn) (hrl : rn.d.length = 129) (hrc : 2 ≤ rn.c) (hrc2 : rn.c ≤ 129)
    (hcond : 2 * kd ≤ qn.c + rn.c)
    (hl : 0 < pi → ∃ la, (x.kids pn).get? (pi.toNat - 1) = some (Ref.ofD la) ∧ l = some la)
    (hl0 : ¬ 0 < pi → l = none)
    (hlc : ∀ la, l = some la → ∃ ln, t.ds.get? la = some ln ∧ ln.c + qn.c < 2 * kd) :
    ∃ (q2 r2 : d K V) (pn2 : x K) (m : de K V),
      t.underflow (some pa) (some a) pi
        = Res.ok { t with ver := t.ver + 1, ds := (t.ds.set a q2).set ra r2,
                          xs := t.xs.set pa pn2 } ∧
      q2.c = qn.c + 1 ∧ r2.c = rn.c - 1 ∧ q2.n = qn.n ∧ q2.p = qn.p ∧ r2.n = rn.n ∧
      r2.p = rn.p ∧ q2.d.length = 129 ∧ r2.d.length = 129 ∧
      d.ents q2 = d.ents qn ++ (d.ents rn).take 1 ∧
      d.ents r2 = (d.ents rn).drop 1 ∧
      (d.ents r2).head? = some m ∧
      pn2.c = pn.c ∧ pn2.x.length = pn.x.length ∧
      x.seps pn2 = (x.seps pn).set pi.toNat m.k ∧ x.kids pn2 = x.kids pn := by
  unfold Tree.underflow
  simp only []
  generalize hT : ({ t with ver := t.ver + 1 } : Tree K V) = T0
  have g0q : T0.ds.get? a = some qn := by rw [← hT]; exact hq
  have g0r : T0.ds.get? ra = some rn := by rw [← hT]; exact hr
  have g0p : T0.xs.get? pa = some pn := by rw [← hT]; exact hp
  rw [siblings_ok T0 pa pn pi l (some ra) g0p hpi hl hl0 (fun _ => ⟨ra, hkr, rfl⟩)
    (fun h => absurd hpic h), bind_ok]
  simp only []
  rw [underflow_c1_false T0 a qn l g0q (by rw [← hT]; exact hlc), bind_ok]
  simp only [Bool.false_eq_true, if_false]
  rw [if_pos (by simp), dC_of g0q, bind_ok, dC_of g0r, bind_ok, pure_ok, bind_ok,
    decide_eq_true hcond]
  simp only [if_true]
  obtain ⟨q2, r2, e1, hc1, hc2, hn1, hp1, hn2, hp2, hl1, hl2, he1, he2⟩ :=
    mvL_ok T0 a ra qn rn 1 g0q g0r hra hql hrl hqc (by decide) (by omega) hrc2 hqc2
  obtain ⟨m, hm⟩ := get?_of_lt r2.d 0 (by rw [hl2]; decide)
  have hra0 : ra < T0.ds.length := get?_lt g0r
  have g1r : ((T0.putD a q2).putD ra r2).ds.get? ra = some r2 :=
    putD_same _ ra r2 (by rw [putD_length]; exact hra0)
  obtain ⟨er, her, _, _⟩ := kids_get pn _ _ hkr
  obtain ⟨eq, heq⟩ := get?_of_lt pn.x pi.toNat (by have := get?_lt her; omega)
  have g1p : ((T0.putD a q2).putD ra r2).xs.get? pa = some pn := g0p
  have g2r : (((T0.putD a q2).putD ra r2).putX pa
      ⟨pn.c, pn.x.set pi.toNat ⟨eq.ch, m.k⟩⟩).ds.get? ra = some r2 := g1r
  rw [e1, bind_ok, dAt_ok _ ra r2 0 m g1r (le_refl _) hm, bind_ok,
    xSetK_ok _ pa pn pi eq m.k g1p hpi heq, bind_ok, dC_of g2r, bind_ok,
    dSetAt_ok _ ra r2 r2.c zde g2r (by omega) (by rw [hl2]; omega)]
  obtain ⟨pc, X⟩ := pn
  have hsk := seps_setK pc X pi.toNat eq m.k heq
  have hents : d.ents (⟨r2.c, r2.d.set r2.c.toNat zde, r2.n, r2.p⟩ : d K V) = d.ents r2 := by
    simp only [d.ents]
    apply List.ext_getElem?
    intro j
    simp only [List.getElem?_take, List.getElem?_set]
    by_cases hj : j < r2.c.toNat
    · simp (disch := omega) only [if_pos, if_neg]
    · simp (disch := omega) only [if_pos, if_neg]
  refine ⟨q2, ⟨r2.c, r2.d.set r2.c.toNat zde, r2.n, r2.p⟩, ⟨pc, X.set pi.toNat ⟨eq.ch, m.k⟩⟩, m,
    ?_, hc1, hc2, hn1, hp1, hn2, hp2, hl1, ?_, he1, ?_, ?_, rfl, ?_, hsk.1, hsk.2⟩
  · rw [← hT]
    simp only [Tree.putD, Tree.putX, List.set_set]
  · simp only [List.length_set]
    exact hl2
  · rw [hents]
    exact he2
  · rw [hents]
    exact ents_head r2 m (by rw [hc2]; omega) hm
  · simp only [List.length_set]

/-- `underflow`, third case: no sibling can spare an entry and there is a left sibling `l`;
the call is `cat(p, l, q, pi-1)`. -/
theorem underflow_ML (t : Tree K V) (pa a la : Nat) (pn : x K) (qn : d K V) (pi : Int)
    (r : Option Nat)
    (hp : t.xs.get? pa = some pn) (hpi : 0 < pi)
    (hq : t.ds.get? a = some qn)
    (hkl : (x.kids pn).get? (pi.toNat - 1) = some (Ref.ofD la))
    (hlc : ∃ ln, t.ds.get? la = some ln ∧ ln.c + qn.c < 2 * kd)
    (hr : pi < pn.c → ∃ ra, (x.kids pn).get? (pi.toNat + 1) = some (Ref.ofD ra) ∧ r = some ra)
    (hr0 : ¬ pi < pn.c → r = none)
    (hrc : ∀ ra, r = some ra → ∃ rn, t.ds.get? ra = some rn ∧ qn.c + rn.c < 2 * kd) :
    t.underflow (some pa) (some a) pi
      = Tree.cat { t with ver := t.ver + 1 } (some pa) (some la) (some a) (pi - 1) := by
  unfold Tree.underflow
  simp only []
  generalize hT : ({ t with ver := t.ver + 1 } : Tree K V) = T0
  have g0q : T0.ds.get? a = some qn := by rw [← hT]; exact hq
  have g0p : T0.xs.get? pa = some pn := by rw [← hT]; exact hp
  rw [siblings_ok T0 pa pn pi (some la) r g0p (by omega) (fun _ => ⟨la, hkl, rfl⟩)
    (fun h => absurd hpi h) hr hr0, bind_ok]
  simp only []
  rw [underflow_c1_false T0 a qn (some la) g0q (by
    intro la2 h
    cases h
    rw [← hT]
    exact hlc), bind_ok]
  simp only [Bool.false_eq_true, if_false]
  rw [underflow_c2_false T0 a qn r g0q (by rw [← hT]; exact hrc), bind_ok]
  simp only [Bool.false_eq_true, if_false]
  rw [if_pos (by simp)]

/-- `underflow`, fourth case: no sibling can spare an entry and there is no left sibling;
the call is `cat(p, q, r, pi)`. -/
theorem underflow_MR (t : Tree K V) (pa a ra : Nat) (pn : x K) (qn : d K V)
    (hp : t.xs.get? pa = some pn) (hpc : 0 < pn.c)
    (hq : t.ds.get? a = some qn)
    (hkr : (x.kids pn).get? 1 = some (Ref.ofD ra))
    (hrc : ∃ rn, t.ds.get? ra = some rn ∧ qn.c + rn.c < 2 * kd) :
    t.underflow (some pa) (some a) 0
      = Tree.cat { t with ver := t.ver + 1 } (some pa) (some a) (some ra) 0 := by
  unfold Tree.underflow
  simp only []
  generalize hT : ({ t with ver := t.ver + 1 } : Tree K V) = T0
  have g0q : T0.ds.get? a = some qn := by rw [← hT]; exact hq
  have g0p : T0.xs.get? pa = some pn := by rw [← hT]; exact hp
  rw [siblings_ok T0 pa pn 0 none (some ra) g0p (le_refl _) (fun h => absurd h (by decide))
    (fun _ => rfl) (fun _ => ⟨ra, hkr, rfl⟩) (fun h => absurd hpc h), bind_ok]
  simp only []
  rw [underflow_c1_false T0 a qn none g0q (by intro la h; cases h), bind_ok]
  simp only [Bool.false_eq_true, if_false]
  rw [underflow_c2_false T0 a qn (some ra) g0q (by
    intro ra2 h
    cases h
    rw [← hT]
    exact hrc), bind_ok]
  simp only [Bool.false_eq_true, if_false]
  rw [if_neg (by simp)]

theorem nodup_get_inj {l : List Nat} (h : l.Nodup) {i j : Nat} {a : Nat}
    (hi : l.get? i = some a) (hj : l.get? j = some a) : i = j := by
  rw [List.get?_eq_getElem?] at hi hj
  obtain ⟨h1, e1⟩ := List.getElem?_eq_some_iff.mp hi
  obtain ⟨h2, e2⟩ := List.getElem?_eq_some_iff.mp hj
  exact (List.Nodup.getElem_inj_iff h).mp (e1.trans e2.symm)

theorem entries_single {t : Tree K V} {a : Nat} {n : d K V} (h : t.ds.get? a = some n) :
    entries t [a] = d.ents n := by
  rw [entries_cons h, entries_nil, List.append_nil]

theorem entries_congr {t t2 : Tree K V} (l : List Nat)
    (h : ∀ b ∈ l, entries t2 [b] = entries t [b]) : entries t2 l = entries t l := by
  induction l with
  | nil => rfl
  | cons a l ih =>
    have e1 : ∀ (T : Tree K V), entries T (a :: l) = entries T [a] ++ entries T l := by
      intro T
      exact entries_append T [a] l
    rw [e1, e1, h a (List.mem_cons_self _ _),
      ih (fun b hb => h b (List.mem_cons_of_mem _ hb))]

theorem get_pair (A1 A2 : List Nat) (u w : Nat) :
    (A1 ++ u :: w :: A2).get? A1.length = some u ∧
    (A1 ++ u :: w :: A2).get? (A1.length + 1) = some w := by
  simp only [List.get?_eq_getElem?]
  rw [List.getElem?_append_right (Nat.le_refl _), List.getElem?_append_right (by omega)]
  have : A1.length + 1 - A1.length = 1 := by omega
  rw [Nat.sub_self, this]
  simp only [List.getElem?_cons_zero, List.getElem?_cons_succ, and_self]

theorem split_pair (as : List Nat) (P : Nat) (u w : Nat) (h1 : as.get? P = some u)
    (h2 : as.get? (P + 1) = some w) :
    as = as.take P ++ u :: w :: as.drop (P + 2) ∧ (as.take P).length = P := by
  rw [List.get?_eq_getElem?] at h1 h2
  obtain ⟨l1, e1⟩ := List.getElem?_eq_some_iff.mp h1
  obtain ⟨l2, e2⟩ := List.getElem?_eq_some_iff.mp h2
  constructor
  · apply List.ext_getElem?
    intro j
    simp only [List.getElem?_append, List.getElem?_take, List.length_take, List.getElem?_cons,
      List.getElem?_drop]
    by_cases c1 : j < P
    · rw [if_pos (by simp only [Nat.min_def]; split <;> omega), if_pos c1]
    · rw [if_neg (by simp only [Nat.min_def]; split <;> omega)]
      have hm : min P as.length = P := by omega
      rw [hm]
      by_cases c2 : j = P
      · subst c2
        simp only [Nat.sub_self, if_true]
        exact h1
      · by_cases c3 : j = P + 1
        · subst c3
          have : P + 1 - P = 1 := by omega
          simp only [this]
          simp
          exact h2
        · have : j - P ≠ 0 := by omega
          rw [if_neg this]
          have : j - P - 1 ≠ 0 := by omega
          rw [if_neg this]
          congr 1
          omega
  · simp only [List.length_take]
    omega

/-- Borrowing between two adjacent children keeps the separators in order when the
separator between them becomes the first key of the right one. -/
theorem sepsOk_borrow {t t2 : Tree K V} (st : StrictTotal t.cmp) (hcmp : t2.cmp = t.cmp)
    (seps : List K) (A1 A2 : List Nat) (u w : Nat) (m : de K V)
    (hnd : (A1 ++ u :: w :: A2).Nodup)
    (hlen : seps.length + 1 = (A1 ++ u :: w :: A2).length)
    (hs : sepsOk t seps (A1 ++ u :: w :: A2))
    (hfr : ∀ b, b ≠ u → b ≠ w → entries t2 [b] = entries t [b])
    (hsub : ∀ e, e ∈ entries t2 [u] ∨ e ∈ entries t2 [w] ∨ e = m →
      e ∈ entries t [u] ∨ e ∈ entries t [w])
    (hlt : ∀ e ∈ entries t2 [u], t.cmp e.k m.k < 0)
    (hge : ∀ e ∈ entries t2 [w], t.cmp m.k e.k ≤ 0) :
    sepsOk t2 (seps.set A1.length m.k) (A1 ++ u :: w :: A2) := by
  obtain ⟨gu, gw⟩ := get_pair A1 A2 u w
  generalize hP : A1.length = P at gu gw ⊢
  generalize has : A1 ++ u :: w :: A2 = as at hnd hlen hs gu gw ⊢
  have hA : as.length = P + 2 + A2.length := by
    rw [← has, ← hP]
    simp only [List.length_append, List.length_cons]
    omega
  intro j i s c hj hi
  rw [hcmp]
  have hm := hsub m (Or.inr (Or.inr rfl))
  -- where the old entries of `u` and `w` stand with respect to an old separator
  have old : ∀ (j2 : Nat) (s2 : K), seps.get? j2 = some s2 → ∀ e, e ∈ entries t [u] ∨ e ∈ entries t [w] →
      (P + 1 ≤ j2 → t.cmp e.k s2 < 0) ∧ (j2 < P → t.cmp s2 e.k ≤ 0) := by
    intro j2 s2 hj2 e he
    rcases he with he | he
    · exact ⟨fun h => (hs j2 P s2 u hj2 gu).1 (by omega) e he,
        fun h => (hs j2 P s2 u hj2 gu).2 (by omega) e he⟩
    · exact ⟨fun h => (hs j2 (P + 1) s2 w hj2 gw).1 (by omega) e he,
        fun h => (hs j2 (P + 1) s2 w hj2 gw).2 (by omega) e he⟩
  by_cases hjP : j = P
  · subst hjP
    have hs2 : s = m.k := by
      rw [List.get?_eq_getElem?, List.getElem?_set_self (by omega)] at hj
      exact (Option.some.inj hj).symm
    subst hs2
    by_cases hcu : c = u
    · subst hcu
      have := nodup_get_inj hnd hi gu
      subst this
      exact ⟨fun _ => hlt, fun h => absurd h (by omega)⟩
    by_cases hcw : c = w
    · subst hcw
      have := nodup_get_inj hnd hi gw
      subst this
      exact ⟨fun h => absurd h (by omega), fun _ => hge⟩
    rw [hfr c hcu hcw]
    have hiP : i ≠ j := fun h => hcu (Option.some.inj ((h ▸ hi).symm.trans gu))
    have hiP1 : i ≠ j + 1 := fun h => hcw (Option.some.inj ((h ▸ hi).symm.trans gw))
    have hil : i < as.length := by
      rw [List.get?_eq_getElem?] at hi
      exact (List.getElem?_eq_some_iff.mp hi).1
    constructor
    · intro hle e he
      have hlt2 : i < seps.length := by omega
      have hsi : seps.get? i = some (seps.get ⟨i, hlt2⟩) := List.get?_eq_get hlt2
      have h1 := (hs i i _ c hsi hi).1 (Nat.le_refl _) e he
      have h2 := (old i _ hsi m hm).2 (by omega)
      exact st.lt_le h1 h2
    · intro hlt3 e he
      have hlt2 : j + 1 < seps.length := by omega
      have hsi : seps.get? (j + 1) = some (seps.get ⟨j + 1, hlt2⟩) := List.get?_eq_get hlt2
      have h1 := (old (j + 1) _ hsi m hm).1 (Nat.le_refl _)
      have h2 := (hs (j + 1) i _ c hsi hi).2 (by omega) e he
      exact Int.le_of_lt (st.lt_le h1 h2)
  · have hj2 : seps.get? j = some s := by
      rw [List.get?_eq_getElem?] at hj ⊢
      rw [List.getElem?_set_ne (fun h => hjP h.symm)] at hj
      exact hj
    by_cases hcu : c = u
    · subst hcu
      have := nodup_get_inj hnd hi gu
      subst this
      constructor
      · intro h e he
        exact (old j s hj2 e (hsub e (Or.inl he))).1 (by omega)
      · intro h e he
        exact (old j s hj2 e (hsub e (Or.inl he))).2 (by omega)
    by_cases hcw : c = w
    · subst hcw
      have := nodup_get_inj hnd hi gw
      subst this
      constructor
      · intro h e he
        exact (old j s hj2 e (hsub e (Or.inr (Or.inl he)))).1 (by omega)
      · intro h e he
        exact (old j s hj2 e (hsub e (Or.inr (Or.inl he)))).2 (by omega)
    rw [hfr c hcu hcw]
    exact hs j i s c hj2 hi

theorem get_eraseIdx (l : List Nat) (P i : Nat) :
    (l.eraseIdx P).get? i = if i < P then l.get? i else l.get? (i + 1) := by
  simp only [List.get?_eq_getElem?]
  exact List.getElem?_eraseIdx _ _ _

theorem eraseIdx_pair (A1 A2 : List Nat) (u w : Nat) :
    (A1 ++ u :: w :: A2).eraseIdx (A1.length + 1) = A1 ++ u :: A2 := by
  rw [List.eraseIdx_append_of_length_le (by omega)]
  have : A1.length + 1 - A1.length = 1 := by omega
  rw [this]
  rfl

/-- Merging two adjacent children keeps the separators in order when the separator between
them is removed. -/
theorem sepsOk_merge {t t2 : Tree K V} (hcmp : t2.cmp = t.cmp)
    (seps : List K) (A1 A2 : List Nat) (u w : Nat)
    (hnd : (A1 ++ u :: w :: A2).Nodup)
    (hs : sepsOk t seps (A1 ++ u :: w :: A2))
    (hfr : ∀ b, b ≠ u → b ≠ w → entries t2 [b] = entries t [b])
    (he : entries t2 [u] = entries t [u] ++ entries t [w]) :
    sepsOk t2 (seps.eraseIdx A1.length) (A1 ++ u :: A2) := by
  obtain ⟨gu, gw⟩ := get_pair A1 A2 u w
  rw [← eraseIdx_pair A1 A2 u w]
  generalize hP : A1.length = P at gu gw ⊢
  generalize has : A1 ++ u :: w :: A2 = as at hnd hs gu gw ⊢
  intro j i s c hj hi
  rw [hcmp]
  rw [get_eraseIdx] at hi
  have hj2 : seps.get? (if j < P then j else j + 1) = some s := by
    rw [List.get?_eq_getElem?] at hj ⊢
    rw [List.getElem?_eraseIdx] at hj
    split at hj
    · rw [if_pos (by assumption)]
      exact hj
    · rw [if_neg (by assumption)]
      exact hj
  by_cases hcu : c = u
  · subst hcu
    have hiP : i = P := by
      split at hi
      · exact nodup_get_inj hnd hi gu
      · have := nodup_get_inj hnd hi gu
        omega
    subst hiP
    rw [he]
    constructor
    · intro h e hm
      have hjj : ¬ j < i := by omega
      rw [if_neg hjj] at hj2
      rcases List.mem_append.mp hm with hm | hm
      · exact (hs (j + 1) i s c hj2 gu).1 (by omega) e hm
      · exact (hs (j + 1) (i + 1) s w hj2 gw).1 (by omega) e hm
    · intro h e hm
      rw [if_pos h] at hj2
      rcases List.mem_append.mp hm with hm | hm
      · exact (hs j i s c hj2 gu).2 (by omega) e hm
      · exact (hs j (i + 1) s w hj2 gw).2 (by omega) e hm
  · have hcw : c ≠ w := by
      intro h
      subst h
      split at hi
      · have := nodup_get_inj hnd hi gw
        omega
      · have := nodup_get_inj hnd hi gw
        omega
    rw [hfr c hcu hcw]
    by_cases hiP : i < P + 1
    · rw [if_pos hiP] at hi
      have hne : i ≠ P := fun h => hcu (Option.some.inj ((h ▸ hi).symm.trans gu))
      by_cases hjP : j < P
      · rw [if_pos hjP] at hj2
        exact hs j i s c hj2 hi
      · rw [if_neg hjP] at hj2
        have := hs (j + 1) i s c hj2 hi
        exact ⟨fun _ => this.1 (by omega), fun h => absurd h (by omega)⟩
    · rw [if_neg hiP] at hi
      by_cases hjP : j < P
      · rw [if_pos hjP] at hj2
        have := hs j (i + 1) s c hj2 hi
        exact ⟨fun h => absurd h (by omega), fun _ => this.2 (by omega)⟩
      · rw [if_neg hjP] at hj2
        have := hs (j + 1) (i + 1) s c hj2 hi
        exact ⟨fun h => this.1 (by omega), fun h => this.2 (by omega)⟩

theorem Chain.page {t : Tree K V} {L : List Nat} (h : Chain t L) {b : Nat} (hb : b ∈ L) :
    ∃ n, t.ds.get? b = some n := by
  obtain ⟨i, hi⟩ := List.get?_of_mem hb
  obtain ⟨n, hn, _⟩ := h.2.2.2 i b hi
  exact ⟨n, hn⟩

/-- A change that keeps the links of every data page keeps the leaf chain. -/
theorem chain_same {t t2 : Tree K V} {L : List Nat} (h : Chain t L)
    (hf : t2.first = t.first) (hl : t2.last = t.last)
    (hfr : ∀ b n, t.ds.get? b = some n →
      ∃ n2, t2.ds.get? b = some n2 ∧ n2.n = n.n ∧ n2.p = n.p) :
    Chain t2 L := by
  obtain ⟨h1, h2, h3, h4⟩ := h
  refine ⟨h1, hf.trans h2, hl.trans h3, ?_⟩
  intro i a hi
  obtain ⟨n, hn, hnn, hnp⟩ := h4 i a hi
  obtain ⟨n2, g1, g2, g3⟩ := hfr a n hn
  exact ⟨n2, g1, g2.trans hnn, g3.trans hnp⟩

/-- Unlinking the data page `w` that follows `u` leaves the chain without `w`. -/
theorem chain_merge {t t2 : Tree K V} (M1 M2 : List Nat) (u w : Nat) (un wn u2 : d K V)
    (h : Chain t (M1 ++ u :: w :: M2))
    (hu : t.ds.get? u = some un) (hw : t.ds.get? w = some wn) (hu2 : t2.ds.get? u = some u2)
    (hn : u2.n = wn.n) (hp : u2.p = un.p)
    (hfr : ∀ j jn, j ≠ u → j ≠ w → t.ds.get? j = some jn → ∃ jn2, t2.ds.get? j = some jn2 ∧
        jn2.n = jn.n ∧ (wn.n ≠ some j → jn2.p = jn.p) ∧ (wn.n = some j → jn2.p = some u))
    (hf : t2.first = t.first) (hl1 : wn.n = none → t2.last = some u)
    (hl2 : wn.n ≠ none → t2.last = t.last) :
    Chain t2 (M1 ++ u :: M2) := by
  obtain ⟨gu, gw⟩ := get_pair M1 M2 u w
  rw [← eraseIdx_pair M1 M2 u w]
  have hA : (M1 ++ u :: w :: M2).length = M1.length + 2 + M2.length := by
    simp only [List.length_append, List.length_cons]
    omega
  generalize hP : M1.length = P at gu gw hA ⊢
  generalize has : M1 ++ u :: w :: M2 = L at h gu gw hA ⊢
  obtain ⟨hnd, hfirst, hlast, hlinks⟩ := h
  obtain ⟨un0, hun0, hunn, hunp⟩ := hlinks P u gu
  rw [hu] at hun0
  cases hun0
  obtain ⟨wn0, hwn0, hwnn, hwnp⟩ := hlinks (P + 1) w gw
  rw [hw] at hwn0
  cases hwn0
  have huw : u ≠ w := by
    intro e
    subst e
    have := nodup_get_inj hnd gu gw
    omega
  refine ⟨List.Nodup.sublist (List.eraseIdx_sublist _ _) hnd, ?_, ?_, ?_⟩
  · rw [hf, hfirst, List.head?_eq_getElem?, List.head?_eq_getElem?, ← List.get?_eq_getElem?,
      ← List.get?_eq_getElem?, get_eraseIdx, if_pos (by omega)]
  · have hlen : (L.eraseIdx (P + 1)).length = L.length - 1 := by
      rw [List.length_eraseIdx, if_pos (by omega)]
    rw [List.getLast?_eq_getElem?, ← List.get?_eq_getElem?, hlen, get_eraseIdx]
    rw [List.getLast?_eq_getElem?, ← List.get?_eq_getElem?] at hlast
    by_cases hM : M2.length = 0
    · have e1 : L.length - 1 - 1 = P := by omega
      rw [e1, if_pos (by omega), gu]
      apply hl1
      rw [hwnn, List.get?_eq_getElem?]
      exact List.getElem?_eq_none (by omega)
    · have e1 : L.length - 1 - 1 + 1 = L.length - 1 := by omega
      rw [if_neg (by omega), e1, ← hlast]
      apply hl2
      rw [hwnn]
      have hlt : P + 1 + 1 < L.length := by omega
      rw [List.get?_eq_get hlt]
      exact Option.some_ne_none _
  · intro i a hi
    rw [get_eraseIdx] at hi
    by_cases hiP : i < P + 1
    · rw [if_pos hiP] at hi
      obtain ⟨n, g, gn, gp⟩ := hlinks i a hi
      by_cases hiu : i = P
      · subst hiu
        rw [gu] at hi
        cases hi
        refine ⟨u2, hu2, ?_, ?_⟩
        · rw [hn, hwnn, get_eraseIdx, if_neg (by omega)]
        · rw [hp, hunp]
          split
          · rfl
          · rw [get_eraseIdx, if_pos (by omega)]
      · have hau : a ≠ u := by
          intro e
          subst e
          exact hiu (nodup_get_inj hnd hi gu)
        have haw : a ≠ w := by
          intro e
          subst e
          have := nodup_get_inj hnd hi gw
          omega
        obtain ⟨n2, f1, f2, f3, f4⟩ := hfr a n hau haw g
        refine ⟨n2, f1, ?_, ?_⟩
        · rw [f2, gn, get_eraseIdx, if_pos (by omega)]
        · have hne : wn.n ≠ some a := by
            rw [hwnn]
            intro e
            have := nodup_get_inj hnd hi e
            omega
          rw [f3 hne, gp]
          split
          · rfl
          · rw [get_eraseIdx, if_pos (by omega)]
    · rw [if_neg hiP] at hi
      obtain ⟨n, g, gn, gp⟩ := hlinks (i + 1) a hi
      have hau : a ≠ u := by
        intro e
        subst e
        have := nodup_get_inj hnd hi gu
        omega
      have haw : a ≠ w := by
        intro e
        subst e
        have := nodup_get_inj hnd hi gw
        omega
      obtain ⟨n2, f1, f2, f3, f4⟩ := hfr a n hau haw g
      refine ⟨n2, f1, ?_, ?_⟩
      · rw [f2, gn, get_eraseIdx, if_neg (by omega)]
      · rw [if_neg (by omega)] at gp ⊢
        rw [get_eraseIdx]
        by_cases hi1 : i = P + 1
        · subst hi1
          have e : wn.n = some a := by rw [hwnn]; exact hi
          rw [f4 e, if_pos (by omega)]
          have : P + 1 - 1 = P := by omega
          rw [this, gu]
        · have hne : wn.n ≠ some a := by
            rw [hwnn]
            intro e
            have := nodup_get_inj hnd hi e
            omega
          have e2 : i - 1 + 1 = i + 1 - 1 := by omega
          rw [f3 hne, gp, if_neg (by omega), e2]

theorem entries_pair {t t2 : Tree K V} (M1 M2 : List Nat) (u w : Nat)
    (hnd : (M1 ++ u :: w :: M2).Nodup)
    (hfr : ∀ b, b ≠ u → b ≠ w → entries t2 [b] = entries t [b]) :
    entries t2 M1 = entries t M1 ∧ entries t2 M2 = entries t M2 := by
  have h1 : ∀ b ∈ M1, b ≠ u ∧ b ≠ w := by
    intro b hb
    have := (List.nodup_append.mp hnd).2.2
    exact ⟨fun e => this hb (e ▸ List.mem_cons_self _ _),
      fun e => this hb (e ▸ List.mem_cons_of_mem _ (List.mem_cons_self _ _))⟩
  have h2 : ∀ b ∈ M2, b ≠ u ∧ b ≠ w := by
    intro b hb
    have := (List.nodup_append.mp hnd).2.1
    rw [List.nodup_cons, List.nodup_cons] at this
    exact ⟨fun e => this.1 (e ▸ List.mem_cons_of_mem _ hb), fun e => this.2.1 (e ▸ hb)⟩
  exact ⟨entries_congr M1 (fun b hb => hfr b (h1 b hb).1 (h1 b hb).2),
    entries_congr M2 (fun b hb => hfr b (h2 b hb).1 (h2 b hb).2)⟩

theorem entries_three (t : Tree K V) (M1 M2 : List Nat) (u w : Nat) :
    entries t (M1 ++ u :: w :: M2)
      = entries t M1 ++ ((entries t [u] ++ entries t [w]) ++ entries t M2) ∧
    entries t (M1 ++ u :: M2) = entries t M1 ++ (entries t [u] ++ entries t M2) := by
  constructor
  · rw [entries_append, List.append_assoc]
    congr 1
    exact (entries_append t [u] (w :: M2)).trans
      (congrArg (fun z => entries t [u] ++ z) (entries_append t [w] M2))
  · rw [entries_append]
    congr 1
    exact entries_append t [u] M2

/-- What a move of entries between the adjacent children `u` and `w` keeps: the sequence of
entries along the chain, the chain itself, and the order of the separators once the one
between `u` and `w` is the first key of `w`. -/
theorem borrow_sem {t t2 : Tree K V} (st : StrictTotal t.cmp) (seps : List K)
    (L1 L2 A1 A2 : List Nat) (u w : Nat) (un wn u2 w2 : d K V) (m : de K V)
    (hch : Chain t (L1 ++ (A1 ++ u :: w :: A2) ++ L2))
    (hs : sepsOk t seps (A1 ++ u :: w :: A2))
    (hlen : seps.length + 1 = (A1 ++ u :: w :: A2).length)
    (hu : t.ds.get? u = some un) (hw : t.ds.get? w = some wn)
    (hau : Asc t.cmp (d.keys un)) (haw : Asc t.cmp (d.keys wn))
    (hcmp : t2.cmp = t.cmp) (hf : t2.first = t.first) (hl : t2.last = t.last)
    (hu2 : t2.ds.get? u = some u2) (hw2 : t2.ds.get? w = some w2)
    (hfr : ∀ b, b ≠ u → b ≠ w → t2.ds.get? b = t.ds.get? b)
    (hun : u2.n = un.n) (hup : u2.p = un.p) (hwn : w2.n = wn.n) (hwp : w2.p = wn.p)
    (he : d.ents u2 ++ d.ents w2 = d.ents un ++ d.ents wn)
    (hm : (d.ents w2).head? = some m) :
    entries t2 (L1 ++ (A1 ++ u :: w :: A2) ++ L2)
      = entries t (L1 ++ (A1 ++ u :: w :: A2) ++ L2) ∧
    Chain t2 (L1 ++ (A1 ++ u :: w :: A2) ++ L2) ∧
    sepsOk t2 (seps.set A1.length m.k) (A1 ++ u :: w :: A2) := by
  have hndL := hch.1
  have e0 : L1 ++ (A1 ++ u :: w :: A2) ++ L2 = (L1 ++ A1) ++ u :: w :: (A2 ++ L2) := by
    simp only [List.append_assoc, List.cons_append]
  have hnd : (A1 ++ u :: w :: A2).Nodup :=
    (List.nodup_append.mp (List.nodup_append.mp hndL).1).2.1
  have hfrE : ∀ b, b ≠ u → b ≠ w → entries t2 [b] = entries t [b] := by
    intro b h1 h2
    simp only [entries, List.map_cons, List.map_nil, hfr b h1 h2]
  have eu := entries_single hu
  have ew := entries_single hw
  have eu2 := entries_single hu2
  have ew2 := entries_single hw2
  refine ⟨?_, ?_, ?_⟩
  · rw [e0] at hndL ⊢
    obtain ⟨f1, f2⟩ := entries_pair (L1 ++ A1) (A2 ++ L2) u w hndL hfrE
    rw [(entries_three t2 _ _ u w).1, (entries_three t _ _ u w).1, f1, f2, eu, ew, eu2, ew2, he]
  · apply chain_same hch hf hl
    intro b n hb
    by_cases h1 : b = u
    · subst h1
      rw [hu] at hb
      cases hb
      exact ⟨u2, hu2, hun, hup⟩
    by_cases h2 : b = w
    · subst h2
      rw [hw] at hb
      cases hb
      exact ⟨w2, hw2, hwn, hwp⟩
    exact ⟨n, (hfr b h1 h2).trans hb, rfl, rfl⟩
  · obtain ⟨gu, gw⟩ := get_pair A1 A2 u w
    have hlt : A1.length < seps.length := by
      simp only [List.length_append, List.length_cons] at hlen
      omega
    have hsp : seps.get? A1.length = some (seps.get ⟨A1.length, hlt⟩) := List.get?_eq_get hlt
    have hpw : (d.ents un ++ d.ents wn).Pairwise (fun x y => t.cmp x.k y.k < 0) := by
      rw [List.pairwise_append]
      refine ⟨ents_asc hau, ents_asc haw, ?_⟩
      intro x hx y hy
      have h1 := (hs _ _ _ u hsp gu).1 (Nat.le_refl _) x (eu ▸ hx)
      have h2 := (hs _ _ _ w hsp gw).2 (Nat.lt_succ_self _) y (ew ▸ hy)
      exact st.lt_le h1 h2
    rw [← he] at hpw
    obtain ⟨rest, hrest⟩ : ∃ rest, d.ents w2 = m :: rest := by
      cases hw2e : d.ents w2 with
      | nil => rw [hw2e] at hm; cases hm
      | cons x rest =>
        rw [hw2e] at hm
        cases hm
        exact ⟨rest, rfl⟩
    rw [List.pairwise_append] at hpw
    apply sepsOk_borrow st hcmp seps A1 A2 u w m hnd hlen hs hfrE
    · intro e h
      rw [eu, ew, ← List.mem_append, ← he, List.mem_append]
      rcases h with h | h | h
      · exact Or.inl (eu2 ▸ h)
      · exact Or.inr (ew2 ▸ h)
      · subst h
        right
        rw [hrest]
        exact List.mem_cons_self _ _
    · intro e h
      rw [eu2] at h
      exact hpw.2.2 e h m (by rw [hrest]; exact List.mem_cons_self _ _)
    · intro e h
      rw [ew2, hrest] at h
      rcases List.mem_cons.mp h with h | h
      · subst h
        exact Int.le_of_eq (st.refl _)
      · have := hpw.2.1
        rw [hrest, List.pairwise_cons] at this
        exact Int.le_of_lt (this.1 e h)

/-- What a merge of the child `w` into the child `u` on its left keeps: the sequence of
entries along the chain, the chain without `w`, and the order of the separators once the one
between `u` and `w` is removed. -/
theorem merge_sem {t t2 : Tree K V} (seps : List K)
    (L1 L2 A1 A2 : List Nat) (u w : Nat) (un wn u2 : d K V)
    (hch : Chain t (L1 ++ (A1 ++ u :: w :: A2) ++ L2))
    (hs : sepsOk t seps (A1 ++ u :: w :: A2))
    (hu : t.ds.get? u = some un) (hw : t.ds.get? w = some wn)
    (hcmp : t2.cmp = t.cmp) (hf : t2.first = t.first)
    (hl1 : wn.n = none → t2.last = some u) (hl2 : wn.n ≠ none → t2.last = t.last)
    (hu2 : t2.ds.get? u = some u2) (hn : u2.n = wn.n) (hp : u2.p = un.p)
    (he : d.ents u2 = d.ents un ++ d.ents wn)
    (hlen : t2.ds.length = t.ds.length)
    (hfr : ∀ j jn, j ≠ u → j ≠ w → t.ds.get? j = some jn → ∃ jn2, t2.ds.get? j = some jn2 ∧
        jn2.c = jn.c ∧ jn2.d = jn.d ∧ jn2.n = jn.n ∧
        (wn.n ≠ some j → jn2.p = jn.p) ∧ (wn.n = some j → jn2.p = some u)) :
    entries t2 (L1 ++ (A1 ++ u :: A2) ++ L2)
      = entries t (L1 ++ (A1 ++ u :: w :: A2) ++ L2) ∧
    Chain t2 (L1 ++ (A1 ++ u :: A2) ++ L2) ∧
    sepsOk t2 (seps.eraseIdx A1.length) (A1 ++ u :: A2) := by
  have hndL := hch.1
  have e0 : L1 ++ (A1 ++ u :: w :: A2) ++ L2 = (L1 ++ A1) ++ u :: w :: (A2 ++ L2) := by
    simp only [List.append_assoc, List.cons_append]
  have e1 : L1 ++ (A1 ++ u :: A2) ++ L2 = (L1 ++ A1) ++ u :: (A2 ++ L2) := by
    simp only [List.append_assoc, List.cons_append]
  have hnd : (A1 ++ u :: w :: A2).Nodup :=
    (List.nodup_append.mp (List.nodup_append.mp hndL).1).2.1
  have hfrE : ∀ b, b ≠ u → b ≠ w → entries t2 [b] = entries t [b] := by
    intro b h1 h2
    cases hb : t.ds.get? b with
    | none =>
      have hb2 : t2.ds.get? b = none := by
        rw [List.get?_eq_getElem?, List.getElem?_eq_none_iff] at hb ⊢
        omega
      simp only [entries, List.map_cons, List.map_nil, hb, hb2]
    | some jn =>
      obtain ⟨jn2, g1, g2, g3, _⟩ := hfr b jn h1 h2 hb
      rw [entries_single hb, entries_single g1]
      unfold d.ents
      rw [g2, g3]
  have eu := entries_single hu
  have ew := entries_single hw
  have eu2 := entries_single hu2
  refine ⟨?_, ?_, ?_⟩
  · rw [e0] at hndL
    rw [e0, e1]
    obtain ⟨f1, f2⟩ := entries_pair (L1 ++ A1) (A2 ++ L2) u w hndL hfrE
    rw [(entries_three t2 _ _ u w).2, (entries_three t _ _ u w).1, f1, f2, eu, ew, eu2, he]
  · rw [e0] at hch
    rw [e1]
    exact chain_merge (L1 ++ A1) (A2 ++ L2) u w un wn u2 hch hu hw hu2 hn hp
      (fun j jn h1 h2 h3 => by
        obtain ⟨jn2, g1, _, _, g4, g5, g6⟩ := hfr j jn h1 h2 h3
        exact ⟨jn2, g1, g4, g5, g6⟩) hf hl1 hl2
  · exact sepsOk_merge hcmp seps A1 A2 u w hnd hs hfrE (by rw [eu, ew, eu2, he])

theorem get_set2 {α : Type} (l : List α) (u w : Nat) (x y : α) (hne : u ≠ w)
    (hu : u < l.length) (hw : w < l.length) :
    ((l.set u x).set w y).get? u = some x ∧ ((l.set u x).set w y).get? w = some y ∧
    ∀ b, b ≠ u → b ≠ w → ((l.set u x).set w y).get? b = l.get? b := by
  simp only [List.get?_eq_getElem?]
  refine ⟨?_, ?_, ?_⟩
  · rw [List.getElem?_set_ne (fun h => hne h.symm), List.getElem?_set_self hu]
  · rw [List.getElem?_set_self (by rw [List.length_set]; exact hw)]
  · intro b h1 h2
    rw [List.getElem?_set_ne (fun h => h2 h.symm), List.getElem?_set_ne (fun h => h1 h.symm)]

theorem take_drop_pair {α : Type} (A1 A2 : List α) (u w : α) :
    (A1 ++ u :: w :: A2).take A1.length = A1 ∧
    (A1 ++ u :: w :: A2).drop (A1.length + 2) = A2 := by
  constructor
  · exact List.take_left _ _
  · rw [List.drop_append_eq_append_drop, List.drop_of_length_le (by omega)]
    have : A1.length + 2 - A1.length = 2 := by omega
    rw [this]
    rfl

/-- The data page that follows `w` in the chain is a page of the store other than `u` and
`w`. -/
theorem chain_next {t : Tree K V} (M1 M2 : List Nat) (u w : Nat) (wn : d K V)
    (h : Chain t (M1 ++ u :: w :: M2)) (hw : t.ds.get? w = some wn) :
    ∀ b, wn.n = some b → b < t.ds.length ∧ b ≠ u ∧ b ≠ w := by
  intro b hb
  obtain ⟨gu, gw⟩ := get_pair M1 M2 u w
  obtain ⟨n, g, gn, _⟩ := h.2.2.2 _ w gw
  rw [hw] at g
  cases g
  rw [hb] at gn
  have hmem : b ∈ M1 ++ u :: w :: M2 := List.get?_mem gn.symm
  obtain ⟨bn, hbn⟩ := h.page hmem
  refine ⟨get?_lt hbn, ?_, ?_⟩
  · intro e
    subst e
    have := nodup_get_inj h.1 gn.symm gu
    omega
  · intro e
    subst e
    have := nodup_get_inj h.1 gn.symm gw
    omega

/-- The state left by a move of entries between the adjacent children `u` and `w` of the
index page at `pa`. -/
theorem uf_borrow_core (t : Tree K V) (st : StrictTotal t.cmp) (pa : Nat) (pn pn2 : x K)
    (L1 L2 A1 A2 : List Nat) (u w : Nat) (un wn u2 w2 : d K V) (m : de K V)
    (hp : t.xs.get? pa = some pn)
    (hsl : (x.seps pn).length + 1 = (A1 ++ u :: w :: A2).length)
    (hk : x.kids pn = (A1 ++ u :: w :: A2).map Ref.ofD)
    (hs : sepsOk t (x.seps pn) (A1 ++ u :: w :: A2))
    (hch : Chain t (L1 ++ (A1 ++ u :: w :: A2) ++ L2))
    (hu : t.ds.get? u = some un) (hw : t.ds.get? w = some wn)
    (hau : Asc t.cmp (d.keys un)) (haw : Asc t.cmp (d.keys wn))
    (hun : u2.n = un.n) (hup : u2.p = un.p) (hwn : w2.n = wn.n) (hwp : w2.p = wn.p)
    (he : d.ents u2 ++ d.ents w2 = d.ents un ++ d.ents wn)
    (hm : (d.ents w2).head? = some m)
    (hu2c : kd ≤ u2.c ∧ u2.c ≤ 2 * kd) (hw2c : kd ≤ w2.c ∧ w2.c ≤ 2 * kd)
    (hoth : ∀ b ∈ A1 ++ u :: w :: A2, b ≠ u → b ≠ w →
      ∃ n, t.ds.get? b = some n ∧ kd ≤ n.c ∧ n.c ≤ 2 * kd)
    (hsp : x.seps pn2 = (x.seps pn).set A1.length m.k) (hkk : x.kids pn2 = x.kids pn)
    (t2 : Tree K V)
    (ht2 : t2 = { t with ver := t.ver + 1, ds := (t.ds.set u u2).set w w2,
                         xs := t.xs.set pa pn2 }) :
    entries t2 (L1 ++ (A1 ++ u :: w :: A2) ++ L2)
      = entries t (L1 ++ (A1 ++ u :: w :: A2) ++ L2) ∧
    Chain t2 (L1 ++ (A1 ++ u :: w :: A2) ++ L2) ∧
    (∀ b ∈ A1 ++ u :: w :: A2, ∃ n2, t2.ds.get? b = some n2 ∧ kd ≤ n2.c ∧ n2.c ≤ 2 * kd) ∧
    t2.ds.get? u = some u2 ∧ t2.ds.get? w = some w2 ∧ t2.xs.get? pa = some pn2 ∧
    t2.r = t.r ∧ x.kids pn2 = (A1 ++ u :: w :: A2).map Ref.ofD ∧
    sepsOk t2 (x.seps pn2) (A1 ++ u :: w :: A2) := by
  have hnd : (A1 ++ u :: w :: A2).Nodup :=
    (List.nodup_append.mp (List.nodup_append.mp hch.1).1).2.1
  obtain ⟨gu, gw⟩ := get_pair A1 A2 u w
  have huw : u ≠ w := by
    intro e
    subst e
    have := nodup_get_inj hnd gu gw
    omega
  obtain ⟨s1, s2, s3⟩ := get_set2 t.ds u w u2 w2 huw (get?_lt hu) (get?_lt hw)
  have g1 : t2.ds.get? u = some u2 := by rw [ht2]; exact s1
  have g2 : t2.ds.get? w = some w2 := by rw [ht2]; exact s2
  have g3 : ∀ b, b ≠ u → b ≠ w → t2.ds.get? b = t.ds.get? b := by rw [ht2]; exact s3
  have g4 : t2.xs.get? pa = some pn2 := by
    rw [ht2]
    show (t.xs.set pa pn2).get? pa = some pn2
    rw [List.get?_eq_getElem?, List.getElem?_set_self (get?_lt hp)]
  obtain ⟨r1, r2, r3⟩ := borrow_sem st (x.seps pn) L1 L2 A1 A2 u w un wn u2 w2 m hch hs hsl
    hu hw hau haw (by rw [ht2]) (by rw [ht2]) (by rw [ht2]) g1 g2 g3 hun hup hwn hwp he hm
  refine ⟨r1, r2, ?_, g1, g2, g4, by rw [ht2], hkk.trans hk, by rw [hsp]; exact r3⟩
  intro b hb
  by_cases h1 : b = u
  · subst h1
    exact ⟨u2, g1, hu2c⟩
  by_cases h2 : b = w
  · subst h2
    exact ⟨w2, g2, hw2c⟩
  obtain ⟨n, hn, hc⟩ := hoth b hb h1 h2
  exact ⟨n, (g3 b h1 h2).trans hn, hc⟩

/-- The state left by `cat` on the adjacent children `u` and `w` of the index page at `pa`,
`u` being child `P`. -/
theorem uf_merge_core (t : Tree K V) (pa : Nat) (pn : x K)
    (L1 L2 A1 A2 : List Nat) (u w : Nat) (un wn : d K V) (P : Int)
    (hP : 0 ≤ P) (hPA : P.toNat = A1.length)
    (hp : t.xs.get? pa = some pn) (hpl : pn.x.length = 258) (hpc : 1 ≤ pn.c ∧ pn.c ≤ 257)
    (hk : x.kids pn = (A1 ++ u :: w :: A2).map Ref.ofD)
    (hs : sepsOk t (x.seps pn) (A1 ++ u :: w :: A2))
    (hch : Chain t (L1 ++ (A1 ++ u :: w :: A2) ++ L2))
    (hu : t.ds.get? u = some un) (hw : t.ds.get? w = some wn)
    (hul : un.d.length = 129) (hwl : wn.d.length = 129)
    (huc : 0 ≤ un.c) (hwc : 0 ≤ wn.c) (hsum : un.c + wn.c = 2 * kd - 1)
    (hoth : ∀ b ∈ A1 ++ u :: w :: A2, b ≠ u → b ≠ w →
      ∃ n, t.ds.get? b = some n ∧ kd ≤ n.c ∧ n.c ≤ 2 * kd) :
    ∃ (t2 : Tree K V) (u2 : d K V),
      Tree.cat { t with ver := t.ver + 1 } (some pa) (some u) (some w) P = Res.ok t2 ∧
      entries t2 (L1 ++ (A1 ++ u :: A2) ++ L2)
        = entries t (L1 ++ (A1 ++ u :: w :: A2) ++ L2) ∧
      Chain t2 (L1 ++ (A1 ++ u :: A2) ++ L2) ∧
      (∀ b ∈ A1 ++ u :: A2, ∃ n2, t2.ds.get? b = some n2 ∧ kd ≤ n2.c ∧ n2.c ≤ 2 * kd) ∧
      t2.ds.get? u = some u2 ∧ d.ents u2 = d.ents un ++ d.ents wn ∧ u2.n = wn.n ∧
      (1 < pn.c → ∃ pn2, t2.xs.get? pa = some pn2 ∧ t2.r = t.r ∧ pn2.c = pn.c - 1 ∧
        x.seps pn2 = (x.seps pn).eraseIdx A1.length ∧
        x.kids pn2 = (A1 ++ u :: A2).map Ref.ofD ∧
        sepsOk t2 (x.seps pn2) (A1 ++ u :: A2)) ∧
      (pn.c = 1 → t2.r = Ref.ofD u) := by
  have hkd : kd = 64 := kd_eq
  have hndL := hch.1
  have e0 : L1 ++ (A1 ++ u :: w :: A2) ++ L2 = (L1 ++ A1) ++ u :: w :: (A2 ++ L2) := by
    simp only [List.append_assoc, List.cons_append]
  have hnd : (A1 ++ u :: w :: A2).Nodup :=
    (List.nodup_append.mp (List.nodup_append.mp hndL).1).2.1
  obtain ⟨gu, gw⟩ := get_pair A1 A2 u w
  have huw : u ≠ w := by
    intro e
    subst e
    have := nodup_get_inj hnd gu gw
    omega
  have hnext := chain_next (L1 ++ A1) (A2 ++ L2) u w wn (e0 ▸ hch) hw
  have hkl : (x.kids pn).length = pn.c.toNat + 1 := kids_length pn (by omega)
  have hal : (A1 ++ u :: w :: A2).length = pn.c.toNat + 1 := by
    rw [← hkl, hk, List.length_map]
  have hal2 : A1.length + 2 + A2.length = pn.c.toNat + 1 := by
    rw [← hal]
    simp only [List.length_append, List.length_cons]
    omega
  obtain ⟨t2, u2, w2, c1, c2, c3, c4, c5, c6, c7, c8, c9, c10, c11, c12, c13, c14, c15, c16,
    c17, c18, c19, c20, c21⟩ :=
    cat_ok { t with ver := t.ver + 1 } pa u w pn un wn P hu hw huw hul hwl huc hwc
      (by omega) hnext hp hpl hP hpc.2 (by intro _; omega)
  obtain ⟨r1, r2, r3⟩ := merge_sem (x.seps pn) L1 L2 A1 A2 u w un wn u2 hch hs hu hw
    c17 c16 c12 c13 c2 c5 c6 c4 c10 c11
  refine ⟨t2, u2, c1, r1, r2, ?_, c2, c4, c5, ?_, ?_⟩
  · intro b hb
    by_cases h1 : b = u
    · subst h1
      exact ⟨u2, c2, by omega, by omega⟩
    have hbw : b ≠ w := by
      intro e
      subst e
      have hnd2 := hnd
      rw [List.nodup_append] at hnd2
      rcases List.mem_append.mp hb with h | h
      · exact hnd2.2.2 h (List.mem_cons_of_mem _ (List.mem_cons_self _ _))
      · rcases List.mem_cons.mp h with h | h
        · exact huw h.symm
        · have := hnd2.2.1
          rw [List.nodup_cons, List.nodup_cons] at this
          exact this.2.1 h
    have hb2 : b ∈ A1 ++ u :: w :: A2 := by
      rcases List.mem_append.mp hb with h | h
      · exact List.mem_append_left _ h
      · rcases List.mem_cons.mp h with h | h
        · exact absurd h h1
        · exact List.mem_append_right _ (List.mem_cons_of_mem _ (List.mem_cons_of_mem _ h))
    obtain ⟨n, hn, hc⟩ := hoth b hb2 h1 hbw
    obtain ⟨n2, f1, f2, _⟩ := c11 b n h1 hbw hn
    exact ⟨n2, f1, by rw [f2]; exact hc⟩
  · intro h1
    obtain ⟨pn2, f1, f2, f3, f4, f5, f6⟩ := c20 h1
    have es : x.seps pn2 = (x.seps pn).eraseIdx A1.length := by
      rw [f4, hPA, List.eraseIdx_eq_take_drop_succ]
    have ek : x.kids pn2 = (A1 ++ u :: A2).map Ref.ofD := by
      rw [f5, hPA, hk, ← List.map_take, ← List.map_drop, (take_drop_pair A1 A2 u w).1,
        (take_drop_pair A1 A2 u w).2]
      simp only [List.map_append, List.map_cons, List.append_assoc, List.singleton_append]
    exact ⟨pn2, f1, f6, f2, es, ek, by rw [es]; exact r3⟩
  · intro h1
    exact (c21 (by omega)).2

theorem drop_last {α : Type} (l : List α) (N : Nat) (h : l.length = N + 1) :
    ∃ x, l.drop N = [x] := by
  have : (l.drop N).length = 1 := by
    rw [List.length_drop]
    omega
  exact List.length_eq_one.mp this

/-- C34: for an index page `p` of the store with at least one separator whose children are the
data pages `as`, a contiguous part of the leaf chain `L1 ++ as ++ L2`, every separator of `p`
being greater than all keys on its left and not greater than any key on its right, and the
child `q` at index `pi` holding kd-1 entries while the other children hold between kd and 2·kd
entries in ascending order: `underflow(p, q, pi)` returns; the sequence of entries along the
chain is unchanged; the chain and `t.last` skip the discarded data page (`as2` is `as` without
it); each child left holds between kd and 2·kd entries; unless the merged page has become
the root, the children of `p` are `as2` and every separator of `p` is again greater than all
keys on its left and not greater than any key on its right; and one of four things has
happened: the last entry of the left sibling has moved to the front of `q` (left sibling with
more than kd entries); else the first entry of the right sibling has moved to the end of `q`
(right sibling with more than kd entries); else `q` is merged into the left sibling, if there
is one; else the right sibling is merged into `q`. A merge removes the separator between the
two pages from `p`, or makes the merged page the root when `p` had a single separator. -/
theorem C34_underflow_borrows_or_merges (t : Tree K V) (pa a : Nat) (pn : x K) (qn : d K V)
    (pi : Int) (as L1 L2 : List Nat)
    (st : StrictTotal t.cmp)
    (hp : t.xs.get? pa = some pn) (hpl : pn.x.length = xLen.toNat)
    (hpc : 1 ≤ pn.c ∧ pn.c ≤ 2 * kx + 1)
    (hk : x.kids pn = as.map Ref.ofD)
    (hs : sepsOk t (x.seps pn) as)
    (hch : Chain t (L1 ++ as ++ L2))
    (hpi : 0 ≤ pi) (ha : as.get? pi.toNat = some a)
    (hq : t.ds.get? a = some qn) (hqc : qn.c = kd - 1)
    (hlv : ∀ b ∈ as, ∀ n, t.ds.get? b = some n →
      n.d.length = dLen.toNat ∧ Asc t.cmp (d.keys n) ∧ (b ≠ a → kd ≤ n.c ∧ n.c ≤ 2 * kd)) :
    ∃ (t2 : Tree K V) (as2 : List Nat),
      t.underflow (some pa) (some a) pi = Res.ok t2 ∧
      entries t2 (L1 ++ as2 ++ L2) = entries t (L1 ++ as ++ L2) ∧
      Chain t2 (L1 ++ as2 ++ L2) ∧
      (∀ b ∈ as2, ∃ n2, t2.ds.get? b = some n2 ∧ kd ≤ n2.c ∧ n2.c ≤ 2 * kd) ∧
      (as2 = as ∨ 1 < pn.c → ∃ pn2, t2.xs.get? pa = some pn2 ∧ t2.r = t.r ∧
        x.kids pn2 = as2.map Ref.ofD ∧ sepsOk t2 (x.seps pn2) as2) ∧
      ((∃ la ln l2 q2 pn2 m, 0 < pi ∧ as.get? (pi.toNat - 1) = some la ∧
          t.ds.get? la = some ln ∧ kd < ln.c ∧ as2 = as ∧
          t2.ds.get? la = some l2 ∧ t2.ds.get? a = some q2 ∧ t2.xs.get? pa = some pn2 ∧
          d.ents ln = d.ents l2 ++ [m] ∧ d.ents q2 = m :: d.ents qn ∧
          x.seps pn2 = (x.seps pn).set (pi.toNat - 1) m.k) ∨
       (∃ ra rn q2 r2 pn2 m m2,
          (∀ la ln, 0 < pi → as.get? (pi.toNat - 1) = some la → t.ds.get? la = some ln →
            ln.c ≤ kd) ∧
          as.get? (pi.toNat + 1) = some ra ∧ t.ds.get? ra = some rn ∧ kd < rn.c ∧ as2 = as ∧
          t2.ds.get? a = some q2 ∧ t2.ds.get? ra = some r2 ∧ t2.xs.get? pa = some pn2 ∧
          d.ents q2 = d.ents qn ++ [m] ∧ d.ents rn = m :: d.ents r2 ∧
          (d.ents r2).head? = some m2 ∧
          x.seps pn2 = (x.seps pn).set pi.toNat m2.k) ∨
       (∃ la ln l2, 0 < pi ∧ as.get? (pi.toNat - 1) = some la ∧ t.ds.get? la = some ln ∧
          ln.c ≤ kd ∧
          (∀ ra rn, as.get? (pi.toNat + 1) = some ra → t.ds.get? ra = some rn → rn.c ≤ kd) ∧
          as2 = as.eraseIdx pi.toNat ∧
          t2.ds.get? la = some l2 ∧ d.ents l2 = d.ents ln ++ d.ents qn ∧ l2.n = qn.n ∧
          (1 < pn.c → ∃ pn2, t2.xs.get? pa = some pn2 ∧ pn2.c = pn.c - 1 ∧
            x.seps pn2 = (x.seps pn).eraseIdx (pi.toNat - 1)) ∧
          (pn.c = 1 → t2.r = Ref.ofD la)) ∨
       (∃ ra rn q2, pi = 0 ∧ as.get? 1 = some ra ∧ t.ds.get? ra = some rn ∧ rn.c ≤ kd ∧
          as2 = as.eraseIdx 1 ∧
          t2.ds.get? a = some q2 ∧ d.ents q2 = d.ents qn ++ d.ents rn ∧ q2.n = rn.n ∧
          (1 < pn.c → ∃ pn2, t2.xs.get? pa = some pn2 ∧ pn2.c = pn.c - 1 ∧
            x.seps pn2 = (x.seps pn).eraseIdx 0) ∧
          (pn.c = 1 → t2.r = Ref.ofD a))) := by
  have hkd : kd = 64 := kd_eq
  have hkx : kx = 128 := kx_eq
  have hpl2 : pn.x.length = 258 := hpl
  have hpc2 : 1 ≤ pn.c ∧ pn.c ≤ 257 := ⟨hpc.1, by have := hpc.2; omega⟩
  have hnd : as.Nodup := (List.nodup_append.mp (List.nodup_append.mp hch.1).1).2.1
  have hkl : (x.kids pn).length = pn.c.toNat + 1 := kids_length pn (by omega)
  have hal : as.length = pn.c.toNat + 1 := by rw [← hkl, hk, List.length_map]
  have hsl : (x.seps pn).length = pn.c.toNat := seps_length (by omega)
  have hpage : ∀ b ∈ as, ∃ n, t.ds.get? b = some n := fun b hb =>
    hch.page (List.mem_append_left _ (List.mem_append_right _ hb))
  have hkid : ∀ i b, as.get? i = some b → (x.kids pn).get? i = some (Ref.ofD b) := by
    intro i b h
    rw [hk, List.get?_eq_getElem?, List.getElem?_map, ← List.get?_eq_getElem?, h]
    rfl
  have hamem : a ∈ as := List.get?_mem ha
  obtain ⟨hql, hqa, _⟩ := hlv a hamem qn hq
  have hql2 : qn.d.length = 129 := hql
  have hpin : pi.toNat < as.length := get?_lt ha
  have sib : ∀ i b, as.get? i = some b → i ≠ pi.toNat →
      ∃ n, t.ds.get? b = some n ∧ b ≠ a ∧ n.d.length = 129 ∧ Asc t.cmp (d.keys n) ∧
        kd ≤ n.c ∧ n.c ≤ 2 * kd := by
    intro i b h hne
    have hb := List.get?_mem h
    obtain ⟨n, hn⟩ := hpage b hb
    have hba : b ≠ a := by
      intro e
      subst e
      exact hne (nodup_get_inj hnd h ha)
    obtain ⟨f1, f2, f3⟩ := hlv b hb n hn
    exact ⟨n, hn, hba, f1, f2, f3 hba⟩
  have hoth : ∀ (u w : Nat), (u = a ∨ w = a) → ∀ b ∈ as, b ≠ u → b ≠ w →
      ∃ n, t.ds.get? b = some n ∧ kd ≤ n.c ∧ n.c ≤ 2 * kd := by
    intro u w huw b hb h1 h2
    obtain ⟨n, hn⟩ := hpage b hb
    have hba : b ≠ a := by
      rcases huw with e | e
      · subst e
        exact h1
      · subst e
        exact h2
    exact ⟨n, hn, (hlv b hb n hn).2.2 hba⟩
  obtain ⟨l, hl1, hl0, hl2⟩ : ∃ l : Option Nat,
      (0 < pi → ∃ la, (x.kids pn).get? (pi.toNat - 1) = some (Ref.ofD la) ∧ l = some la) ∧
      (¬ 0 < pi → l = none) ∧
      (∀ la, l = some la → 0 < pi ∧ as.get? (pi.toNat - 1) = some la) := by
    by_cases h : 0 < pi
    · obtain ⟨la, hla⟩ := get?_of_lt as (pi.toNat - 1) (by omega)
      exact ⟨some la, fun _ => ⟨la, hkid _ _ hla, rfl⟩, fun h2 => absurd h h2,
        fun la2 e => by cases e; exact ⟨h, hla⟩⟩
    · exact ⟨none, fun h2 => absurd h2 h, fun _ => rfl, fun la e => by cases e⟩
  obtain ⟨r, hr1, hr0, hr2⟩ : ∃ r : Option Nat,
      (pi < pn.c → ∃ ra, (x.kids pn).get? (pi.toNat + 1) = some (Ref.ofD ra) ∧ r = some ra) ∧
      (¬ pi < pn.c → r = none) ∧
      (∀ ra, r = some ra → as.get? (pi.toNat + 1) = some ra) := by
    by_cases h : pi < pn.c
    · obtain ⟨ra, hra⟩ := get?_of_lt as (pi.toNat + 1) (by omega)
      exact ⟨some ra, fun _ => ⟨ra, hkid _ _ hra, rfl⟩, fun h2 => absurd h h2,
        fun ra2 e => by cases e; exact hra⟩
    · exact ⟨none, fun h2 => absurd h2 h, fun _ => rfl, fun ra e => by cases e⟩
  by_cases hA : 0 < pi ∧ ∃ la ln, as.get? (pi.toNat - 1) = some la ∧
      t.ds.get? la = some ln ∧ kd < ln.c
  · -- one entry comes from the left sibling
    obtain ⟨hL, la, ln, hla, hln, hlc⟩ := hA
    obtain ⟨ln0, hln0, hne, hll, hlasc, hlc1, hlc2⟩ := sib _ la hla (by omega)
    rw [hln] at hln0
    cases hln0
    obtain ⟨l2, q2, pn2, m, hres, c1, c2, n1, p1, n2, p2, _, _, e1, e2, hd, _, _, sp, kk⟩ :=
      underflow_BL t pa a la pn qn ln pi r hp hL hq hql2 (by omega) (by omega)
        (hkid _ _ hla) hne hln hll (by omega) (by omega) (by omega) hr1 hr0
    have hpi1 : pi.toNat - 1 + 1 = pi.toNat := by omega
    obtain ⟨has, hA1⟩ := split_pair as (pi.toNat - 1) la a hla (by rw [hpi1]; exact ha)
    have hEl : (d.ents ln).length = (ln.c - 1).toNat + 1 := by
      rw [ents_length (by omega)]
      omega
    obtain ⟨x0, hx0⟩ := drop_last _ _ hEl
    rw [hx0, List.singleton_append] at e2
    have hxm : x0 = m := by
      rw [e2] at hd
      exact Option.some.inj hd
    subst hxm
    have e3 : d.ents ln = d.ents l2 ++ [x0] := by
      rw [e1, ← hx0, List.take_append_drop]
    generalize as.take (pi.toNat - 1) = A1 at has hA1
    generalize as.drop (pi.toNat - 1 + 2) = A2 at has
    subst has
    obtain ⟨g1, g2, g3, g4, g5, g6, g7, g8, g9⟩ :=
      uf_borrow_core t st pa pn pn2 L1 L2 A1 A2 la a ln qn l2 q2 x0 hp (by rw [hsl, hal]) hk hs
        hch hln hq hlasc hqa n1 p1 n2 p2
        (by rw [e3, e2, List.append_assoc, List.singleton_append]) hd
        ⟨by omega, by omega⟩ ⟨by omega, by omega⟩ (hoth la a (Or.inr rfl))
        (by rw [sp, hA1]) kk _ rfl
    exact ⟨_, _, hres, g1, g2, g3, fun _ => ⟨pn2, g6, g7, g8, g9⟩,
      Or.inl ⟨la, ln, l2, q2, pn2, x0, hL, hla, hln, hlc, rfl, g4, g5, g6, e3, e2, sp⟩⟩
  have hLG : ∀ la ln, 0 < pi → as.get? (pi.toNat - 1) = some la → t.ds.get? la = some ln →
      ln.c ≤ kd := by
    intro la ln h1 h2 h3
    by_contra hc
    exact hA ⟨h1, la, ln, h2, h3, by omega⟩
  have hlc : ∀ la, l = some la → ∃ ln, t.ds.get? la = some ln ∧ ln.c + qn.c < 2 * kd := by
    intro la e
    obtain ⟨h1, h2⟩ := hl2 la e
    obtain ⟨ln, hln, _⟩ := sib _ la h2 (by omega)
    exact ⟨ln, hln, by have := hLG la ln h1 h2 hln; omega⟩
  by_cases hB : ∃ ra rn, as.get? (pi.toNat + 1) = some ra ∧ t.ds.get? ra = some rn ∧
      kd < rn.c
  · -- one entry comes from the right sibling
    obtain ⟨ra, rn, hra, hrn, hrc⟩ := hB
    obtain ⟨rn0, hrn0, hne, hrl, hrasc, hrc1, hrc2⟩ := sib _ ra hra (by omega)
    rw [hrn] at hrn0
    cases hrn0
    have hpic : pi < pn.c := by
      have := get?_lt hra
      omega
    obtain ⟨q2, r2, pn2, m2, hres, c1, c2, n1, p1, n2, p2, _, _, e1, e2, hd, _, _, sp, kk⟩ :=
      underflow_BR t pa a ra pn qn rn pi l hp hpi hpic hq hql2 (by omega) (by omega)
        (hkid _ _ hra) (Ne.symm hne) hrn hrl (by omega) (by omega) (by omega) hl1 hl0 hlc
    obtain ⟨has, hA1⟩ := split_pair as pi.toNat a ra ha hra
    have hEr : (d.ents rn).length = rn.c.toNat := ents_length (by omega)
    obtain ⟨m, rest, hmr⟩ : ∃ m rest, d.ents rn = m :: rest := by
      cases h : d.ents rn with
      | nil =>
        rw [h, List.length_nil] at hEr
        omega
      | cons m rest => exact ⟨m, rest, rfl⟩
    have e1b : d.ents q2 = d.ents qn ++ [m] := by
      rw [e1, hmr]
      rfl
    have e2b : d.ents rn = m :: d.ents r2 := by
      rw [e2, hmr]
      rfl
    generalize as.take pi.toNat = A1 at has hA1
    generalize as.drop (pi.toNat + 2) = A2 at has
    subst has
    obtain ⟨g1, g2, g3, g4, g5, g6, g7, g8, g9⟩ :=
      uf_borrow_core t st pa pn pn2 L1 L2 A1 A2 a ra qn rn q2 r2 m2 hp (by rw [hsl, hal]) hk hs
        hch hq hrn hqa hrasc n1 p1 n2 p2
        (by rw [e1b, e2b, List.append_assoc, List.singleton_append]) hd
        ⟨by omega, by omega⟩ ⟨by omega, by omega⟩ (hoth a ra (Or.inl rfl))
        (by rw [sp, hA1]) kk _ rfl
    exact ⟨_, _, hres, g1, g2, g3, fun _ => ⟨pn2, g6, g7, g8, g9⟩,
      Or.inr (Or.inl ⟨ra, rn, q2, r2, pn2, m, m2, hLG, hra, hrn, hrc, rfl, g4, g5, g6, e1b,
        e2b, hd, sp⟩)⟩
  have hRG : ∀ ra rn, as.get? (pi.toNat + 1) = some ra → t.ds.get? ra = some rn →
      rn.c ≤ kd := by
    intro ra rn h2 h3
    by_contra hc
    exact hB ⟨ra, rn, h2, h3, by omega⟩
  have hrc : ∀ ra, r = some ra → ∃ rn, t.ds.get? ra = some rn ∧ qn.c + rn.c < 2 * kd := by
    intro ra e
    have h2 := hr2 ra e
    obtain ⟨rn, hrn, _⟩ := sib _ ra h2 (by omega)
    exact ⟨rn, hrn, by have := hRG ra rn h2 hrn; omega⟩
  by_cases hL : 0 < pi
  · -- `q` is merged into the left sibling
    obtain ⟨la, hla⟩ := get?_of_lt as (pi.toNat - 1) (by omega)
    obtain ⟨ln, hln, hne, hll, hlasc, hlc1, hlc2⟩ := sib _ la hla (by omega)
    have hlcle := hLG la ln hL hla hln
    have hML := underflow_ML t pa a la pn qn pi r hp hL hq (hkid _ _ hla)
      ⟨ln, hln, by omega⟩ hr1 hr0 hrc
    have hpi1 : pi.toNat - 1 + 1 = pi.toNat := by omega
    obtain ⟨has, hA1⟩ := split_pair as (pi.toNat - 1) la a hla (by rw [hpi1]; exact ha)
    generalize as.take (pi.toNat - 1) = A1 at has hA1
    generalize as.drop (pi.toNat - 1 + 2) = A2 at has
    subst has
    obtain ⟨t2, u2, d1, d2, d3, d4, d5, d6, d7, d8, d9⟩ :=
      uf_merge_core t pa pn L1 L2 A1 A2 la a ln qn (pi - 1) (by omega) (by omega) hp hpl2 hpc2
        hk hs hch hln hq hll hql2 (by omega) (by omega) (by omega) (hoth la a (Or.inr rfl))
    have hpiA : pi.toNat = A1.length + 1 := by omega
    have has2 : A1 ++ la :: A2 = (A1 ++ la :: a :: A2).eraseIdx pi.toNat := by
      rw [hpiA, eraseIdx_pair]
    refine ⟨t2, A1 ++ la :: A2, hML.trans d1, d2, d3, d4, ?_,
      Or.inr (Or.inr (Or.inl ⟨la, ln, u2, hL, hla, hln, hlcle, hRG, has2, d5, d6, d7, ?_, d9⟩))⟩
    · intro h
      have h1 : 1 < pn.c := by
        rcases h with h | h
        · have := congrArg List.length h
          simp only [List.length_append, List.length_cons] at this
          omega
        · exact h
      obtain ⟨pn2, f1, f2, f3, f4, f5, f6⟩ := d8 h1
      exact ⟨pn2, f1, f2, f5, f6⟩
    · intro h1
      obtain ⟨pn2, f1, f2, f3, f4, f5, f6⟩ := d8 h1
      exact ⟨pn2, f1, f3, by rw [f4, hA1]⟩
  · -- the right sibling is merged into `q`
    have hpi0 : pi = 0 := by omega
    subst hpi0
    have hz : (0 : Int).toNat = 0 := rfl
    rw [hz] at ha
    obtain ⟨ra, hra⟩ := get?_of_lt as 1 (by omega)
    obtain ⟨rn, hrn, hne, hrl, hrasc, hrc1, hrc2⟩ := sib _ ra hra (by rw [hz]; omega)
    have hrcle := hRG ra rn hra hrn
    have hMR := underflow_MR t pa a ra pn qn hp (by omega) hq (hkid _ _ hra)
      ⟨rn, hrn, by omega⟩
    obtain ⟨has, hA1⟩ := split_pair as 0 a ra ha hra
    generalize as.take 0 = A1 at has hA1
    generalize as.drop (0 + 2) = A2 at has
    subst has
    obtain ⟨t2, u2, d1, d2, d3, d4, d5, d6, d7, d8, d9⟩ :=
      uf_merge_core t pa pn L1 L2 A1 A2 a ra qn rn 0 (Int.le_refl _) (by rw [hz, hA1]) hp hpl2
        hpc2 hk hs hch hq hrn hql2 hrl (by omega) (by omega) (by omega)
        (hoth a ra (Or.inl rfl))
    have has2 : A1 ++ a :: A2 = (A1 ++ a :: ra :: A2).eraseIdx 1 := by
      have := eraseIdx_pair A1 A2 a ra
      rw [hA1] at this
      exact this.symm
    refine ⟨t2, A1 ++ a :: A2, hMR.trans d1, d2, d3, d4, ?_,
      Or.inr (Or.inr (Or.inr ⟨ra, rn, u2, rfl, hra, hrn, hrcle, has2, d5, d6, d7, ?_, d9⟩))⟩
    · intro h
      have h1 : 1 < pn.c := by
        rcases h with h | h
        · have := congrArg List.length h
          simp only [List.length_append, List.length_cons] at this
          omega
        · exact h
      obtain ⟨pn2, f1, f2, f3, f4, f5, f6⟩ := d8 h1
      exact ⟨pn2, f1, f2, f5, f6⟩
    · intro h1
      obtain ⟨pn2, f1, f2, f3, f4, f5, f6⟩ := d8 h1
      exact ⟨pn2, f1, f3, by rw [f4, hA1]⟩

theorem xpages_child_sub {t : Tree K V} (f : Nat) {a : Nat} {n : x K}
    (h : t.xs.get? a = some n) {i : Nat} {e : xe K} (he : n.x.get? i = some e)
    (hi : i ≤ n.c.toNat) :
    ∀ b ∈ xpages t f e.ch, b ∈ xpages t (f + 1) (Ref.ofX a) := by
  intro b hb
  rw [xpages_X f h]
  refine List.mem_cons_of_mem _ ?_
  simp only [List.mem_flatten, List.mem_map]
  refine ⟨_, ⟨e, ?_, rfl⟩, hb⟩
  rw [List.get?_eq_getElem?] at he
  rw [List.mem_iff_getElem?]
  exact ⟨i, by rw [List.getElem?_take]; simp only [show i < n.c.toNat + 1 by omega, if_true]; exact he⟩

theorem shaped_frame {t t2 : Tree K V} (hd : t2.ds.length = t.ds.length) :
    ∀ (h : Nat) (q : Ref), Shaped t h q →
      (∀ b ∈ xpages t (h + 1) q, t2.xs.get? b = t.xs.get? b) →
      Shaped t2 h q ∧ xpages t2 (h + 1) q = xpages t (h + 1) q := by
  intro h
  induction h with
  | zero =>
    intro q hs hf
    cases q with
    | nil => exact ⟨trivial, rfl⟩
    | ofX _ => exact hs.elim
    | ofD a => exact ⟨by unfold Shaped at hs ⊢; omega, rfl⟩
  | succ h ih =>
    intro q hs hf
    cases q with
    | nil => exact ⟨trivial, rfl⟩
    | ofD a => exact ⟨by unfold Shaped at hs ⊢; omega, rfl⟩
    | ofX a =>
      obtain ⟨n, hn, h0, h1, h2, hk⟩ := hs
      have ha : t2.xs.get? a = some n := by
        rw [hf a (by rw [xpages_X _ hn]; exact List.mem_cons_self _ _), hn]
      have hch : ∀ (i : Nat) (e : xe K), n.x.get? i = some e → i ≤ n.c.toNat →
          Shaped t2 h e.ch ∧ xpages t2 (h + 1) e.ch = xpages t (h + 1) e.ch := by
        intro i e he hi
        exact ih e.ch (hk i e he hi)
          (fun b hb => hf b (xpages_child_sub (h + 1) hn he hi b hb))
      refine ⟨⟨n, ha, h0, h1, h2, fun i e he hi => (hch i e he hi).1⟩, ?_⟩
      rw [xpages_X _ ha, xpages_X _ hn]
      congr 2
      apply List.map_congr_left
      intro e he
      obtain ⟨i, hi, hie⟩ := List.mem_iff_getElem.mp he
      rw [List.length_take] at hi
      rw [List.getElem_take] at hie
      have hget : n.x.get? i = some e := by
        rw [List.get?_eq_getElem?, List.getElem?_eq_getElem (by omega), hie]
      exact (hch i e hget (by omega)).2

theorem shaped_xpages_lt {t : Tree K V} :
    ∀ (h : Nat) (q : Ref), Shaped t h q → ∀ a ∈ xpages t (h + 1) q, a < t.xs.length := by
  intro h
  induction h with
  | zero =>
    intro q hs a ha
    cases q with
    | nil => simp [xpages] at ha
    | ofX _ => exact hs.elim
    | ofD a' => simp [xpages] at ha
  | succ h ih =>
    intro q hs a ha
    cases q with
    | nil => simp [xpages] at ha
    | ofD a' => simp [xpages] at ha
    | ofX a' =>
      obtain ⟨n, hn, h0, h1, h2, hkids⟩ := hs
      rw [xpages_X _ hn] at ha
      rcases List.mem_cons.mp ha with ha | ha
      · subst ha
        exact get?_lt hn
      · simp only [List.mem_flatten, List.mem_map] at ha
        obtain ⟨l0, ⟨e, he, rfl⟩, hal⟩ := ha
        obtain ⟨i, hi, hie⟩ := List.mem_iff_getElem.mp he
        rw [List.length_take] at hi
        rw [List.getElem_take] at hie
        have hget : n.x.get? i = some e := by
          rw [List.get?_eq_getElem?, List.getElem?_eq_getElem (by omega), hie]
        exact ih e.ch (hkids i e hget (by omega)) a hal

/-- In a list of lists whose concatenation has no duplicates, two lists at different places
share no item. -/
theorem flatten_disjoint {α β : Type} (f : α → List β) :
    ∀ (l : List α), ((l.map f).flatten).Nodup →
      ∀ (i j : Nat) (x y : α), i < j → l.get? i = some x → l.get? j = some y →
        ∀ b ∈ f x, b ∉ f y := by
  intro l
  induction l with
  | nil => intro _ i j x y _ hx; cases hx
  | cons a l ih =>
    intro hn i j x y hij hx hy b hbx hby
    rw [List.map_cons, List.flatten_cons, List.nodup_append] at hn
    obtain ⟨_, hn2, hdis⟩ := hn
    obtain ⟨j2, rfl⟩ : ∃ j2, j = j2 + 1 := ⟨j - 1, by omega⟩
    rw [List.get?_cons_succ] at hy
    cases i with
    | zero =>
      rw [List.get?_cons_zero] at hx
      cases hx
      refine hdis hbx ?_
      simp only [List.mem_flatten, List.mem_map]
      exact ⟨_, ⟨y, List.get?_mem hy, rfl⟩, hby⟩
    | succ i2 =>
      rw [List.get?_cons_succ] at hx
      exact ih hn2 i2 j2 x y (by omega) hx hy b hbx hby

theorem xC_ok (t : Tree K V) (a : Nat) (n : x K) (h : t.xs.get? a = some n) :
    t.xC (some a) = Res.ok n.c := by
  simp only [Tree.xC, getX_of h, bind_ok, pure_ok]

/-- The loop of `clr` over the children `i`, `i + 1`, .. of the index page `a` returns when
`rec` returns on each of them without touching the page `a` and the pages below the children
still to come. -/
theorem clrLoop_total (t : Tree K V) (rec : Tree K V → Ref → Res (Tree K V)) (a : Nat)
    (n : x K) (h0 : 0 ≤ n.c) (h1 : n.c.toNat + 1 ≤ n.x.length) (P : Nat → List Nat)
    (hrec : ∀ (t1 : Tree K V) (i : Nat) (e : xe K), n.x.get? i = some e → i ≤ n.c.toNat →
      t1.ds.length = t.ds.length → t1.xs.length = t.xs.length →
      (∀ b ∈ P i, t1.xs.get? b = t.xs.get? b) →
      ∃ t2, rec t1 e.ch = Res.ok t2 ∧ t2.ds.length = t.ds.length ∧
        t2.xs.length = t.xs.length ∧ ∀ b, b ∉ P i → t2.xs.get? b = t1.xs.get? b)
    (hP : ∀ i j, i < j → j ≤ n.c.toNat → ∀ b ∈ P j, b ∉ P i)
    (hPa : ∀ i, i ≤ n.c.toNat → a ∉ P i) :
    ∀ (k : Nat) (i : Nat) (lf : Nat) (t1 : Tree K V), n.c.toNat + 1 - i ≤ k → k < lf →
      t1.xs.get? a = some n → t1.ds.length = t.ds.length → t1.xs.length = t.xs.length →
      (∀ j, i ≤ j → j ≤ n.c.toNat → ∀ b ∈ P j, t1.xs.get? b = t.xs.get? b) →
      ∃ t2, clrLoop rec (some a) lf t1 (i : Int) = Res.ok t2 ∧ t2.xs.get? a = some n ∧
        t2.ds.length = t.ds.length ∧ t2.xs.length = t.xs.length ∧
        ∀ b, (∀ j, j ≤ n.c.toNat → b ∉ P j) → t2.xs.get? b = t1.xs.get? b := by
  intro k
  induction k with
  | zero =>
    intro i lf t1 hk hlf ha hd hx hfr
    obtain ⟨l, rfl⟩ : ∃ l, lf = l + 1 := ⟨lf - 1, by omega⟩
    unfold clrLoop
    rw [xC_ok t1 a n ha, bind_ok, if_neg (by omega), pure_ok]
    exact ⟨t1, rfl, ha, hd, hx, fun _ _ => rfl⟩
  | succ k ih =>
    intro i lf t1 hk hlf ha hd hx hfr
    obtain ⟨l, rfl⟩ : ∃ l, lf = l + 1 := ⟨lf - 1, by omega⟩
    unfold clrLoop
    rw [xC_ok t1 a n ha, bind_ok]
    by_cases hi : (i : Int) ≤ n.c
    · have hi2 : i ≤ n.c.toNat := by omega
      obtain ⟨e, he⟩ : ∃ e, n.x.get? i = some e := by
        rw [List.get?_eq_getElem?, List.getElem?_eq_getElem (by omega)]
        exact ⟨_, rfl⟩
      rw [if_pos hi, xAt_ok t1 a n (i : Int) e ha (by omega) (by rw [Int.toNat_ofNat]; exact he),
        bind_ok]
      obtain ⟨t2, h2, hd2, hx2, hf2⟩ := hrec t1 i e he hi2 hd hx (hfr i (le_refl _) hi2)
      rw [h2, bind_ok]
      have ha2 : t2.xs.get? a = some n := by rw [hf2 a (hPa i hi2), ha]
      obtain ⟨t3, h3, ha3, hd3, hx3, hf3⟩ := ih (i + 1) l t2 (by omega) (by omega) ha2 hd2 hx2
        (fun j hj hjc b hb => by
          rw [hf2 b (hP i j (by omega) hjc b hb)]
          exact hfr j (by omega) hjc b hb)
      refine ⟨t3, ?_, ha3, hd3, hx3, fun b hb => ?_⟩
      · rw [← h3]
        congr 1
      · rw [hf3 b hb, hf2 b (hb i hi2)]
    · rw [if_neg hi, pure_ok]
      exact ⟨t1, rfl, ha, hd, hx, fun _ _ => rfl⟩

/-- On pages that form a tree in which no index page occurs twice, `clr` returns when its
fuel exceeds the number of index pages below `q`; it leaves the number of pages and every
index page that is not below `q`. -/
theorem clr_total :
    ∀ (h : Nat) (fuel : Nat) (t : Tree K V) (q : Ref), Shaped t h q →
      (xpages t (h + 1) q).Nodup → (xpages t (h + 1) q).length < fuel →
      ∃ t2, clr fuel t q = Res.ok t2 ∧ t2.ds.length = t.ds.length ∧
        t2.xs.length = t.xs.length ∧
        ∀ b, b ∉ xpages t (h + 1) q → t2.xs.get? b = t.xs.get? b := by
  intro h
  induction h with
  | zero =>
    intro fuel t q hs _ hf
    obtain ⟨f, rfl⟩ : ∃ f, fuel = f + 1 := ⟨fuel - 1, by omega⟩
    cases q with
    | nil => exact ⟨t, rfl, rfl, rfl, fun _ _ => rfl⟩
    | ofX _ => exact hs.elim
    | ofD a =>
      unfold clr
      simp only
      rw [setD_ok t a _ hs]
      exact ⟨_, rfl, by simp only [Tree.putD, List.length_set], rfl, fun _ _ => rfl⟩
  | succ h ih =>
    intro fuel t q hs hnd hf
    obtain ⟨f, rfl⟩ : ∃ f, fuel = f + 1 := ⟨fuel - 1, by omega⟩
    cases q with
    | nil => exact ⟨t, rfl, rfl, rfl, fun _ _ => rfl⟩
    | ofD a =>
      unfold clr
      simp only
      rw [setD_ok t a _ hs]
      exact ⟨_, rfl, by simp only [Tree.putD, List.length_set], rfl, fun _ _ => rfl⟩
    | ofX a =>
      obtain ⟨n, hn, h0, h1, h2, hk⟩ := hs
      have hxp := xpages_X (t := t) (h + 1) hn
      rw [hxp] at hnd hf
      obtain ⟨hna, hnf⟩ := List.nodup_cons.mp hnd
      have hP : ∀ (i : Nat) (e : xe K), n.x.get? i = some e → i ≤ n.c.toNat →
          (n.x.take (n.c.toNat + 1)).get? i = some e := by
        intro i e he hi
        rw [List.get?_eq_getElem?] at he ⊢
        rw [List.getElem?_take]
        simp only [show i < n.c.toNat + 1 by omega, if_true]
        exact he
      have hmem : ∀ (i : Nat) (e : xe K), n.x.get? i = some e → i ≤ n.c.toNat →
          ∀ b ∈ xpages t (h + 1) e.ch,
            b ∈ ((n.x.take (n.c.toNat + 1)).map (fun e => xpages t (h + 1) e.ch)).flatten := by
        intro i e he hi b hb
        simp only [List.mem_flatten, List.mem_map]
        exact ⟨_, ⟨e, List.get?_mem (hP i e he hi), rfl⟩, hb⟩
      have hloop := clrLoop_total t (clr f) a n h0 h1
        (fun i => xpages t (h + 1) (n.x.getD i zxe).ch)
        (by
          intro t1 i e he hi hd1 hx1 hfr
          have hge : n.x.getD i zxe = e := by
            rw [List.getD_eq_getElem?_getD, ← List.get?_eq_getElem?, he]
            rfl
          simp only [hge] at hfr ⊢
          obtain ⟨hs1, hx1p⟩ := shaped_frame hd1 h e.ch (hk i e he hi) hfr
          have hin : xpages t (h + 1) e.ch ∈
              (n.x.take (n.c.toNat + 1)).map (fun e => xpages t (h + 1) e.ch) :=
            List.mem_map.mpr ⟨e, List.get?_mem (hP i e he hi), rfl⟩
          have hsub := List.sublist_flatten_of_mem hin
          have hlen := hsub.length_le
          rw [List.length_cons] at hf
          obtain ⟨t2, h2, hd2, hx2, hf2⟩ := ih f t1 e.ch hs1
            (by rw [hx1p]; exact hsub.nodup hnf) (by rw [hx1p]; omega)
          rw [hx1p] at hf2
          exact ⟨t2, h2, by rw [hd2, hd1], by rw [hx2, hx1], hf2⟩)
        (by
          intro i j hij hj b hb
          obtain ⟨ei, hei⟩ : ∃ e, n.x.get? i = some e := by
            rw [List.get?_eq_getElem?, List.getElem?_eq_getElem (by omega)]
            exact ⟨_, rfl⟩
          obtain ⟨ej, hej⟩ : ∃ e, n.x.get? j = some e := by
            rw [List.get?_eq_getElem?, List.getElem?_eq_getElem (by omega)]
            exact ⟨_, rfl⟩
          have hgi : n.x.getD i zxe = ei := by
            rw [List.getD_eq_getElem?_getD, ← List.get?_eq_getElem?, hei]
            rfl
          have hgj : n.x.getD j zxe = ej := by
            rw [List.getD_eq_getElem?_getD, ← List.get?_eq_getElem?, hej]
            rfl
          simp only [hgi, hgj] at hb ⊢
          intro hbi
          exact flatten_disjoint (fun e => xpages t (h + 1) e.ch) _ hnf i j ei ej hij
            (hP i ei hei (by omega)) (hP j ej hej hj) b hbi hb)
        (by
          intro i hi hai
          obtain ⟨ei, hei⟩ : ∃ e, n.x.get? i = some e := by
            rw [List.get?_eq_getElem?, List.getElem?_eq_getElem (by omega)]
            exact ⟨_, rfl⟩
          have hgi : n.x.getD i zxe = ei := by
            rw [List.getD_eq_getElem?_getD, ← List.get?_eq_getElem?, hei]
            rfl
          simp only [hgi] at hai
          exact hna (hmem i ei hei hi a hai))
        (n.c.toNat + 1) 0 (xLen.toNat + 1) t (by omega)
        (by
          have : xLen.toNat = 258 := by decide
          have : (2 * kx + 2).toNat = 258 := by decide
          omega)
        hn rfl rfl (fun _ _ _ _ _ => rfl)
      obtain ⟨t2, hl2, ha2, hd2, hx2, hf2⟩ := hloop
      unfold clr
      simp only
      rw [show ((0 : Nat) : Int) = 0 from rfl] at hl2
      rw [hl2, bind_ok, setX_ok t2 a _ (get?_lt ha2)]
      refine ⟨_, rfl, by simp only [Tree.putX]; exact hd2,
        by simp only [Tree.putX, List.length_set]; exact hx2, ?_⟩
      intro b hb
      rw [hxp] at hb
      have hba : a ≠ b := fun e => hb (by rw [e]; exact List.mem_cons_self _ _)
      rw [putX_ne t2 a b _ hba]
      refine hf2 b (fun j hj hbj => hb (List.mem_cons_of_mem _ ?_))
      obtain ⟨ej, hej⟩ : ∃ e, n.x.get? j = some e := by
        rw [List.get?_eq_getElem?, List.getElem?_eq_getElem (by omega)]
        exact ⟨_, rfl⟩
      have hgj : n.x.getD j zxe = ej := by
        rw [List.getD_eq_getElem?_getD, ← List.get?_eq_getElem?, hej]
        rfl
      simp only [hgj] at hbj
      exact hmem j ej hej hj b hbj

/-- On pages that form a tree in which no index page occurs twice, `Clear` returns. -/
theorem Clear_total (t : Tree K V) (h : Nat) (hs : Shaped t h t.r)
    (hn : (xpages t (h + 1) t.r).Nodup) : ∃ t2, t.Clear = Res.ok t2 := by
  unfold Tree.Clear
  by_cases hr : t.r = Ref.nil
  · rw [if_pos hr]
    exact ⟨t, rfl⟩
  · rw [if_neg hr]
    have hlen := nodup_length_le hn (shaped_xpages_lt h t.r hs)
    obtain ⟨t2, h2, -⟩ := clr_total h (t.xs.length + 2) t t.r hs hn (by omega)
    rw [h2]
    exact ⟨_, rfl⟩

/-- C21: `Clear()` on a reachable tree whose pages below the root form a tree (every page
referenced is in the store with its count within its array, and no index page occurs twice)
returns, and afterwards `Len()` is 0, root, first and last are nil, `Get(k)` returns
(zero value, false) and `Delete(k)` returns false for every key, `SeekFirst` and `SeekLast`
return `io.EOF`, and a later `Set(k, v)` makes a tree of one entry in which `Get(k)` returns
(v, true), as on a new tree. -/
theorem C21_Clear_leaves_empty_tree {cmp : K → K → Int} (t : Tree K V) (h : Nat)
    (hr : Reachable cmp t) (hs : Shaped t h t.r) (hn : (xpages t (h + 1) t.r).Nodup) :
    ∃ t', t.Clear = Res.ok t' ∧
      t'.Len = 0 ∧ t'.r = Ref.nil ∧ t'.first = none ∧ t'.last = none ∧
      (∀ k, t'.Get k = Res.ok (default, false)) ∧
      (∀ k, t'.Delete k = Res.ok (t', false)) ∧
      t'.SeekFirst = Res.ok (none, some Err.EOF) ∧ t'.SeekLast = Res.ok (none, some Err.EOF) ∧
      (∀ k v, t'.cmp k k = 0 →
        ∃ t2, t'.Set k v = Res.ok t2 ∧ t2.Len = 1 ∧ t2.Get k = Res.ok (v, true)) := by
  obtain ⟨t', hc⟩ := Clear_total t h hs hn
  obtain ⟨h1, h2, h3, h4⟩ := Clear_fields t (reachable_nilOk hr) t' hc
  refine ⟨t', hc, h2, h1, h3, h4, ?_, ?_, ?_, ?_, ?_⟩
  · intro k
    simp only [Tree.Get, h1, if_true, pure]
  · intro k
    simp only [Tree.Delete, h1, if_true, pure]
  · simp only [Tree.SeekFirst, h3, if_true, pure, bind, Res.bind]
  · simp only [Tree.SeekLast, h4, if_true, pure, bind, Res.bind]
  · intro k v hk
    refine ⟨_, Set_of_nil t' h1 k v, ?_, Get_after_Set_of_nil t' k v hk⟩
    show t'.c + 1 = 1
    rw [h2]
    rfl

end Theorems

set_option maxRecDepth 100000 in
theorem staleChecks_true : staleChecks = true := by decide!

/-- A run `r` that passes `staleChecksOf` returns a tree with the facts checked. -/
theorem staleChecksOf_facts (r : Res (Tree Int Int)) (h : staleChecksOf r = true) :
    ∃ t t1 t2 : Tree Int Int, ∃ es : List (Int × Int),
      r = Res.ok t ∧ t.Set 655 7 = Res.panic ∧
      t.Put 655 write7 = Res.panic ∧ t.overflow (some 0) (some 1) 1 0 655 7 = Res.panic ∧
      t.Set 650 7 = Res.ok t1 ∧ t1.Set 5 0 = Res.ok t2 ∧ forward t2 300 = Res.ok es ∧
      staleProps t t1 t2 es = true := by
  unfold staleChecksOf at h
  split at h
  · rename_i t
    split at h
    · rename_i hp
      split at h
      · rename_i hpp
        split at h
        · rename_i hov
          split at h
          · rename_i t1 ht1
            split at h
            · rename_i t2 ht2
              split at h
              · rename_i es hes
                exact ⟨t, t1, t2, es, rfl, hp, hpp, hov, ht1, ht2, hes, h⟩
              · cases h
            · cases h
          · cases h
        · cases h
      · cases h
    · cases h
  · cases h

/-- The trees reached by `opsStale`, `Set(650, 7)`, `Set(5, 0)`, with the facts of
`staleChecks` about them. -/
theorem stale_facts :
    ∃ t t1 t2 : Tree Int Int, ∃ es : List (Int × Int),
      exec (TreeNew icmp) opsStale = Res.ok t ∧ t.Set 655 7 = Res.panic ∧
      t.Put 655 write7 = Res.panic ∧ t.overflow (some 0) (some 1) 1 0 655 7 = Res.panic ∧
      t.Set 650 7 = Res.ok t1 ∧ t1.Set 5 0 = Res.ok t2 ∧ forward t2 300 = Res.ok es ∧
      staleProps t t1 t2 es = true :=
  staleChecksOf_facts (exec (TreeNew icmp) opsStale) staleChecks_true

/-- C1, refuted on the code: on the reachable tree built by `opsStale` (129 ascending keys,
`Delete(650)`, 64 more keys) the call `Set(655, 7)` does not return: `overflow` moves one entry
to the left sibling and then inserts at index `i-1 = -1`, a run-time panic. So `Set(k, v)`
followed by `Get(k)` does not yield `(v, true)` on every reachable tree. -/
theorem C1_Set_panics_on_reachable_tree :
    ∃ t : Tree Int Int, Reachable icmp t ∧ t.Set 655 7 = Res.panic := by
  obtain ⟨t, _, _, _, ht, hp, _⟩ := stale_facts
  exact ⟨t, exec_reachable _ _ _ Reachable.new ht, hp⟩

/-- C2, refuted on the code: on the reachable tree built by `opsStale`, `Set(650, 7)` (650 is
a separator whose key was deleted) changes the result of `Get(10)` from `(0, true)` to
`(0, false)`, although `cmp(650, 10) != 0`. -/
theorem C2_Set_changes_Get_of_other_key :
    ∃ t t1 : Tree Int Int, Reachable icmp t ∧ icmp 650 10 ≠ 0 ∧ t.Set 650 7 = Res.ok t1 ∧
      t.Get 10 = Res.ok (0, true) ∧ t1.Get 10 = Res.ok (0, false) := by
  obtain ⟨t, t1, t2, es, ht, _, _, _, ht1, _, _, h⟩ := stale_facts
  simp only [staleProps, Bool.and_eq_true, decide_eq_true_eq] at h
  exact ⟨t, t1, exec_reachable _ _ _ Reachable.new ht, by decide, ht1, h.1, h.2.1⟩

/-- C7, refuted on the code: the tree reached by `opsStale`, `Set(650, 7)`, `Set(5, 0)` is
reachable and its full forward traversal (`SeekFirst`, then `Next` until `io.EOF`) is not
strictly ascending. -/
theorem C7_forward_traversal_not_ascending :
    ∃ (t : Tree Int Int) (es : List (Int × Int)), Reachable icmp t ∧
      forward t 300 = Res.ok es ∧ ascending icmp (es.map Prod.fst) = false := by
  obtain ⟨t, t1, t2, es, ht, _, _, _, ht1, ht2, hes, h⟩ := stale_facts
  simp only [staleProps, Bool.and_eq_true, decide_eq_true_eq, Bool.not_eq_true'] at h
  have r0 : Reachable icmp t := exec_reachable _ _ _ Reachable.new ht
  exact ⟨t2, es, Reachable.set 5 0 (Reachable.set 650 7 r0 ht1) ht2, hes, h.2.2.1⟩

/-- C16, refuted on the code: on a reachable tree (after `opsStale`, `Set(650, 7)`,
`Set(5, 0)`) with `Len() != 0`, the first `Next` after `SeekFirst` returns key 10 although
the smaller key 5 is stored (`Get(5)` finds it): it is not the entry with the minimum key. -/
theorem C16_SeekFirst_not_minimum :
    ∃ (t : Tree Int Int) (es : List (Int × Int)), Reachable icmp t ∧
      forward t 300 = Res.ok es ∧ es.head? = some (10, 0) ∧
      t.Get 5 = Res.ok (0, true) ∧ icmp 5 10 < 0 := by
  obtain ⟨t, t1, t2, es, ht, _, _, _, ht1, ht2, hes, h⟩ := stale_facts
  simp only [staleProps, Bool.and_eq_true, decide_eq_true_eq, Bool.not_eq_true'] at h
  have r0 : Reachable icmp t := exec_reachable _ _ _ Reachable.new ht
  exact ⟨t2, es, Reachable.set 5 0 (Reachable.set 650 7 r0 ht1) ht2, hes, h.2.2.2.2.1,
    h.2.2.2.1, by decide⟩

/-- C17, refuted on the code: on the reachable tree built by `opsStale`, where `Get(655)`
finds nothing, `Put(655, upd)` with an updater that returns `(7, true)` does not return
(it panics in `overflow`, as `Set` does), so no later `Get(655)` returns `(7, true)`. -/
theorem C17_Put_panics_on_reachable_tree :
    ∃ t : Tree Int Int, Reachable icmp t ∧ write7 0 false = (7, true) ∧
      t.Put 655 write7 = Res.panic := by
  obtain ⟨t, _, _, _, ht, _, hp, _⟩ := stale_facts
  exact ⟨t, exec_reachable _ _ _ Reachable.new ht, rfl, hp⟩

/-- C22, refuted on the code: on the reachable tree built by `opsStale` the root is the index
page 0 over the data pages 0 (64 entries) and 1 (128 entries, full); `find` gives index 0 for
key 655 in page 1, and the call `overflow(p, q, 1, 0, 655, 7)` that `Set(655, 7)` makes
panics: the left sibling has room, so the entry is inserted at index `i-1 = -1`. -/
theorem C22_overflow_index_out_of_range :
    ∃ t : Tree Int Int, Reachable icmp t ∧ t.r = Ref.ofX 0 ∧ leaves t 3 t.r = [0, 1] ∧
      t.dC (some 0) = Res.ok 64 ∧ t.dC (some 1) = Res.ok 128 ∧
      t.find (Ref.ofD 1) 655 = Res.ok (0, false) ∧
      t.overflow (some 0) (some 1) 1 0 655 7 = Res.panic := by
  obtain ⟨t, t1, t2, es, ht, _, _, hov, _, _, _, h⟩ := stale_facts
  simp only [staleProps, Bool.and_eq_true, decide_eq_true_eq, Bool.not_eq_true'] at h
  obtain ⟨_, _, _, _, _, h6, h7, h8, h9, h10, _⟩ := h
  exact ⟨t, exec_reachable _ _ _ Reachable.new ht, h6, h7, h9, h10, h8, hov⟩

/-- C24, refuted on the code: on the reachable tree built by `opsStale` the root is the index
page 0 over the data pages 0 and 1; `Set(650, 7)` (650 equals the separator of the root)
splits data page 1, which is not the root, and yet replaces `t.r`: the new root, index page
1, has only the data pages 1 and 2 below it. -/
theorem C24_split_replaces_root_for_non_root_page :
    ∃ t t1 : Tree Int Int, Reachable icmp t ∧ t.Set 650 7 = Res.ok t1 ∧
      t.r = Ref.ofX 0 ∧ leaves t 3 t.r = [0, 1] ∧
      t.xAt (some 0) 0 = Res.ok ⟨Ref.ofD 0, 650⟩ ∧
      t1.r = Ref.ofX 1 ∧ leaves t1 3 t1.r = [1, 2] := by
  obtain ⟨t, t1, t2, es, ht, _, _, _, ht1, _, _, h⟩ := stale_facts
  simp only [staleProps, Bool.and_eq_true, decide_eq_true_eq, Bool.not_eq_true'] at h
  obtain ⟨_, _, _, _, _, h6, h7, _, _, _, h11, _, h13, h14, _⟩ := h
  exact ⟨t, t1, exec_reachable _ _ _ Reachable.new ht, ht1, h6, h7, h11, h13, h14⟩

/-- C28, refuted on the code: on a reachable tree (after `opsStale` and `Set(650, 7)`)
following `n` from `first` visits the data pages 0, 1, 2, while only the pages 1, 2 are
below the root; key 10, stored in page 0, is not found by `Get`. -/
theorem C28_chain_differs_from_leaves :
    ∃ t : Tree Int Int, Reachable icmp t ∧ chainFrom t 10 t.first = [0, 1, 2] ∧
      leaves t 3 t.r = [1, 2] ∧ t.Get 10 = Res.ok (0, false) := by
  obtain ⟨t, t1, t2, es, ht, _, _, _, ht1, _, _, h⟩ := stale_facts
  simp only [staleProps, Bool.and_eq_true, decide_eq_true_eq, Bool.not_eq_true'] at h
  obtain ⟨_, h2, _, _, _, _, _, _, _, _, _, _, _, h14, h15⟩ := h
  have r0 : Reachable icmp t := exec_reachable _ _ _ Reachable.new ht
  exact ⟨t1, Reachable.set 650 7 r0 ht1, h15, h14, h2⟩

set_option maxRecDepth 100000 in
theorem prevChecks_true : prevChecks = true := by decide!

/-- C12, refuted on the code: with keys 10, 20, 30, an enumerator from `SeekLast` returns 30
and then 20 from `Prev`; after `Delete(20)` the following `Prev` returns 30 again, not the
entry with the greatest key smaller than 20 (key 10, which `Get` finds). -/
theorem C12_Prev_returns_greater_key_after_Delete :
    ∃ (t t1 : Tree Int Int) (e1 e2 e3 : Enumerator Int),
      Reachable icmp t ∧ e1.Prev t = Res.ok (e2, 20, 200, none) ∧
      t.Delete 20 = Res.ok (t1, true) ∧ e2.Prev t1 = Res.ok (e3, 30, 300, none) ∧
      t1.Get 10 = Res.ok (100, true) := by
  have h := prevChecks_true
  unfold prevChecks at h
  split at h
  · rename_i t ht
    split at h
    · rename_i e0 he0
      split at h
      · rename_i e1 he1
        split at h
        · rename_i e2 he2
          split at h
          · rename_i t1 ht1
            split at h
            · rename_i e3 he3
              simp only [decide_eq_true_eq] at h
              exact ⟨t, t1, e1, e2, e3, exec_reachable _ _ _ Reachable.new ht, he2, ht1, he3, h⟩
            · cases h
          · cases h
        · cases h
      · cases h
    · cases h
  · cases h

set_option maxRecDepth 100000 in
theorem stickyChecks_true : stickyChecks = true := by decide!

/-- C10, refuted on the code: an enumerator whose `Next` has returned `io.EOF` (from the extra
step of the resynchronisation, which leaves the enumerator itself untouched) returns the
entry `(20, 7)` from a later `Next`, after `Set(20, 7)`: the end of the sequence is not
sticky. -/
theorem C10_EOF_not_sticky :
    ∃ (t1 t2 : Tree Int Int) (e1 e2 e3 : Enumerator Int) (k v : Int),
      Reachable icmp t1 ∧ e1.Next t1 = Res.ok (e2, k, v, some Err.EOF) ∧
      t1.Set 20 7 = Res.ok t2 ∧ e2.Next t2 = Res.ok (e3, 20, 7, none) := by
  have h := stickyChecks_true
  unfold stickyChecks at h
  split at h
  · rename_i t ht
    split at h
    · rename_i e0 he0
      split at h
      · rename_i e1 he1
        split at h
        · rename_i t1 ht1
          split at h
          · rename_i e2 k v he2
            split at h
            · rename_i t2 ht2
              split at h
              · rename_i e3 he3
                have r0 : Reachable icmp t := exec_reachable _ _ _ Reachable.new ht
                exact ⟨t1, t2, e1, e2, e3, k, v, Reachable.delete 20 true r0 ht1, he2, ht2, he3⟩
              · cases h
            · cases h
          · cases h
        · cases h
      · cases h
    · cases h
  · cases h

theorem icmp_strictTotal : StrictTotal icmp :=
  ⟨fun a b => by unfold icmp; omega, fun a b => by unfold icmp; omega,
    fun a b c => by unfold icmp; omega⟩

set_option maxRecDepth 10000 in
theorem C30_witness :
    leaf3.keysOf (Ref.ofD 0) = some [10, 20, 30] ∧ Asc leaf3.cmp [10, 20, 30] ∧
    ∃ (j : Nat) (b : Bool), leaf3.find (Ref.ofD 0) 20 = Res.ok ((j : Int), b) ∧
      (b = true ↔ ∃ a ∈ [10, 20, 30], leaf3.cmp 20 a = 0) ∧
      (b = true → ∃ a, [10, 20, 30].get? j = some a ∧ leaf3.cmp 20 a = 0) ∧
      (b = false → j ≤ [10, 20, 30].length ∧ (∀ a ∈ [10, 20, 30].take j, leaf3.cmp a 20 < 0) ∧
        (∀ a ∈ [10, 20, 30].drop j, leaf3.cmp 20 a < 0)) :=
  ⟨rfl, by unfold Asc; decide,
    C30_find_is_binary_search leaf3 icmp_strictTotal (Ref.ofD 0) [10, 20, 30] rfl
      (by unfold Asc; decide) 20⟩

set_option maxRecDepth 10000 in
/-- The tree `twoLeaves` is well formed, its data pages holding two entries each. -/
theorem twoLeaves_wf : WF twoLeaves 1 1 := by
  right
  refine ⟨?_, by decide, ?_⟩
  · refine ⟨_, rfl, by decide, by decide, by unfold Asc; decide, ?_⟩
    intro i e hi hle
    have hi2 : i = 0 ∨ i = 1 := by
      have : i ≤ 1 := hle
      omega
    rcases hi2 with rfl | rfl
    · cases hi
      refine ⟨_, rfl, by decide, by decide, by decide, by unfold Asc; decide, ?_⟩
      unfold geLo ltHi
      decide
    · cases hi
      refine ⟨_, rfl, by decide, by decide, by decide, by unfold Asc; decide, ?_⟩
      unfold geLo ltHi
      decide
  · refine ⟨by decide, rfl, rfl, ?_⟩
    intro i a hi
    have hi2 : i = 0 ∨ i = 1 := by
      by_contra hne
      obtain ⟨i2, rfl⟩ : ∃ i2, i = i2 + 2 := ⟨i - 2, by omega⟩
      cases hi
    rcases hi2 with rfl | rfl
    · cases hi
      exact ⟨_, rfl, rfl, rfl⟩
    · cases hi
      exact ⟨_, rfl, rfl, rfl⟩

set_option maxRecDepth 10000 in
/-- The tree `holes` is well formed when data pages may be empty. -/
theorem holes_wf : WF holes 0 1 := by
  right
  refine ⟨?_, by decide, ?_⟩
  · refine ⟨_, rfl, by decide, by decide, by unfold Asc; decide, ?_⟩
    intro i e hi hle
    have hi2 : i = 0 ∨ i = 1 ∨ i = 2 := by
      have : i ≤ 2 := hle
      omega
    rcases hi2 with rfl | rfl | rfl
    · cases hi
      refine ⟨_, rfl, by decide, by decide, by decide, by unfold Asc; decide, ?_⟩
      unfold geLo ltHi
      decide
    · cases hi
      refine ⟨_, rfl, by decide, by decide, by decide, by unfold Asc; decide, ?_⟩
      unfold geLo ltHi
      decide
    · cases hi
      refine ⟨_, rfl, by decide, by decide, by decide, by unfold Asc; decide, ?_⟩
      unfold geLo ltHi
      decide
  · refine ⟨by decide, rfl, rfl, ?_⟩
    intro i a hi
    have hi2 : i = 0 ∨ i = 1 ∨ i = 2 := by
      by_contra hne
      obtain ⟨i2, rfl⟩ : ∃ i2, i = i2 + 3 := ⟨i - 3, by omega⟩
      cases hi
    rcases hi2 with rfl | rfl | rfl
    · cases hi
      exact ⟨_, rfl, rfl, rfl⟩
    · cases hi
      exact ⟨_, rfl, rfl, rfl⟩
    · cases hi
      exact ⟨_, rfl, rfl, rfl⟩

set_option maxRecDepth 10000 in
/-- The tree `leaf3` is well formed. -/
theorem leaf3_wf : WF leaf3 1 0 := by
  right
  refine ⟨?_, by decide, ?_⟩
  · refine ⟨_, rfl, by decide, by decide, by decide, by unfold Asc; decide, ?_⟩
    unfold geLo ltHi
    decide
  · refine ⟨by decide, rfl, rfl, ?_⟩
    intro i a hi
    have hi2 : i = 0 := by
      by_contra hne
      obtain ⟨i2, rfl⟩ : ∃ i2, i = i2 + 1 := ⟨i - 1, by omega⟩
      cases hi
    subst hi2
    cases hi
    exact ⟨_, rfl, rfl, rfl⟩

set_option maxRecDepth 10000 in
/-- C9 (counterexample): the tree `holes` is well formed in the sense of the claim (ascending
keys, separators 20 and 40 bounding the data pages, leaf chain in order) and holds the single
key 30, so no key is `>= 35`; yet the first `Next` after `Seek(35)` returns the pair (0, 0)
read from the empty data page after the one `Seek` stopped at, not `io.EOF`. -/
theorem C9_Next_reads_empty_data_page :
    WF holes 0 1 ∧ StrictTotal holes.cmp ∧ (holes.entries 1).map kv = [(30, 300)] ∧
    ∃ e e1, holes.Seek 35 = Res.ok (e, false) ∧ e.Next holes = Res.ok (e1, 0, 0, none) :=
  ⟨holes_wf, icmp_strictTotal, by decide, _, _, rfl, rfl⟩

set_option maxRecDepth 10000 in
/-- C9 (witness): the amended statement at the tree `twoLeaves` and the key 25, which lies
past the last key of the first data page. -/
theorem C9_witness :
    StrictTotal twoLeaves.cmp ∧ WF twoLeaves 1 1 ∧
    ∃ (e : Enumerator Int) (b : Bool), twoLeaves.Seek 25 = Res.ok (e, b) ∧
      (b = true ↔ ∃ x ∈ twoLeaves.entries 1, twoLeaves.cmp 25 x.k = 0) ∧
      (twoLeaves.entries 1).Pairwise (fun x y => twoLeaves.cmp x.k y.k < 0) ∧
      ∃ N, ∀ fuel, N ≤ fuel → nextAll twoLeaves fuel e =
        Res.ok (((twoLeaves.entries 1).filter
          (fun x => decide (twoLeaves.cmp 25 x.k ≤ 0))).map kv) :=
  ⟨icmp_strictTotal, twoLeaves_wf,
    C9_Seek_then_Next_returns_entries_from_k twoLeaves 1 icmp_strictTotal twoLeaves_wf 25⟩

set_option maxRecDepth 10000 in
/-- C14 (counterexample): in the tree `holes`, well formed in the sense of the claim, the
first `Prev` after `Seek(25)` returns (30, 300) and the second one reads index -1 of the empty
data page before it and panics, where the claim has `io.EOF`. -/
theorem C14_Prev_panics_at_empty_data_page :
    WF holes 0 1 ∧ StrictTotal holes.cmp ∧
    ∃ e e1, holes.Seek 25 = Res.ok (e, false) ∧ e.Prev holes = Res.ok (e1, 30, 300, none) ∧
      e1.Prev holes = Res.panic :=
  ⟨holes_wf, icmp_strictTotal, _, _, rfl, rfl, rfl⟩

/-- C14 (witness): the amended statement at the tree `twoLeaves` and the key 25. -/
theorem C14_witness :
    StrictTotal twoLeaves.cmp ∧ WF twoLeaves 1 1 ∧
    ∃ (e : Enumerator Int) (b : Bool), twoLeaves.Seek 25 = Res.ok (e, b) ∧
      ∃ N, ∀ fuel, N ≤ fuel →
        ((twoLeaves.entries 1).filter (fun x => decide (twoLeaves.cmp 25 x.k ≤ 0)) = [] →
          prevAll twoLeaves fuel e = Res.ok []) ∧
        (∀ x r, (twoLeaves.entries 1).filter (fun x => decide (twoLeaves.cmp 25 x.k ≤ 0)) =
            x :: r →
          prevAll twoLeaves fuel e = Res.ok (kv x ::
            ((twoLeaves.entries 1).filter
              (fun x => decide (twoLeaves.cmp x.k 25 < 0))).reverse.map kv)) :=
  ⟨icmp_strictTotal, twoLeaves_wf,
    C14_Seek_then_Prev_returns_first_ge_then_smaller twoLeaves 1 icmp_strictTotal
      twoLeaves_wf 25⟩

set_option maxRecDepth 10000 in
/-- C15: the tree `leaf3` holds the keys 10, 20, 30 in one data page. The first `Prev` after
`Seek(k)` reads the entry at the position of `Seek`, the first key `>= k`, where the claim
and the test of `Prev` after `Seek` have the greatest key `<= k`: after `Seek(35)` it returns
`io.EOF`, not (30, 300); after `Seek(25)` it returns (30, 300), not (20, 200); after
`Seek(15)` it returns (20, 200), not (10, 100); after `Seek(5)` it returns (10, 100), not
`io.EOF`. -/
theorem C15_Prev_after_Seek_returns_next_greater :
    WF leaf3 1 0 ∧ StrictTotal leaf3.cmp ∧
    (leaf3.entries 0).map kv = [(10, 100), (20, 200), (30, 300)] ∧
    (∃ e e1, leaf3.Seek 35 = Res.ok (e, false) ∧
      e.Prev leaf3 = Res.ok (e1, 0, 0, some Err.EOF)) ∧
    (∃ e e1, leaf3.Seek 25 = Res.ok (e, false) ∧ e.Prev leaf3 = Res.ok (e1, 30, 300, none)) ∧
    (∃ e e1, leaf3.Seek 15 = Res.ok (e, false) ∧ e.Prev leaf3 = Res.ok (e1, 20, 200, none)) ∧
    ∃ e e1, leaf3.Seek 5 = Res.ok (e, false) ∧ e.Prev leaf3 = Res.ok (e1, 10, 100, none) :=
  ⟨leaf3_wf, icmp_strictTotal, by decide, ⟨_, _, rfl, rfl⟩, ⟨_, _, rfl, rfl⟩,
    ⟨_, _, rfl, rfl⟩, _, _, rfl, rfl⟩

set_option maxRecDepth 10000 in
/-- The tree `leaf4` is well formed. -/
theorem leaf4_wf : WF leaf4 1 0 := by
  right
  refine ⟨?_, by decide, ?_⟩
  · refine ⟨_, rfl, by decide, by decide, by decide, by unfold Asc; decide, ?_⟩
    unfold geLo ltHi
    decide
  · refine ⟨by decide, rfl, rfl, ?_⟩
    intro i a hi
    have hi2 : i = 0 := by
      by_contra hne
      obtain ⟨i2, rfl⟩ : ∃ i2, i = i2 + 1 := ⟨i - 1, by omega⟩
      cases hi
    subst hi2
    cases hi
    exact ⟨_, rfl, rfl, rfl⟩

set_option maxRecDepth 10000 in
/-- C11: on the well-formed tree `leaf3` (keys 10, 20, 30) the enumerator of `Seek(30)`
returns (30, 300) with no error by `Next`; `Set(40, 400)` then gives the well-formed tree
`leaf4`, in which 40 is the smallest key greater than 30, yet the following `Next` returns
`io.EOF` where the claim has (40, 400): the `Next` that returned the last entry had already
moved past the last data page and recorded the error, before any `Next` returned `io.EOF`. -/
theorem C11_Next_misses_key_set_after_last_entry :
    WF leaf3 1 0 ∧ WF leaf4 1 0 ∧ StrictTotal leaf3.cmp ∧ leaf3.Set 40 400 = Res.ok leaf4 ∧
    leaf4.Get 40 = Res.ok (400, true) ∧
    ∃ e0 e1 e2, leaf3.Seek 30 = Res.ok (e0, true) ∧ e0.Next leaf3 = Res.ok (e1, 30, 300, none) ∧
      e1.Next leaf4 = Res.ok (e2, 0, 0, some Err.EOF) :=
  ⟨leaf3_wf, leaf4_wf, icmp_strictTotal, rfl, rfl, _, _, _, rfl, rfl, rfl⟩

set_option maxRecDepth 10000 in
/-- The tree `leaf3` is reached by three `Set` calls from a new tree. -/
theorem leaf3_reachable : Reachable icmp leaf3 :=
  exec_reachable ([Op.set 10 100, Op.set 20 200, Op.set 30 300] : List (Op Int Int))
    (TreeNew icmp) leaf3 Reachable.new rfl

set_option maxRecDepth 10000 in
/-- C20: on the reachable tree `leaf3` (`Set(10, 100)`, `Set(20, 200)`, `Set(30, 300)`) the
call `Set(20, 200)` overwrites the value of the key 20 and leaves the version at 3, as does
`Set(10, 7)`, where the claim has a greater version; `Clear()` on a new tree, which has no
root, leaves the version at 0. -/
theorem C20_overwrite_and_Clear_of_new_tree_keep_version :
    Reachable icmp leaf3 ∧
    (∃ t1, leaf3.Set 20 200 = Res.ok t1 ∧ t1.Get 20 = Res.ok (200, true) ∧
      t1.ver = leaf3.ver) ∧
    (∃ t1, leaf3.Set 10 7 = Res.ok t1 ∧ t1.Get 10 = Res.ok (7, true) ∧ t1.ver = leaf3.ver) ∧
    Reachable icmp (TreeNew icmp : Tree Int Int) ∧
    (∃ t2, (TreeNew icmp : Tree Int Int).Clear = Res.ok t2 ∧
      t2.ver = (TreeNew icmp : Tree Int Int).ver) :=
  ⟨leaf3_reachable, ⟨_, rfl, rfl, rfl⟩, ⟨_, rfl, rfl, rfl⟩, Reachable.new, ⟨_, rfl, rfl⟩⟩

set_option maxRecDepth 100000 in
theorem sepChecks_true : sepChecks = true := by decide!

/-- A run `r` that passes `sepChecksOf` returns a tree with the facts checked. -/
theorem sepChecksOf_facts (r : Res (Tree Int Int)) (h : sepChecksOf r = true) :
    ∃ t : Tree Int Int, r = Res.ok t ∧ t.ds.length = 2 ∧
      t.xs = [⟨1, [⟨Ref.ofD 0, 650⟩, ⟨Ref.ofD 1, 0⟩] ++ List.replicate 256 zxe⟩] ∧
      t.r = Ref.ofX 0 ∧ t.xC (some 0) = Res.ok 1 ∧
      t.xAt (some 0) 0 = Res.ok ⟨Ref.ofD 0, 650⟩ ∧ t.xAt (some 0) 1 = Res.ok ⟨Ref.ofD 1, 0⟩ ∧
      t.dC (some 1) = Res.ok 64 ∧ t.dAt (some 1) 0 = Res.ok ⟨660, 0⟩ ∧
      t.Get 650 = Res.ok (0, false) ∧ ∀ e ∈ entries t [1], 650 < e.k := by
  unfold sepChecksOf at h
  split at h
  · rename_i t
    simp only [Bool.and_eq_true, decide_eq_true_eq] at h
    exact ⟨t, rfl, h⟩
  · cases h

/-- The tree reached by `opsSep`, with the facts of `sepChecks` about it. -/
theorem sep_facts :
    ∃ t : Tree Int Int, exec (TreeNew icmp) opsSep = Res.ok t ∧ t.ds.length = 2 ∧
      t.xs = [⟨1, [⟨Ref.ofD 0, 650⟩, ⟨Ref.ofD 1, 0⟩] ++ List.replicate 256 zxe⟩] ∧
      t.r = Ref.ofX 0 ∧ t.xC (some 0) = Res.ok 1 ∧
      t.xAt (some 0) 0 = Res.ok ⟨Ref.ofD 0, 650⟩ ∧ t.xAt (some 0) 1 = Res.ok ⟨Ref.ofD 1, 0⟩ ∧
      t.dC (some 1) = Res.ok 64 ∧ t.dAt (some 1) 0 = Res.ok ⟨660, 0⟩ ∧
      t.Get 650 = Res.ok (0, false) ∧ ∀ e ∈ entries t [1], 650 < e.k :=
  sepChecksOf_facts (exec (TreeNew icmp) opsSep) sepChecks_true

/-- A separator that is not stored: on the reachable tree built by `opsSep` (129 ascending
keys, then `Delete(650)`) the root is the index page 0 with the single separator 650; the
child immediately to its right is the data page 1, whose 64 keys are all greater than 650
(the first is 660), and `Get(650)` finds nothing: the separator is not the minimum key of the
subtree to its right. -/
theorem separator_stays_after_Delete :
    ∃ t : Tree Int Int, Reachable icmp t ∧ t.r = Ref.ofX 0 ∧ t.xC (some 0) = Res.ok 1 ∧
      t.xAt (some 0) 0 = Res.ok ⟨Ref.ofD 0, 650⟩ ∧ t.xAt (some 0) 1 = Res.ok ⟨Ref.ofD 1, 0⟩ ∧
      t.dC (some 1) = Res.ok 64 ∧ t.dAt (some 1) 0 = Res.ok ⟨660, 0⟩ ∧
      t.Get 650 = Res.ok (0, false) ∧ ∀ e ∈ entries t [1], 650 < e.k := by
  obtain ⟨t, ht, -, -, h1, h2, h3, h4, h5, h6, h7, h8⟩ := sep_facts
  exact ⟨t, exec_reachable _ _ _ Reachable.new ht, h1, h2, h3, h4, h5, h6, h7, h8⟩

set_option maxRecDepth 10000 in
/-- The subtree at the root of `twoLeaves` is well formed, and has one index page. -/
theorem twoLeaves_sub : twoLeaves.r = Ref.nil ∨
    (Sub twoLeaves 0 1 twoLeaves.r [] [] ∧ (xpages twoLeaves (1 + 1) twoLeaves.r).Nodup) := by
  rcases twoLeaves_wf with h | ⟨hs, hx, _⟩
  · exact Or.inl h.1
  · exact Or.inr ⟨Sub.weaken (by decide) _ _ _ _ hs, hx⟩

/-- C31 (witness): the statement at the tree `twoLeaves` and the key 30, which equals the
separator of the root. -/
theorem C31_witness :
    StrictTotal twoLeaves.cmp ∧
    (twoLeaves.r = Ref.nil ∨
      (Sub twoLeaves 0 1 twoLeaves.r [] [] ∧ (xpages twoLeaves (1 + 1) twoLeaves.r).Nodup)) ∧
    ∃ (v : Int) (b : Bool), twoLeaves.Get 30 = Res.ok (v, b) ∧
      (∀ e ∈ twoLeaves.entries 1, twoLeaves.cmp 30 e.k = 0 → b = true ∧ v = e.v) ∧
      ((∀ e ∈ twoLeaves.entries 1, twoLeaves.cmp 30 e.k ≠ 0) → b = false ∧ v = default) :=
  ⟨icmp_strictTotal, twoLeaves_sub,
    C31_Get_returns_stored_value twoLeaves 1 icmp_strictTotal twoLeaves_sub 30⟩

set_option maxRecDepth 10000 in
/-- C39 (witness): `Set(40, 400)` on `leaf3` gives `leaf4`; the version does not go down, and
it goes up with the change of the data page. -/
theorem C39_witness :
    leaf3.Set 40 400 = Res.ok leaf4 ∧ leaf3.ver ≤ leaf4.ver ∧
    (leaf4.ver = leaf3.ver → leafShape leaf4 = leafShape leaf3) :=
  ⟨rfl, (C39_version_guards_leaf_shape leaf3 leaf4).1 40 400 rfl⟩

set_option maxRecDepth 10000 in
/-- C40 (witness): on `twoLeaves`, `mvL` of one entry from the right data page (keys 30, 40)
into the left one (keys 10, 20) gives the keys 10, 20, 30 and 40. -/
theorem C40_witness :
    ∃ ln2 rn2 : d Int Int,
      d.mvL twoLeaves (some 0) (some 1) 1 = Res.ok ((twoLeaves.putD 0 ln2).putD 1 rn2) ∧
      ln2.c = 2 + 1 ∧ rn2.c = 2 - 1 ∧
      d.ents ln2 = [⟨10, 100⟩, ⟨20, 200⟩, ⟨30, 300⟩] ∧ d.ents rn2 = [⟨40, 400⟩] := by
  obtain ⟨ln2, rn2, h1, h2, h3, h4, h5, _⟩ :=
    (C40_mvL_mvR_move_entries twoLeaves 0 1 _ _ 1 rfl rfl (by decide) rfl rfl
      (by decide) (by decide) (by decide)).1 (by decide) (by decide)
  exact ⟨ln2, rn2, h1, h2, h3, h4, h5⟩

set_option maxRecDepth 100000 in
/-- C33 (counterexample): in `wide` the root is an index page with 2·kx + 1 separators whose
child 3 is a full data page with ascending keys; the key 3009 is not in that page and its
insertion index there is 5; `split` for these arguments panics (in `p.insert`, at the write
to `p.x[2·kx + 2]`). -/
theorem C33_split_panics_below_index_page_without_room :
    wide.xAt (some 0) 3 = Res.ok ⟨Ref.ofD 3, 4000⟩ ∧
    wide.dC (some 3) = Res.ok (2 * kd) ∧
    (wide.getD (some 3)).bind (fun n => Res.ok (ascending icmp (d.keys n))) = Res.ok true ∧
    wide.find (Ref.ofD 3) 3009 = Res.ok (5, false) ∧
    wide.xC (some 0) = Res.ok (2 * kx + 1) ∧
    wide.split (some 0) (some 3) 3 5 3009 0 = Res.panic :=
  ⟨rfl, rfl, rfl, rfl, rfl, rfl⟩

set_option maxRecDepth 100000 in
/-- C33 (witness): `split` of the full root data page `fullLeaf` at index 5 for the new key
55. -/
theorem C33_witness :
    ∃ (t2 : Tree Int Int) (q2 r2 : d Int Int),
      fullLeaf.split none (some 0) (-1) 5 55 0 = Res.ok t2 ∧
      t2.ds.get? 0 = some q2 ∧ t2.ds.get? 1 = some r2 ∧
      q2.c = kd + 1 ∧ r2.c = kd ∧ q2.n = some 1 ∧ r2.p = some 0 ∧ t2.last = some 1 ∧
      t2.Len = 129 := by
  obtain ⟨t2, q2, r2, e, h1, h2, h3, _, _, h6, _, _, _, h10, h11, _, _, h14, _, h16⟩ :=
    C33_split_divides_full_data_page fullLeaf 0 _ none (-1) 5 55 0 rfl rfl rfl
      (by decide) (fun b h => by cases h) (fun h => absurd h (by decide))
  obtain ⟨g1, g2, _⟩ := h6 (by decide)
  exact ⟨t2, q2, r2, h1, h2, h3, g1, g2, h10, h11, h14 rfl, h16⟩

set_option maxRecDepth 100000 in
/-- C35 (counterexample): in `wideX` the root (address 0) holds 2·kx + 1 separators, and so
does its child 3, the index page at address 4; `splitX` of that page panics (in `p.insert`,
at the write to `p.x[2·kx + 2]`). -/
theorem C35_splitX_panics_below_index_page_without_room :
    wideX.xAt (some 0) 3 = Res.ok ⟨Ref.ofX 4, 1032000⟩ ∧
    wideX.xC (some 4) = Res.ok (2 * kx + 1) ∧
    wideX.xC (some 0) = Res.ok (2 * kx + 1) ∧
    wideX.splitX (some 0) (some 4) 3 5 = Res.panic :=
  ⟨rfl, rfl, rfl, rfl⟩

set_option maxRecDepth 100000 in
/-- C35 (witness): `splitX` of the root of `wide`, an index page with 2·kx + 1 separators,
with the descent index 200. -/
theorem C35_witness :
    ∃ (t2 : Tree Int Int) (q2 r2 : x Int),
      wide.splitX none (some 0) (-1) 200 = Res.ok (t2, some 1, 71) ∧
      t2.xs.get? 0 = some q2 ∧ t2.xs.get? 1 = some r2 ∧ q2.c = kx ∧ r2.c = kx ∧
      t2.r = Ref.ofX 2 ∧ (x.kids r2).get? 71 = some (Ref.ofD 200) := by
  obtain ⟨t2, q2, r2, sep, pp, i2, h1, h2, h3, h4, h5, _, _, _, _, _, _, _, _, h14, _, h16, _⟩ :=
    C35_splitX_divides_index_page wide 0 _ none (-1) 200 rfl rfl rfl
      (fun h => absurd h (by decide))
  obtain ⟨z, _, g2, _⟩ := h14 (by decide)
  obtain ⟨g3, g4, g5⟩ := h16 (by decide)
  subst g3
  subst g4
  exact ⟨t2, q2, r2, h1, h2, h3, h4, h5, g2, (g5 (by decide)).trans rfl⟩

set_option maxRecDepth 100000 in
set_option maxHeartbeats 4000000 in
/-- The tree `staleTwo` is well formed, its data pages holding at least kd entries each. -/
theorem staleTwo_wf : WF staleTwo kd 1 := by
  right
  refine ⟨?_, by decide, ?_⟩
  · refine ⟨_, rfl, by decide, by decide, by unfold Asc; decide, ?_⟩
    intro i e hi hle
    have hi2 : i = 0 ∨ i = 1 := by
      have : i ≤ 1 := hle
      omega
    rcases hi2 with rfl | rfl
    · cases hi
      refine ⟨_, rfl, by decide, by decide, by decide, by unfold Asc; decide!, ?_⟩
      unfold geLo ltHi
      decide!
    · cases hi
      refine ⟨_, rfl, by decide, by decide, by decide, by unfold Asc; decide!, ?_⟩
      unfold geLo ltHi
      decide!
  · refine ⟨by decide, rfl, rfl, ?_⟩
    intro i a hi
    have hi2 : i = 0 ∨ i = 1 := by
      by_contra hne
      obtain ⟨i2, rfl⟩ : ∃ i2, i = i2 + 2 := ⟨i - 2, by omega⟩
      cases hi
    rcases hi2 with rfl | rfl
    · cases hi
      exact ⟨_, rfl, rfl, rfl⟩
    · cases hi
      exact ⟨_, rfl, rfl, rfl⟩

set_option maxRecDepth 100000 in
/-- C32 (failing input): `staleTwo` is well formed; its right data page is full and is
child 1 of the root, the key 655 is not stored and `Set` descends for it to the right page,
where its insertion index is 0; the left sibling has room, and `overflow` panics, as does
`Set(655, 7)`. -/
theorem C32_overflow_panics_at_index_zero :
    WF staleTwo kd 1 ∧
    staleTwo.xAt (some 0) 1 = Res.ok ⟨Ref.ofD 1, 0⟩ ∧
    staleTwo.dC (some 1) = Res.ok (2 * kd) ∧
    staleTwo.dC (some 0) = Res.ok kd ∧
    staleTwo.Get 655 = Res.ok (0, false) ∧
    staleTwo.find (Ref.ofX 0) 655 = Res.ok (1, false) ∧
    staleTwo.find (Ref.ofD 1) 655 = Res.ok (0, false) ∧
    staleTwo.overflow (some 0) (some 1) 1 0 655 7 = Res.panic ∧
    staleTwo.Set 655 7 = Res.panic :=
  ⟨staleTwo_wf, rfl, rfl, rfl, rfl, rfl, rfl, rfl, rfl⟩

set_option maxRecDepth 100000 in
theorem thinLeft_sepsOk : sepsOk thinLeft [640] [0, 1] := by
  intro j i s c hj hi
  have hj0 : j = 0 := by
    have := get?_lt hj
    simp only [List.length_cons, List.length_nil] at this
    omega
  subst hj0
  cases hj
  have hi2 : i = 0 ∨ i = 1 := by
    have := get?_lt hi
    simp only [List.length_cons, List.length_nil] at this
    omega
  rcases hi2 with rfl | rfl
  · cases hi
    refine ⟨fun _ => ?_, fun h => absurd h (by decide)⟩
    decide
  · cases hi
    refine ⟨fun h => absurd h (by decide), fun _ => ?_⟩
    decide

theorem thinLeft_chain : Chain thinLeft ([] ++ [0, 1] ++ []) := by
  refine ⟨by decide, rfl, rfl, ?_⟩
  intro i a hi
  have hi2 : i = 0 ∨ i = 1 := by
    have := get?_lt hi
    simp only [List.nil_append, List.append_nil, List.length_cons, List.length_nil] at this
    omega
  rcases hi2 with rfl | rfl
  · cases hi
    exact ⟨_, rfl, rfl, rfl⟩
  · cases hi
    exact ⟨_, rfl, rfl, rfl⟩

set_option maxRecDepth 100000 in
theorem thinLeft_leaves : ∀ b ∈ [0, 1], ∀ n, thinLeft.ds.get? b = some n →
    n.d.length = dLen.toNat ∧ Asc thinLeft.cmp (d.keys n) ∧
      (b ≠ 0 → kd ≤ n.c ∧ n.c ≤ 2 * kd) := by
  intro b hb n hn
  have hb2 : b = 0 ∨ b = 1 := by
    simpa using hb
  rcases hb2 with rfl | rfl
  · cases hn
    refine ⟨rfl, ?_, fun h => absurd rfl h⟩
    unfold Asc
    decide
  · cases hn
    refine ⟨rfl, ?_, fun _ => by decide⟩
    unfold Asc
    decide

set_option maxRecDepth 100000 in
/-- C34 (witness): in `thinLeft` the left data page holds kd - 1 entries and its right sibling
kd + 1; `underflow` returns, both pages stay children of the root, and the entries, the chain
and the occupancy are as stated. -/
theorem C34_witness :
    ∃ (t2 : Tree Int Int),
      thinLeft.underflow (some 0) (some 0) 0 = Res.ok t2 ∧
      entries t2 [0, 1] = entries thinLeft [0, 1] ∧ Chain t2 [0, 1] ∧
      (∀ b ∈ [0, 1], ∃ n2, t2.ds.get? b = some n2 ∧ kd ≤ n2.c ∧ n2.c ≤ 2 * kd) ∧
      ∃ pn2, t2.xs.get? 0 = some pn2 ∧ t2.r = thinLeft.r ∧
        x.kids pn2 = [Ref.ofD 0, Ref.ofD 1] ∧ sepsOk t2 (x.seps pn2) [0, 1] := by
  obtain ⟨t2, as2, h1, h2, h3, h4, h5, h6⟩ :=
    C34_underflow_borrows_or_merges thinLeft 0 0 _ _ 0 [0, 1] [] [] icmp_strictTotal rfl rfl
      (by decide) rfl thinLeft_sepsOk thinLeft_chain (by decide) rfl rfl rfl thinLeft_leaves
  have has : as2 = [0, 1] := by
    rcases h6 with ⟨_, _, _, _, _, _, hL, _⟩ | ⟨_, _, _, _, _, _, _, _, _, _, _, e, _⟩ |
      ⟨_, _, _, hL, _⟩ | ⟨ra, rn, _, _, hra, hrn, hrc, _⟩
    · exact absurd hL (by decide)
    · exact e
    · exact absurd hL (by decide)
    · cases hra
      cases hrn
      exact absurd hrc (by decide)
  subst has
  exact ⟨t2, h1, h2, h3, h4, h5 (Or.inl rfl)⟩

set_option maxRecDepth 100000 in
/-- C21 (witness): the tree reached by `opsSep` (129 ascending keys, then `Delete(650)`) has
an index page as its root, over two data pages; `Clear()` on it returns, by way of the
recursion of `clr`, and the tree it leaves has the properties of the claim. -/
theorem C21_witness :
    ∃ t : Tree Int Int, exec (TreeNew icmp) opsSep = Res.ok t ∧ Reachable icmp t ∧
      t.r = Ref.ofX 0 ∧ Shaped t 1 t.r ∧ (xpages t (1 + 1) t.r).Nodup ∧
      ∃ t', t.Clear = Res.ok t' ∧
        t'.Len = 0 ∧ t'.r = Ref.nil ∧ t'.first = none ∧ t'.last = none ∧
        (∀ k, t'.Get k = Res.ok (default, false)) ∧
        (∀ k, t'.Delete k = Res.ok (t', false)) ∧
        t'.SeekFirst = Res.ok (none, some Err.EOF) ∧
        t'.SeekLast = Res.ok (none, some Err.EOF) ∧
        (∀ k v, t'.cmp k k = 0 →
          ∃ t2, t'.Set k v = Res.ok t2 ∧ t2.Len = 1 ∧ t2.Get k = Res.ok (v, true)) := by
  obtain ⟨t, ht, hd, hx, hr, -⟩ := sep_facts
  have hreach : Reachable icmp t := exec_reachable _ _ _ Reachable.new ht
  have hpage : t.xs.get? 0 =
      some ⟨1, [⟨Ref.ofD 0, 650⟩, ⟨Ref.ofD 1, 0⟩] ++ List.replicate 256 zxe⟩ := by
    rw [hx]
    rfl
  have hs : Shaped t 1 t.r := by
    rw [hr]
    refine ⟨_, hpage, by decide, by decide, by decide, ?_⟩
    intro i e he hi
    have hi2 : i ≤ 1 := hi
    have hi3 : i = 0 ∨ i = 1 := by omega
    rcases hi3 with rfl | rfl
    · cases he
      show 0 < t.ds.length
      omega
    · cases he
      show 1 < t.ds.length
      omega
  have hn : (xpages t (1 + 1) t.r).Nodup := by
    rw [hr, xpages_X _ hpage]
    exact List.nodup_singleton 0
  exact ⟨t, ht, hreach, hr, hs, hn, C21_Clear_leaves_empty_tree t 1 hreach hs hn⟩

end b
